import Mathlib

/-!
pgModeler schema parser (`libparsers/src/schemaparser.cpp`)

A shallow embedding of `SchemaParser` and a verification of its specification.

Conventions of the embedding.

* A `QString` is a list of characters.  Reading `s[i]` past the end of a
  non-const `QString` yields the null character, which is `charAt`.
* `toLatin1()` is only ever used to compare a character with one of the ASCII
  delimiters, for which it is transparent, so it is left out.
* The member variables of the C++ object are the fields of `SchemaParser`; every
  member function takes the object and returns a `Res`, which carries the object
  after the call, or the exception thrown together with the object as it was when
  the exception was thrown.
* The loops of `defineAttribute`, `unsetAttribute`, `evaluateComparisonExpr`,
  `evaluateExpression` and `getCodeDefinition` run on fuel; `Res.timeout` is the
  answer of a loop whose fuel ran out.  The scanning loops of the lexer run on the
  characters of one line; a scan that leaves the line without meeting a delimiter
  never stops in the C++ code (it reads null characters for ever) and is
  `Res.diverges`.
* `buffer[line]` with `line` past the last line is undefined behaviour,
  `Res.undefined`.
-/

namespace SchemaParser

abbrev QString := List Char

/-- Character `i` of a string, the null character past its end. -/
def charAt (s : QString) (i : Nat) : Char := s.getD i (Char.ofNat 0)

/-! ## Constants -/

def CHR_COMMENT : Char := '#'
def CHR_LINE_END : Char := '\n'
def CHR_TABULATION : Char := '\t'
def CHR_SPACE : Char := ' '
def CHR_INI_ATTRIB : Char := '{'
def CHR_END_ATTRIB : Char := '}'
def CHR_INI_CONDITIONAL : Char := '%'
def CHR_INI_METACHAR : Char := '$'
def CHR_INI_PURETEXT : Char := '['
def CHR_END_PURETEXT : Char := ']'
def CHR_INI_CEXPR : Char := '('
def CHR_END_CEXPR : Char := ')'
def CHR_VAL_DELIM : Char := '"'
def CHR_VALUE_OF : Char := '@'

def TOKEN_IF : QString := "if".toList
def TOKEN_THEN : QString := "then".toList
def TOKEN_ELSE : QString := "else".toList
def TOKEN_END : QString := "end".toList
def TOKEN_OR : QString := "or".toList
def TOKEN_AND : QString := "and".toList
def TOKEN_NOT : QString := "not".toList
def TOKEN_SET : QString := "set".toList
def TOKEN_UNSET : QString := "unset".toList

def TOKEN_META_SP : QString := "sp".toList
def TOKEN_META_BR : QString := "br".toList
def TOKEN_META_TB : QString := "tb".toList
def TOKEN_META_OB : QString := "ob".toList
def TOKEN_META_CB : QString := "cb".toList
def TOKEN_META_OC : QString := "oc".toList
def TOKEN_META_CC : QString := "cc".toList

def TOKEN_EQ_OP : QString := "==".toList
def TOKEN_NE_OP : QString := "!=".toList
def TOKEN_GT_OP : QString := ">".toList
def TOKEN_LT_OP : QString := "<".toList
def TOKEN_GT_EQ_OP : QString := ">=".toList
def TOKEN_LT_EQ_OP : QString := "<=".toList

/-! ## Regular expressions (`QRegExp::exactMatch`) -/

/-- Character classes used by the patterns of the parser.  `[a-z]` is read case
insensitively, as the pattern is compiled with `Qt::CaseInsensitive`. -/
inductive CharClass where
  | letter
  | digit
  | lit (c : Char)
deriving DecidableEq, Repr

/-- The code points of the digits zero of the decimal digits (category `Nd`) of
the Basic Multilingual Plane, those of ASCII first, as Unicode 7.0 and the later
versions list them; each one starts a run of ten digits.  `QChar` is a 16 bit
character, so that no character beyond this plane is a digit for Qt. -/
def DECIMAL_ZEROS : List Nat :=
  [0x0030, 0x0660, 0x06F0, 0x07C0, 0x0966, 0x09E6, 0x0A66, 0x0AE6, 0x0B66, 0x0BE6, 0x0C66,
   0x0CE6, 0x0D66, 0x0DE6, 0x0E50, 0x0ED0, 0x0F20, 0x1040, 0x1090, 0x17E0, 0x1810, 0x1946,
   0x19D0, 0x1A80, 0x1A90, 0x1B50, 0x1BB0, 0x1C40, 0x1C50, 0xA620, 0xA8D0, 0xA900, 0xA9D0,
   0xA9F0, 0xAA50, 0xABF0, 0xFF10]

/-- `QChar::isDigit()`: the character is a decimal digit (category `Nd`), of ASCII
or of another script. -/
def qisDigit (c : Char) : Bool :=
  DECIMAL_ZEROS.any fun z => decide (z ≤ c.toNat ∧ c.toNat ≤ z + 9)

/-- Membership of a character in a class of a pattern that is compiled with
`Qt::CaseInsensitive`.  `[a-z]` holds the characters whose lower case
(`QChar::toLower()`) is one of `a` to `z`: the ASCII letters of both cases and the
Kelvin sign U+212A.  `\d` holds the characters that `QChar::isDigit()` holds,
those of the other scripts too. -/
def CharClass.test : CharClass → Char → Bool
  | .letter, c =>
    decide (('a' ≤ c ∧ c ≤ 'z') ∨ ('A' ≤ c ∧ c ≤ 'Z') ∨ c = Char.ofNat 0x212A)
  | .digit, c => qisDigit c
  | .lit d, c => decide (c = d)

/-- Regular expressions, as far as the parser writes them. -/
inductive RegExp where
  | none
  | eps
  | cls (k : CharClass)
  | seq (r s : RegExp)
  | alt (r s : RegExp)
  | star (r : RegExp)
deriving DecidableEq, Repr

/-- One or more repetitions, `r+`. -/
def RegExp.plus (r : RegExp) : RegExp := .seq r (.star r)

/-- Whether the expression matches the empty string. -/
def RegExp.nullable : RegExp → Bool
  | .none => false
  | .eps => true
  | .cls _ => false
  | .seq r s => r.nullable && s.nullable
  | .alt r s => r.nullable || s.nullable
  | .star _ => true

/-- What is left of the expression once the character `c` was read. -/
def RegExp.deriv : RegExp → Char → RegExp
  | .none, _ => .none
  | .eps, _ => .none
  | .cls k, c => if k.test c then .eps else .none
  | .seq r s, c =>
    if r.nullable then .alt (.seq (r.deriv c) s) (s.deriv c) else .seq (r.deriv c) s
  | .alt r s, c => .alt (r.deriv c) (s.deriv c)
  | .star r, c => .seq (r.deriv c) (.star r)

/-- `QRegExp::exactMatch`: the whole string is a word of the expression. -/
def RegExp.exactMatch : RegExp → QString → Bool
  | r, [] => r.nullable
  | r, c :: cs => (r.deriv c).exactMatch cs

/-- The pattern `^([a-z])([a-z]*|(\d)*|(\-)*|(_)*)+`, case insensitive. -/
def ATTR_REGEXP : RegExp :=
  .seq (.cls .letter)
    (RegExp.plus
      (.alt (.star (.cls .letter))
        (.alt (.star (.cls .digit))
          (.alt (.star (.cls (.lit '-'))) (.star (.cls (.lit '_')))))))

/-! ## The attribute map (`attribs_map`, a `std::map<QString, QString>`) -/

abbrev attribs_map := List (QString × QString)

/-- The value stored under a key, `none` when the key is absent. -/
def attribs_map.find (m : attribs_map) (k : QString) : Option QString :=
  match m with
  | [] => none
  | (k', v) :: rest => if k' = k then some v else attribs_map.find rest k

/-- `m.count(k)`: 1 when the key is present, 0 otherwise. -/
def attribs_map.count (m : attribs_map) (k : QString) : Nat :=
  if (attribs_map.find m k).isSome then 1 else 0

/-- The value read by `m[k]`: the one stored, or the empty string that
`operator[]` inserts for an absent key. -/
def attribs_map.value (m : attribs_map) (k : QString) : QString :=
  (attribs_map.find m k).getD []

/-- `m[k] = v`. -/
def attribs_map.assign (m : attribs_map) (k v : QString) : attribs_map :=
  match m with
  | [] => [(k, v)]
  | (k', v') :: rest =>
    if k' = k then (k, v) :: rest else (k', v') :: attribs_map.assign rest k v

/-- The map after `m[k]` was read: an absent key is inserted with the empty
string. -/
def attribs_map.touch (m : attribs_map) (k : QString) : attribs_map :=
  if (attribs_map.find m k).isSome then m else attribs_map.assign m k []

/-! ## Parser object, exceptions and results -/

inductive ErrorType where
  | ERR_INV_SYNTAX
  | ERR_INV_ATTRIBUTE
  | ERR_UNK_ATTRIBUTE
  | ERR_UNDEF_ATTRIB_VALUE
  | ERR_INV_METACHARACTER
  | ERR_INV_OPERATOR_IN_EXPR
  | ERR_INV_INSTRUCTION
  | ERR_INV_POSTGRESQL_VERSION
  | ERR_FILE_DIR_NOT_ACCESSED
deriving DecidableEq, Repr

/-- An exception: its kind and the line and column its message reports. -/
structure Exception where
  type : ErrorType
  line : Nat
  column : Nat
deriving DecidableEq, Repr

end SchemaParser

/-- The member variables of the C++ class. -/
structure SchemaParser where
  buffer : List SchemaParser.QString
  line : Nat
  column : Nat
  comment_count : Nat
  attributes : SchemaParser.attribs_map
  ignore_unk_atribs : Bool
  ignore_empty_atribs : Bool
  filename : SchemaParser.QString
  pgsql_version : SchemaParser.QString
deriving DecidableEq, Repr

namespace SchemaParser

/-- Outcome of a member function. -/
inductive Res (α : Type) where
  | ok (a : α) (p : SchemaParser)
  | raise (e : Exception) (p : SchemaParser)
  | undefined
  | diverges
  | timeout
deriving DecidableEq, Repr

/-- Sequencing: everything but a normal return passes through. -/
def Res.bind {α β : Type} (r : Res α) (f : α → SchemaParser → Res β) : Res β :=
  match r with
  | .ok a p => f a p
  | .raise e p => .raise e p
  | .undefined => .undefined
  | .diverges => .diverges
  | .timeout => .timeout

/-- `throw Exception(...)` with the position `line + comment_count + 1`,
`column + 1` that every message of the parser reports. -/
def throwAt {α : Type} (t : ErrorType) (p : SchemaParser) : Res α :=
  .raise ⟨t, p.line + p.comment_count + 1, p.column + 1⟩ p

end SchemaParser

namespace SchemaParser

/-! ## Lexer primitives -/

def isSpecialCharacter (chr : Char) : Bool :=
  decide (chr = CHR_INI_ATTRIB ∨ chr = CHR_END_ATTRIB ∨
    chr = CHR_INI_CONDITIONAL ∨ chr = CHR_INI_METACHAR ∨
    chr = CHR_INI_PURETEXT ∨ chr = CHR_END_PURETEXT)

/-- Number of leading spaces and tabulations. -/
def countBlanks : QString → Nat
  | [] => 0
  | c :: cs => if c = CHR_SPACE ∨ c = CHR_TABULATION then countBlanks cs + 1 else 0

/-- `ignoreBlankChars(line)`: moves the column over the blanks of `line`, which
need not be the current line of the buffer. -/
def ignoreBlankChars (ln : QString) (p : SchemaParser) : SchemaParser :=
  { p with column := p.column + countBlanks (ln.drop p.column) }

/-- State of the scanning loop of `getAttribute` when it stops: the text read,
the columns it moved over, and the flags `end_attrib` and `error`. -/
structure AttribScan where
  atrib : QString
  moved : Nat
  end_attrib : Bool
  error : Bool
deriving DecidableEq, Repr

/-- The `while` loop of `getAttribute`, on the characters from the column on;
`none` when the characters run out before the loop stops. -/
def getAttributeLoop : QString → QString → Nat → Option AttribScan
  | [], _, _ => none
  | c :: cs, atrib, moved =>
    if c = CHR_LINE_END ∨ c = CHR_SPACE ∨ c = CHR_TABULATION then
      some ⟨atrib, moved, false, false⟩
    else if c ≠ CHR_END_ATTRIB then getAttributeLoop cs (atrib ++ [c]) (moved + 1)
    else if atrib ≠ [] then some ⟨atrib, moved + 1, true, false⟩
    else some ⟨atrib, moved + 1, false, true⟩

def getAttribute (p : SchemaParser) : Res QString :=
  match p.buffer[p.line]? with
  | none => .undefined
  | some current_line =>
    if charAt current_line p.column ≠ CHR_INI_ATTRIB then
      throwAt .ERR_INV_SYNTAX p
    else
      match getAttributeLoop (current_line.drop (p.column + 1)) [] 0 with
      | none => .diverges
      | some s =>
        let p1 := { p with column := p.column + 1 + s.moved }
        if s.error ∨ ¬ s.end_attrib then throwAt .ERR_INV_SYNTAX p1
        else if ¬ ATTR_REGEXP.exactMatch s.atrib then throwAt .ERR_INV_ATTRIBUTE p1
        else .ok s.atrib p1

/-- The `while` loop of `getWord`; `none` when the characters run out. -/
def getWordLoop : QString → Option QString
  | [] => none
  | c :: cs =>
    if c = CHR_LINE_END ∨ isSpecialCharacter c ∨ c = CHR_SPACE ∨ c = CHR_TABULATION then
      some []
    else (getWordLoop cs).map (fun w => c :: w)

def getWord (p : SchemaParser) : Res QString :=
  match p.buffer[p.line]? with
  | none => .undefined
  | some current_line =>
    if isSpecialCharacter (charAt current_line p.column) then .ok [] p
    else
      match getWordLoop (current_line.drop p.column) with
      | none => .diverges
      | some word => .ok word { p with column := p.column + word.length }

/-- How the pure text loop leaves a line: at a `]`, at a `[`, over the line end,
or past the characters of the line. -/
inductive PureStop where
  | close
  | reopen
  | lineEnd
  | overrun
deriving DecidableEq, Repr

/-- The pure text loop on the characters of one line: the text appended, the
columns moved over and the way the line is left. -/
def pureTextLine : QString → QString × Nat × PureStop
  | [] => ([], 0, .overrun)
  | c :: cs =>
    if c = CHR_END_PURETEXT then ([], 0, .close)
    else if c = CHR_INI_PURETEXT then ([], 0, .reopen)
    else if c = CHR_LINE_END then ([c], 0, .lineEnd)
    else
      let r := pureTextLine cs
      (c :: r.1, r.2.1 + 1, r.2.2)

/-- The `while` loop of `getPureText` from column `column` of `current_line`,
which is line `line` of the buffer and is followed by the lines given first.
The answer is the text, the line and the column where the loop stops, and
whether the character found there is the `]`.  When the loop runs over the end
of the last line, that character is the first one of this last line. -/
def getPureTextLoop : List QString → QString → Nat → Nat → Option (QString × Nat × Nat × Bool)
  | [], current_line, column, line =>
    match pureTextLine (current_line.drop column) with
    | (t, n, .close) => some (t, line, column + n, true)
    | (t, n, .reopen) => some (t, line, column + n, false)
    | (_, _, .overrun) => none
    | (t, _, .lineEnd) =>
      some (t, line + 1, 0, decide (charAt current_line 0 = CHR_END_PURETEXT))
  | next :: more, current_line, column, line =>
    match pureTextLine (current_line.drop column) with
    | (t, n, .close) => some (t, line, column + n, true)
    | (t, n, .reopen) => some (t, line, column + n, false)
    | (_, _, .overrun) => none
    | (t, _, .lineEnd) =>
      (getPureTextLoop more next 0 (line + 1)).map
        (fun r => (t ++ r.1, r.2.1, r.2.2.1, r.2.2.2))

def getPureText (p : SchemaParser) : Res QString :=
  match p.buffer[p.line]? with
  | none => .undefined
  | some current_line =>
    if charAt current_line p.column = CHR_INI_PURETEXT then
      match getPureTextLoop (p.buffer.drop (p.line + 1)) current_line (p.column + 1) p.line with
      | none => .diverges
      | some (text, line, column, closed) =>
        if closed then .ok text { p with line := line, column := column + 1 }
        else throwAt .ERR_INV_SYNTAX { p with line := line, column := column }
    else throwAt .ERR_INV_SYNTAX p

/-- The `while` loop shared by `getConditional` and `getMetaCharacter`: the
characters up to a space, a tabulation or the line end. -/
def getTokenLoop : QString → Option QString
  | [] => none
  | c :: cs =>
    if c = CHR_LINE_END ∨ c = CHR_SPACE ∨ c = CHR_TABULATION then some []
    else (getTokenLoop cs).map (fun w => c :: w)

def getConditional (p : SchemaParser) : Res QString :=
  match p.buffer[p.line]? with
  | none => .undefined
  | some current_line =>
    if charAt current_line p.column = CHR_INI_CONDITIONAL then
      match getTokenLoop (current_line.drop (p.column + 1)) with
      | none => .diverges
      | some conditional =>
        let p1 := { p with column := p.column + 1 + conditional.length }
        if conditional = [] then throwAt .ERR_INV_SYNTAX p1 else .ok conditional p1
    else throwAt .ERR_INV_SYNTAX p

def getMetaCharacter (p : SchemaParser) : Res QString :=
  match p.buffer[p.line]? with
  | none => .undefined
  | some current_line =>
    if charAt current_line p.column = CHR_INI_METACHAR then
      match getTokenLoop (current_line.drop (p.column + 1)) with
      | none => .diverges
      | some meta =>
        let p1 := { p with column := p.column + 1 + meta.length }
        if meta = [] then throwAt .ERR_INV_SYNTAX p1 else .ok meta p1
    else throwAt .ERR_INV_SYNTAX p

/-- The table `metas` of `translateMetaCharacter`. -/
def metas : List (QString × Char) :=
  [(TOKEN_META_SP, CHR_SPACE), (TOKEN_META_TB, CHR_TABULATION),
   (TOKEN_META_BR, CHR_LINE_END), (TOKEN_META_OB, CHR_INI_PURETEXT),
   (TOKEN_META_CB, CHR_END_PURETEXT), (TOKEN_META_OC, CHR_INI_ATTRIB),
   (TOKEN_META_CC, CHR_END_ATTRIB)]

def translateMetaCharacter (meta : QString) (p : SchemaParser) : Res Char :=
  match metas.lookup meta with
  | none => throwAt .ERR_INV_METACHARACTER p
  | some chr => .ok chr p

end SchemaParser

namespace SchemaParser

/-! ## `QString` and `QVariant` operations -/

/-- `s.remove(ch)`: the string without the occurrences of `ch`. -/
def qremove (s : QString) (ch : Char) : QString := s.filter (fun c => c ≠ ch)

/-- `s.endsWith(ch)`. -/
def qendsWith (s : QString) (ch : Char) : Bool := s.getLast? == some ch

/-- `s.startsWith(ch)`. -/
def qstartsWith (s : QString) (ch : Char) : Bool := s.head? == some ch

/-- Value of a run of decimal digits, `none` when the run is empty or holds
another character. -/
def digitsValue : QString → Option Nat
  | [] => none
  | cs => if cs.all (fun c => decide ('0' ≤ c ∧ c ≤ '9')) then
      some (cs.foldl (fun n c => 10 * n + (c.toNat - '0'.toNat)) 0) else none

/-- `s.toInt()`: the value of an optionally signed decimal numeral that fits a
32 bit integer, 0 for every other string.  Qt skips the white space around the
numeral; this model does not, and gives 0 for a numeral with white space around
it. -/
def qtoInt (s : QString) : Int :=
  let v : Option Int :=
    match s with
    | '-' :: ds => (digitsValue ds).map (fun n => - (n : Int))
    | '+' :: ds => (digitsValue ds).map (fun n => (n : Int))
    | ds => (digitsValue ds).map (fun n => (n : Int))
  match v with
  | some i => if - (2 : Int) ^ 31 ≤ i ∧ i < (2 : Int) ^ 31 then i else 0
  | none => 0

/-- `s.toFloat()` on plain decimal numerals `[+-]digits[.digits]`, as a rational
number; 0 for every other string.  Exponents, the white space that Qt skips
around the numeral and the rounding to a binary floating point number of 32 bits
are not part of this model: it differs from Qt on a numeral such as `1e2`, on one
with white space around it and on one that is no such floating point number. -/
def qtoFloat (s : QString) : Rat :=
  let body := match s with
    | '-' :: ds => ds
    | '+' :: ds => ds
    | ds => ds
  let sign : Rat := if s.head? = some '-' then -1 else 1
  let ip := body.takeWhile (fun c => c ≠ '.')
  let fp := (body.dropWhile (fun c => c ≠ '.')).drop 1
  if body.all (fun c => c ≠ '.') then
    match digitsValue ip with
    | some n => sign * n
    | none => 0
  else
    match digitsValue ip, digitsValue fp with
    | some n, some f => sign * (n + (f : Rat) / (10 : Rat) ^ fp.length)
    | _, _ => 0

/-- The values the parser wraps into a `QVariant`. -/
inductive QVariant where
  | string (s : QString)
  | int (i : Int)
  | float (q : Rat)
deriving DecidableEq, Repr

/-- Lexicographic order of two strings, character by character. -/
def qstringLt : QString → QString → Bool
  | _, [] => false
  | [], _ :: _ => true
  | a :: as, b :: bs => decide (a < b) || (decide (a = b) && qstringLt as bs)

/-- Modelled from the spec: the ordering of two `QVariant`s, which is Qt's and
not part of the sources.  Numbers are ordered by value, and "string comparison
is lexicographic". -/
def QVariant.lt : QVariant → QVariant → Bool
  | .string a, .string b => qstringLt a b
  | .int a, .int b => decide (a < b)
  | .float a, .float b => decide (a < b)
  | _, _ => false

/-! ## `evaluateComparisonExpr` -/

/-- Local variables of `evaluateComparisonExpr`. -/
structure CmpVars where
  attrib : QString
  value : QString
  oper : QString
  error : Bool
  end_eval : Bool
  expr_is_true : Bool
deriving DecidableEq, Repr

def opers : List QString :=
  [TOKEN_EQ_OP, TOKEN_NE_OP, TOKEN_GT_OP, TOKEN_LT_OP, TOKEN_GT_EQ_OP, TOKEN_LT_EQ_OP]

def valid_op_chrs : QString := "=!<>fi".toList

/-- The loop that reads the quoted value, on the characters after the opening
delimiter: it appends a character, moves on and only then looks whether the
next character is the closing delimiter.  The answer is the text appended and
the columns moved over. -/
def valueLoop : QString → QString × Nat
  | [] => ([], 0)
  | c :: cs =>
    if cs.head? = some CHR_VAL_DELIM then ([c, CHR_VAL_DELIM], 2)
    else
      let r := valueLoop cs
      (c :: r.1, r.2 + 1)

/-- The operator once its conversion suffix was looked at: `oper.remove('f')`
when it ends with `f`, `oper.remove('i')` when it ends with `i`. -/
def strippedOper (oper : QString) : QString :=
  if qendsWith oper 'f' then qremove oper 'f'
  else if qendsWith oper 'i' then qremove oper 'i'
  else oper

/-- The operand `s` as the `QVariant` that the suffix of the operator asks for. -/
def operandValue (oper s : QString) : QVariant :=
  if qendsWith oper 'f' then .float (qtoFloat s)
  else if qendsWith oper 'i' then .int (qtoInt s)
  else .string s

/-- The comparison made once the closing `)` is met with all three elements
read and a known operator. -/
def compareOperands (attr_value value oper : QString) : Bool :=
  let left_val := operandValue oper attr_value
  let right_val := operandValue oper value
  let oper := strippedOper oper
  (decide (oper = TOKEN_EQ_OP) && decide (left_val = right_val)) ||
  (decide (oper = TOKEN_NE_OP) && decide (left_val ≠ right_val)) ||
  (decide (oper = TOKEN_GT_OP) && right_val.lt left_val) ||
  (decide (oper = TOKEN_LT_OP) && left_val.lt right_val) ||
  (decide (oper = TOKEN_GT_EQ_OP) && !left_val.lt right_val) ||
  (decide (oper = TOKEN_LT_EQ_OP) && !right_val.lt left_val)

/-- One turn of the `while` loop of `evaluateComparisonExpr`. -/
def evaluateComparisonExprStep (curr_line : QString) (v : CmpVars) (p : SchemaParser) :
    Res CmpVars :=
  let p := ignoreBlankChars curr_line p
  let chr := charAt curr_line p.column
  let v := if chr = CHR_LINE_END ∧ ¬ v.end_eval then { v with error := true } else v
  if chr = CHR_INI_ATTRIB then
    if v.attrib = [] ∧ v.oper = [] ∧ v.value = [] then
      (getAttribute p).bind fun attrib p => .ok { v with attrib := attrib } p
    else .ok { v with error := true } p
  else if chr = CHR_VAL_DELIM then
    if v.value = [] ∧ v.attrib ≠ [] ∧ v.oper ≠ [] then
      let r := valueLoop (curr_line.drop (p.column + 1))
      .ok { v with value := v.value ++ chr :: r.1 } { p with column := p.column + 1 + r.2 }
    else .ok { v with error := true } p
  else if chr = CHR_END_CEXPR then
    let p := { p with column := p.column + 1 }
    if v.attrib = [] ∨ v.oper = [] ∨ v.value = [] then .ok { v with error := true } p
    else if ¬ opers.contains (qremove (qremove v.oper 'f') 'i') then
      throwAt .ERR_INV_OPERATOR_IN_EXPR p
    else if p.attributes.count v.attrib = 0 ∧ ¬ p.ignore_unk_atribs then
      throwAt .ERR_UNK_ATTRIBUTE p
    else
      let value := qremove v.value CHR_VAL_DELIM
      .ok { v with value := value,
                   oper := strippedOper v.oper,
                   expr_is_true := compareOperands (p.attributes.value v.attrib) value v.oper,
                   end_eval := true }
        { p with attributes := p.attributes.touch v.attrib }
  else
    if v.oper.length ≤ 3 ∧ v.attrib ≠ [] ∧ v.value = [] then
      if chr ∈ valid_op_chrs then
        .ok { v with oper := v.oper ++ [chr] } { p with column := p.column + 1 }
      else .ok { v with error := true } p
    else .ok { v with error := true } p

def evaluateComparisonExprLoop (curr_line : QString) :
    Nat → CmpVars → SchemaParser → Res CmpVars
  | 0, _, _ => .timeout
  | fuel + 1, v, p =>
    if ¬ v.end_eval ∧ ¬ v.error then
      (evaluateComparisonExprStep curr_line v p).bind (evaluateComparisonExprLoop curr_line fuel)
    else .ok v p

def evaluateComparisonExpr (fuel : Nat) (p : SchemaParser) : Res Bool :=
  match p.buffer[p.line]? with
  | none => .undefined
  | some curr_line =>
    (evaluateComparisonExprLoop curr_line fuel ⟨[], [], [], false, false, true⟩
        { p with column := p.column + 1 }).bind fun v p =>
      if v.error then throwAt .ERR_INV_SYNTAX p else .ok v.expr_is_true p

end SchemaParser

namespace SchemaParser

/-! ## `defineAttribute` and `unsetAttribute` -/

/-- Local variables of `defineAttribute`. -/
structure DefVars where
  value : QString
  new_attrib : QString
  error : Bool
  end_def : Bool
  use_val_as_name : Bool
deriving DecidableEq, Repr

/-- One turn of the `while` loop of `defineAttribute`.  `curr_line` is the line
on which the directive starts; it is not read again when a pure text takes the
cursor to a later line. -/
def defineAttributeStep (curr_line : QString) (d : DefVars) (p : SchemaParser) :
    Res DefVars :=
  let p := ignoreBlankChars curr_line p
  let chr := charAt curr_line p.column
  let r : Res DefVars :=
    if chr = CHR_LINE_END then .ok { d with end_def := true } p
    else if chr = CHR_VALUE_OF then
      if ¬ d.use_val_as_name then
        (getAttribute { p with column := p.column + 1 }).bind fun a p =>
          .ok { d with use_val_as_name := true, new_attrib := a } p
      else .ok { d with error := true } p
    else if chr = CHR_INI_CONDITIONAL then .ok { d with error := true } p
    else if chr = CHR_INI_ATTRIB then
      if d.new_attrib = [] then
        (getAttribute p).bind fun a p => .ok { d with new_attrib := a } p
      else
        (getAttribute p).bind fun attrib p =>
          if p.attributes.count attrib = 0 ∧ ¬ p.ignore_unk_atribs then
            throwAt .ERR_UNK_ATTRIBUTE p
          else
            .ok { d with value := d.value ++ p.attributes.value attrib }
              { p with attributes := p.attributes.touch attrib }
    else if chr = CHR_INI_PURETEXT then
      (getPureText p).bind fun t p => .ok { d with value := d.value ++ t } p
    else if chr = CHR_INI_METACHAR then
      (getMetaCharacter p).bind fun meta p =>
        (translateMetaCharacter meta p).bind fun c p =>
          .ok { d with value := d.value ++ [c] } p
    else
      (getWord p).bind fun w p => .ok { d with value := d.value ++ w } p
  r.bind fun d p => .ok (if d.new_attrib = [] then { d with error := true } else d) p

def defineAttributeLoop (curr_line : QString) : Nat → DefVars → SchemaParser → Res DefVars
  | 0, _, _ => .timeout
  | fuel + 1, d, p =>
    if ¬ d.end_def ∧ ¬ d.error then
      (defineAttributeStep curr_line d p).bind (defineAttributeLoop curr_line fuel)
    else .ok d p

def defineAttribute (fuel : Nat) (p : SchemaParser) : Res Unit :=
  match p.buffer[p.line]? with
  | none => .undefined
  | some curr_line =>
    (defineAttributeLoop curr_line fuel ⟨[], [], false, false, false⟩ p).bind fun d p =>
      if ¬ d.error then
        let attrib := if d.use_val_as_name then p.attributes.value d.new_attrib else d.new_attrib
        let p := if d.use_val_as_name then
            { p with attributes := p.attributes.touch d.new_attrib } else p
        if ¬ ATTR_REGEXP.exactMatch attrib then throwAt .ERR_INV_ATTRIBUTE p
        else .ok () { p with attributes := p.attributes.assign attrib d.value }
      else throwAt .ERR_INV_SYNTAX p

/-- The `while` loop of `unsetAttribute`. -/
def unsetAttributeLoop (curr_line : QString) : Nat → SchemaParser → Res Unit
  | 0, _ => .timeout
  | fuel + 1, p =>
    let p := ignoreBlankChars curr_line p
    let chr := charAt curr_line p.column
    if chr = CHR_LINE_END then .ok () p
    else if chr = CHR_INI_ATTRIB then
      (getAttribute p).bind fun attrib p =>
        if p.attributes.count attrib = 0 ∧ ¬ p.ignore_unk_atribs then
          throwAt .ERR_UNK_ATTRIBUTE p
        else if ¬ ATTR_REGEXP.exactMatch attrib then throwAt .ERR_INV_ATTRIBUTE p
        else unsetAttributeLoop curr_line fuel
          { p with attributes := p.attributes.assign attrib [] }
    else throwAt .ERR_INV_SYNTAX p

def unsetAttribute (fuel : Nat) (p : SchemaParser) : Res Unit :=
  match p.buffer[p.line]? with
  | none => .undefined
  | some curr_line => unsetAttributeLoop curr_line fuel p

/-! ## `evaluateExpression` -/

/-- Local variables of `evaluateExpression`. -/
structure ExprVars where
  current_line : QString
  cond : QString
  prev_cond : QString
  error : Bool
  end_eval : Bool
  expr_is_true : Bool
  attrib_count : Nat
  and_or_count : Nat
deriving DecidableEq, Repr

/-- The running value of the expression once an operand `operand_true` came
after the tokens `cond` and `prev_cond`. -/
def combine (cond prev_cond : QString) (expr_is_true operand_true : Bool) : Bool :=
  if cond = TOKEN_AND ∨ prev_cond = TOKEN_AND then expr_is_true && operand_true
  else if cond = TOKEN_OR ∨ prev_cond = TOKEN_OR then expr_is_true || operand_true
  else operand_true

/-- The move to the next line that `evaluateExpression` makes when the cursor is
on a line end. -/
def evaluateExpressionNewline (s : ExprVars) (p : SchemaParser) : ExprVars × SchemaParser :=
  if charAt s.current_line p.column = CHR_LINE_END then
    let p := { p with line := p.line + 1 }
    match p.buffer[p.line]? with
    | some l => ({ s with current_line := l }, ignoreBlankChars l { p with column := 0 })
    | none => (if ¬ s.end_eval then { s with error := true } else s, p)
  else (s, p)

/-- One turn of the `while` loop of `evaluateExpression`. -/
def evaluateExpressionStep (fuel : Nat) (s : ExprVars) (p : SchemaParser) : Res ExprVars :=
  let p := ignoreBlankChars s.current_line p
  let sp := evaluateExpressionNewline s p
  let s := sp.1
  let p := sp.2
  let chr := charAt s.current_line p.column
  if chr = CHR_INI_CONDITIONAL then
    (getConditional p).bind fun cond p =>
      let prev_cond := s.cond
      let error : Bool := cond = prev_cond ∨
        (cond = TOKEN_AND ∧ prev_cond = TOKEN_OR) ∨
        (cond = TOKEN_OR ∧ prev_cond = TOKEN_AND) ∨
        (s.attrib_count = 0 ∧ (cond = TOKEN_AND ∨ cond = TOKEN_OR))
      if cond = TOKEN_THEN then
        .ok { s with prev_cond := prev_cond, cond := cond, end_eval := true,
                     error := prev_cond = TOKEN_NOT ∨ s.attrib_count = 0 ∨
                       s.and_or_count ≠ s.attrib_count - 1 }
          { p with column := p.column - (cond.length + 1) }
      else if cond = TOKEN_OR ∨ cond = TOKEN_AND then
        .ok { s with prev_cond := prev_cond, cond := cond, error := error,
                     and_or_count := s.and_or_count + 1 } p
      else .ok { s with prev_cond := prev_cond, cond := cond, error := error } p
  else if chr = CHR_INI_ATTRIB then
    (getAttribute p).bind fun attrib p =>
      if p.attributes.count attrib = 0 ∧ ¬ p.ignore_unk_atribs then
        throwAt .ERR_UNK_ATTRIBUTE p
      else
        let error : Bool :=
          (s.cond ≠ [] ∧ s.cond ≠ TOKEN_OR ∧ s.cond ≠ TOKEN_AND ∧ s.cond ≠ TOKEN_NOT) ∨
          (s.attrib_count > 0 ∧ s.cond = TOKEN_NOT ∧ s.prev_cond = []) ∨
          (s.attrib_count > 0 ∧ s.cond = [])
        let s := { s with error := error, attrib_count := s.attrib_count + 1 }
        if ¬ error then
          let empty : Bool := p.attributes.value attrib = []
          let attrib_true : Bool := if s.cond = TOKEN_NOT then empty else !empty
          .ok { s with expr_is_true := combine s.cond s.prev_cond s.expr_is_true attrib_true,
                       cond := [], prev_cond := [] }
            { p with attributes := p.attributes.touch attrib }
        else .ok s p
  else if chr = CHR_INI_CEXPR then
    (evaluateComparisonExpr fuel p).bind fun comp_true p =>
      let comp_true : Bool := if s.cond = TOKEN_NOT then !comp_true else comp_true
      .ok { s with expr_is_true := combine s.cond s.prev_cond s.expr_is_true comp_true,
                   attrib_count := s.attrib_count + 1, cond := [], prev_cond := [] } p
  else .ok { s with error := true } p

/-- The `while` loop of `evaluateExpression`; the comparisons it meets get the
fuel `cfuel`. -/
def evaluateExpressionLoop (cfuel : Nat) : Nat → ExprVars → SchemaParser → Res ExprVars
  | 0, _, _ => .timeout
  | fuel + 1, s, p =>
    if ¬ s.end_eval ∧ ¬ s.error then
      (evaluateExpressionStep cfuel s p).bind (evaluateExpressionLoop cfuel fuel)
    else .ok s p

def evaluateExpression (fuel : Nat) (p : SchemaParser) : Res Bool :=
  match p.buffer[p.line]? with
  | none => .undefined
  | some current_line =>
    (evaluateExpressionLoop fuel fuel ⟨current_line, [], [], false, false, true, 0, 0⟩ p).bind
      fun s p => if s.error then throwAt .ERR_INV_SYNTAX p else .ok s.expr_is_true p

end SchemaParser

namespace SchemaParser

/-! ## `getCodeDefinition` -/

/-- The maps `if_map` and `else_map`, a `std::map<int, vector<QString>>`. -/
abbrev frag_map := List (Int × List QString)

/-- The vector stored under a level, `none` when the level has no entry. -/
def frag_map.find (m : frag_map) (k : Int) : Option (List QString) :=
  match m with
  | [] => none
  | (k', v) :: rest => if k' = k then some v else frag_map.find rest k

/-- `m.count(k)`. -/
def frag_map.count (m : frag_map) (k : Int) : Nat :=
  if (frag_map.find m k).isSome then 1 else 0

/-- The vector read by `m[k]`, empty when `operator[]` has to insert it. -/
def frag_map.value (m : frag_map) (k : Int) : List QString :=
  (frag_map.find m k).getD []

/-- The map after the words `ws` were pushed at the back of `m[k]`; the entry
exists afterwards even when there is no word. -/
def frag_map.push (m : frag_map) (k : Int) (ws : List QString) : frag_map :=
  match m with
  | [] => [(k, ws)]
  | (k', v) :: rest =>
    if k' = k then (k, v ++ ws) :: rest else (k', v) :: frag_map.push rest k ws

/-- The local variables of `getCodeDefinition` that live from one turn of its
loop to the next. -/
structure Locals where
  object_def : QString
  end_cnt : Nat
  if_cnt : Nat
  if_level : Int
  cond : QString
  prev_cond : QString
  if_expr : Bool
  vet_expif : List Bool
  vet_tk_if : List Bool
  vet_tk_then : List Bool
  vet_tk_else : List Bool
  if_map : frag_map
  else_map : frag_map
  vet_prev_level : List Int
deriving DecidableEq, Repr

/-- The variables as they are initialised before the loop. -/
def Locals.init : Locals :=
  ⟨[], 0, 0, -1, [], [], false, [], [], [], [], [], [], []⟩

/-- Element `i` of a vector of flags. -/
def flagAt (v : List Bool) (i : Int) : Bool := v.getD i.toNat false

/-- Whether the cursor is in the expression of the current `if`. -/
def inIfExpr (l : Locals) : Bool :=
  flagAt l.vet_tk_if l.if_level && !flagAt l.vet_tk_then l.if_level

/-- Whether the cursor is in the `if` section of the current `if`. -/
def inIfSection (l : Locals) : Bool :=
  flagAt l.vet_tk_if l.if_level && flagAt l.vet_tk_then l.if_level &&
    !flagAt l.vet_tk_else l.if_level

/-- The word `w` stored in the section of the current `if` the cursor is in. -/
def storeWord (l : Locals) (w : QString) : Locals :=
  if inIfSection l then { l with if_map := l.if_map.push l.if_level [w] }
  else if flagAt l.vet_tk_else l.if_level then
    { l with else_map := l.else_map.push l.if_level [w] }
  else l

/-- The case `CHR_INI_METACHAR`. -/
def caseMetaChar (l : Locals) (p : SchemaParser) : Res Locals :=
  (getMetaCharacter p).bind fun meta p =>
    if l.if_level ≥ 0 ∧ inIfExpr l then throwAt .ERR_INV_SYNTAX p
    else
      (translateMetaCharacter meta p).bind fun chr p =>
        if l.if_level ≥ 0 then .ok (storeWord l [chr]) p
        else .ok { l with object_def := l.object_def ++ [chr] } p

/-- The cases `CHR_INI_ATTRIB` and `CHR_END_ATTRIB`. -/
def caseAttrib (l : Locals) (p : SchemaParser) : Res Locals :=
  (getAttribute p).bind fun atrib p =>
    let known : Res Unit :=
      if p.attributes.count atrib = 0 then
        if ¬ p.ignore_unk_atribs then throwAt .ERR_UNK_ATTRIBUTE p
        else .ok () { p with attributes := p.attributes.assign atrib [] }
      else .ok () p
    known.bind fun _ p =>
      if l.if_level ≥ 0 then
        if ¬ (¬ l.if_expr ∧ inIfExpr l) then
          .ok (storeWord l (CHR_INI_ATTRIB :: atrib ++ [CHR_END_ATTRIB])) p
        else .ok l p
      else
        if p.attributes.value atrib = [] ∧ ¬ p.ignore_empty_atribs then
          throwAt .ERR_UNDEF_ATTRIB_VALUE { p with attributes := p.attributes.touch atrib }
        else
          .ok { l with object_def := l.object_def ++ p.attributes.value atrib }
            { p with attributes := p.attributes.touch atrib }

/-- The decision `extract` taken on a `%set` or an `%unset`. -/
def extractDirective (l : Locals) : Bool :=
  let extract : Bool := l.if_level < 0 ∨ l.vet_expif = []
  if ¬ extract ∧ l.if_level ≥ 0 then
    if l.prev_cond = TOKEN_ELSE ∧ ¬ flagAt l.vet_expif l.if_level then true
    else if l.prev_cond ≠ TOKEN_ELSE then
      (List.range (l.if_level.toNat + 1)).all fun i => flagAt l.vet_expif i
    else extract
  else extract

/-- The tokens `%set` and `%unset`. -/
def caseDirective (fuel : Nat) (l : Locals) (p : SchemaParser) : Res Locals :=
  if extractDirective l then
    if l.cond = TOKEN_SET then (defineAttribute fuel p).bind fun _ p => .ok l p
    else (unsetAttribute fuel p).bind fun _ p => .ok l p
  else .ok l { p with column := 0, line := p.line + 1 }

/-- The token `%if`. -/
def caseIf (fuel : Nat) (l : Locals) (p : SchemaParser) : Res Locals :=
  (evaluateExpression fuel p).bind fun b p =>
    .ok { l with if_expr := true,
                 vet_expif := l.vet_expif ++ [b],
                 vet_prev_level := l.vet_prev_level ++ [l.if_level],
                 vet_tk_if := l.vet_tk_if ++ [true],
                 vet_tk_then := l.vet_tk_then ++ [false],
                 vet_tk_else := l.vet_tk_else ++ [false],
                 if_level := (l.vet_tk_if.length : Int),
                 if_cnt := l.if_cnt + 1 } p

/-- The words that an `%end` hands over: the `if` section when the expression of
the current `if` is true, else the `else` section when there is one. -/
def selectedWords (l : Locals) : List QString :=
  if flagAt l.vet_expif l.if_level then l.if_map.value l.if_level
  else if l.else_map.count l.if_level > 0 then l.else_map.value l.if_level
  else []

/-- The loop that writes the words of an outermost `if` into the definition: a
word that starts with `{` and ends with `}` is taken for an attribute and
replaced by its value. -/
def flushWords : List QString → QString → SchemaParser → Res QString
  | [], object_def, p => .ok object_def p
  | word :: rest, object_def, p =>
    if word ≠ [] ∧ qstartsWith word CHR_INI_ATTRIB ∧ qendsWith word CHR_END_ATTRIB then
      let atrib := (word.drop 1).take (word.length - 2)
      let p1 := { p with attributes := p.attributes.touch atrib }
      if p.attributes.value atrib = [] ∧ ¬ p.ignore_empty_atribs then
        throwAt .ERR_UNDEF_ATTRIB_VALUE p1
      else flushWords rest (object_def ++ p.attributes.value atrib) p1
    else flushWords rest (object_def ++ word) p

/-- The token `%end` met inside an `if`. -/
def caseEnd (l : Locals) (p : SchemaParser) : Res Locals :=
  let l := { l with end_cnt := l.end_cnt + 1 }
  let prev_if_level := l.vet_prev_level.getD l.if_level.toNat 0
  if l.if_level > 0 then
    if ¬ flagAt l.vet_tk_else prev_if_level then
      .ok { l with if_map := l.if_map.push prev_if_level (selectedWords l),
                   if_level := prev_if_level } p
    else
      .ok { l with else_map := l.else_map.push prev_if_level (selectedWords l),
                   if_level := prev_if_level } p
  else
    (flushWords (selectedWords l) l.object_def p).bind fun object_def p =>
      .ok { l with object_def := object_def, if_map := [], else_map := [],
                   vet_tk_if := [], vet_tk_then := [], vet_tk_else := [],
                   vet_expif := [], vet_prev_level := [], if_level := -1 } p

/-- The check of the order of the conditional tokens. -/
def badOrder (prev_cond cond : QString) : Bool :=
  (prev_cond = TOKEN_IF ∧ cond ≠ TOKEN_THEN) ∨
  (prev_cond = TOKEN_ELSE ∧ cond ≠ TOKEN_IF ∧ cond ≠ TOKEN_END) ∨
  (prev_cond = TOKEN_THEN ∧ cond = TOKEN_THEN)

/-- The case `CHR_INI_CONDITIONAL`. -/
def caseConditional (fuel : Nat) (l : Locals) (p : SchemaParser) : Res Locals :=
  (getConditional p).bind fun cond p =>
    let l := { l with prev_cond := l.cond, cond := cond }
    if cond ≠ TOKEN_IF ∧ cond ≠ TOKEN_ELSE ∧ cond ≠ TOKEN_THEN ∧ cond ≠ TOKEN_END ∧
        cond ≠ TOKEN_OR ∧ cond ≠ TOKEN_NOT ∧ cond ≠ TOKEN_AND ∧ cond ≠ TOKEN_SET ∧
        cond ≠ TOKEN_UNSET then
      throwAt .ERR_INV_INSTRUCTION p
    else if cond = TOKEN_SET ∨ cond = TOKEN_UNSET then caseDirective fuel l p
    else
      let r : Res Locals :=
        if cond = TOKEN_IF then caseIf fuel l p
        else if cond = TOKEN_THEN ∧ l.if_level ≥ 0 then
          .ok { l with vet_tk_then := l.vet_tk_then.set l.if_level.toNat true,
                       if_expr := false } p
        else if cond = TOKEN_ELSE ∧ l.if_level ≥ 0 then
          .ok { l with vet_tk_else := l.vet_tk_else.set l.if_level.toNat true } p
        else if cond = TOKEN_END ∧ l.if_level ≥ 0 then caseEnd l p
        else throwAt .ERR_INV_SYNTAX p
      r.bind fun l p =>
        if badOrder l.prev_cond l.cond then throwAt .ERR_INV_SYNTAX p else .ok l p

/-- The `default` case: a pure text or a word. -/
def caseText (chr : Char) (l : Locals) (p : SchemaParser) : Res Locals :=
  (if chr = CHR_INI_PURETEXT ∨ chr = CHR_END_PURETEXT then getPureText p else getWord p).bind
    fun word p =>
      if l.if_level ≥ 0 then
        if inIfExpr l then throwAt .ERR_INV_SYNTAX p
        else .ok (storeWord l word) p
      else .ok { l with object_def := l.object_def ++ word } p

/-- One turn of the `while` loop of `getCodeDefinition`: the `switch` on the
character under the cursor, which is on `current_line`. -/
def getCodeDefinitionStep (fuel : Nat) (current_line : QString) (l : Locals)
    (p : SchemaParser) : Res Locals :=
  let chr := charAt current_line p.column
  if chr = CHR_LINE_END then .ok l { p with line := p.line + 1, column := 0 }
  else if chr = CHR_TABULATION ∨ chr = CHR_SPACE then .ok l (ignoreBlankChars current_line p)
  else if chr = CHR_INI_METACHAR then caseMetaChar l p
  else if chr = CHR_INI_ATTRIB ∨ chr = CHR_END_ATTRIB then caseAttrib l p
  else if chr = CHR_INI_CONDITIONAL then caseConditional fuel l p
  else caseText chr l p

/-- `restartParser()`. -/
def restartParser (p : SchemaParser) : SchemaParser :=
  { p with buffer := [], attributes := [], line := 0, column := 0, comment_count := 0 }

/-- The `while` loop of `getCodeDefinition` and what follows it when the buffer
is not empty.  The loops of the functions called get the fuel `sfuel`. -/
def getCodeDefinitionLoop (sfuel : Nat) : Nat → Locals → SchemaParser → Res QString
  | 0, _, _ => .timeout
  | fuel + 1, l, p =>
    match p.buffer[p.line]? with
    | some current_line =>
      (getCodeDefinitionStep sfuel current_line l p).bind (getCodeDefinitionLoop sfuel fuel)
    | none =>
      if l.if_cnt ≠ l.end_cnt then throwAt .ERR_INV_SYNTAX p
      else
        .ok l.object_def
          { restartParser p with ignore_unk_atribs := false, ignore_empty_atribs := false }

/-- `getCodeDefinition(attribs_map &attribs)`. -/
def getCodeDefinition (fuel : Nat) (attribs : attribs_map) (p : SchemaParser) : Res QString :=
  if p.buffer.length > 0 then
    getCodeDefinitionLoop fuel fuel Locals.init { p with attributes := attribs }
  else
    .ok [] { restartParser p with ignore_unk_atribs := false, ignore_empty_atribs := false }

end SchemaParser

namespace SchemaParser

/-! ## Vocabulary of the statements -/

/-- A character that is a space or a tabulation. -/
def isBlank (c : Char) : Prop := c = CHR_SPACE ∨ c = CHR_TABULATION

instance (c : Char) : Decidable (isBlank c) := by unfold isBlank; infer_instance

/-- A character that ends a token: a blank or the line end. -/
def isDelim (c : Char) : Prop := c = CHR_LINE_END ∨ c = CHR_SPACE ∨ c = CHR_TABULATION

instance (c : Char) : Decidable (isDelim c) := by unfold isDelim; infer_instance

/-- No word matches the expression, for a reason visible in its shape. -/
def RegExp.dead : RegExp → Bool
  | .none => true
  | .eps => false
  | .cls _ => false
  | .seq r s => r.dead || s.dead
  | .alt r s => r.dead && s.dead
  | .star _ => false

/-- Some character class of the expression holds the character. -/
def RegExp.accepts : RegExp → Char → Bool
  | .none, _ => false
  | .eps, _ => false
  | .cls k, c => k.test c
  | .seq r s, c => r.accepts c || s.accepts c
  | .alt r s, c => r.accepts c || s.accepts c
  | .star r, c => r.accepts c

/-- A character that may stand in an attribute name: one of a class of the
pattern `ATTR_REGEXP`. -/
def isNameChar (c : Char) : Prop :=
  CharClass.test .letter c = true ∨ CharClass.test .digit c = true ∨ c = '-' ∨ c = '_'

/-- A character of a word: neither a delimiter nor a special character. -/
def isWordChar (c : Char) : Prop := ¬ isDelim c ∧ isSpecialCharacter c = false

instance (c : Char) : Decidable (isWordChar c) := by unfold isWordChar; infer_instance

/-- The environment after the lookup of `{name}` at top level: a name that is
absent (and ignored) has been given the empty value. -/
def envAfterLookup (m : attribs_map) (name : QString) : attribs_map :=
  if m.find name = none then m.assign name [] else m

/-- The value returned, when the call returns. -/
def Res.result {α : Type} : Res α → Option α
  | .ok a _ => some a
  | _ => none

/-- The exception raised, when the call raises one. -/
def Res.raised {α : Type} : Res α → Option Exception
  | .raise e _ => some e
  | _ => none

/-- A parser whose buffer holds the given lines, as `loadBuffer` leaves it, with
the given attributes and both ignore flags off. -/
def loaded (buffer : List QString) (attributes : attribs_map) : SchemaParser :=
  ⟨buffer, 0, 0, 0, attributes, false, false, "[memory buffer]".toList, []⟩

/-- Text of the references `{a1} ... {an}`, each one after its run of blanks. -/
def renderRefs : List (QString × QString) → QString
  | [] => []
  | (bl, a) :: rs => bl ++ CHR_INI_ATTRIB :: a ++ CHR_END_ATTRIB :: renderRefs rs

/-- The environment after every name of the list was given the empty string. -/
def unsetAll (m : attribs_map) : List QString → attribs_map
  | [] => m
  | a :: as => unsetAll (m.assign a []) as

/-- A string of blanks. -/
def Blanks (s : QString) : Prop := ∀ c ∈ s, isBlank c

instance (s : QString) : Decidable (Blanks s) := by unfold Blanks; infer_instance

/-- The tokens of the value of a `%set` directive. -/
inductive ValueToken where
  | word (w : QString)
  | meta (m : QString)
  | pure (t : QString)
  | ref (a : QString)
deriving DecidableEq, Repr

/-- The text of a token in the template. -/
def ValueToken.text : ValueToken → QString
  | .word w => w
  | .meta m => CHR_INI_METACHAR :: m
  | .pure t => CHR_INI_PURETEXT :: t ++ [CHR_END_PURETEXT]
  | .ref a => CHR_INI_ATTRIB :: a ++ [CHR_END_ATTRIB]

/-- The value of a token: the text of the word, the translated character, the
raw content of the span, the current value of the attribute. -/
def ValueToken.value (env : attribs_map) : ValueToken → QString
  | .word w => w
  | .meta m => ((metas.lookup m).map fun c => [c]).getD []
  | .pure t => t
  | .ref a => env.value a

/-- The tokens the claim speaks of: a bare word that does not start with `@`, a
meta character of the table, a pure text on one line, a reference to an
attribute of the environment. -/
def ValueToken.Valid (env : attribs_map) : ValueToken → Prop
  | .word w => w ≠ [] ∧ (∀ c ∈ w, isWordChar c) ∧ w.head? ≠ some CHR_VALUE_OF
  | .meta m => (metas.lookup m).isSome = true
  | .pure t => ∀ c ∈ t, c ≠ CHR_INI_PURETEXT ∧ c ≠ CHR_END_PURETEXT ∧ c ≠ CHR_LINE_END
  | .ref a => ATTR_REGEXP.exactMatch a = true ∧ (env.find a).isSome = true

instance (env : attribs_map) (t : ValueToken) : Decidable (t.Valid env) := by
  cases t <;> unfold ValueToken.Valid <;> infer_instance

/-- The text of a list of tokens, each one after its run of blanks. -/
def renderTokens : List (QString × ValueToken) → QString
  | [] => []
  | (bl, t) :: ts => bl ++ t.text ++ renderTokens ts

/-- The concatenation of the values of the tokens. -/
def tokensValue (env : attribs_map) : List (QString × ValueToken) → QString
  | [] => []
  | (_, t) :: ts => t.value env ++ tokensValue env ts

/-- The binary operators of a conditional expression. -/
inductive BinOp where
  | and
  | or
deriving DecidableEq, Repr

/-- The token of an operator. -/
def BinOp.token : BinOp → QString
  | .and => TOKEN_AND
  | .or => TOKEN_OR

/-- The operation of an operator. -/
def BinOp.apply : BinOp → Bool → Bool → Bool
  | .and, a, b => a && b
  | .or, a, b => a || b

/-- An operand `{attr}` or `%not {attr}` of a conditional expression: `pre` is
the run of blanks before it and `gap` the run of blanks after its `%not`. -/
structure CondTerm where
  pre : QString
  neg : Bool
  gap : QString
  attr : QString
deriving DecidableEq, Repr

/-- The text of an operand in the template. -/
def CondTerm.text (t : CondTerm) : QString :=
  t.pre ++ (if t.neg then CHR_INI_CONDITIONAL :: TOKEN_NOT ++ t.gap else []) ++
    CHR_INI_ATTRIB :: t.attr ++ [CHR_END_ATTRIB]

/-- The truth value of an operand: the attribute has a non-empty value, negated
after `%not`. -/
def CondTerm.eval (env : attribs_map) (t : CondTerm) : Bool :=
  if t.neg then decide (env.value t.attr = []) else !decide (env.value t.attr = [])

/-- The operands the claim speaks of: the attribute is present in the
environment, and blanks follow the `%not`. -/
def CondTerm.Valid (env : attribs_map) (t : CondTerm) : Prop :=
  Blanks t.pre ∧ (t.neg = true → t.gap ≠ [] ∧ Blanks t.gap) ∧
    ATTR_REGEXP.exactMatch t.attr = true ∧ (env.find t.attr).isSome = true

instance (env : attribs_map) (t : CondTerm) : Decidable (t.Valid env) := by
  unfold CondTerm.Valid; infer_instance

/-- The text of the operators and operands that follow the first operand; each
operator comes after its run of blanks. -/
def renderTail : List (QString × BinOp × CondTerm) → QString
  | [] => []
  | (bl, op, t) :: rest => bl ++ CHR_INI_CONDITIONAL :: op.token ++ t.text ++ renderTail rest

/-- The fold from left to right, without precedence. -/
def evalTail (env : attribs_map) (acc : Bool) : List (QString × BinOp × CondTerm) → Bool
  | [] => acc
  | (_, op, t) :: rest => evalTail env (op.apply acc (t.eval env)) rest

/-- Number of turns that the loop of `evaluateExpression` takes on an operand. -/
def CondTerm.steps (t : CondTerm) : Nat := if t.neg then 2 else 1

/-- Number of turns that the loop takes on the operators and operands. -/
def tailSteps : List (QString × BinOp × CondTerm) → Nat
  | [] => 0
  | (_, _, t) :: rest => 1 + t.steps + tailSteps rest

/-- The operator that the loop of `evaluateExpression` holds in `cond` when it
comes to an operand: none before the first operand. -/
def pendingOp : Option BinOp → QString
  | none => []
  | some op => op.token

/-- The running value of the expression after an operand. -/
def applyPending : Option BinOp → Bool → Bool → Bool
  | none, _, v => v
  | some op, e, v => op.apply e v

/-- A buffer as `loadBuffer` builds it: every line ends with the line end and
holds no other line end. -/
def LoadedBuffer (buf : List QString) : Prop :=
  ∀ L ∈ buf, ∃ body, L = body ++ [CHR_LINE_END] ∧ CHR_LINE_END ∉ body

/-- The cursor of the parser is on a character of the buffer, and `s` is the text
from this character to the end of the buffer. -/
def AtCursor (p : SchemaParser) (s : QString) : Prop :=
  ∃ L, p.buffer[p.line]? = some L ∧ p.column < L.length ∧
    s = L.drop p.column ++ (p.buffer.drop (p.line + 1)).flatten

/-- The text `s` is what is left of the buffer: the cursor is on its first
character, or past the last line when nothing is left. -/
def Stream (p : SchemaParser) (s : QString) : Prop :=
  (s = [] ∧ p.buffer[p.line]? = none) ∨ AtCursor p s

/-- The parser `q` is the parser `p` with the cursor somewhere else. -/
def SameButCursor (p q : SchemaParser) : Prop :=
  q = { p with line := q.line, column := q.column }

/-- A string of blanks and line ends. -/
def White (s : QString) : Prop := ∀ c ∈ s, isDelim c

instance (s : QString) : Decidable (White s) := by unfold White; infer_instance

/-- The text `%if {attr} %then` with its runs of blanks. -/
def headerText (b1 attr b2 : QString) : QString :=
  CHR_INI_CONDITIONAL :: TOKEN_IF ++ b1 ++ CHR_INI_ATTRIB :: attr ++ CHR_END_ATTRIB :: b2 ++
    CHR_INI_CONDITIONAL :: TOKEN_THEN

/-- The variables of `getCodeDefinition` after `%if <expression> %then`, the
expression having the value `b`. -/
def Locals.afterIfThen (l : Locals) (b : Bool) : Locals :=
  { l with prev_cond := TOKEN_IF, cond := TOKEN_THEN, if_expr := false,
           vet_expif := l.vet_expif ++ [b],
           vet_prev_level := l.vet_prev_level ++ [l.if_level],
           vet_tk_if := l.vet_tk_if ++ [true],
           vet_tk_then := (l.vet_tk_then ++ [false]).set l.vet_tk_if.length true,
           vet_tk_else := l.vet_tk_else ++ [false],
           if_level := (l.vet_tk_if.length : Int),
           if_cnt := l.if_cnt + 1 }

/-- The variables of `getCodeDefinition` after `%else`. -/
def Locals.afterElse (l : Locals) : Locals :=
  { l with prev_cond := l.cond, cond := TOKEN_ELSE,
           vet_tk_else := l.vet_tk_else.set l.if_level.toNat true }

/-- The variables of `getCodeDefinition` after a word or a pure text. -/
def Locals.afterWord (l : Locals) (w : QString) : Locals :=
  if l.if_level ≥ 0 then storeWord l w else { l with object_def := l.object_def ++ w }

/-- An open `%if` block: the value of its expression, whether its `%else` was
met, and the words captured so far in its two arms. -/
structure Frame where
  expif : Bool
  inElse : Bool
  ifWords : List QString
  elseWords : List QString

/-- The variables `l` hold the open blocks `fs`, the innermost first, the
innermost one at level `k`. -/
def Chain (l : Locals) : Int → List Frame → Prop
  | k, [] => k = -1
  | k, f :: fs =>
    0 ≤ k ∧
    flagAt l.vet_expif k = f.expif ∧ flagAt l.vet_tk_if k = true ∧
    flagAt l.vet_tk_then k = true ∧ flagAt l.vet_tk_else k = f.inElse ∧
    l.if_map.value k = f.ifWords ∧ l.else_map.value k = f.elseWords ∧
    l.vet_prev_level.getD k.toNat 0 < k ∧ (fs = [] → k = 0) ∧
    Chain l (l.vet_prev_level.getD k.toNat 0) fs

/-- The variables `l` of `getCodeDefinition` stand for the output `out` and the
open blocks `stack`. -/
structure Rel (out : QString) (stack : List Frame) (l : Locals) : Prop where
  chain : Chain l l.if_level stack
  out_eq : l.object_def = out
  len_expif : l.vet_expif.length = l.vet_tk_if.length
  len_then : l.vet_tk_then.length = l.vet_tk_if.length
  len_else : l.vet_tk_else.length = l.vet_tk_if.length
  len_prev : l.vet_prev_level.length = l.vet_tk_if.length
  level_lt : l.if_level < l.vet_tk_if.length
  top : stack = [] → l.vet_tk_if = [] ∧ l.if_map = [] ∧ l.else_map = []
  fresh : ∀ j : Int, (l.vet_tk_if.length : Int) ≤ j →
    l.if_map.find j = none ∧ l.else_map.find j = none
  cond_ne : l.cond ≠ TOKEN_IF
  cnt : l.if_cnt = l.end_cnt + stack.length

/-- The open blocks after the words `ws` were written: they go to the arm the
innermost block is in. -/
def emitTop (ws : List QString) : List Frame → List Frame
  | [] => []
  | f :: fs =>
    (if f.inElse then { f with elseWords := f.elseWords ++ ws }
     else { f with ifWords := f.ifWords ++ ws }) :: fs

/-- The output after the words `ws` were written: they go to the output when no
block is open. -/
def emitOut (out : QString) (ws : List QString) : List Frame → QString
  | [] => out ++ ws.flatten
  | _ :: _ => out

/-- A word that the final loop of an outermost `%end` does not take for an
attribute. -/
def PlainWord (w : QString) : Prop :=
  ¬ (w ≠ [] ∧ qstartsWith w CHR_INI_ATTRIB = true ∧ qendsWith w CHR_END_ATTRIB = true)

/-- All the words captured in the open blocks are plain. -/
def PlainStack (stack : List Frame) : Prop :=
  ∀ f ∈ stack, ∀ w ∈ f.ifWords ++ f.elseWords, PlainWord w

/-- The variables `l'` hold at the levels up to `k` what the variables `l` hold. -/
def Agree (k : Int) (l l' : Locals) : Prop :=
  ∀ j : Int, 0 ≤ j → j ≤ k →
    flagAt l'.vet_expif j = flagAt l.vet_expif j ∧
    flagAt l'.vet_tk_if j = flagAt l.vet_tk_if j ∧
    flagAt l'.vet_tk_then j = flagAt l.vet_tk_then j ∧
    flagAt l'.vet_tk_else j = flagAt l.vet_tk_else j ∧
    l'.if_map.value j = l.if_map.value j ∧
    l'.else_map.value j = l.else_map.value j ∧
    l'.vet_prev_level.getD j.toNat 0 = l.vet_prev_level.getD j.toNat 0

/-- The words an `%end` hands over for the block `f`. -/
def Frame.selected (f : Frame) : List QString := if f.expif then f.ifWords else f.elseWords

mutual
/-- A token of a template of pure texts and `if` blocks: a pure text `[t]`, or a
block `%if {attr} %then ... %end` with or without an `%else` arm, each one with
the blanks and line ends that are written in and after it. -/
inductive Item where
  | text (t ws : QString)
  | ifThen (b1 attr b2 w1 : QString) (thn : Items) (ws : QString)
  | ifThenElse (b1 attr b2 w1 : QString) (thn : Items) (w2 : QString) (els : Items)
      (ws : QString)
/-- A sequence of tokens. -/
inductive Items where
  | nil
  | cons (i : Item) (r : Items)
end

mutual
/-- The text of a token in the buffer. -/
def Item.render : Item → QString
  | .text t ws => CHR_INI_PURETEXT :: t ++ CHR_END_PURETEXT :: ws
  | .ifThen b1 attr b2 w1 thn ws =>
    headerText b1 attr b2 ++ (w1 ++ (thn.render ++ (CHR_INI_CONDITIONAL :: TOKEN_END ++ ws)))
  | .ifThenElse b1 attr b2 w1 thn w2 els ws =>
    headerText b1 attr b2 ++ (w1 ++ (thn.render ++ (CHR_INI_CONDITIONAL :: TOKEN_ELSE ++
      (w2 ++ (els.render ++ (CHR_INI_CONDITIONAL :: TOKEN_END ++ ws))))))
/-- The text of a sequence of tokens in the buffer. -/
def Items.render : Items → QString
  | .nil => []
  | .cons i r => i.render ++ r.render
end

mutual
/-- Modelled from the spec: the pure texts of a token that lie in the selected
arm of every block around them, in order: the `then` arm when the attribute is
not empty, the `else` arm when it is empty, nothing when it is empty and there
is no `else` arm. -/
def Item.words (env : attribs_map) : Item → List QString
  | .text t _ => [t]
  | .ifThen _ attr _ _ thn _ => if env.value attr = [] then [] else thn.words env
  | .ifThenElse _ attr _ _ thn _ els _ =>
    if env.value attr = [] then els.words env else thn.words env
/-- Modelled from the spec: the selected pure texts of a sequence of tokens. -/
def Items.words (env : attribs_map) : Items → List QString
  | .nil => []
  | .cons i r => i.words env ++ r.words env
end

mutual
/-- The token is well formed: the pure texts hold none of `{`, `}`, `[`, `]`,
the attributes tested are valid names defined in `env`, `%if` is followed by
blanks, `%then`, `%else` and `%end` by a blank or a line end, and only blanks
and line ends stand between the tokens. -/
def Item.valid (env : attribs_map) : Item → Bool
  | .text t ws =>
    decide (∀ c ∈ t, c ≠ CHR_INI_ATTRIB ∧ c ≠ CHR_END_ATTRIB ∧ c ≠ CHR_INI_PURETEXT ∧
      c ≠ CHR_END_PURETEXT) && decide (White ws)
  | .ifThen b1 attr b2 w1 thn ws =>
    decide (b1 ≠ []) && decide (Blanks b1) && decide (Blanks b2) &&
    ATTR_REGEXP.exactMatch attr && (env.find attr).isSome &&
    decide (w1 ≠ []) && decide (White w1) && thn.valid env &&
    decide (ws ≠ []) && decide (White ws)
  | .ifThenElse b1 attr b2 w1 thn w2 els ws =>
    decide (b1 ≠ []) && decide (Blanks b1) && decide (Blanks b2) &&
    ATTR_REGEXP.exactMatch attr && (env.find attr).isSome &&
    decide (w1 ≠ []) && decide (White w1) && thn.valid env &&
    decide (w2 ≠ []) && decide (White w2) && els.valid env &&
    decide (ws ≠ []) && decide (White ws)
/-- Every token of the sequence is well formed. -/
def Items.valid (env : attribs_map) : Items → Bool
  | .nil => true
  | .cons i r => i.valid env && r.valid env
end

/-- The text starts with no blank and no line end. -/
def Tight (s : QString) : Prop := s = [] ∨ ∃ c r, s = c :: r ∧ ¬ isDelim c

/-- The loop of `getCodeDefinition`, started with the variables `l` at the parser
`p`, comes within `n` turns to the cursor in front of `rest`, the words `ws`
written and nothing else changed. -/
def Runs (sf : Nat) (p : SchemaParser) (l : Locals) (out : QString) (stack : List Frame)
    (ws : List QString) (n : Nat) (rest : QString) : Prop :=
  ∃ (k : Nat) (q : SchemaParser) (l' : Locals), k ≤ n ∧ SameButCursor p q ∧ Stream q rest ∧
    Rel (emitOut out ws stack) (emitTop ws stack) l' ∧ PlainStack (emitTop ws stack) ∧
    (l'.cond = l.cond ∨ l'.cond = TOKEN_END) ∧
    ∀ fuel : Nat, getCodeDefinitionLoop sf (k + fuel) l p = getCodeDefinitionLoop sf fuel l' q

instance (buf : List QString) : Decidable (LoadedBuffer buf) :=
  decidable_of_iff (∀ L ∈ buf, L.getLast? = some CHR_LINE_END ∧ CHR_LINE_END ∉ L.dropLast) (by
    unfold LoadedBuffer
    refine forall_congr' fun L => forall_congr' fun _ => ?_
    constructor
    · rintro ⟨h1, h2⟩
      exact ⟨L.dropLast, (List.dropLast_append_getLast? _ (by rw [h1]; rfl)).symm, h2⟩
    · rintro ⟨body, rfl, h⟩
      simp [h])

/-- The variables of `getCodeDefinition` after `%set`. -/
def Locals.afterSet (l : Locals) : Locals := { l with prev_cond := l.cond, cond := TOKEN_SET }

/-- The text `%set {x} v`. -/
def setText (x v : QString) : QString :=
  CHR_INI_CONDITIONAL :: TOKEN_SET ++ CHR_SPACE :: CHR_INI_ATTRIB :: x ++
    CHR_END_ATTRIB :: CHR_SPACE :: v

/-- The template `%if {c} %then %set {x} A`, `%else %set {x} B`, `%end`, blanks or
line ends `w`, `{x}` and the line end. -/
def branchTemplate (c x A B w : QString) : QString :=
  headerText [CHR_SPACE] c [CHR_SPACE] ++ CHR_SPACE :: setText x A ++ CHR_LINE_END ::
    (CHR_INI_CONDITIONAL :: TOKEN_ELSE ++ CHR_SPACE :: setText x B ++ CHR_LINE_END ::
      (CHR_INI_CONDITIONAL :: TOKEN_END ++ w ++
        CHR_INI_ATTRIB :: x ++ [CHR_END_ATTRIB, CHR_LINE_END]))

end SchemaParser

namespace SchemaParser

/-- `s.indexOf(ch)`: the position of the first occurrence of `ch`. -/
def qindexOf (s : QString) (ch : Char) : Option Nat :=
  match s with
  | [] => none
  | c :: cs => if c = ch then some 0 else (qindexOf cs ch).map (· + 1)

/-- One turn of the `while` loop of `loadBuffer`, on the line `lin` that
`ts.readLine()` returned. -/
def loadLine (p : SchemaParser) (lin : QString) : SchemaParser :=
  let lin := if lin = [] then lin ++ [CHR_LINE_END] else lin
  let p := if charAt lin 0 = CHR_COMMENT then { p with comment_count := p.comment_count + 1 }
           else p
  let lin := match qindexOf lin CHR_COMMENT with
    | some pos => lin.take pos
    | none => lin
  if lin ≠ [] then
    let lin := if lin.getLast? ≠ some CHR_LINE_END then lin ++ [CHR_LINE_END] else lin
    { p with buffer := p.buffer ++ [lin] }
  else p

/-- `loadBuffer(buf)`.  The text stream `ts` over `buf` is a parameter: `lines`
are the strings that `ts.readLine()` returns, in order, until `ts.atEnd()`. -/
def loadBuffer (lines : List QString) (p : SchemaParser) : SchemaParser :=
  lines.foldl loadLine { restartParser p with filename := "[memory buffer]".toList }

/-- The parser with `n` comment lines counted. -/
def recount (n : Nat) (p : SchemaParser) : SchemaParser := { p with comment_count := n }

/-- The outcome of a member function had the parser counted `n` comment lines:
the same value, or the same kind of error at the same column, on the line that
`n` comment lines give. -/
def Res.recount {α : Type} (n : Nat) : Res α → Res α
  | .ok a p => .ok a (SchemaParser.recount n p)
  | .raise e p => .raise ⟨e.type, p.line + n + 1, e.column⟩ (SchemaParser.recount n p)
  | .undefined => .undefined
  | .diverges => .diverges
  | .timeout => .timeout

/-- The outcome of `getCodeDefinition` had the parser counted `n` comment lines:
the same string returned, or the same kind of error at the same column, on the
line that `n` comment lines give. -/
def Res.reline {α : Type} (n : Nat) : Res α → Res α
  | .ok a p => .ok a p
  | .raise e p => .raise ⟨e.type, p.line + n + 1, e.column⟩ (SchemaParser.recount n p)
  | .undefined => .undefined
  | .diverges => .diverges
  | .timeout => .timeout

/-- Modelled from the spec: a line of the text without its trailing comment, the
`#` and what follows it. -/
def cutComment (lin : QString) : QString :=
  match qindexOf lin CHR_COMMENT with
  | some pos => lin.take pos
  | none => lin

/-- Modelled from the spec: the text without its comments: the lines that start
with `#` are removed and the trailing `# ...` is cut from the other lines. -/
def stripComments (lines : List QString) : List QString :=
  (lines.filter (fun lin => lin.head? ≠ some CHR_COMMENT)).map cutComment

/-- The call raises an error of the kind `t`. -/
def Res.raises {α : Type} (r : Res α) (t : ErrorType) : Prop :=
  ∃ e p, r = .raise e p ∧ e.type = t

/-- The part of a conditional expression read so far: nothing, or operands
joined by operators, or these followed by one more operator and the blank after
it. -/
inductive ExprPrefix where
  | start
  | operands (t1 : CondTerm) (tail : List (QString × BinOp × CondTerm))
  | operator (t1 : CondTerm) (tail : List (QString × BinOp × CondTerm)) (bl : QString)
      (op : BinOp) (b : Char)

/-- The text of the part read so far. -/
def ExprPrefix.text : ExprPrefix → QString
  | .start => []
  | .operands t1 tail => t1.text ++ renderTail tail
  | .operator t1 tail bl op b =>
    t1.text ++ renderTail tail ++ (bl ++ CHR_INI_CONDITIONAL :: op.token ++ [b])

/-- The part read so far is well formed: the operands are references, negated or
not, to attributes of the environment, and only blanks separate the tokens. -/
def ExprPrefix.Valid (env : attribs_map) : ExprPrefix → Prop
  | .start => True
  | .operands t1 tail =>
    t1.Valid env ∧ ∀ x ∈ tail, Blanks x.1 ∧ x.2.2.pre ≠ [] ∧ x.2.2.Valid env
  | .operator t1 tail bl _ b =>
    (t1.Valid env ∧ ∀ x ∈ tail, Blanks x.1 ∧ x.2.2.pre ≠ [] ∧ x.2.2.Valid env) ∧
      Blanks bl ∧ isBlank b

instance (env : attribs_map) (e : ExprPrefix) : Decidable (e.Valid env) := by
  cases e <;> unfold ExprPrefix.Valid <;> infer_instance

/-- Number of turns that the loop of `evaluateExpression` takes on the part read
so far. -/
def ExprPrefix.steps : ExprPrefix → Nat
  | .start => 0
  | .operands t1 tail => t1.steps + tailSteps tail
  | .operator t1 tail _ _ _ => t1.steps + tailSteps tail + 1

/-- The variables of `evaluateExpression` after the part read so far. -/
def ExprPrefix.state (ln : QString) (env : attribs_map) : ExprPrefix → ExprVars
  | .start => ⟨ln, [], [], false, false, true, 0, 0⟩
  | .operands t1 tail =>
    ⟨ln, [], [], false, false, evalTail env (t1.eval env) tail, 1 + tail.length, tail.length⟩
  | .operator t1 tail _ op _ =>
    ⟨ln, op.token, [], false, false, evalTail env (t1.eval env) tail, 1 + tail.length,
      tail.length + 1⟩

/-- The blank of the part read so far that the cursor has not moved over. -/
def ExprPrefix.lead : ExprPrefix → QString
  | .operator _ _ _ _ b => [b]
  | _ => []

/-- The words that may follow `%`. -/
def TOKENS : List QString :=
  [TOKEN_IF, TOKEN_THEN, TOKEN_ELSE, TOKEN_END, TOKEN_OR, TOKEN_NOT, TOKEN_AND, TOKEN_SET,
   TOKEN_UNSET]

/-- The conditional token that a turn of the loop of `getCodeDefinition`
dispatches: the word that `getConditional` reads when the character under the
cursor is `%`, none on any other character. -/
def dispatched (current_line : QString) (p : SchemaParser) : Option QString :=
  if charAt current_line p.column = CHR_INI_CONDITIONAL then (getConditional p).result
  else none

/-- The first `n` turns of the loop of `getCodeDefinition` from the variables `l`:
the variables and the parser after them, and the conditional tokens dispatched,
in order.  None when a turn does not return normally or the buffer ends before. -/
def runSteps (sfuel : Nat) : Nat → Locals → SchemaParser →
    Option (Locals × SchemaParser × List QString)
  | 0, l, p => some (l, p, [])
  | n + 1, l, p =>
    match p.buffer[p.line]? with
    | some current_line =>
      match getCodeDefinitionStep sfuel current_line l p with
      | .ok l1 p1 =>
        (runSteps sfuel n l1 p1).map fun r =>
          (r.1, r.2.1, (dispatched current_line p).toList ++ r.2.2)
      | _ => none
    | none => none

/-- Level `k` is the innermost of `d` open `if`s, by the vector of the previous
levels. -/
def OpenDepth (v : List Int) : Int → Nat → Prop
  | k, 0 => k = -1
  | k, d + 1 =>
    0 ≤ k ∧ k < v.length ∧ v.getD k.toNat 0 < k ∧ (d = 0 → k = 0) ∧
      OpenDepth v (v.getD k.toNat 0) d

/-- The variables of `getCodeDefinition` that track the open `if`s agree with the
counters: `if_cnt` exceeds `end_cnt` by the number `d` of open `if`s. -/
structure ParInv (l : Locals) (d : Nat) : Prop where
  len_prev : l.vet_prev_level.length = l.vet_tk_if.length
  top : l.if_level < 0 → l.vet_tk_if = []
  depth : OpenDepth l.vet_prev_level l.if_level d
  cnt : l.if_cnt = l.end_cnt + d

/-- The variables that track the open `if`s. -/
def Locals.par (l : Locals) : Int × List Int × Nat × Nat × Nat :=
  (l.if_level, l.vet_prev_level, l.vet_tk_if.length, l.if_cnt, l.end_cnt)

/-- The word `{x}` that the loop of `getCodeDefinition` stores for a reference met
inside an `if`. -/
def refWord (x : QString) : QString := CHR_INI_ATTRIB :: x ++ [CHR_END_ATTRIB]

mutual
/-- A token of a template of pure texts, references and `if` blocks: a pure text
`[t]`, a reference `{x}`, a marked reference `{x}` (one of those that are taken
out of the template), a run of blanks and line ends, or a block
`%if {attr} %then ... %end` with or without an `%else` arm. -/
inductive Node where
  | text (t : QString)
  | ref (x : QString)
  | marked (x : QString)
  | white (ws : QString)
  | ifThen (b1 attr b2 w1 : QString) (thn : Nodes) (ws : QString)
  | ifThenElse (b1 attr b2 w1 : QString) (thn : Nodes) (w2 : QString) (els : Nodes)
      (ws : QString)
/-- A sequence of tokens. -/
inductive Nodes where
  | nil
  | cons (i : Node) (r : Nodes)
end

mutual
/-- The text of a token in the buffer, with the marked references (`keep`) or
without them. -/
def Node.render (keep : Bool) : Node → QString
  | .text t => CHR_INI_PURETEXT :: t ++ [CHR_END_PURETEXT]
  | .ref x => refWord x
  | .marked x => if keep then refWord x else []
  | .white ws => ws
  | .ifThen b1 attr b2 w1 thn ws =>
    headerText b1 attr b2 ++ (w1 ++ (thn.render keep ++ (CHR_INI_CONDITIONAL :: TOKEN_END ++ ws)))
  | .ifThenElse b1 attr b2 w1 thn w2 els ws =>
    headerText b1 attr b2 ++ (w1 ++ (thn.render keep ++ (CHR_INI_CONDITIONAL :: TOKEN_ELSE ++
      (w2 ++ (els.render keep ++ (CHR_INI_CONDITIONAL :: TOKEN_END ++ ws))))))
/-- The text of a sequence of tokens in the buffer. -/
def Nodes.render (keep : Bool) : Nodes → QString
  | .nil => []
  | .cons i r => i.render keep ++ r.render keep
end

mutual
/-- Modelled from the spec: the pure texts and the references of a token that lie
in the selected arm of every block around them, in order, a reference as the word
`{x}`: the `then` arm is selected when the attribute is not empty, the `else` arm
when it is empty. -/
def Node.words (env : attribs_map) (keep : Bool) : Node → List QString
  | .text t => [t]
  | .ref x => [refWord x]
  | .marked x => if keep then [refWord x] else []
  | .white _ => []
  | .ifThen _ attr _ _ thn _ => if env.value attr = [] then [] else thn.words env keep
  | .ifThenElse _ attr _ _ thn _ els _ =>
    if env.value attr = [] then els.words env keep else thn.words env keep
/-- Modelled from the spec: the selected pure texts and references of a sequence
of tokens. -/
def Nodes.words (env : attribs_map) (keep : Bool) : Nodes → List QString
  | .nil => []
  | .cons i r => i.words env keep ++ r.words env keep
end

mutual
/-- The token is well formed: the pure texts hold none of `{`, `}`, `[`, `]`, the
attributes referred to and tested are valid names defined in `env`, `%if` is
followed by blanks, `%then`, `%else` and `%end` by a blank or a line end, and the
runs of blanks and line ends hold nothing else. -/
def Node.valid (env : attribs_map) : Node → Bool
  | .text t =>
    decide (∀ c ∈ t, c ≠ CHR_INI_ATTRIB ∧ c ≠ CHR_END_ATTRIB ∧ c ≠ CHR_INI_PURETEXT ∧
      c ≠ CHR_END_PURETEXT)
  | .ref x => ATTR_REGEXP.exactMatch x && (env.find x).isSome
  | .marked x => ATTR_REGEXP.exactMatch x && (env.find x).isSome
  | .white ws => decide (White ws)
  | .ifThen b1 attr b2 w1 thn ws =>
    decide (b1 ≠ []) && decide (Blanks b1) && decide (Blanks b2) &&
    ATTR_REGEXP.exactMatch attr && (env.find attr).isSome &&
    decide (w1 ≠ []) && decide (White w1) && thn.valid env &&
    decide (ws ≠ []) && decide (White ws)
  | .ifThenElse b1 attr b2 w1 thn w2 els ws =>
    decide (b1 ≠ []) && decide (Blanks b1) && decide (Blanks b2) &&
    ATTR_REGEXP.exactMatch attr && (env.find attr).isSome &&
    decide (w1 ≠ []) && decide (White w1) && thn.valid env &&
    decide (w2 ≠ []) && decide (White w2) && els.valid env &&
    decide (ws ≠ []) && decide (White ws)
/-- Every token of the sequence is well formed. -/
def Nodes.valid (env : attribs_map) : Nodes → Bool
  | .nil => true
  | .cons i r => i.valid env && r.valid env
end

mutual
/-- Every marked reference of the token lies in an arm that some block of the
token around it does not select. -/
def Node.markedDead (env : attribs_map) : Node → Bool
  | .text _ => true
  | .ref _ => true
  | .marked _ => false
  | .white _ => true
  | .ifThen _ attr _ _ thn _ => if env.value attr = [] then true else thn.markedDead env
  | .ifThenElse _ attr _ _ thn _ els _ =>
    if env.value attr = [] then els.markedDead env else thn.markedDead env
/-- Every marked reference of the sequence lies in an arm that some block around
it does not select. -/
def Nodes.markedDead (env : attribs_map) : Nodes → Bool
  | .nil => true
  | .cons i r => i.markedDead env && r.markedDead env
end

/-- Modelled from the spec: the resolution of the words of an expansion, in
order: a word `{x}` gives the value of the attribute `x`, and fails when the value
is empty and empty attributes are not ignored; any other word gives itself. -/
def resolveWords (env : attribs_map) (ignore_empty : Bool) : List QString → Option QString
  | [] => some []
  | w :: ws =>
    if w ≠ [] ∧ qstartsWith w CHR_INI_ATTRIB ∧ qendsWith w CHR_END_ATTRIB then
      let x := (w.drop 1).take (w.length - 2)
      if env.value x = [] ∧ ¬ ignore_empty then none
      else (resolveWords env ignore_empty ws).map fun s => env.value x ++ s
    else (resolveWords env ignore_empty ws).map fun s => w ++ s

/-- A word kept in an open block: a word that is no reference, or a reference to
an attribute of the environment. -/
def GoodWord (env : attribs_map) (w : QString) : Prop :=
  PlainWord w ∨ ∃ x, w = refWord x ∧ (env.find x).isSome = true

/-- All the words captured in the open blocks are good. -/
def GoodStack (env : attribs_map) (stack : List Frame) : Prop :=
  ∀ f ∈ stack, ∀ w ∈ f.ifWords ++ f.elseWords, GoodWord env w

/-- The output after the words `ws` were written: with no block open they are
resolved and go to the output, which fails when a reference has no value. -/
def emitRes (env : attribs_map) (ignore_empty : Bool) (out : QString) (ws : List QString) :
    List Frame → Option QString
  | [] => (resolveWords env ignore_empty ws).map fun s => out ++ s
  | _ :: _ => some out

/-- The loop of `getCodeDefinition`, started with the variables `l` at the parser
`p`: when the words `ws` resolve, it comes, with the words `ws` written and nothing
else changed, to the cursor in front of blanks and line ends `w` followed by
`rest`, within `n - w.length` turns; when they do not resolve, it raises
undefined-attribute-value within `n` turns. -/
def Walk (sf : Nat) (p : SchemaParser) (l : Locals) (out : QString) (stack : List Frame)
    (ws : List QString) (n : Nat) (rest : QString) : Prop :=
  match emitRes p.attributes p.ignore_empty_atribs out ws stack with
  | some res =>
    ∃ (k : Nat) (q : SchemaParser) (l1 : Locals) (w : QString), k + w.length ≤ n ∧
      SameButCursor p q ∧ White w ∧ Stream q (w ++ rest) ∧
      Rel res (emitTop ws stack) l1 ∧ GoodStack p.attributes (emitTop ws stack) ∧
      (l1.cond = l.cond ∨ l1.cond = TOKEN_END) ∧
      ∀ fuel : Nat, getCodeDefinitionLoop sf (k + fuel) l p = getCodeDefinitionLoop sf fuel l1 q
  | none =>
    ∃ k : Nat, k < n ∧ ∀ fuel : Nat,
      (getCodeDefinitionLoop sf (k + fuel + 1) l p).raises .ERR_UNDEF_ATTRIB_VALUE

/-- What the caller sees of a call: the value returned, or the kind of the error
raised. -/
inductive Outcome (α : Type) where
  | returned (a : α)
  | failed (t : ErrorType)
deriving DecidableEq

/-- What the caller sees of the call, when it returns or raises. -/
def Res.outcome {α : Type} : Res α → Option (Outcome α)
  | .ok a _ => some (.returned a)
  | .raise e _ => some (.failed e.type)
  | _ => none

end SchemaParser

namespace SchemaParser

/-- `ignoreUnkownAttributes(bool ignore)`. -/
def ignoreUnkownAttributes (ignore : Bool) (p : SchemaParser) : SchemaParser :=
  { p with ignore_unk_atribs := ignore }

/-- `ignoreEmptyAttributes(bool ignore)`. -/
def ignoreEmptyAttributes (ignore : Bool) (p : SchemaParser) : SchemaParser :=
  { p with ignore_empty_atribs := ignore }

/-- The parser as a call leaves it, also when the call raises. -/
def Res.after {α : Type} : Res α → Option SchemaParser
  | .ok _ p => some p
  | .raise _ p => some p
  | _ => none

/-- `s.toUInt()`: the value of a decimal numeral, with an optional `+`, that
fits 32 bits without a sign; 0 for every other string.  The white space that Qt
skips around a numeral is not part of this model. -/
def qtoUInt (s : QString) : Nat :=
  let v : Option Nat :=
    match s with
    | '+' :: ds => digitsValue ds
    | ds => digitsValue ds
  match v with
  | some n => if n < 2 ^ 32 then n else 0
  | none => 0

/-- `setPgSQLVersion(pgsql_ver)`.  The constants `PgSQLVersions::PGSQL_VERSION_90`
and `PgSQLVersions::DEFAULT_VERSION` are parameters.  The exception carries the
version strings, not a position. -/
def setPgSQLVersion (PGSQL_VERSION_90 DEFAULT_VERSION : QString) (pgsql_ver : QString)
    (p : SchemaParser) : Except ErrorType SchemaParser :=
  let curr_ver := qtoUInt (qremove pgsql_ver '.')
  let version90 := qtoUInt (qremove PGSQL_VERSION_90 '.')
  let default_ver := qtoUInt (qremove DEFAULT_VERSION '.')
  if curr_ver ≠ 0 ∧ curr_ver < version90 then .error .ERR_INV_POSTGRESQL_VERSION
  else if curr_ver > 0 ∧ curr_ver ≤ default_ver then .ok { p with pgsql_version := pgsql_ver }
  else .ok { p with pgsql_version := DEFAULT_VERSION }

/-- `s.indexOf(ch, pos)` for a position `pos` that is not negative; `none`
stands for -1. -/
def qindexOfFrom (s : QString) (ch : Char) (pos : Nat) : Option Nat :=
  (qindexOf (s.drop pos) ch).map (· + pos)

/-- `s.mid(pos, n)` for `pos` and `n` that are not negative. -/
def qmid (s : QString) (pos n : Nat) : QString := (s.drop pos).take n

/-- The `while` loop of `extractAttributes` on one line; `start` is `none` for
-1.  Every turn moves `start` to the right, so the fuel `line.length + 1` that
`extractAttributes` gives is never used up. -/
def extractAttributesLoop (line : QString) : Nat → Option Nat → List QString →
    Option (List QString)
  | 0, _, _ => none
  | _ + 1, none, attribs => some attribs
  | fuel + 1, some start, attribs =>
    if start < line.length then
      match qindexOfFrom line CHR_END_ATTRIB start with
      | some end_pos =>
        extractAttributesLoop line fuel (qindexOfFrom line CHR_INI_ATTRIB end_pos)
          (attribs ++ [qmid line (start + 1) (end_pos - start - 1)])
      | none => some attribs
    else some attribs

/-- `QStringList::removeDuplicates()`: the first occurrence of every string is
kept, in order. -/
def removeDuplicates : List QString → List QString
  | [] => []
  | x :: xs => x :: (removeDuplicates xs).filter (fun y => y ≠ x)

/-- `extractAttributes()`; `none` when a loop runs out of fuel. -/
def extractAttributes (p : SchemaParser) : Option (List QString) :=
  (p.buffer.foldl (fun (acc : Option (List QString)) line =>
      acc.bind fun attribs =>
        extractAttributesLoop line (line.length + 1) (qindexOfFrom line CHR_INI_ATTRIB 0)
          attribs)
    (some [])).map removeDuplicates

/-- Modelled from the spec: a character of the class `[A-Za-z0-9_-]`. -/
def isSpecChar (c : Char) : Prop :=
  ('a' ≤ c ∧ c ≤ 'z') ∨ ('A' ≤ c ∧ c ≤ 'Z') ∨ ('0' ≤ c ∧ c ≤ '9') ∨ c = '_' ∨ c = '-'

instance (c : Char) : Decidable (isSpecChar c) := by unfold isSpecChar; infer_instance

/-- Modelled from the spec: the pattern `^[A-Za-z][A-Za-z0-9_-]*$` of the names of
attributes: a letter of ASCII, then letters and digits of ASCII, `_` and `-`. -/
def SpecName : QString → Prop
  | [] => False
  | c :: cs => (('a' ≤ c ∧ c ≤ 'z') ∨ ('A' ≤ c ∧ c ≤ 'Z')) ∧ ∀ d ∈ cs, isSpecChar d

/-- A string of ASCII characters. -/
def IsAscii (s : QString) : Prop := ∀ c ∈ s, c.toNat < 128

instance (s : QString) : Decidable (IsAscii s) := by unfold IsAscii; infer_instance

instance (c : Char) : Decidable (isNameChar c) := by unfold isNameChar; infer_instance

instance (s : QString) : Decidable (SpecName s) := by
  cases s <;> unfold SpecName <;> infer_instance

/-- A character at which the scan of `getAttribute` stops: `}`, a space, a
tabulation or the line end. -/
def isNameEnd (c : Char) : Bool :=
  decide (c = CHR_END_ATTRIB ∨ c = CHR_SPACE ∨ c = CHR_TABULATION ∨ c = CHR_LINE_END)

/-- The characters after the `{` at column `col` of a line, up to the first `}`,
space, tabulation or line end. -/
def nameSpan (L : QString) (col : Nat) : QString :=
  (L.drop (col + 1)).takeWhile fun c => ! isNameEnd c

/-- The character that ends the span of `nameSpan`. -/
def nameTerminator (L : QString) (col : Nat) : Option Char :=
  ((L.drop (col + 1)).dropWhile fun c => ! isNameEnd c).head?

/-- The words of a regular expression. -/
inductive RegExp.Matches : RegExp → QString → Prop
  | eps : RegExp.Matches .eps []
  | cls (k : CharClass) (c : Char) : k.test c = true → RegExp.Matches (.cls k) [c]
  | seq {r t : RegExp} {u v : QString} :
      RegExp.Matches r u → RegExp.Matches t v → RegExp.Matches (.seq r t) (u ++ v)
  | altl {r t : RegExp} {u : QString} : RegExp.Matches r u → RegExp.Matches (.alt r t) u
  | altr {r t : RegExp} {u : QString} : RegExp.Matches t u → RegExp.Matches (.alt r t) u
  | star_nil {r : RegExp} : RegExp.Matches (.star r) []
  | star_cons {r : RegExp} {u v : QString} :
      RegExp.Matches r u → RegExp.Matches (.star r) v → RegExp.Matches (.star r) (u ++ v)

end SchemaParser

namespace SchemaParser

/-! ## Lists of characters -/

theorem charAt_of_drop {L : QString} {c : Nat} {h : Char} {t : QString}
    (hd : L.drop c = h :: t) : charAt L c = h := by
  have h1 : L[c]? = some h := by
    have := congrArg List.head? hd
    simpa [List.head?_drop] using this
  simp [charAt, List.getD, h1]

theorem drop_add_of_drop {L : QString} {c : Nat} {a b : QString}
    (hd : L.drop c = a ++ b) : L.drop (c + a.length) = b := by
  rw [← List.drop_drop, hd, List.drop_left]

theorem drop_succ_of_drop {L : QString} {c : Nat} {h : Char} {t : QString}
    (hd : L.drop c = h :: t) : L.drop (c + 1) = t := by
  have := drop_add_of_drop (a := [h]) (b := t) (by simpa using hd)
  simpa using this

theorem countBlanks_append {bl : QString} (hb : ∀ c ∈ bl, isBlank c) (rest : QString) :
    countBlanks (bl ++ rest) = bl.length + countBlanks rest := by
  induction bl with
  | nil => simp
  | cons b bl ih =>
    have hb0 : isBlank b := hb b (by simp)
    have ih2 := ih (fun c hc => hb c (by simp [hc]))
    have hb1 : b = CHR_SPACE ∨ b = CHR_TABULATION := hb0
    rw [List.cons_append, countBlanks, if_pos hb1, ih2, List.length_cons]; omega

theorem countBlanks_cons_of_not {c : Char} (hc : ¬ isBlank c) (rest : QString) :
    countBlanks (c :: rest) = 0 := by
  have hc1 : ¬ (c = CHR_SPACE ∨ c = CHR_TABULATION) := hc
  rw [countBlanks, if_neg hc1]

theorem ignoreBlankChars_of_drop {L : QString} {p : SchemaParser} {bl : QString} {c : Char}
    {r : QString} (hd : L.drop p.column = bl ++ c :: r)
    (hb : ∀ x ∈ bl, isBlank x) (hc : ¬ isBlank c) :
    ignoreBlankChars L p = { p with column := p.column + bl.length } := by
  simp only [ignoreBlankChars, hd, countBlanks_append hb, countBlanks_cons_of_not hc]
  rfl

/-! ## The pattern of attribute names -/

theorem RegExp.nullable_of_dead {r : RegExp} (h : r.dead = true) : r.nullable = false := by
  induction r with
  | none => rfl
  | eps => simp [RegExp.dead] at h
  | cls k => rfl
  | seq r s ihr ihs =>
    simp only [RegExp.dead, Bool.or_eq_true] at h
    simp only [RegExp.nullable, Bool.and_eq_false_iff]
    rcases h with h | h
    · exact Or.inl (ihr h)
    · exact Or.inr (ihs h)
  | alt r s ihr ihs =>
    simp only [RegExp.dead, Bool.and_eq_true] at h
    simp [RegExp.nullable, ihr h.1, ihs h.2]
  | star r _ => simp [RegExp.dead] at h

theorem RegExp.dead_deriv {r : RegExp} (c : Char) (h : r.dead = true) :
    (r.deriv c).dead = true := by
  induction r with
  | none => rfl
  | eps => simp [RegExp.dead] at h
  | cls k => simp [RegExp.dead] at h
  | seq r s ihr ihs =>
    simp only [RegExp.dead, Bool.or_eq_true] at h
    simp only [RegExp.deriv]
    split
    · rcases h with h | h
      · rename_i hn; rw [RegExp.nullable_of_dead h] at hn; simp at hn
      · simp [RegExp.dead, h, ihs h]
    · rcases h with h | h
      · simp [RegExp.dead, ihr h]
      · simp [RegExp.dead, h]
  | alt r s ihr ihs =>
    simp only [RegExp.dead, Bool.and_eq_true] at h
    simp [RegExp.deriv, RegExp.dead, ihr h.1, ihs h.2]
  | star r _ => simp [RegExp.dead] at h

theorem RegExp.exactMatch_of_dead (s : QString) :
    ∀ {r : RegExp}, r.dead = true → r.exactMatch s = false := by
  induction s with
  | nil => intro r h; simpa [RegExp.exactMatch] using RegExp.nullable_of_dead h
  | cons c cs ih => intro r h; simpa [RegExp.exactMatch] using ih (RegExp.dead_deriv c h)

theorem RegExp.dead_deriv_of_not_accepts {r : RegExp} {c : Char} (h : r.accepts c = false) :
    (r.deriv c).dead = true := by
  induction r with
  | none => rfl
  | eps => rfl
  | cls k => simp only [RegExp.accepts] at h; simp [RegExp.deriv, h, RegExp.dead]
  | seq r s ihr ihs =>
    simp only [RegExp.accepts, Bool.or_eq_false_iff] at h
    simp only [RegExp.deriv]
    split <;> simp [RegExp.dead, ihr h.1, ihs h.2]
  | alt r s ihr ihs =>
    simp only [RegExp.accepts, Bool.or_eq_false_iff] at h
    simp [RegExp.deriv, RegExp.dead, ihr h.1, ihs h.2]
  | star r ih =>
    simp only [RegExp.accepts] at h
    simp [RegExp.deriv, RegExp.dead, ih h]

theorem RegExp.accepts_of_deriv {r : RegExp} {c d : Char} (h : (r.deriv c).accepts d = true) :
    r.accepts d = true := by
  induction r with
  | none => simp [RegExp.deriv, RegExp.accepts] at h
  | eps => simp [RegExp.deriv, RegExp.accepts] at h
  | cls k =>
    simp only [RegExp.deriv] at h
    split at h <;> simp [RegExp.accepts] at h
  | seq r s ihr ihs =>
    simp only [RegExp.deriv] at h
    split at h
    · simp only [RegExp.accepts, Bool.or_eq_true] at h ⊢
      rcases h with (h | h) | h
      · exact Or.inl (ihr h)
      · exact Or.inr h
      · exact Or.inr (ihs h)
    · simp only [RegExp.accepts, Bool.or_eq_true] at h ⊢
      rcases h with h | h
      · exact Or.inl (ihr h)
      · exact Or.inr h
  | alt r s ihr ihs =>
    simp only [RegExp.deriv, RegExp.accepts, Bool.or_eq_true] at h ⊢
    rcases h with h | h
    · exact Or.inl (ihr h)
    · exact Or.inr (ihs h)
  | star r ih =>
    simp only [RegExp.deriv, RegExp.accepts, Bool.or_eq_true] at h ⊢
    rcases h with h | h
    · exact ih h
    · exact h

theorem RegExp.accepts_of_exactMatch (s : QString) :
    ∀ {r : RegExp}, r.exactMatch s = true → ∀ c ∈ s, r.accepts c = true := by
  induction s with
  | nil => intro r _ c hc; simp at hc
  | cons a as ih =>
    intro r h c hc
    simp only [RegExp.exactMatch] at h
    rcases List.mem_cons.1 hc with rfl | hc
    · by_contra hn
      have hd := RegExp.dead_deriv_of_not_accepts (r := r) (c := c) (by simpa using hn)
      rw [RegExp.exactMatch_of_dead as hd] at h
      exact Bool.noConfusion h
    · exact RegExp.accepts_of_deriv (ih h c hc)

theorem isNameChar_of_accepts {c : Char} (h : ATTR_REGEXP.accepts c = true) : isNameChar c := by
  have e1 : CharClass.test (.lit '-') c = true ↔ c = '-' := by simp [CharClass.test]
  have e2 : CharClass.test (.lit '_') c = true ↔ c = '_' := by simp [CharClass.test]
  simp only [ATTR_REGEXP, RegExp.plus, RegExp.accepts, Bool.or_eq_true, e1, e2] at h
  unfold isNameChar
  tauto

theorem nameChars_of_exactMatch {s : QString} (h : ATTR_REGEXP.exactMatch s = true) :
    s ≠ [] ∧ ∀ c ∈ s, isNameChar c := by
  refine ⟨?_, fun c hc => isNameChar_of_accepts (RegExp.accepts_of_exactMatch s h c hc)⟩
  rintro rfl
  exact absurd h (by decide)

theorem isNameChar_not_special {c : Char} (h : isNameChar c) :
    ¬ isDelim c ∧ c ≠ CHR_END_ATTRIB ∧ c ≠ CHR_INI_ATTRIB := by
  unfold isNameChar at h
  unfold isDelim
  refine ⟨?_, ?_, ?_⟩
  · rintro (rfl | rfl | rfl) <;> revert h <;> decide
  · rintro rfl; revert h; decide
  · rintro rfl; revert h; decide

/-! ## The lexer on well formed tokens -/

theorem getAttributeLoop_name (name rest : QString)
    (hn : ∀ c ∈ name, ¬ isDelim c ∧ c ≠ CHR_END_ATTRIB) :
    ∀ (acc : QString) (n : Nat), acc ++ name ≠ [] →
      getAttributeLoop (name ++ CHR_END_ATTRIB :: rest) acc n =
        some ⟨acc ++ name, n + name.length + 1, true, false⟩ := by
  induction name with
  | nil =>
    intro acc n hne
    have h1 : ¬ (CHR_END_ATTRIB = CHR_LINE_END ∨ CHR_END_ATTRIB = CHR_SPACE ∨
        CHR_END_ATTRIB = CHR_TABULATION) := by decide
    have hacc : acc ≠ [] := by simpa using hne
    simp [getAttributeLoop, h1, hacc]
  | cons a name ih =>
    intro acc n _
    have ha := hn a (by simp)
    have h1 : ¬ (a = CHR_LINE_END ∨ a = CHR_SPACE ∨ a = CHR_TABULATION) := ha.1
    have h2 := ih (fun c hc => hn c (by simp [hc])) (acc ++ [a]) (n + 1) (by simp)
    rw [List.cons_append, getAttributeLoop, if_neg h1, if_pos ha.2, h2]
    simp only [List.length_cons, List.append_assoc, List.singleton_append, Option.some.injEq,
      AttribScan.mk.injEq, true_and, and_true]
    omega

/-- The attribute reference `{name}` stands at the cursor. -/
theorem getAttribute_ok {p : SchemaParser} {L n r : QString}
    (hl : p.buffer[p.line]? = some L)
    (hd : L.drop p.column = CHR_INI_ATTRIB :: n ++ CHR_END_ATTRIB :: r)
    (hn : ATTR_REGEXP.exactMatch n = true) :
    getAttribute p = .ok n { p with column := p.column + (n.length + 2) } := by
  have hnc := nameChars_of_exactMatch hn
  have hchars : ∀ c ∈ n, ¬ isDelim c ∧ c ≠ CHR_END_ATTRIB := fun c hc =>
    ⟨(isNameChar_not_special (hnc.2 c hc)).1, (isNameChar_not_special (hnc.2 c hc)).2.1⟩
  have hloop := getAttributeLoop_name n r hchars [] 0 (by simpa using hnc.1)
  have hd' : L.drop (p.column + 1) = n ++ CHR_END_ATTRIB :: r :=
    drop_succ_of_drop (by simpa using hd)
  simp only [getAttribute, hl, charAt_of_drop (by simpa using hd), ne_eq, not_true_eq_false,
    if_false, hd', hloop, List.nil_append, Nat.zero_add, hn, Bool.false_eq_true, false_or,
    not_false_eq_true]
  simp only [Res.ok.injEq, true_and]
  congr 1; omega

theorem getTokenLoop_word (w : QString) (c : Char) (rest : QString)
    (hw : ∀ x ∈ w, ¬ isDelim x) (hc : isDelim c) :
    getTokenLoop (w ++ c :: rest) = some w := by
  induction w with
  | nil =>
    have h1 : c = CHR_LINE_END ∨ c = CHR_SPACE ∨ c = CHR_TABULATION := hc
    simp [getTokenLoop, h1]
  | cons a w ih =>
    have h1 : ¬ (a = CHR_LINE_END ∨ a = CHR_SPACE ∨ a = CHR_TABULATION) := hw a (by simp)
    rw [List.cons_append, getTokenLoop, if_neg h1, ih (fun x hx => hw x (by simp [hx]))]
    rfl

/-- The token `%w` stands at the cursor and is followed by a delimiter. -/
theorem getConditional_ok {p : SchemaParser} {L w : QString} {c : Char} {r : QString}
    (hl : p.buffer[p.line]? = some L)
    (hd : L.drop p.column = CHR_INI_CONDITIONAL :: w ++ c :: r)
    (hw : ∀ x ∈ w, ¬ isDelim x) (hne : w ≠ []) (hc : isDelim c) :
    getConditional p = .ok w { p with column := p.column + (w.length + 1) } := by
  have hd' : L.drop (p.column + 1) = w ++ c :: r := drop_succ_of_drop (by simpa using hd)
  simp only [getConditional, hl, charAt_of_drop (by simpa using hd), if_true, hd',
    getTokenLoop_word w c r hw hc, hne, if_false]
  simp only [Res.ok.injEq, true_and]
  congr 1; omega

/-- The token `$w` stands at the cursor and is followed by a delimiter. -/
theorem getMetaCharacter_ok {p : SchemaParser} {L w : QString} {c : Char} {r : QString}
    (hl : p.buffer[p.line]? = some L)
    (hd : L.drop p.column = CHR_INI_METACHAR :: w ++ c :: r)
    (hw : ∀ x ∈ w, ¬ isDelim x) (hne : w ≠ []) (hc : isDelim c) :
    getMetaCharacter p = .ok w { p with column := p.column + (w.length + 1) } := by
  have hd' : L.drop (p.column + 1) = w ++ c :: r := drop_succ_of_drop (by simpa using hd)
  simp only [getMetaCharacter, hl, charAt_of_drop (by simpa using hd), if_true, hd',
    getTokenLoop_word w c r hw hc, hne, if_false]
  simp only [Res.ok.injEq, true_and]
  congr 1; omega

theorem getWordLoop_word (w : QString) (c : Char) (rest : QString)
    (hw : ∀ x ∈ w, isWordChar x) (hc : ¬ isWordChar c) :
    getWordLoop (w ++ c :: rest) = some w := by
  induction w with
  | nil =>
    have h1 : c = CHR_LINE_END ∨ isSpecialCharacter c = true ∨ c = CHR_SPACE ∨
        c = CHR_TABULATION := by
      unfold isWordChar isDelim at hc
      by_cases hs : isSpecialCharacter c = true
      · exact Or.inr (Or.inl hs)
      · simp only [Bool.not_eq_true] at hs
        simp only [hs, and_true, not_not] at hc
        tauto
    simp [getWordLoop, h1]
  | cons a w ih =>
    have ha := hw a (by simp)
    have h1 : ¬ (a = CHR_LINE_END ∨ isSpecialCharacter a = true ∨ a = CHR_SPACE ∨
        a = CHR_TABULATION) := by
      unfold isWordChar isDelim at ha
      simp only [ha.2, Bool.false_eq_true, false_or]
      tauto
    rw [List.cons_append, getWordLoop, if_neg h1, ih (fun x hx => hw x (by simp [hx]))]
    rfl

/-- The non-empty word `w` stands at the cursor. -/
theorem getWord_ok {p : SchemaParser} {L w : QString} {c : Char} {r : QString}
    (hl : p.buffer[p.line]? = some L)
    (hd : L.drop p.column = w ++ c :: r)
    (hw : ∀ x ∈ w, isWordChar x) (hne : w ≠ []) (hc : ¬ isWordChar c) :
    getWord p = .ok w { p with column := p.column + w.length } := by
  obtain ⟨a, w', rfl⟩ := List.exists_cons_of_ne_nil hne
  have ha : isSpecialCharacter a = false := (hw a (by simp)).2
  have hloop := getWordLoop_word (a :: w') c r hw hc
  simp only [getWord, hl, charAt_of_drop (by simpa using hd), ha, Bool.false_eq_true, if_false,
    hd, hloop]

theorem pureTextLine_span (t rest : QString)
    (ht : ∀ c ∈ t, c ≠ CHR_INI_PURETEXT ∧ c ≠ CHR_END_PURETEXT ∧ c ≠ CHR_LINE_END) :
    pureTextLine (t ++ CHR_END_PURETEXT :: rest) = (t, t.length, .close) := by
  induction t with
  | nil => simp [pureTextLine]
  | cons a t ih =>
    obtain ⟨h1, h2, h3⟩ := ht a (by simp)
    rw [List.cons_append, pureTextLine, if_neg h2, if_neg h1, if_neg h3,
      ih (fun c hc => ht c (by simp [hc]))]
    rfl

/-- The pure text `[t]` stands at the cursor, on one line. -/
theorem getPureText_ok {p : SchemaParser} {L t r : QString}
    (hl : p.buffer[p.line]? = some L)
    (hd : L.drop p.column = CHR_INI_PURETEXT :: t ++ CHR_END_PURETEXT :: r)
    (ht : ∀ c ∈ t, c ≠ CHR_INI_PURETEXT ∧ c ≠ CHR_END_PURETEXT ∧ c ≠ CHR_LINE_END) :
    getPureText p = .ok t { p with column := p.column + (t.length + 2) } := by
  have hd' : L.drop (p.column + 1) = t ++ CHR_END_PURETEXT :: r :=
    drop_succ_of_drop (by simpa using hd)
  have hloop : getPureTextLoop (p.buffer.drop (p.line + 1)) L (p.column + 1) p.line =
      some (t, p.line, p.column + 1 + t.length, true) := by
    cases p.buffer.drop (p.line + 1) <;>
      simp [getPureTextLoop, hd', pureTextLine_span t r ht]
  simp only [getPureText, hl, charAt_of_drop (by simpa using hd), if_true, hloop]
  simp only [Res.ok.injEq, true_and]
  congr 1; omega

theorem isWordChar_ne {c : Char} (h : isWordChar c) :
    c ≠ CHR_LINE_END ∧ c ≠ CHR_SPACE ∧ c ≠ CHR_TABULATION ∧ c ≠ CHR_INI_ATTRIB ∧
    c ≠ CHR_END_ATTRIB ∧ c ≠ CHR_INI_CONDITIONAL ∧ c ≠ CHR_INI_METACHAR ∧
    c ≠ CHR_INI_PURETEXT ∧ c ≠ CHR_END_PURETEXT := by
  obtain ⟨h1, h2⟩ := h
  unfold isDelim at h1
  simp only [isSpecialCharacter, decide_eq_false_iff_not] at h2
  tauto

theorem metas_lookup {m : QString} {c : Char} (h : metas.lookup m = some c) :
    m ≠ [] ∧ ∀ x ∈ m, ¬ isDelim x := by
  have hm : m ∈ [TOKEN_META_SP, TOKEN_META_TB, TOKEN_META_BR, TOKEN_META_OB, TOKEN_META_CB,
      TOKEN_META_OC, TOKEN_META_CC] := by
    by_contra hn
    simp only [List.mem_cons, List.mem_singleton, not_or, List.not_mem_nil, or_false] at hn
    obtain ⟨h1, h2, h3, h4, h5, h6, h7⟩ := hn
    have e1 : (m == TOKEN_META_SP) = false := by simpa using h1
    have e2 : (m == TOKEN_META_TB) = false := by simpa using h2
    have e3 : (m == TOKEN_META_BR) = false := by simpa using h3
    have e4 : (m == TOKEN_META_OB) = false := by simpa using h4
    have e5 : (m == TOKEN_META_CB) = false := by simpa using h5
    have e6 : (m == TOKEN_META_OC) = false := by simpa using h6
    have e7 : (m == TOKEN_META_CC) = false := by simpa using h7
    simp [metas, List.lookup, e1, e2, e3, e4, e5, e6, e7] at h
  simp only [List.mem_cons, List.mem_singleton, List.not_mem_nil, or_false] at hm
  rcases hm with rfl | rfl | rfl | rfl | rfl | rfl | rfl <;> decide

end SchemaParser

namespace SchemaParser

theorem attribs_map.count_eq_zero {m : attribs_map} {k : QString} :
    m.count k = 0 ↔ m.find k = none := by
  unfold attribs_map.count
  cases h : m.find k <;> simp

theorem attribs_map.touch_of_find {m : attribs_map} {k v : QString} (h : m.find k = some v) :
    m.touch k = m := by
  simp [attribs_map.touch, h]

theorem attribs_map.find_assign (m : attribs_map) (k v k' : QString) :
    (m.assign k v).find k' = if k = k' then some v else m.find k' := by
  induction m with
  | nil => simp [attribs_map.assign, attribs_map.find]
  | cons e m ih =>
    obtain ⟨a, b⟩ := e
    by_cases hak : a = k
    · subst hak
      by_cases hk : a = k' <;> simp [attribs_map.assign, attribs_map.find, hk]
    · by_cases hk : k = k'
      · subst hk
        simp [attribs_map.assign, attribs_map.find, hak, ih]
      · have hk' : ¬ k' = k := fun h => hk h.symm
        by_cases hak' : a = k' <;>
          simp [attribs_map.assign, attribs_map.find, hak, hak', hk, hk', ih]

theorem attribs_map.value_of_find {m : attribs_map} {k v : QString} (h : m.find k = some v) :
    m.value k = v := by
  simp [attribs_map.value, h]

/-- One turn of the loop of `getCodeDefinition` on a reference `{name}` met at
top level. -/
theorem getCodeDefinitionStep_reference (sfuel : Nat) (l : Locals) (p : SchemaParser)
    (ln name rest : QString)
    (hl : p.buffer[p.line]? = some ln)
    (hd : ln.drop p.column = CHR_INI_ATTRIB :: name ++ CHR_END_ATTRIB :: rest)
    (hn : ATTR_REGEXP.exactMatch name = true)
    (htop : l.if_level < 0) :
    getCodeDefinitionStep sfuel ln l p =
      if p.attributes.find name = none ∧ p.ignore_unk_atribs = false then
        throwAt .ERR_UNK_ATTRIBUTE { p with column := p.column + (name.length + 2) }
      else if p.attributes.value name = [] ∧ p.ignore_empty_atribs = false then
        throwAt .ERR_UNDEF_ATTRIB_VALUE
          { p with column := p.column + (name.length + 2),
                   attributes := envAfterLookup p.attributes name }
      else
        .ok { l with object_def := l.object_def ++ p.attributes.value name }
          { p with column := p.column + (name.length + 2),
                   attributes := envAfterLookup p.attributes name } := by
  have hc : charAt ln p.column = CHR_INI_ATTRIB := charAt_of_drop (by simpa using hd)
  have hlev : ¬ l.if_level ≥ 0 := by omega
  have hstep : getCodeDefinitionStep sfuel ln l p = caseAttrib l p := by
    unfold getCodeDefinitionStep
    simp only [hc]
    rw [if_neg (by decide), if_neg (by decide), if_neg (by decide), if_pos (by decide)]
  simp only [hstep, caseAttrib, getAttribute_ok hl hd hn, Res.bind]
  cases hf : p.attributes.find name with
  | none =>
    have hcount : p.attributes.count name = 0 := attribs_map.count_eq_zero.2 hf
    have hval : p.attributes.value name = [] := by simp [attribs_map.value, hf]
    cases hu : p.ignore_unk_atribs
    · simp [hcount, hu, Res.bind, throwAt]
    · have hf2 : (p.attributes.assign name []).find name = some [] := by
        simp [attribs_map.find_assign]
      cases he : p.ignore_empty_atribs <;>
        simp [hcount, hu, he, Res.bind, hlev, hval, envAfterLookup, hf,
          attribs_map.value_of_find hf2, attribs_map.touch_of_find hf2, throwAt]
  | some v =>
    have hcount : p.attributes.count name ≠ 0 := by
      rw [Ne, attribs_map.count_eq_zero, hf]; simp
    have hval : p.attributes.value name = v := attribs_map.value_of_find hf
    simp only [hcount, if_false, Res.bind, hlev, hval, attribs_map.touch_of_find hf,
      envAfterLookup, hf]
    by_cases hv : v = [] <;> cases he : p.ignore_empty_atribs <;> simp [hv, he, throwAt]

/-- C2: an attribute reference `{name}` read at top level raises
unknown-attribute when the name is absent and unknown attributes are not
ignored; otherwise it raises undefined-attribute-value when the value is empty
and empty attributes are not ignored; otherwise the expansion goes on with
exactly the value of the attribute appended to the output. -/
theorem C2_top_level_reference (sfuel fuel : Nat) (l : Locals) (p : SchemaParser)
    (ln name rest : QString)
    (hl : p.buffer[p.line]? = some ln)
    (hd : ln.drop p.column = CHR_INI_ATTRIB :: name ++ CHR_END_ATTRIB :: rest)
    (hn : ATTR_REGEXP.exactMatch name = true)
    (htop : l.if_level < 0) :
    getCodeDefinitionLoop sfuel (fuel + 1) l p =
      if p.attributes.find name = none ∧ p.ignore_unk_atribs = false then
        throwAt .ERR_UNK_ATTRIBUTE { p with column := p.column + (name.length + 2) }
      else if p.attributes.value name = [] ∧ p.ignore_empty_atribs = false then
        throwAt .ERR_UNDEF_ATTRIB_VALUE
          { p with column := p.column + (name.length + 2),
                   attributes := envAfterLookup p.attributes name }
      else
        getCodeDefinitionLoop sfuel fuel
          { l with object_def := l.object_def ++ p.attributes.value name }
          { p with column := p.column + (name.length + 2),
                   attributes := envAfterLookup p.attributes name } := by
  rw [getCodeDefinitionLoop]
  simp only [hl]
  rw [getCodeDefinitionStep_reference sfuel l p ln name rest hl hd hn htop]
  by_cases h1 : p.attributes.find name = none ∧ p.ignore_unk_atribs = false
  · rw [if_pos h1, if_pos h1]; rfl
  · rw [if_neg h1, if_neg h1]
    by_cases h2 : p.attributes.value name = [] ∧ p.ignore_empty_atribs = false
    · rw [if_pos h2, if_pos h2]; rfl
    · rw [if_neg h2, if_neg h2]; rfl

theorem C2_top_level_reference_witness :
    getCodeDefinitionLoop 5 (2 + 1) Locals.init
        (loaded ["{a}\n".toList] [("a".toList, "v".toList)]) =
      getCodeDefinitionLoop 5 2 { Locals.init with object_def := "v".toList }
        { loaded ["{a}\n".toList] [("a".toList, "v".toList)] with column := 3 } :=
  C2_top_level_reference 5 2 Locals.init (loaded ["{a}\n".toList] [("a".toList, "v".toList)])
    "{a}\n".toList "a".toList "\n".toList (by decide) (by decide) (by decide) (by decide)

/-- C4 at the failing input: with `a` mapped to the empty string, the comparison
`({a} == "")` raises invalid-syntax where the claim has it return true. -/
theorem C4_empty_literal_raises :
    (evaluateComparisonExpr 20
      (loaded ["({a} == \"\")\n".toList] [("a".toList, [])])).raised =
      some ⟨.ERR_INV_SYNTAX, 1, 13⟩ := by decide!

/-- C7 at the failing input: `c` is not empty, so the `else` arm is dead, yet its
second directive `%set {y} B` is executed and the output is `B`, not the `0`
that `y` held. -/
theorem C7_dead_set_executed :
    (getCodeDefinition 20 [("c".toList, "1".toList), ("y".toList, "0".toList)]
      (loaded ["%if {c} %then\n".toList, "%else\n".toList, "%set {y} A\n".toList,
        "%set {y} B\n".toList, "%end\n".toList, "{y}\n".toList] [])).result =
      some "B".toList := by decide!

/-- C8 at the failing input: `c` is empty, so the `else` arm is live, yet its
second directive `%set {y} B` is skipped and the output is `A`, not `B`. -/
theorem C8_live_set_skipped :
    (getCodeDefinition 20 [("c".toList, []), ("y".toList, "0".toList)]
      (loaded ["%if {c} %then\n".toList, "%else\n".toList, "%set {y} A\n".toList,
        "%set {y} B\n".toList, "%end\n".toList, "{y}\n".toList] [])).result =
      some "A".toList := by decide!

/-- C10 at the failing input: the pure text `[{a}]` in the selected arm of an
`%if` is written as the value `1` of the attribute `a`, not as `{a}`. -/
theorem C10_pure_text_resolved :
    (getCodeDefinition 20 [("a".toList, "1".toList)]
      (loaded ["%if {a} %then [{a}] %end\n".toList] [])).result = some "1".toList ∧
    (getCodeDefinition 20 [("a".toList, "1".toList)]
      (loaded ["[{a}]\n".toList] [])).result = some "{a}".toList := by decide!

theorem attribs_map.count_ne_zero {m : attribs_map} {k : QString}
    (h : (m.find k).isSome = true) : ¬ m.count k = 0 := by
  rw [attribs_map.count_eq_zero]
  intro hn
  rw [hn] at h
  exact Bool.noConfusion h

theorem attribs_map.isSome_find_assign {m : attribs_map} {k v k' : QString}
    (h : (m.find k').isSome = true) : ((m.assign k v).find k').isSome = true := by
  rw [attribs_map.find_assign]
  split <;> simp [h]

theorem unsetAll_find (names : List QString) :
    ∀ (m : attribs_map) (k : QString),
      (unsetAll m names).find k = if k ∈ names then some [] else m.find k := by
  induction names with
  | nil => intro m k; simp [unsetAll]
  | cons a as ih =>
    intro m k
    rw [unsetAll, ih, attribs_map.find_assign]
    by_cases h1 : k ∈ as
    · simp [h1]
    · by_cases h2 : a = k
      · subst h2; simp [h1]
      · have h3 : ¬ k = a := fun h => h2 h.symm
        simp [h1, h2, h3]

theorem unsetAttributeLoop_refs (ln : QString) (refs : List (QString × QString)) :
    ∀ (fuel : Nat) (p : SchemaParser) (tail : QString),
      p.buffer[p.line]? = some ln →
      ln.drop p.column = renderRefs refs ++ tail →
      (∀ r ∈ refs, (∀ x ∈ r.1, isBlank x) ∧ ATTR_REGEXP.exactMatch r.2 = true ∧
        (p.attributes.find r.2).isSome = true) →
      unsetAttributeLoop ln (refs.length + fuel) p =
        unsetAttributeLoop ln fuel
          { p with column := p.column + (renderRefs refs).length,
                   attributes := unsetAll p.attributes (refs.map (·.2)) } := by
  induction refs with
  | nil => intro fuel p tail _ _ _; simp [renderRefs, unsetAll]
  | cons r refs ih =>
    intro fuel p tail hl hd hv
    obtain ⟨bl, a⟩ := r
    obtain ⟨hbl, hre, hpres⟩ := hv (bl, a) (by simp)
    have hd1 : ln.drop p.column =
        bl ++ CHR_INI_ATTRIB :: (a ++ CHR_END_ATTRIB :: (renderRefs refs ++ tail)) := by
      simpa [renderRefs] using hd
    have hig := ignoreBlankChars_of_drop hd1 hbl (by decide)
    have hd2 : ln.drop (p.column + bl.length) =
        CHR_INI_ATTRIB :: a ++ CHR_END_ATTRIB :: (renderRefs refs ++ tail) := by
      simpa using drop_add_of_drop hd1
    have hga := getAttribute_ok (p := { p with column := p.column + bl.length }) (L := ln)
      (n := a) (r := renderRefs refs ++ tail) hl hd2 hre
    have hd3 : ln.drop (p.column + bl.length + (a.length + 2)) = renderRefs refs ++ tail := by
      have := drop_add_of_drop (L := ln) (c := p.column + bl.length)
        (a := CHR_INI_ATTRIB :: a ++ [CHR_END_ATTRIB]) (b := renderRefs refs ++ tail)
        (by simpa using hd2)
      simpa using this
    have hnext := ih fuel
      { p with column := p.column + bl.length + (a.length + 2),
               attributes := p.attributes.assign a [] } tail hl hd3
      (fun r hr => ⟨(hv r (by simp [hr])).1, (hv r (by simp [hr])).2.1,
        attribs_map.isSome_find_assign (hv r (by simp [hr])).2.2⟩)
    have hch : charAt ln (p.column + bl.length) = CHR_INI_ATTRIB :=
      charAt_of_drop (by simpa using hd2)
    rw [List.length_cons, Nat.add_right_comm, unsetAttributeLoop]
    simp only [hig, hch, hga, Res.bind, if_true, if_false,
      show ¬ (CHR_INI_ATTRIB = CHR_LINE_END) from by decide,
      attribs_map.count_ne_zero hpres, false_and, hre, not_true_eq_false]
    rw [hnext]
    simp only [renderRefs, unsetAll, List.map_cons, List.length_append, List.length_cons]
    congr 2
    omega

/-- C9: on `%unset {a1} ... {an}` with all names present, `unsetAttribute` leaves
the environment as it was except that every `ai` is mapped to the empty string;
and when the references are followed on the line by a token that is not an
attribute reference, it raises invalid-syntax. -/
theorem C9_unset_attribute (fuel : Nat) (p : SchemaParser) (ln : QString)
    (refs : List (QString × QString)) (bl : QString) (c : Char) (rest : QString)
    (hl : p.buffer[p.line]? = some ln)
    (hd : ln.drop p.column = renderRefs refs ++ bl ++ c :: rest)
    (hv : ∀ r ∈ refs, (∀ x ∈ r.1, isBlank x) ∧ ATTR_REGEXP.exactMatch r.2 = true ∧
      (p.attributes.find r.2).isSome = true)
    (hbl : ∀ x ∈ bl, isBlank x) (hc : ¬ isBlank c) (hc2 : c ≠ CHR_INI_ATTRIB)
    (hfuel : refs.length < fuel) :
    (c = CHR_LINE_END →
      unsetAttribute fuel p = .ok ()
        { p with column := p.column + (renderRefs refs ++ bl).length,
                 attributes := unsetAll p.attributes (refs.map (·.2)) } ∧
      ∀ k, (unsetAll p.attributes (refs.map (·.2))).find k =
        if k ∈ refs.map (·.2) then some [] else p.attributes.find k) ∧
    (c ≠ CHR_LINE_END →
      (unsetAttribute fuel p).raised = some ⟨.ERR_INV_SYNTAX, p.line + p.comment_count + 1,
        p.column + (renderRefs refs ++ bl).length + 1⟩) := by
  obtain ⟨n, rfl⟩ : ∃ n, fuel = refs.length + (n + 1) := ⟨fuel - refs.length - 1, by omega⟩
  have hloop := unsetAttributeLoop_refs ln refs (n + 1) p (bl ++ c :: rest) hl
    (by simpa using hd) hv
  have hd1 : ln.drop (p.column + (renderRefs refs).length) = bl ++ c :: rest := by
    simpa using drop_add_of_drop (L := ln) (c := p.column) (a := renderRefs refs)
      (b := bl ++ c :: rest) (by simpa using hd)
  have hig := ignoreBlankChars_of_drop
    (p := { p with column := p.column + (renderRefs refs).length,
                   attributes := unsetAll p.attributes (refs.map (·.2)) })
    (L := ln) hd1 hbl hc
  have hlen : p.column + (renderRefs refs).length + bl.length =
      p.column + (renderRefs refs ++ bl).length := by simp [Nat.add_assoc]
  have hch : charAt ln (p.column + (renderRefs refs ++ bl).length) = c := by
    rw [← hlen]; exact charAt_of_drop (drop_add_of_drop hd1)
  refine ⟨fun hce => ⟨?_, unsetAll_find _ _⟩, fun hce => ?_⟩
  · subst hce
    simp only [unsetAttribute, hl, hloop]
    rw [unsetAttributeLoop]
    simp only [hig, hch, if_true, hlen]
  · simp only [unsetAttribute, hl, hloop]
    rw [unsetAttributeLoop]
    simp only [hig, hch, hce, if_false, hc2, throwAt, Res.raised, hlen]

theorem C9_unset_attribute_witness :
    unsetAttribute 5
        { loaded ["%unset {a} {b}\n".toList]
            [("a".toList, "1".toList), ("b".toList, "2".toList), ("c".toList, "3".toList)]
          with column := 6 } =
      .ok ()
        { loaded ["%unset {a} {b}\n".toList]
            [("a".toList, []), ("b".toList, []), ("c".toList, "3".toList)]
          with column := 14 } ∧
    (unsetAttribute 5
        { loaded ["%unset {a} foo\n".toList] [("a".toList, "1".toList)]
          with column := 6 }).raised = some ⟨.ERR_INV_SYNTAX, 1, 12⟩ :=
  ⟨((C9_unset_attribute 5
      { loaded ["%unset {a} {b}\n".toList]
          [("a".toList, "1".toList), ("b".toList, "2".toList), ("c".toList, "3".toList)]
        with column := 6 }
      "%unset {a} {b}\n".toList [(" ".toList, "a".toList), (" ".toList, "b".toList)] [] '\n' []
      (by decide) (by decide) (by decide) (by decide) (by decide) (by decide) (by decide)).1
      (by decide)).1,
   (C9_unset_attribute 5
      { loaded ["%unset {a} foo\n".toList] [("a".toList, "1".toList)] with column := 6 }
      "%unset {a} foo\n".toList [(" ".toList, "a".toList)] " ".toList 'f' "oo\n".toList
      (by decide) (by decide) (by decide) (by decide) (by decide) (by decide) (by decide)).2
      (by decide)⟩

theorem attribs_map.value_touch {m : attribs_map} {k : QString}
    (h : (m.find k).isSome = true) : m.touch k = m := by
  simp [attribs_map.touch, h]

theorem ValueToken.text_head {env : attribs_map} {t : ValueToken} (h : t.Valid env) :
    ∃ c r, t.text = c :: r ∧ ¬ isBlank c := by
  cases t with
  | word w =>
    obtain ⟨hne, hw, _⟩ := h
    obtain ⟨a, w', rfl⟩ := List.exists_cons_of_ne_nil hne
    refine ⟨a, w', rfl, ?_⟩
    have := isWordChar_ne (hw a (by simp))
    unfold isBlank; tauto
  | meta m => exact ⟨_, _, rfl, by decide⟩
  | pure t => exact ⟨_, _, rfl, by decide⟩
  | ref a => exact ⟨_, _, rfl, by decide⟩

/-- One turn of the loop of `defineAttribute` on a token of the value. -/
theorem defineAttributeStep_token {L : QString} {d : DefVars} {p : SchemaParser}
    {bl : QString} {t : ValueToken} {c : Char} {rest : QString}
    (hl : p.buffer[p.line]? = some L)
    (hd : L.drop p.column = bl ++ t.text ++ c :: rest)
    (hbl : Blanks bl) (ht : t.Valid p.attributes) (hc : isDelim c)
    (hna : d.new_attrib ≠ []) :
    defineAttributeStep L d p =
      .ok { d with value := d.value ++ t.value p.attributes }
        { p with column := p.column + (bl ++ t.text).length } := by
  obtain ⟨c0, r0, htext, hc0⟩ := ValueToken.text_head ht
  have hd0 : L.drop p.column = bl ++ c0 :: (r0 ++ c :: rest) := by
    rw [hd, htext]; simp
  have hig := ignoreBlankChars_of_drop hd0 hbl hc0
  have hd1 : L.drop (p.column + bl.length) = t.text ++ c :: rest :=
    drop_add_of_drop (by simpa using hd)
  have hch : charAt L (p.column + bl.length) = c0 :=
    charAt_of_drop (by rw [hd1, htext]; rfl)
  have hcw : ¬ isWordChar c := fun h => h.1 hc
  unfold defineAttributeStep
  simp only [hig, hch]
  cases t with
  | word w =>
    obtain ⟨hne, hw, hat⟩ := ht
    obtain ⟨a, w', rfl⟩ := List.exists_cons_of_ne_nil hne
    simp only [ValueToken.text, List.cons.injEq] at htext
    obtain ⟨rfl, rfl⟩ := htext
    have hne' := isWordChar_ne (hw a (by simp))
    have hat' : ¬ a = CHR_VALUE_OF := by simpa using hat
    have hgw := getWord_ok (p := { p with column := p.column + bl.length }) (L := L)
      (w := a :: w') (c := c) (r := rest) hl hd1 hw hne hcw
    simp only [hne'.1, hat', hne'.2.2.2.1, hne'.2.2.2.2.2.1, hne'.2.2.2.2.2.2.1,
      hne'.2.2.2.2.2.2.2.1, if_false, hgw, Res.bind, hna, ValueToken.value,
      List.length_append, ValueToken.text]
    simp only [Res.ok.injEq, true_and]
    congr 1; omega
  | meta m =>
    simp only [ValueToken.text, List.cons.injEq] at htext
    obtain ⟨rfl, rfl⟩ := htext
    have hv : (metas.lookup m).isSome = true := ht
    obtain ⟨ch, hch2⟩ := Option.isSome_iff_exists.1 hv
    have hm := metas_lookup hch2
    have hgm := getMetaCharacter_ok (p := { p with column := p.column + bl.length }) (L := L)
      (w := m) (c := c) (r := rest) hl hd1 hm.2 hm.1 hc
    simp only [show ¬ (CHR_INI_METACHAR = CHR_LINE_END) from by decide,
      show ¬ (CHR_INI_METACHAR = CHR_VALUE_OF) from by decide,
      show ¬ (CHR_INI_METACHAR = CHR_INI_CONDITIONAL) from by decide,
      show ¬ (CHR_INI_METACHAR = CHR_INI_ATTRIB) from by decide,
      show ¬ (CHR_INI_METACHAR = CHR_INI_PURETEXT) from by decide,
      if_false, if_true, hgm, Res.bind, translateMetaCharacter, hch2, hna, ValueToken.value,
      Option.map_some', Option.getD_some, List.length_append, ValueToken.text,
      List.length_cons]
    simp only [Res.ok.injEq, true_and]
    congr 1; omega
  | pure tx =>
    simp only [ValueToken.text, List.cons_append, List.cons.injEq] at htext
    obtain ⟨rfl, rfl⟩ := htext
    have hgp := getPureText_ok (p := { p with column := p.column + bl.length }) (L := L)
      (t := tx) (r := c :: rest) hl (by simpa [ValueToken.text] using hd1) ht
    simp only [show ¬ (CHR_INI_PURETEXT = CHR_LINE_END) from by decide,
      show ¬ (CHR_INI_PURETEXT = CHR_VALUE_OF) from by decide,
      show ¬ (CHR_INI_PURETEXT = CHR_INI_CONDITIONAL) from by decide,
      show ¬ (CHR_INI_PURETEXT = CHR_INI_ATTRIB) from by decide,
      if_false, if_true, hgp, Res.bind, hna, ValueToken.value,
      List.length_append, ValueToken.text, List.length_cons, List.length_singleton, List.length_nil]
    simp only [Res.ok.injEq, true_and]
    congr 1; omega
  | ref a =>
    simp only [ValueToken.text, List.cons_append, List.cons.injEq] at htext
    obtain ⟨rfl, rfl⟩ := htext
    obtain ⟨hre, hpres⟩ := ht
    have hga := getAttribute_ok (p := { p with column := p.column + bl.length }) (L := L)
      (n := a) (r := c :: rest) hl (by simpa [ValueToken.text] using hd1) hre
    simp only [show ¬ (CHR_INI_ATTRIB = CHR_LINE_END) from by decide,
      show ¬ (CHR_INI_ATTRIB = CHR_VALUE_OF) from by decide,
      show ¬ (CHR_INI_ATTRIB = CHR_INI_CONDITIONAL) from by decide,
      if_false, if_true, hga, Res.bind, hna, ValueToken.value,
      attribs_map.count_ne_zero hpres, false_and, attribs_map.value_touch hpres,
      List.length_append, ValueToken.text, List.length_cons, List.length_singleton, List.length_nil]
    simp only [Res.ok.injEq, true_and]
    congr 1; omega

theorem isDelim_of_isBlank {c : Char} (h : isBlank c) : isDelim c := by
  unfold isBlank at h; unfold isDelim; tauto

theorem renderTokens_head {env : attribs_map} (toks : List (QString × ValueToken))
    (tail : QString)
    (hv : ∀ t ∈ toks, t.1 ≠ [] ∧ Blanks t.1 ∧ t.2.Valid env)
    (ht : ∃ c r, tail = c :: r ∧ isDelim c) :
    ∃ c r, renderTokens toks ++ tail = c :: r ∧ isDelim c := by
  cases toks with
  | nil => simpa [renderTokens] using ht
  | cons t ts =>
    obtain ⟨bl, tk⟩ := t
    obtain ⟨hne, hbl, _⟩ := hv (bl, tk) (by simp)
    obtain ⟨b, bl', rfl⟩ := List.exists_cons_of_ne_nil hne
    exact ⟨b, bl' ++ (tk.text ++ (renderTokens ts ++ tail)), by simp [renderTokens],
      isDelim_of_isBlank (hbl b (by simp))⟩

theorem defineAttributeLoop_tokens (ln : QString) (toks : List (QString × ValueToken)) :
    ∀ (fuel : Nat) (d : DefVars) (p : SchemaParser) (tail : QString),
      p.buffer[p.line]? = some ln →
      ln.drop p.column = renderTokens toks ++ tail →
      (∃ c r, tail = c :: r ∧ isDelim c) →
      (∀ t ∈ toks, t.1 ≠ [] ∧ Blanks t.1 ∧ t.2.Valid p.attributes) →
      d.new_attrib ≠ [] → d.end_def = false → d.error = false →
      defineAttributeLoop ln (toks.length + fuel) d p =
        defineAttributeLoop ln fuel
          { d with value := d.value ++ tokensValue p.attributes toks }
          { p with column := p.column + (renderTokens toks).length } := by
  induction toks with
  | nil => intro fuel d p tail _ _ _ _ _ _ _; simp [renderTokens, tokensValue]
  | cons t ts ih =>
    intro fuel d p tail hl hd htail hv hna hend herr
    obtain ⟨bl, tk⟩ := t
    obtain ⟨_, hbl, hvalid⟩ := hv (bl, tk) (by simp)
    have hv' : ∀ t ∈ ts, t.1 ≠ [] ∧ Blanks t.1 ∧ t.2.Valid p.attributes :=
      fun t ht => hv t (by simp [ht])
    obtain ⟨c, r, hcr, hc⟩ := renderTokens_head ts tail hv' htail
    have hd1 : ln.drop p.column = bl ++ tk.text ++ c :: r := by
      rw [hd, ← hcr]; simp [renderTokens]
    have hstep := defineAttributeStep_token (d := d) hl hd1 hbl hvalid hc hna
    have hd2 : ln.drop (p.column + (bl ++ tk.text).length) = renderTokens ts ++ tail := by
      rw [hcr]; exact drop_add_of_drop hd1
    have hnext := ih fuel { d with value := d.value ++ tk.value p.attributes }
      { p with column := p.column + (bl ++ tk.text).length } tail hl hd2 htail hv' hna hend herr
    have hcond : ¬ d.end_def = true ∧ ¬ d.error = true := by simp [hend, herr]
    rw [List.length_cons, Nat.add_right_comm, defineAttributeLoop, if_pos hcond, hstep]
    simp only [Res.bind]
    rw [hnext]
    simp only [renderTokens, tokensValue, List.length_append, List.append_assoc]
    congr 2
    omega

/-- The directive `%set {name} tok1 ... tokn` on one line. -/
theorem defineAttribute_tokens (fuel : Nat) (p : SchemaParser) (ln bl0 name : QString)
    (toks : List (QString × ValueToken)) (bl1 rest : QString)
    (hl : p.buffer[p.line]? = some ln)
    (hd : ln.drop p.column =
      bl0 ++ CHR_INI_ATTRIB :: name ++ CHR_END_ATTRIB ::
        (renderTokens toks ++ bl1 ++ CHR_LINE_END :: rest))
    (hbl0 : Blanks bl0) (hname : ATTR_REGEXP.exactMatch name = true)
    (hv : ∀ t ∈ toks, t.1 ≠ [] ∧ Blanks t.1 ∧ t.2.Valid p.attributes)
    (hbl1 : Blanks bl1) (hfuel : toks.length + 3 ≤ fuel) :
    defineAttribute fuel p = .ok ()
      { p with column := p.column +
                 (bl0 ++ CHR_INI_ATTRIB :: name ++ CHR_END_ATTRIB ::
                   (renderTokens toks ++ bl1)).length,
               attributes := p.attributes.assign name (tokensValue p.attributes toks) } := by
  · obtain ⟨n, rfl⟩ : ∃ n, fuel = (toks.length + (n + 2)) + 1 := ⟨fuel - toks.length - 3, by omega⟩
    have hne := (nameChars_of_exactMatch hname).1
    -- the name
    have hd0 : ln.drop p.column = bl0 ++ CHR_INI_ATTRIB ::
        (name ++ CHR_END_ATTRIB :: (renderTokens toks ++ bl1 ++ CHR_LINE_END :: rest)) := by
      simpa using hd
    have hig := ignoreBlankChars_of_drop hd0 hbl0 (by decide)
    have hd1 : ln.drop (p.column + bl0.length) = CHR_INI_ATTRIB :: name ++ CHR_END_ATTRIB ::
        (renderTokens toks ++ bl1 ++ CHR_LINE_END :: rest) := by
      simpa using drop_add_of_drop hd0
    have hch : charAt ln (p.column + bl0.length) = CHR_INI_ATTRIB :=
      charAt_of_drop (by simpa using hd1)
    have hga := getAttribute_ok (p := { p with column := p.column + bl0.length }) (L := ln)
      (n := name) hl hd1 hname
    have hd2 : ln.drop (p.column + bl0.length + (name.length + 2)) =
        renderTokens toks ++ (bl1 ++ CHR_LINE_END :: rest) := by
      have := drop_add_of_drop (L := ln) (c := p.column + bl0.length)
        (a := CHR_INI_ATTRIB :: name ++ [CHR_END_ATTRIB])
        (b := renderTokens toks ++ (bl1 ++ CHR_LINE_END :: rest)) (by simpa using hd1)
      simpa using this
    have htail : ∃ c r, bl1 ++ CHR_LINE_END :: rest = c :: r ∧ isDelim c := by
      cases bl1 with
      | nil => exact ⟨_, _, rfl, Or.inl rfl⟩
      | cons b bl1 => exact ⟨b, _, rfl, isDelim_of_isBlank (hbl1 b (by simp))⟩
    have hloop := defineAttributeLoop_tokens ln toks (n + 2)
      ⟨[], name, false, false, false⟩
      { p with column := p.column + bl0.length + (name.length + 2) }
      (bl1 ++ CHR_LINE_END :: rest) hl hd2 htail hv hne rfl rfl
    -- the end of the line
    have hd3 : ln.drop (p.column + bl0.length + (name.length + 2) + (renderTokens toks).length)
        = bl1 ++ CHR_LINE_END :: rest := drop_add_of_drop hd2
    have hig3 := ignoreBlankChars_of_drop
      (p := { p with column :=
        p.column + bl0.length + (name.length + 2) + (renderTokens toks).length })
      (L := ln) hd3 hbl1 (by decide)
    have hch3 : charAt ln
        (p.column + bl0.length + (name.length + 2) + (renderTokens toks).length + bl1.length)
        = CHR_LINE_END := charAt_of_drop (drop_add_of_drop hd3)
    simp only [defineAttribute, hl]
    rw [defineAttributeLoop]
    simp only [Bool.false_eq_true, not_false_eq_true, and_self, if_true, defineAttributeStep,
      hig, hch, show ¬ (CHR_INI_ATTRIB = CHR_LINE_END) from by decide,
      show ¬ (CHR_INI_ATTRIB = CHR_VALUE_OF) from by decide,
      show ¬ (CHR_INI_ATTRIB = CHR_INI_CONDITIONAL) from by decide, if_false, hga, Res.bind,
      hne]
    rw [hloop, defineAttributeLoop]
    simp only [Bool.false_eq_true, not_false_eq_true, and_self, if_true, defineAttributeStep,
      hig3, hch3, Res.bind, hne, if_false, List.nil_append]
    rw [defineAttributeLoop]
    simp only [not_true_eq_false, false_and, if_false, Res.bind, Bool.false_eq_true,
      not_false_eq_true, if_true, hname]
    simp only [Res.ok.injEq, true_and, List.length_append, List.length_cons]
    congr 1
    omega

/-- C5: on a live, single-line `%set {name} tok1 ... tokn` whose tokens are bare
words, meta characters, pure texts and references to attributes of the
environment, `defineAttribute` leaves the environment as it was except that
`name` is mapped to the concatenation of the values of the tokens; the blanks
add nothing and no other attribute changes. -/
theorem C5_define_attribute (fuel : Nat) (p : SchemaParser) (ln bl0 name : QString)
    (toks : List (QString × ValueToken)) (bl1 rest : QString)
    (hl : p.buffer[p.line]? = some ln)
    (hd : ln.drop p.column =
      bl0 ++ CHR_INI_ATTRIB :: name ++ CHR_END_ATTRIB ::
        (renderTokens toks ++ bl1 ++ CHR_LINE_END :: rest))
    (hbl0 : Blanks bl0) (hname : ATTR_REGEXP.exactMatch name = true)
    (hv : ∀ t ∈ toks, t.1 ≠ [] ∧ Blanks t.1 ∧ t.2.Valid p.attributes)
    (hbl1 : Blanks bl1) (hfuel : toks.length + 3 ≤ fuel) :
    defineAttribute fuel p = .ok ()
      { p with column := p.column +
                 (bl0 ++ CHR_INI_ATTRIB :: name ++ CHR_END_ATTRIB ::
                   (renderTokens toks ++ bl1)).length,
               attributes := p.attributes.assign name (tokensValue p.attributes toks) } ∧
    ∀ k, (p.attributes.assign name (tokensValue p.attributes toks)).find k =
      if k = name then some (tokensValue p.attributes toks) else p.attributes.find k := by
  refine ⟨defineAttribute_tokens fuel p ln bl0 name toks bl1 rest hl hd hbl0 hname hv hbl1 hfuel,
    fun k => ?_⟩
  rw [attribs_map.find_assign]
  by_cases h : k = name
  · subst h; simp
  · have h' : ¬ name = k := fun e => h e.symm
    simp [h, h']

theorem C5_define_attribute_witness :
    defineAttribute 10
        { loaded ["%set {x} foo $sp [a b] {y}\n".toList] [("y".toList, "Y".toList)]
          with column := 4 } =
      .ok ()
        { loaded ["%set {x} foo $sp [a b] {y}\n".toList]
            [("y".toList, "Y".toList), ("x".toList, "foo a bY".toList)]
          with column := 26 } :=
  (C5_define_attribute 10
    { loaded ["%set {x} foo $sp [a b] {y}\n".toList] [("y".toList, "Y".toList)]
      with column := 4 }
    "%set {x} foo $sp [a b] {y}\n".toList " ".toList "x".toList
    [(" ".toList, .word "foo".toList), (" ".toList, .meta "sp".toList),
     (" ".toList, .pure "a b".toList), (" ".toList, .ref "y".toList)] [] []
    (by decide) (by decide) (by decide) (by decide) (by decide) (by decide) (by decide)).1

theorem evaluateExpressionNewline_of_ne {s : ExprVars} {p : SchemaParser}
    (h : charAt s.current_line p.column ≠ CHR_LINE_END) :
    evaluateExpressionNewline s p = (s, p) := by
  simp [evaluateExpressionNewline, h]

/-- One turn of the loop of `evaluateExpression` on a token `%w` other than
`%then`. -/
theorem evaluateExpressionStep_cond {f : Nat} {s : ExprVars} {p : SchemaParser}
    {bl w : QString} {c : Char} {rest : QString}
    (hl : p.buffer[p.line]? = some s.current_line)
    (hd : s.current_line.drop p.column = bl ++ CHR_INI_CONDITIONAL :: w ++ c :: rest)
    (hbl : Blanks bl) (hw : ∀ x ∈ w, ¬ isDelim x) (hne : w ≠ []) (hc : isDelim c)
    (hthen : w ≠ TOKEN_THEN) :
    evaluateExpressionStep f s p =
      .ok { s with prev_cond := s.cond, cond := w,
                   error := decide (w = s.cond ∨ (w = TOKEN_AND ∧ s.cond = TOKEN_OR) ∨
                     (w = TOKEN_OR ∧ s.cond = TOKEN_AND) ∨
                     (s.attrib_count = 0 ∧ (w = TOKEN_AND ∨ w = TOKEN_OR))),
                   and_or_count := if w = TOKEN_OR ∨ w = TOKEN_AND then s.and_or_count + 1
                     else s.and_or_count }
        { p with column := p.column + (bl.length + (w.length + 1)) } := by
  have hd0 : s.current_line.drop p.column = bl ++ CHR_INI_CONDITIONAL :: (w ++ c :: rest) := by
    simpa using hd
  have hig := ignoreBlankChars_of_drop hd0 hbl (by decide)
  have hd1 : s.current_line.drop (p.column + bl.length) = CHR_INI_CONDITIONAL :: w ++ c :: rest :=
    by simpa using drop_add_of_drop hd0
  have hch : charAt s.current_line (p.column + bl.length) = CHR_INI_CONDITIONAL :=
    charAt_of_drop (by simpa using hd1)
  have hnl := evaluateExpressionNewline_of_ne (s := s)
    (p := { p with column := p.column + bl.length }) (by rw [hch]; decide)
  have hgc := getConditional_ok (p := { p with column := p.column + bl.length })
    (L := s.current_line) hl hd1 hw hne hc
  unfold evaluateExpressionStep
  simp only [hig, hnl, hch, if_true, hgc, Res.bind, hthen, if_false]
  by_cases hao : w = TOKEN_OR ∨ w = TOKEN_AND
  · simp only [hao, if_true, Res.ok.injEq, Nat.add_assoc, and_self]
  · simp only [hao, if_false, Res.ok.injEq, Nat.add_assoc, and_self]

/-- One turn of the loop of `evaluateExpression` on the token `%then`. -/
theorem evaluateExpressionStep_then {f : Nat} {s : ExprVars} {p : SchemaParser}
    {bl : QString} {c : Char} {rest : QString}
    (hl : p.buffer[p.line]? = some s.current_line)
    (hd : s.current_line.drop p.column = bl ++ CHR_INI_CONDITIONAL :: TOKEN_THEN ++ c :: rest)
    (hbl : Blanks bl) (hc : isDelim c) :
    evaluateExpressionStep f s p =
      .ok { s with prev_cond := s.cond, cond := TOKEN_THEN, end_eval := true,
                   error := decide (s.cond = TOKEN_NOT ∨ s.attrib_count = 0 ∨
                     s.and_or_count ≠ s.attrib_count - 1) }
        { p with column := p.column + bl.length } := by
  have hd0 : s.current_line.drop p.column =
      bl ++ CHR_INI_CONDITIONAL :: (TOKEN_THEN ++ c :: rest) := by simpa using hd
  have hig := ignoreBlankChars_of_drop hd0 hbl (by decide)
  have hd1 : s.current_line.drop (p.column + bl.length) =
      CHR_INI_CONDITIONAL :: TOKEN_THEN ++ c :: rest := by simpa using drop_add_of_drop hd0
  have hch : charAt s.current_line (p.column + bl.length) = CHR_INI_CONDITIONAL :=
    charAt_of_drop (by simpa using hd1)
  have hnl := evaluateExpressionNewline_of_ne (s := s)
    (p := { p with column := p.column + bl.length }) (by rw [hch]; decide)
  have hgc := getConditional_ok (p := { p with column := p.column + bl.length })
    (L := s.current_line) hl hd1 (by decide) (by decide) hc
  unfold evaluateExpressionStep
  simp only [hig, hnl, hch, if_true, hgc, Res.bind, Res.ok.injEq, true_and]
  congr 1

/-- One turn of the loop of `evaluateExpression` on a reference `{a}` to an
attribute of the environment, in a state where it is no error. -/
theorem evaluateExpressionStep_attrib {f : Nat} {s : ExprVars} {p : SchemaParser}
    {bl a rest : QString}
    (hl : p.buffer[p.line]? = some s.current_line)
    (hd : s.current_line.drop p.column = bl ++ CHR_INI_ATTRIB :: a ++ CHR_END_ATTRIB :: rest)
    (hbl : Blanks bl) (hre : ATTR_REGEXP.exactMatch a = true)
    (hpres : (p.attributes.find a).isSome = true)
    (hok : ¬ ((s.cond ≠ [] ∧ s.cond ≠ TOKEN_OR ∧ s.cond ≠ TOKEN_AND ∧ s.cond ≠ TOKEN_NOT) ∨
      (s.attrib_count > 0 ∧ s.cond = TOKEN_NOT ∧ s.prev_cond = []) ∨
      (s.attrib_count > 0 ∧ s.cond = []))) :
    evaluateExpressionStep f s p =
      .ok { s with error := false, attrib_count := s.attrib_count + 1,
                   expr_is_true := combine s.cond s.prev_cond s.expr_is_true
                     (if s.cond = TOKEN_NOT then decide (p.attributes.value a = [])
                      else !decide (p.attributes.value a = [])),
                   cond := [], prev_cond := [] }
        { p with column := p.column + (bl.length + (a.length + 2)) } := by
  have hd0 : s.current_line.drop p.column =
      bl ++ CHR_INI_ATTRIB :: (a ++ CHR_END_ATTRIB :: rest) := by simpa using hd
  have hig := ignoreBlankChars_of_drop hd0 hbl (by decide)
  have hd1 : s.current_line.drop (p.column + bl.length) =
      CHR_INI_ATTRIB :: a ++ CHR_END_ATTRIB :: rest := by simpa using drop_add_of_drop hd0
  have hch : charAt s.current_line (p.column + bl.length) = CHR_INI_ATTRIB :=
    charAt_of_drop (by simpa using hd1)
  have hnl := evaluateExpressionNewline_of_ne (s := s)
    (p := { p with column := p.column + bl.length }) (by rw [hch]; decide)
  have hga := getAttribute_ok (p := { p with column := p.column + bl.length })
    (L := s.current_line) hl hd1 hre
  unfold evaluateExpressionStep
  simp only [hig, hnl, hch, show ¬ (CHR_INI_ATTRIB = CHR_INI_CONDITIONAL) from by decide,
    if_false, if_true, hga, Res.bind, attribs_map.count_ne_zero hpres, false_and, hok,
    decide_False, Bool.false_eq_true, not_false_eq_true, attribs_map.value_touch hpres,
    Nat.add_assoc]

theorem token_ne :
    TOKEN_NOT ≠ TOKEN_AND ∧ TOKEN_NOT ≠ TOKEN_OR ∧ TOKEN_NOT ≠ [] ∧ TOKEN_NOT ≠ TOKEN_THEN ∧
    TOKEN_AND ≠ TOKEN_OR ∧ TOKEN_AND ≠ TOKEN_NOT ∧ TOKEN_AND ≠ [] ∧ TOKEN_AND ≠ TOKEN_THEN ∧
    TOKEN_OR ≠ TOKEN_AND ∧ TOKEN_OR ≠ TOKEN_NOT ∧ TOKEN_OR ≠ [] ∧ TOKEN_OR ≠ TOKEN_THEN ∧
    [] ≠ TOKEN_AND ∧ [] ≠ TOKEN_OR ∧ [] ≠ TOKEN_NOT ∧ [] ≠ TOKEN_THEN ∧
    TOKEN_THEN ≠ TOKEN_AND ∧ TOKEN_THEN ≠ TOKEN_OR ∧ TOKEN_THEN ≠ TOKEN_NOT ∧
    TOKEN_THEN ≠ [] := by decide

theorem combine_nil (e v : Bool) : combine [] [] e v = v := by
  simp [combine, show ¬ ([] = TOKEN_AND) from by decide, show ¬ ([] = TOKEN_OR) from by decide]

theorem combine_op (op : BinOp) (e v : Bool) : combine op.token [] e v = op.apply e v := by
  cases op <;>
    simp [combine, BinOp.token, BinOp.apply, show ¬ (TOKEN_OR = TOKEN_AND) from by decide,
      show ¬ ([] = TOKEN_AND) from by decide]

theorem combine_not_nil (e v : Bool) : combine TOKEN_NOT [] e v = v := by
  simp [combine, show ¬ (TOKEN_NOT = TOKEN_AND) from by decide,
    show ¬ (TOKEN_NOT = TOKEN_OR) from by decide, show ¬ ([] = TOKEN_AND) from by decide,
    show ¬ ([] = TOKEN_OR) from by decide]

theorem combine_not_op (op : BinOp) (e v : Bool) :
    combine TOKEN_NOT op.token e v = op.apply e v := by
  cases op <;>
    simp [combine, BinOp.token, BinOp.apply, show ¬ (TOKEN_NOT = TOKEN_AND) from by decide,
      show ¬ (TOKEN_NOT = TOKEN_OR) from by decide, show ¬ (TOKEN_OR = TOKEN_AND) from by decide]

theorem evaluateExpressionLoop_term (cf : Nat) (t : CondTerm) (fuel : Nat) (s : ExprVars)
    (p : SchemaParser) (tail : QString) (pend : Option BinOp)
    (hl : p.buffer[p.line]? = some s.current_line)
    (hd : s.current_line.drop p.column = t.text ++ tail)
    (hv : t.Valid p.attributes)
    (hprev : s.prev_cond = []) (hcond : s.cond = pendingOp pend)
    (hcount : pend = none → s.attrib_count = 0)
    (herr : s.error = false) (hend : s.end_eval = false) :
    evaluateExpressionLoop cf (t.steps + fuel) s p =
      evaluateExpressionLoop cf fuel
        { s with cond := [], prev_cond := [], attrib_count := s.attrib_count + 1,
                 expr_is_true := applyPending pend s.expr_is_true (t.eval p.attributes) }
        { p with column := p.column + t.text.length } := by
  obtain ⟨cl, cond, prev, err, endv, e, ac, aoc⟩ := s
  obtain ⟨pre, neg, gap, attr⟩ := t
  obtain ⟨hpre, hgap, hre, hpres⟩ := hv
  simp only at hl hd hprev hcond hcount herr hend hpre hgap hre hpres
  subst hprev hcond herr hend
  cases neg with
  | false =>
    have hd1 : cl.drop p.column = pre ++ CHR_INI_ATTRIB :: attr ++ CHR_END_ATTRIB :: tail := by
      simpa [CondTerm.text] using hd
    have hok : ¬ ((pendingOp pend ≠ [] ∧ pendingOp pend ≠ TOKEN_OR ∧
        pendingOp pend ≠ TOKEN_AND ∧ pendingOp pend ≠ TOKEN_NOT) ∨
        (ac > 0 ∧ pendingOp pend = TOKEN_NOT ∧ ([] : QString) = []) ∨
        (ac > 0 ∧ pendingOp pend = [])) := by
      cases pend with
      | none => have := hcount rfl; subst this; simp [pendingOp]
      | some op => cases op <;> simp [pendingOp, BinOp.token, token_ne]
    have hstep := evaluateExpressionStep_attrib (f := cf)
      (s := ⟨cl, pendingOp pend, [], false, false, e, ac, aoc⟩) hl hd1 hpre hre hpres hok
    have hnot : ¬ pendingOp pend = TOKEN_NOT := by
      cases pend with
      | none => decide
      | some op => cases op <;> decide
    have hcomb : combine (pendingOp pend) [] e (!decide (p.attributes.value attr = [])) =
        applyPending pend e (!decide (p.attributes.value attr = [])) := by
      cases pend with
      | none => exact combine_nil _ _
      | some op => exact combine_op op _ _
    simp only [CondTerm.steps, Bool.false_eq_true, if_false]
    rw [Nat.add_comm, evaluateExpressionLoop]
    simp only [Bool.false_eq_true, not_false_eq_true, and_self, if_true, hstep, Res.bind, hnot,
      if_false, hcomb, CondTerm.eval, CondTerm.text, List.length_append, List.length_cons,
      List.length_nil, List.append_nil, Nat.zero_add]
    congr 2
  | true =>
    obtain ⟨hgne, hgbl⟩ := hgap rfl
    obtain ⟨g, gap', rfl⟩ := List.exists_cons_of_ne_nil hgne
    have hd1 : cl.drop p.column = pre ++ CHR_INI_CONDITIONAL :: TOKEN_NOT ++ g ::
        (gap' ++ CHR_INI_ATTRIB :: attr ++ CHR_END_ATTRIB :: tail) := by
      simpa [CondTerm.text] using hd
    have hstep1 := evaluateExpressionStep_cond (f := cf)
      (s := ⟨cl, pendingOp pend, [], false, false, e, ac, aoc⟩) hl hd1 hpre (by decide)
      (by decide) (isDelim_of_isBlank (hgbl g (by simp))) (by decide)
    have herr1 : decide (TOKEN_NOT = pendingOp pend ∨
        (TOKEN_NOT = TOKEN_AND ∧ pendingOp pend = TOKEN_OR) ∨
        (TOKEN_NOT = TOKEN_OR ∧ pendingOp pend = TOKEN_AND) ∨
        (ac = 0 ∧ (TOKEN_NOT = TOKEN_AND ∨ TOKEN_NOT = TOKEN_OR))) = false := by
      cases pend with
      | none => simp [pendingOp, token_ne]
      | some op => cases op <;> simp [pendingOp, BinOp.token, token_ne]
    have hd2 : cl.drop (p.column + (pre.length + (TOKEN_NOT.length + 1))) =
        (g :: gap') ++ CHR_INI_ATTRIB :: attr ++ CHR_END_ATTRIB :: tail := by
      have := drop_add_of_drop (L := cl) (c := p.column)
        (a := pre ++ CHR_INI_CONDITIONAL :: TOKEN_NOT)
        (b := (g :: gap') ++ CHR_INI_ATTRIB :: attr ++ CHR_END_ATTRIB :: tail)
        (by simpa using hd1)
      simpa using this
    have hok : ¬ ((TOKEN_NOT ≠ [] ∧ TOKEN_NOT ≠ TOKEN_OR ∧
        TOKEN_NOT ≠ TOKEN_AND ∧ TOKEN_NOT ≠ TOKEN_NOT) ∨
        (ac > 0 ∧ TOKEN_NOT = TOKEN_NOT ∧ pendingOp pend = []) ∨
        (ac > 0 ∧ TOKEN_NOT = [])) := by
      cases pend with
      | none => have := hcount rfl; subst this; simp [pendingOp, token_ne]
      | some op => cases op <;> simp [pendingOp, BinOp.token, token_ne]
    have hstep2 := evaluateExpressionStep_attrib (f := cf)
      (s := ⟨cl, TOKEN_NOT, pendingOp pend, false, false, e, ac, aoc⟩)
      (p := { p with column := p.column + (pre.length + (TOKEN_NOT.length + 1)) })
      hl hd2 hgbl hre hpres hok
    have hcomb : combine TOKEN_NOT (pendingOp pend) e (decide (p.attributes.value attr = [])) =
        applyPending pend e (decide (p.attributes.value attr = [])) := by
      cases pend with
      | none => exact combine_not_nil _ _
      | some op => exact combine_not_op op _ _
    simp only [CondTerm.steps, if_true]
    rw [show 2 + fuel = (fuel + 1) + 1 from by omega, evaluateExpressionLoop]
    simp only [Bool.false_eq_true, not_false_eq_true, and_self, if_true, hstep1, Res.bind,
      herr1, show ¬ (TOKEN_NOT = TOKEN_OR ∨ TOKEN_NOT = TOKEN_AND) from by decide, if_false]
    rw [evaluateExpressionLoop]
    simp only [Bool.false_eq_true, not_false_eq_true, and_self, if_true, hstep2, Res.bind,
      hcomb, CondTerm.eval, CondTerm.text, List.length_append, List.length_cons,
      List.length_nil]
    have : TOKEN_NOT.length = 3 := rfl
    congr 2; omega

theorem CondTerm.steps_le (t : CondTerm) : t.steps ≤ 2 := by
  unfold CondTerm.steps; split <;> omega

theorem tailSteps_le (tail : List (QString × BinOp × CondTerm)) :
    tailSteps tail ≤ 3 * tail.length := by
  induction tail with
  | nil => simp [tailSteps]
  | cons x xs ih =>
    obtain ⟨bl, op, t⟩ := x
    have := t.steps_le
    simp only [tailSteps, List.length_cons]
    omega

theorem evaluateExpressionLoop_tail (cf : Nat) (tail : List (QString × BinOp × CondTerm)) :
    ∀ (fuel : Nat) (s : ExprVars) (p : SchemaParser) (rest : QString),
      p.buffer[p.line]? = some s.current_line →
      s.current_line.drop p.column = renderTail tail ++ rest →
      (∀ x ∈ tail, Blanks x.1 ∧ x.2.2.pre ≠ [] ∧ x.2.2.Valid p.attributes) →
      s.cond = [] → s.prev_cond = [] → 0 < s.attrib_count →
      s.error = false → s.end_eval = false →
      evaluateExpressionLoop cf (tailSteps tail + fuel) s p =
        evaluateExpressionLoop cf fuel
          { s with expr_is_true := evalTail p.attributes s.expr_is_true tail,
                   attrib_count := s.attrib_count + tail.length,
                   and_or_count := s.and_or_count + tail.length }
          { p with column := p.column + (renderTail tail).length } := by
  induction tail with
  | nil => intro fuel s p rest _ _ _ _ _ _ _ _; simp [tailSteps, renderTail, evalTail]
  | cons x xs ih =>
    intro fuel s p rest hl hd hv hcond hprev hcount herr hend
    obtain ⟨bl, op, t⟩ := x
    obtain ⟨cl, cond, prev, err, endv, e, ac, aoc⟩ := s
    simp only at hl hd hcond hprev hcount herr hend
    subst hcond hprev herr hend
    obtain ⟨hbl, hpne, hvt⟩ := hv (bl, op, t) (by simp)
    have hv' : ∀ x ∈ xs, Blanks x.1 ∧ x.2.2.pre ≠ [] ∧ x.2.2.Valid p.attributes :=
      fun x hx => hv x (by simp [hx])
    obtain ⟨pre, neg, gap, attr⟩ := t
    simp only at hpne
    obtain ⟨b, pre', rfl⟩ := List.exists_cons_of_ne_nil hpne
    have hbb : isBlank b := hvt.1 b (by simp)
    -- the operator
    have hd1 : cl.drop p.column = bl ++ CHR_INI_CONDITIONAL :: op.token ++ b ::
        (pre' ++ ((if neg = true then CHR_INI_CONDITIONAL :: TOKEN_NOT ++ gap else []) ++
          CHR_INI_ATTRIB :: attr ++ [CHR_END_ATTRIB]) ++ (renderTail xs ++ rest)) := by
      simpa [renderTail, CondTerm.text] using hd
    have hstep1 := evaluateExpressionStep_cond (f := cf)
      (s := ⟨cl, [], [], false, false, e, ac, aoc⟩) hl hd1 hbl
      (by cases op <;> decide) (by cases op <;> decide) (isDelim_of_isBlank hbb)
      (by cases op <;> decide)
    have hac : ¬ ac = 0 := by omega
    have herr1 : decide (op.token = [] ∨ (op.token = TOKEN_AND ∧ ([] : QString) = TOKEN_OR) ∨
        (op.token = TOKEN_OR ∧ ([] : QString) = TOKEN_AND) ∨
        (ac = 0 ∧ (op.token = TOKEN_AND ∨ op.token = TOKEN_OR))) = false := by
      cases op <;> simp [BinOp.token, token_ne, hac]
    have hao : op.token = TOKEN_OR ∨ op.token = TOKEN_AND := by
      cases op
      · exact Or.inr rfl
      · exact Or.inl rfl
    -- the operand
    have hd2 : cl.drop (p.column + (bl.length + (op.token.length + 1))) =
        CondTerm.text ⟨b :: pre', neg, gap, attr⟩ ++ (renderTail xs ++ rest) := by
      have := drop_add_of_drop (L := cl) (c := p.column)
        (a := bl ++ CHR_INI_CONDITIONAL :: op.token)
        (b := CondTerm.text ⟨b :: pre', neg, gap, attr⟩ ++ (renderTail xs ++ rest))
        (by simpa [renderTail] using hd)
      simpa using this
    have hterm := evaluateExpressionLoop_term cf ⟨b :: pre', neg, gap, attr⟩
      (tailSteps xs + fuel) ⟨cl, op.token, [], false, false, e, ac, aoc + 1⟩
      { p with column := p.column + (bl.length + (op.token.length + 1)) }
      (renderTail xs ++ rest) (some op) hl hd2 hvt rfl rfl (by simp) rfl rfl
    -- the other operators and operands
    have hd3 : cl.drop (p.column + (bl.length + (op.token.length + 1)) +
        (CondTerm.text ⟨b :: pre', neg, gap, attr⟩).length) = renderTail xs ++ rest :=
      drop_add_of_drop hd2
    have hrest := ih fuel
      ⟨cl, [], [], false, false,
        applyPending (some op) e (CondTerm.eval p.attributes ⟨b :: pre', neg, gap, attr⟩),
        ac + 1, aoc + 1⟩
      { p with column := p.column + (bl.length + (op.token.length + 1)) +
          (CondTerm.text ⟨b :: pre', neg, gap, attr⟩).length }
      rest hl hd3 hv' rfl rfl (by simp) rfl rfl
    rw [show tailSteps ((bl, op, ⟨b :: pre', neg, gap, attr⟩) :: xs) + fuel =
      (CondTerm.steps ⟨b :: pre', neg, gap, attr⟩ + (tailSteps xs + fuel)) + 1 from by
        simp only [tailSteps]; omega, evaluateExpressionLoop]
    simp only [Bool.false_eq_true, not_false_eq_true, and_self, if_true, hstep1, Res.bind,
      herr1, hao]
    rw [hterm]
    simp only []
    rw [hrest]
    simp only [evalTail, applyPending, renderTail, List.length_cons, List.length_append]
    congr 2 <;> omega

/-- C3: on `t1 op1 t2 ... tn %then`, where every `ti` is `{attr}` or
`%not {attr}` over attributes of the environment and every `opi` is `%and` or
`%or`, `evaluateExpression` returns the fold from left to right of the values of
the operands, without precedence, and leaves the cursor on the `%then`. -/
theorem C3_evaluate_expression (fuel : Nat) (p : SchemaParser) (ln : QString)
    (t1 : CondTerm) (tail : List (QString × BinOp × CondTerm)) (bl : QString) (c : Char)
    (rest : QString)
    (hl : p.buffer[p.line]? = some ln)
    (hd : ln.drop p.column =
      t1.text ++ renderTail tail ++ bl ++ CHR_INI_CONDITIONAL :: TOKEN_THEN ++ c :: rest)
    (hv1 : t1.Valid p.attributes)
    (hvt : ∀ x ∈ tail, Blanks x.1 ∧ x.2.2.pre ≠ [] ∧ x.2.2.Valid p.attributes)
    (hbl : Blanks bl) (hc : isDelim c) (hfuel : 3 * tail.length + 4 ≤ fuel) :
    evaluateExpression fuel p =
      .ok (evalTail p.attributes (t1.eval p.attributes) tail)
        { p with column := p.column + (t1.text ++ renderTail tail ++ bl).length } := by
  have h1 := t1.steps_le
  have h2 := tailSteps_le tail
  obtain ⟨k, hk⟩ : ∃ k, fuel = t1.steps + (tailSteps tail + (k + 2)) :=
    ⟨fuel - t1.steps - tailSteps tail - 2, by omega⟩
  have hd1 : ln.drop p.column = t1.text ++
      (renderTail tail ++ (bl ++ CHR_INI_CONDITIONAL :: TOKEN_THEN ++ c :: rest)) := by
    simpa using hd
  have hterm := evaluateExpressionLoop_term fuel t1 (tailSteps tail + (k + 2))
    ⟨ln, [], [], false, false, true, 0, 0⟩ p _ none hl hd1 hv1 rfl rfl (fun _ => rfl) rfl rfl
  have hd2 : ln.drop (p.column + t1.text.length) =
      renderTail tail ++ (bl ++ CHR_INI_CONDITIONAL :: TOKEN_THEN ++ c :: rest) :=
    drop_add_of_drop hd1
  have htail := evaluateExpressionLoop_tail fuel tail (k + 2)
    ⟨ln, [], [], false, false, applyPending none true (t1.eval p.attributes), 0 + 1, 0⟩
    { p with column := p.column + t1.text.length } _ hl hd2 hvt rfl rfl (by simp) rfl rfl
  have hd3 : ln.drop (p.column + t1.text.length + (renderTail tail).length) =
      bl ++ CHR_INI_CONDITIONAL :: TOKEN_THEN ++ c :: rest := drop_add_of_drop hd2
  have hthen := evaluateExpressionStep_then (f := fuel)
    (s := ⟨ln, [], [], false, false,
      evalTail p.attributes (applyPending none true (t1.eval p.attributes)) tail,
      0 + 1 + tail.length, 0 + tail.length⟩)
    (p := { p with column := p.column + t1.text.length + (renderTail tail).length })
    hl hd3 hbl hc
  simp only [evaluateExpression, hl]
  conv => lhs; arg 1; arg 2; rw [hk]
  rw [hterm]
  simp only []
  rw [htail]
  simp only []
  rw [evaluateExpressionLoop]
  simp only [Bool.false_eq_true, not_false_eq_true, and_self, if_true, hthen, Res.bind]
  rw [evaluateExpressionLoop]
  simp only [not_true_eq_false, false_and, if_false, Res.bind, token_ne, false_or,
    Nat.zero_add, Nat.add_sub_cancel_left, ne_eq, not_true_eq_false, decide_False,
    Nat.add_eq_zero, one_ne_zero, false_and, Bool.false_eq_true, applyPending,
    List.length_append, Res.ok.injEq, true_and, Nat.add_assoc]

theorem C3_evaluate_expression_witness :
    evaluateExpression 10
        { loaded ["%if {a} %or {b} %and %not {c} %then\n".toList]
            [("a".toList, "1".toList), ("b".toList, []), ("c".toList, "x".toList)]
          with column := 3 } =
      .ok false
        { loaded ["%if {a} %or {b} %and %not {c} %then\n".toList]
            [("a".toList, "1".toList), ("b".toList, []), ("c".toList, "x".toList)]
          with column := 30 } :=
  C3_evaluate_expression 10
    { loaded ["%if {a} %or {b} %and %not {c} %then\n".toList]
        [("a".toList, "1".toList), ("b".toList, []), ("c".toList, "x".toList)]
      with column := 3 }
    "%if {a} %or {b} %and %not {c} %then\n".toList
    ⟨" ".toList, false, [], "a".toList⟩
    [(" ".toList, .or, ⟨" ".toList, false, [], "b".toList⟩),
     (" ".toList, .and, ⟨" ".toList, true, " ".toList, "c".toList⟩)]
    " ".toList '\n' []
    (by decide) (by decide) (by decide) (by decide) (by decide) (by decide) (by decide)

theorem split_at_line_end (tok : QString) :
    ∀ (x y : QString) (c : Char) (rest : QString),
      x ++ CHR_LINE_END :: y = tok ++ c :: rest → CHR_LINE_END ∉ tok →
      ∃ z, x ++ [CHR_LINE_END] = tok ++ c :: z ∧ rest = z ++ y := by
  induction tok with
  | nil =>
    intro x y c rest h _
    cases x with
    | nil =>
      simp only [List.nil_append, List.cons.injEq] at h
      exact ⟨[], by simp [h.1], by simp [h.2]⟩
    | cons a x =>
      simp only [List.cons_append, List.nil_append, List.cons.injEq] at h
      exact ⟨x ++ [CHR_LINE_END], by simp [h.1], by simp [← h.2]⟩
  | cons t tok ih =>
    intro x y c rest h hn
    cases x with
    | nil =>
      simp only [List.nil_append, List.cons_append, List.cons.injEq] at h
      exact absurd (by simp [h.1]) hn
    | cons a x =>
      simp only [List.cons_append, List.cons.injEq] at h
      obtain ⟨z, hz1, hz2⟩ := ih x y c rest h.2 (fun hm => hn (by simp [hm]))
      exact ⟨z, by simp [h.1, hz1], hz2⟩

theorem drop_of_loaded {L body : QString} {c : Nat} (hL : L = body ++ [CHR_LINE_END])
    (hc : c < L.length) : L.drop c = body.drop c ++ [CHR_LINE_END] := by
  subst hL
  have : c ≤ body.length := by simp at hc; omega
  rw [List.drop_append_of_le_length this]

/-- A token that holds no line end and is followed by a character lies on the
current line. -/
theorem AtCursor.token {p : SchemaParser} {tok : QString} {c : Char} {rest : QString}
    (hwf : LoadedBuffer p.buffer) (h : AtCursor p (tok ++ c :: rest))
    (hn : CHR_LINE_END ∉ tok) :
    ∃ L z, p.buffer[p.line]? = some L ∧ L.drop p.column = tok ++ c :: z ∧
      ∀ q : SchemaParser, q.buffer = p.buffer → q.line = p.line →
        q.column = p.column + tok.length → AtCursor q (c :: rest) := by
  obtain ⟨L, hl, hc, hs⟩ := h
  obtain ⟨body, hL, hb⟩ := hwf L (List.getElem?_mem hl)
  have hd := drop_of_loaded hL hc
  have hb' : CHR_LINE_END ∉ body.drop p.column := fun hm => hb (List.mem_of_mem_drop hm)
  rw [hd] at hs
  have hs' : body.drop p.column ++ CHR_LINE_END :: (p.buffer.drop (p.line + 1)).flatten =
      tok ++ c :: rest := by simpa using hs.symm
  obtain ⟨z, hz1, hz2⟩ := split_at_line_end tok _ _ c rest hs' hn
  refine ⟨L, z, hl, by rw [hd, hz1], ?_⟩
  intro q hqb hql hqc
  have hdz : L.drop (p.column + tok.length) = c :: z :=
    drop_add_of_drop (by rw [hd, hz1])
  refine ⟨L, by rw [hqb, hql]; exact hl, ?_, ?_⟩
  · rw [hqc]
    by_contra hge
    rw [List.drop_eq_nil_of_le (by omega)] at hdz
    exact List.noConfusion hdz
  · rw [hqb, hql, hqc, hdz, hz2]; simp

theorem AtCursor.ne_nil {p : SchemaParser} {s : QString} (h : AtCursor p s) : s ≠ [] := by
  obtain ⟨L, _, hc, hs⟩ := h
  intro hn
  rw [hn] at hs
  have hd : L.drop p.column = [] := (List.append_eq_nil.1 hs.symm).1
  have hlen := congrArg List.length hd
  simp only [List.length_drop, List.length_nil] at hlen
  omega

theorem Stream.atCursor {p : SchemaParser} {s : QString} (h : Stream p s) (hs : s ≠ []) :
    AtCursor p s := by
  rcases h with ⟨h1, _⟩ | h
  · exact absurd h1 hs
  · exact h

theorem flatten_loaded_end (ls : List QString) (hwf : LoadedBuffer ls) (hne : ls ≠ []) :
    ∃ s, ls.flatten = s ++ [CHR_LINE_END] := by
  induction ls with
  | nil => exact absurd rfl hne
  | cons L ls ih =>
    obtain ⟨body, hL, _⟩ := hwf L (by simp)
    cases ls with
    | nil => exact ⟨body, by simp [hL]⟩
    | cons L' ls' =>
      obtain ⟨s, hs⟩ := ih (fun x hx => hwf x (by simp [hx])) (by simp)
      exact ⟨L ++ s, by rw [List.flatten_cons, hs]; simp⟩

/-- What is left of a loaded buffer ends with a line end. -/
theorem AtCursor.ends {p : SchemaParser} {s : QString} (hwf : LoadedBuffer p.buffer)
    (h : AtCursor p s) : ∃ s', s = s' ++ [CHR_LINE_END] := by
  obtain ⟨L, hl, hc, hs⟩ := h
  obtain ⟨body, hL, _⟩ := hwf L (List.getElem?_mem hl)
  have hd := drop_of_loaded hL hc
  by_cases hne : p.buffer.drop (p.line + 1) = []
  · exact ⟨body.drop p.column, by rw [hs, hd, hne]; simp⟩
  · obtain ⟨t, ht⟩ := flatten_loaded_end (p.buffer.drop (p.line + 1))
      (fun x hx => hwf x (List.mem_of_mem_drop hx)) hne
    exact ⟨L.drop p.column ++ t, by rw [hs, ht]; simp⟩

theorem AtCursor.of_same {p q : SchemaParser} {s : QString} (h : AtCursor p s)
    (hb : q.buffer = p.buffer) (hl : q.line = p.line) (hc : q.column = p.column) :
    AtCursor q s := by
  obtain ⟨L, h1, h2, h3⟩ := h
  exact ⟨L, by rw [hb, hl]; exact h1, by rw [hc]; exact h2, by rw [hb, hl, hc]; exact h3⟩

/-- The cursor on a line end: the next line starts what is left. -/
theorem AtCursor.newline {p : SchemaParser} {rest : QString}
    (hwf : LoadedBuffer p.buffer) (h : AtCursor p (CHR_LINE_END :: rest)) :
    ∃ L, p.buffer[p.line]? = some L ∧ charAt L p.column = CHR_LINE_END ∧
      ∀ q : SchemaParser, q.buffer = p.buffer → q.line = p.line + 1 → q.column = 0 →
        Stream q rest := by
  obtain ⟨L, hl, hc, hs⟩ := h
  obtain ⟨body, hL, hb⟩ := hwf L (List.getElem?_mem hl)
  have hd := drop_of_loaded hL hc
  have hbd : body.drop p.column = [] := by
    cases hbd : body.drop p.column with
    | nil => rfl
    | cons a x =>
      rw [hd, hbd] at hs
      simp only [List.cons_append, List.cons.injEq] at hs
      exact absurd (List.mem_of_mem_drop (by rw [hbd, ← hs.1]; simp)) hb
  rw [hd, hbd] at hs
  simp only [List.nil_append, List.singleton_append, List.cons.injEq, true_and] at hs
  refine ⟨L, hl, charAt_of_drop (by rw [hd, hbd]; rfl), ?_⟩
  intro q hqb hql hqc
  cases hdrop : p.buffer.drop (p.line + 1) with
  | nil =>
    left
    refine ⟨by rw [hs, hdrop]; rfl, ?_⟩
    rw [hqb, hql]
    have := List.drop_eq_nil_iff.1 hdrop
    exact List.getElem?_eq_none this
  | cons L' more =>
    right
    have hl' : p.buffer[p.line + 1]? = some L' := by
      have := congrArg List.head? hdrop
      simpa [List.head?_drop] using this
    obtain ⟨body', hL', _⟩ := hwf L' (List.getElem?_mem hl')
    refine ⟨L', by rw [hqb, hql]; exact hl', by rw [hqc, hL']; simp, ?_⟩
    rw [hqb, hql, hqc, hs, hdrop]
    have : p.buffer.drop (p.line + 1 + 1) = more := by
      have := congrArg (List.drop 1) hdrop
      simpa [List.drop_drop, Nat.add_comm] using this
    rw [this]; simp

theorem getCodeDefinitionLoop_step {sf fuel : Nat} {l l' : Locals} {p q : SchemaParser}
    {L : QString} (hl : p.buffer[p.line]? = some L)
    (hs : getCodeDefinitionStep sf L l p = .ok l' q) :
    getCodeDefinitionLoop sf (fuel + 1) l p = getCodeDefinitionLoop sf fuel l' q := by
  rw [getCodeDefinitionLoop]
  simp only [hl, hs, Res.bind]

/-- A run of blanks met by the loop of `getCodeDefinition` is skipped. -/
theorem run_blanks {p : SchemaParser} {bl : QString} {c : Char} {rest : QString}
    (hwf : LoadedBuffer p.buffer) (h : AtCursor p (bl ++ c :: rest))
    (hne : bl ≠ []) (hbl : Blanks bl) (hc : ¬ isBlank c) :
    AtCursor { p with column := p.column + bl.length } (c :: rest) ∧
    ∀ (sf fuel : Nat) (l : Locals),
      getCodeDefinitionLoop sf (fuel + 1) l p =
        getCodeDefinitionLoop sf fuel l { p with column := p.column + bl.length } := by
  have hnl : CHR_LINE_END ∉ bl := fun hm => by
    have := hbl _ hm
    revert this; unfold isBlank; decide
  obtain ⟨L, z, hl, hd, hq⟩ := AtCursor.token hwf h hnl
  refine ⟨hq _ rfl rfl rfl, fun sf fuel l => getCodeDefinitionLoop_step hl ?_⟩
  obtain ⟨b, bl', rfl⟩ := List.exists_cons_of_ne_nil hne
  have hb : isBlank b := hbl b (by simp)
  have hch : charAt L p.column = b := charAt_of_drop (by rw [hd]; rfl)
  have hb1 : ¬ b = CHR_LINE_END := by
    rintro rfl; revert hb; unfold isBlank; decide
  have hb2 : b = CHR_TABULATION ∨ b = CHR_SPACE := by
    unfold isBlank at hb; tauto
  unfold getCodeDefinitionStep
  simp only [hch, hb1, if_false, hb2, if_true, ignoreBlankChars_of_drop hd hbl hc]

/-- A line end met by the loop of `getCodeDefinition` takes it to the next line. -/
theorem run_newline {p : SchemaParser} {rest : QString}
    (hwf : LoadedBuffer p.buffer) (h : AtCursor p (CHR_LINE_END :: rest)) :
    Stream { p with line := p.line + 1, column := 0 } rest ∧
    ∀ (sf fuel : Nat) (l : Locals),
      getCodeDefinitionLoop sf (fuel + 1) l p =
        getCodeDefinitionLoop sf fuel l { p with line := p.line + 1, column := 0 } := by
  obtain ⟨L, hl, hch, hq⟩ := AtCursor.newline hwf h
  refine ⟨hq _ rfl rfl rfl, fun sf fuel l => getCodeDefinitionLoop_step hl ?_⟩
  unfold getCodeDefinitionStep
  simp only [hch, if_true]

theorem SameButCursor.refl (p : SchemaParser) : SameButCursor p p := rfl

theorem SameButCursor.trans {p q r : SchemaParser} (h1 : SameButCursor p q)
    (h2 : SameButCursor q r) : SameButCursor p r := by
  unfold SameButCursor at *
  rw [h2, h1]

theorem SameButCursor.column (p : SchemaParser) (c : Nat) :
    SameButCursor p { p with column := c } := rfl

theorem SameButCursor.position (p : SchemaParser) (n c : Nat) :
    SameButCursor p { p with line := n, column := c } := rfl

theorem SameButCursor.buffer {p q : SchemaParser} (h : SameButCursor p q) :
    q.buffer = p.buffer := by rw [h]

theorem SameButCursor.attributes {p q : SchemaParser} (h : SameButCursor p q) :
    q.attributes = p.attributes := by rw [h]

theorem SameButCursor.ignore_empty {p q : SchemaParser} (h : SameButCursor p q) :
    q.ignore_empty_atribs = p.ignore_empty_atribs := by rw [h]

theorem SameButCursor.ignore_unk {p q : SchemaParser} (h : SameButCursor p q) :
    q.ignore_unk_atribs = p.ignore_unk_atribs := by rw [h]

theorem takeWhile_blank_blanks (ws : QString) :
    Blanks (ws.takeWhile fun c => decide (isBlank c)) := by
  intro c hc
  have := List.mem_takeWhile_imp hc
  simpa using this

theorem dropWhile_blank_head (ws : QString) (c : Char) (r : QString)
    (h : (ws.dropWhile fun c => decide (isBlank c)) = c :: r) : ¬ isBlank c := by
  have := List.head_dropWhile_not (fun c => decide (isBlank c)) ws
  intro hb
  simp only [h] at this
  have h2 := this (by simp)
  simp [hb] at h2

/-- A run of blanks and line ends met by the loop of `getCodeDefinition` is
skipped, in at most as many turns as it has characters. -/
theorem run_white (n : Nat) : ∀ (ws : QString) (p : SchemaParser) (rest : QString),
    ws.length ≤ n → LoadedBuffer p.buffer → Stream p (ws ++ rest) → White ws →
    (rest = [] ∨ ∃ c r, rest = c :: r ∧ ¬ isDelim c) →
    ∃ (k : Nat) (q : SchemaParser), k ≤ ws.length ∧ SameButCursor p q ∧ Stream q rest ∧
      ∀ (sf fuel : Nat) (l : Locals),
        getCodeDefinitionLoop sf (k + fuel) l p = getCodeDefinitionLoop sf fuel l q := by
  induction n with
  | zero =>
    intro ws p rest hlen _ hs _ _
    have : ws = [] := List.length_eq_zero.1 (by omega)
    subst this
    exact ⟨0, p, by simp, SameButCursor.refl p, by simpa using hs, fun sf fuel l => by simp⟩
  | succ n ih =>
    intro ws p rest hlen hwf hs hw hrest
    cases ws with
    | nil =>
      exact ⟨0, p, by simp, SameButCursor.refl p, by simpa using hs, fun sf fuel l => by simp⟩
    | cons c ws' =>
      have hat : AtCursor p (c :: (ws' ++ rest)) := Stream.atCursor hs (by simp)
      have hw' : White ws' := fun x hx => hw x (by simp [hx])
      by_cases hcb : isBlank c
      · -- a run of blanks
        have hsplit : c :: ws' = (c :: ws'.takeWhile fun c => decide (isBlank c)) ++
            ws'.dropWhile fun c => decide (isBlank c) := by
          simp [List.takeWhile_append_dropWhile]
        have hbl : Blanks (c :: ws'.takeWhile fun c => decide (isBlank c)) := by
          intro x hx
          rcases List.mem_cons.1 hx with rfl | hx
          · exact hcb
          · exact takeWhile_blank_blanks ws' x hx
        have hnext : ∃ d r, (ws'.dropWhile fun c => decide (isBlank c)) ++ rest = d :: r ∧
            ¬ isBlank d := by
          cases hdw : ws'.dropWhile fun c => decide (isBlank c) with
          | cons d r => exact ⟨d, r ++ rest, rfl, dropWhile_blank_head ws' d r hdw⟩
          | nil =>
            rcases hrest with rfl | ⟨d, r, rfl, hd⟩
            · exfalso
              obtain ⟨s', hs'⟩ := AtCursor.ends hwf hat
              have hall : ws' = ws'.takeWhile fun c => decide (isBlank c) := by
                have := List.takeWhile_append_dropWhile (fun c => decide (isBlank c)) ws'
                rw [hdw, List.append_nil] at this
                exact this.symm
              have hmem : CHR_LINE_END ∈ c :: ws'.takeWhile fun c => decide (isBlank c) := by
                rw [← hall]
                have : c :: (ws' ++ []) = s' ++ [CHR_LINE_END] := hs'
                rw [List.append_nil] at this
                rw [this]; simp
              have := hbl _ hmem
              revert this; unfold isBlank; decide
            · exact ⟨d, r, rfl, fun hb => hd (isDelim_of_isBlank hb)⟩
        obtain ⟨d, r, hdr, hd⟩ := hnext
        have hat2 : AtCursor p ((c :: ws'.takeWhile fun c => decide (isBlank c)) ++ d :: r) := by
          have : c :: (ws' ++ rest) =
              (c :: ws'.takeWhile fun c => decide (isBlank c)) ++ d :: r := by
            rw [← hdr, ← List.append_assoc, ← hsplit]; rfl
          rw [← this]; exact hat
        obtain ⟨hq, hrun⟩ := run_blanks hwf hat2 (by simp) hbl hd
        have hlen2 : (ws'.dropWhile fun c => decide (isBlank c)).length ≤ n := by
          have := (List.dropWhile_sublist (l := ws') (fun c => decide (isBlank c))).length_le
          simp only [List.length_cons] at hlen
          omega
        obtain ⟨k, q, hk, hsame, hstream, hloop⟩ := ih
          (ws'.dropWhile fun c => decide (isBlank c))
          { p with column := p.column + (c :: ws'.takeWhile fun c => decide (isBlank c)).length }
          rest hlen2 hwf (Or.inr (by rw [hdr]; exact hq))
          (fun x hx => hw' x (List.dropWhile_subset _ hx)) hrest
        refine ⟨k + 1, q, ?_, (SameButCursor.column p _).trans hsame, hstream, ?_⟩
        · have := (List.dropWhile_sublist (l := ws') (fun c => decide (isBlank c))).length_le
          simp only [List.length_cons]
          omega
        · intro sf fuel l
          rw [show k + 1 + fuel = (k + fuel) + 1 from by omega, hrun, hloop]
      · -- a line end
        have hc : c = CHR_LINE_END := by
          have := hw c (by simp)
          unfold isDelim at this; unfold isBlank at hcb; tauto
        subst hc
        obtain ⟨hq, hrun⟩ := run_newline hwf hat
        obtain ⟨k, q, hk, hsame, hstream, hloop⟩ := ih ws'
          { p with line := p.line + 1, column := 0 } rest
          (by simp only [List.length_cons] at hlen; omega) hwf hq hw' hrest
        refine ⟨k + 1, q, by simp only [List.length_cons]; omega,
          (SameButCursor.position p _ _).trans hsame, hstream, ?_⟩
        intro sf fuel l
        rw [show k + 1 + fuel = (k + fuel) + 1 from by omega, hrun, hloop]

theorem split_at_close (x : QString) :
    ∀ (later t rest : QString),
      x ++ CHR_LINE_END :: later = t ++ CHR_END_PURETEXT :: rest →
      (∃ z, x = t ++ CHR_END_PURETEXT :: z ∧ rest = z ++ CHR_LINE_END :: later) ∨
      (∃ t', t = x ++ CHR_LINE_END :: t' ∧ later = t' ++ CHR_END_PURETEXT :: rest) := by
  induction x with
  | nil =>
    intro later t rest h
    cases t with
    | nil =>
      simp only [List.nil_append, List.cons.injEq] at h
      exact absurd h.1 (by decide)
    | cons a t =>
      simp only [List.nil_append, List.cons_append, List.cons.injEq] at h
      exact Or.inr ⟨t, by simp [h.1], h.2⟩
  | cons b x ih =>
    intro later t rest h
    cases t with
    | nil =>
      simp only [List.nil_append, List.cons_append, List.cons.injEq] at h
      exact Or.inl ⟨x, by simp [h.1], h.2.symm⟩
    | cons a t =>
      simp only [List.cons_append, List.cons.injEq] at h
      rcases ih later t rest h.2 with ⟨z, hz1, hz2⟩ | ⟨t', ht1, ht2⟩
      · exact Or.inl ⟨z, by simp [h.1, hz1], hz2⟩
      · exact Or.inr ⟨t', by simp [h.1, ht1], ht2⟩

theorem pureTextLine_line (x y : QString)
    (hx : ∀ c ∈ x, c ≠ CHR_INI_PURETEXT ∧ c ≠ CHR_END_PURETEXT ∧ c ≠ CHR_LINE_END) :
    pureTextLine (x ++ CHR_LINE_END :: y) = (x ++ [CHR_LINE_END], x.length, .lineEnd) := by
  induction x with
  | nil =>
    simp only [List.nil_append, pureTextLine]
    rw [if_neg (by decide), if_neg (by decide)]
    simp
  | cons a x ih =>
    obtain ⟨h1, h2, h3⟩ := hx a (by simp)
    rw [List.cons_append, pureTextLine, if_neg h2, if_neg h1, if_neg h3,
      ih (fun c hc => hx c (by simp [hc]))]
    rfl

/-- The loop of `getPureText` on a span that is closed somewhere in the buffer. -/
theorem getPureTextLoop_span :
    ∀ (following : List QString) (cur : QString) (col line : Nat) (t rest : QString),
      LoadedBuffer (cur :: following) → col < cur.length →
      cur.drop col ++ following.flatten = t ++ CHR_END_PURETEXT :: rest →
      (∀ c ∈ t, c ≠ CHR_INI_PURETEXT ∧ c ≠ CHR_END_PURETEXT) →
      ∃ (i col' : Nat) (L' : QString), (cur :: following)[i]? = some L' ∧
        col' + 1 < L'.length ∧
        rest = L'.drop (col' + 1) ++ ((cur :: following).drop (i + 1)).flatten ∧
        getPureTextLoop following cur col line = some (t, line + i, col', true) := by
  intro following
  induction following with
  | nil =>
    intro cur col line t rest hwf hcol hs ht
    obtain ⟨body, hL, hb⟩ := hwf cur (by simp)
    have hd := drop_of_loaded hL hcol
    have hs' : body.drop col ++ CHR_LINE_END :: [] = t ++ CHR_END_PURETEXT :: rest := by
      rw [hd] at hs; simpa using hs
    rcases split_at_close _ _ _ _ hs' with ⟨z, hz1, hz2⟩ | ⟨t', _, ht2⟩
    · have htn : ∀ c ∈ t, c ≠ CHR_INI_PURETEXT ∧ c ≠ CHR_END_PURETEXT ∧ c ≠ CHR_LINE_END :=
        fun c hc => ⟨(ht c hc).1, (ht c hc).2, fun hn =>
          hb (List.mem_of_mem_drop (by rw [hz1, ← hn]; simp [hc]))⟩
      have hdc : cur.drop col = t ++ CHR_END_PURETEXT :: (z ++ [CHR_LINE_END]) := by
        rw [hd, hz1]; simp
      have hdc2 : cur.drop (col + t.length) = CHR_END_PURETEXT :: (z ++ [CHR_LINE_END]) :=
        drop_add_of_drop hdc
      refine ⟨0, col + t.length, cur, rfl, ?_, ?_, ?_⟩
      · by_contra hge
        have := drop_succ_of_drop hdc2
        rw [List.drop_eq_nil_of_le (by omega)] at this
        simp at this
      · rw [drop_succ_of_drop hdc2, hz2]; simp
      · simp [getPureTextLoop, hdc, pureTextLine_span t _ htn]
    · exact absurd ht2 (by simp)
  | cons next more ih =>
    intro cur col line t rest hwf hcol hs ht
    obtain ⟨body, hL, hb⟩ := hwf cur (by simp)
    have hd := drop_of_loaded hL hcol
    have hs' : body.drop col ++ CHR_LINE_END :: (next :: more).flatten =
        t ++ CHR_END_PURETEXT :: rest := by
      rw [hd] at hs; simpa using hs
    rcases split_at_close _ _ _ _ hs' with ⟨z, hz1, hz2⟩ | ⟨t', ht1, ht2⟩
    · have htn : ∀ c ∈ t, c ≠ CHR_INI_PURETEXT ∧ c ≠ CHR_END_PURETEXT ∧ c ≠ CHR_LINE_END :=
        fun c hc => ⟨(ht c hc).1, (ht c hc).2, fun hn =>
          hb (List.mem_of_mem_drop (by rw [hz1, ← hn]; simp [hc]))⟩
      have hdc : cur.drop col = t ++ CHR_END_PURETEXT :: (z ++ [CHR_LINE_END]) := by
        rw [hd, hz1]; simp
      have hdc2 : cur.drop (col + t.length) = CHR_END_PURETEXT :: (z ++ [CHR_LINE_END]) :=
        drop_add_of_drop hdc
      refine ⟨0, col + t.length, cur, rfl, ?_, ?_, ?_⟩
      · by_contra hge
        have := drop_succ_of_drop hdc2
        rw [List.drop_eq_nil_of_le (by omega)] at this
        simp at this
      · rw [drop_succ_of_drop hdc2, hz2]; simp
      · simp [getPureTextLoop, hdc, pureTextLine_span t _ htn]
    · have hxn : ∀ c ∈ body.drop col,
          c ≠ CHR_INI_PURETEXT ∧ c ≠ CHR_END_PURETEXT ∧ c ≠ CHR_LINE_END :=
        fun c hc => ⟨(ht c (by rw [ht1]; simp [hc])).1, (ht c (by rw [ht1]; simp [hc])).2,
          fun hn => hb (List.mem_of_mem_drop (by rw [← hn]; exact hc))⟩
      obtain ⟨body', hL', _⟩ := hwf next (by simp)
      obtain ⟨i, col', L', hi, hcol', hrest, hloop⟩ := ih next 0 (line + 1) t' rest
        (fun x hx => hwf x (by simp at hx ⊢; tauto)) (by rw [hL']; simp)
        (by simpa using ht2) (fun c hc => ht c (by rw [ht1]; simp [hc]))
      refine ⟨i + 1, col', L', by simpa using hi, hcol', by simpa using hrest, ?_⟩
      have hpl : pureTextLine (cur.drop col) =
          (body.drop col ++ [CHR_LINE_END], (body.drop col).length, .lineEnd) := by
        rw [hd]; exact pureTextLine_line _ [] hxn
      simp only [getPureTextLoop, hpl, hloop, Option.map_some', ht1]
      simp only [List.append_assoc, List.singleton_append, Option.some.injEq, Prod.mk.injEq,
        true_and, and_true]
      omega

/-- The pure text `[t]` stands at the cursor; it may run over several lines. -/
theorem getPureText_stream {p : SchemaParser} {t rest : QString}
    (hwf : LoadedBuffer p.buffer)
    (h : AtCursor p (CHR_INI_PURETEXT :: t ++ CHR_END_PURETEXT :: rest))
    (ht : ∀ c ∈ t, c ≠ CHR_INI_PURETEXT ∧ c ≠ CHR_END_PURETEXT) :
    ∃ q, SameButCursor p q ∧ AtCursor q rest ∧ getPureText p = .ok t q := by
  obtain ⟨L, hl, hc, hs⟩ := h
  obtain ⟨body, hL, hb⟩ := hwf L (List.getElem?_mem hl)
  have hd := drop_of_loaded hL hc
  have hdrop : p.buffer.drop p.line = L :: p.buffer.drop (p.line + 1) := by
    have hlt : p.line < p.buffer.length := by
      by_contra hge
      rw [List.getElem?_eq_none (by omega)] at hl
      exact Option.noConfusion hl
    rw [List.drop_eq_getElem_cons hlt]
    congr 1
    have := List.getElem?_eq_getElem hlt
    rw [this] at hl
    exact Option.some.inj hl
  -- the first character
  obtain ⟨x, hx⟩ : ∃ x, body.drop p.column = CHR_INI_PURETEXT :: x := by
    cases hbd : body.drop p.column with
    | nil =>
      rw [hd, hbd] at hs
      simp only [List.nil_append, List.singleton_append, List.cons_append, List.cons.injEq] at hs
      exact absurd hs.1 (by decide)
    | cons a x =>
      rw [hd, hbd] at hs
      simp only [List.cons_append, List.cons.injEq] at hs
      exact ⟨x, by rw [hs.1]⟩
  have hdL : L.drop p.column = CHR_INI_PURETEXT :: (x ++ [CHR_LINE_END]) := by
    rw [hd, hx]; rfl
  have hch : charAt L p.column = CHR_INI_PURETEXT := charAt_of_drop hdL
  have hdL1 : L.drop (p.column + 1) = x ++ [CHR_LINE_END] := drop_succ_of_drop hdL
  have hlen : p.column + 1 < L.length := by
    by_contra hge
    rw [List.drop_eq_nil_of_le (by omega)] at hdL1
    simp at hdL1
  have hs1 : L.drop (p.column + 1) ++ (p.buffer.drop (p.line + 1)).flatten =
      t ++ CHR_END_PURETEXT :: rest := by
    rw [hdL] at hs
    simp only [List.cons_append, List.cons.injEq, true_and] at hs
    rw [hdL1]; exact hs.symm
  have hwf' : LoadedBuffer (L :: p.buffer.drop (p.line + 1)) := by
    intro y hy
    rcases List.mem_cons.1 hy with rfl | hy
    · exact hwf _ (List.getElem?_mem hl)
    · exact hwf _ (List.mem_of_mem_drop hy)
  obtain ⟨i, col', L', hi, hcol', hrest, hloop⟩ :=
    getPureTextLoop_span (p.buffer.drop (p.line + 1)) L (p.column + 1) p.line t rest hwf' hlen
      hs1 ht
  refine ⟨{ p with line := p.line + i, column := col' + 1 }, SameButCursor.position p _ _,
    ⟨L', ?_, hcol', ?_⟩, ?_⟩
  · show p.buffer[p.line + i]? = some L'
    rw [← hdrop, List.getElem?_drop] at hi
    exact hi
  · show rest = L'.drop (col' + 1) ++ (p.buffer.drop (p.line + i + 1)).flatten
    rw [hrest, ← hdrop, List.drop_drop, Nat.add_assoc]
  · simp only [getPureText, hl, hch, if_true, hloop]

theorem flushWords_plain (ws : List QString) :
    ∀ (out : QString) (p : SchemaParser),
      (∀ w ∈ ws, ¬ (w ≠ [] ∧ qstartsWith w CHR_INI_ATTRIB = true ∧
        qendsWith w CHR_END_ATTRIB = true)) →
      flushWords ws out p = .ok (out ++ ws.flatten) p := by
  induction ws with
  | nil => intro out p _; simp [flushWords]
  | cons w ws ih =>
    intro out p h
    rw [flushWords, if_neg (h w (by simp)), ih _ _ (fun x hx => h x (by simp [hx]))]
    simp

/-- A token `%w` met by the loop of `getCodeDefinition`. -/
theorem getConditional_stream {p : SchemaParser} {w : QString} {c : Char} {rest : QString}
    (hwf : LoadedBuffer p.buffer)
    (h : AtCursor p (CHR_INI_CONDITIONAL :: w ++ c :: rest))
    (hw : ∀ x ∈ w, ¬ isDelim x) (hne : w ≠ []) (hc : isDelim c) :
    ∃ L, p.buffer[p.line]? = some L ∧ charAt L p.column = CHR_INI_CONDITIONAL ∧
      AtCursor { p with column := p.column + (w.length + 1) } (c :: rest) ∧
      getConditional p = .ok w { p with column := p.column + (w.length + 1) } := by
  have hn : CHR_LINE_END ∉ CHR_INI_CONDITIONAL :: w := by
    intro hm
    rcases List.mem_cons.1 hm with hm | hm
    · exact absurd hm (by decide)
    · exact hw _ hm (Or.inl rfl)
  obtain ⟨L, z, hl, hd, hq⟩ := @AtCursor.token p (CHR_INI_CONDITIONAL :: w) c rest hwf h hn
  exact ⟨L, hl, charAt_of_drop (by rw [hd]; rfl),
    hq _ rfl rfl (by simp [Nat.add_comm]),
    getConditional_ok hl (by simpa using hd) hw hne hc⟩

theorem getCodeDefinitionStep_conditional {sf : Nat} {L : QString} {l : Locals}
    {p : SchemaParser} (hch : charAt L p.column = CHR_INI_CONDITIONAL) :
    getCodeDefinitionStep sf L l p = caseConditional sf l p := by
  unfold getCodeDefinitionStep
  simp only [hch]
  rw [if_neg (by decide), if_neg (by decide), if_neg (by decide), if_neg (by decide)]
  simp

theorem token_if_ne :
    TOKEN_IF ≠ TOKEN_THEN ∧ TOKEN_THEN ≠ TOKEN_IF ∧ TOKEN_IF ≠ TOKEN_ELSE ∧
    TOKEN_ELSE ≠ TOKEN_IF ∧ TOKEN_IF ≠ TOKEN_END ∧ TOKEN_END ≠ TOKEN_IF ∧ TOKEN_IF ≠ TOKEN_OR ∧
    TOKEN_OR ≠ TOKEN_IF ∧ TOKEN_IF ≠ TOKEN_NOT ∧ TOKEN_NOT ≠ TOKEN_IF ∧ TOKEN_IF ≠ TOKEN_AND ∧
    TOKEN_AND ≠ TOKEN_IF ∧ TOKEN_IF ≠ TOKEN_SET ∧ TOKEN_SET ≠ TOKEN_IF ∧
    TOKEN_IF ≠ TOKEN_UNSET ∧ TOKEN_UNSET ≠ TOKEN_IF ∧ TOKEN_IF ≠ [] ∧ [] ≠ TOKEN_IF := by
  decide

theorem token_else_ne :
    TOKEN_ELSE ≠ TOKEN_IF ∧ TOKEN_IF ≠ TOKEN_ELSE ∧ TOKEN_ELSE ≠ TOKEN_THEN ∧
    TOKEN_THEN ≠ TOKEN_ELSE ∧ TOKEN_ELSE ≠ TOKEN_END ∧ TOKEN_END ≠ TOKEN_ELSE ∧
    TOKEN_ELSE ≠ TOKEN_OR ∧ TOKEN_OR ≠ TOKEN_ELSE ∧ TOKEN_ELSE ≠ TOKEN_NOT ∧
    TOKEN_NOT ≠ TOKEN_ELSE ∧ TOKEN_ELSE ≠ TOKEN_AND ∧ TOKEN_AND ≠ TOKEN_ELSE ∧
    TOKEN_ELSE ≠ TOKEN_SET ∧ TOKEN_SET ≠ TOKEN_ELSE ∧ TOKEN_ELSE ≠ TOKEN_UNSET ∧
    TOKEN_UNSET ≠ TOKEN_ELSE ∧ TOKEN_ELSE ≠ [] ∧ [] ≠ TOKEN_ELSE := by
  decide

theorem token_end_ne :
    TOKEN_END ≠ TOKEN_IF ∧ TOKEN_IF ≠ TOKEN_END ∧ TOKEN_END ≠ TOKEN_THEN ∧
    TOKEN_THEN ≠ TOKEN_END ∧ TOKEN_END ≠ TOKEN_ELSE ∧ TOKEN_ELSE ≠ TOKEN_END ∧
    TOKEN_END ≠ TOKEN_OR ∧ TOKEN_OR ≠ TOKEN_END ∧ TOKEN_END ≠ TOKEN_NOT ∧
    TOKEN_NOT ≠ TOKEN_END ∧ TOKEN_END ≠ TOKEN_AND ∧ TOKEN_AND ≠ TOKEN_END ∧
    TOKEN_END ≠ TOKEN_SET ∧ TOKEN_SET ≠ TOKEN_END ∧ TOKEN_END ≠ TOKEN_UNSET ∧
    TOKEN_UNSET ≠ TOKEN_END ∧ TOKEN_END ≠ [] ∧ [] ≠ TOKEN_END := by
  decide

theorem token_set_ne :
    TOKEN_SET ≠ TOKEN_IF ∧ TOKEN_IF ≠ TOKEN_SET ∧ TOKEN_SET ≠ TOKEN_THEN ∧
    TOKEN_THEN ≠ TOKEN_SET ∧ TOKEN_SET ≠ TOKEN_ELSE ∧ TOKEN_ELSE ≠ TOKEN_SET ∧
    TOKEN_SET ≠ TOKEN_END ∧ TOKEN_END ≠ TOKEN_SET ∧ TOKEN_SET ≠ TOKEN_OR ∧
    TOKEN_OR ≠ TOKEN_SET ∧ TOKEN_SET ≠ TOKEN_NOT ∧ TOKEN_NOT ≠ TOKEN_SET ∧
    TOKEN_SET ≠ TOKEN_AND ∧ TOKEN_AND ≠ TOKEN_SET ∧ TOKEN_SET ≠ TOKEN_UNSET ∧
    TOKEN_UNSET ≠ TOKEN_SET ∧ TOKEN_SET ≠ [] ∧ [] ≠ TOKEN_SET := by
  decide

theorem token_unset_ne :
    TOKEN_UNSET ≠ TOKEN_IF ∧ TOKEN_IF ≠ TOKEN_UNSET ∧ TOKEN_UNSET ≠ TOKEN_THEN ∧
    TOKEN_THEN ≠ TOKEN_UNSET ∧ TOKEN_UNSET ≠ TOKEN_ELSE ∧ TOKEN_ELSE ≠ TOKEN_UNSET ∧
    TOKEN_UNSET ≠ TOKEN_END ∧ TOKEN_END ≠ TOKEN_UNSET ∧ TOKEN_UNSET ≠ TOKEN_OR ∧
    TOKEN_OR ≠ TOKEN_UNSET ∧ TOKEN_UNSET ≠ TOKEN_NOT ∧ TOKEN_NOT ≠ TOKEN_UNSET ∧
    TOKEN_UNSET ≠ TOKEN_AND ∧ TOKEN_AND ≠ TOKEN_UNSET ∧ TOKEN_UNSET ≠ TOKEN_SET ∧
    TOKEN_SET ≠ TOKEN_UNSET ∧ TOKEN_UNSET ≠ [] ∧ [] ≠ TOKEN_UNSET := by
  decide

theorem token_then_ne :
    TOKEN_THEN ≠ TOKEN_IF ∧ TOKEN_IF ≠ TOKEN_THEN ∧ TOKEN_THEN ≠ TOKEN_ELSE ∧
    TOKEN_ELSE ≠ TOKEN_THEN ∧ TOKEN_THEN ≠ TOKEN_END ∧ TOKEN_END ≠ TOKEN_THEN ∧
    TOKEN_THEN ≠ TOKEN_OR ∧ TOKEN_OR ≠ TOKEN_THEN ∧ TOKEN_THEN ≠ TOKEN_NOT ∧
    TOKEN_NOT ≠ TOKEN_THEN ∧ TOKEN_THEN ≠ TOKEN_AND ∧ TOKEN_AND ≠ TOKEN_THEN ∧
    TOKEN_THEN ≠ TOKEN_SET ∧ TOKEN_SET ≠ TOKEN_THEN ∧ TOKEN_THEN ≠ TOKEN_UNSET ∧
    TOKEN_UNSET ≠ TOKEN_THEN ∧ TOKEN_THEN ≠ [] ∧ [] ≠ TOKEN_THEN := by
  decide

/-- The expression `{attr}` followed by `%then`. -/
theorem evaluateExpression_attr {p : SchemaParser} {L b1 a b2 : QString} {c : Char}
    {r : QString} (fuel : Nat)
    (hl : p.buffer[p.line]? = some L)
    (hd : L.drop p.column = b1 ++ CHR_INI_ATTRIB :: a ++ CHR_END_ATTRIB ::
      (b2 ++ CHR_INI_CONDITIONAL :: TOKEN_THEN ++ c :: r))
    (hb1 : Blanks b1) (hb2 : Blanks b2) (hre : ATTR_REGEXP.exactMatch a = true)
    (hpres : (p.attributes.find a).isSome = true) (hc : isDelim c) (hfuel : 3 ≤ fuel) :
    evaluateExpression fuel p =
      .ok (!decide (p.attributes.value a = []))
        { p with column := p.column + (b1.length + (a.length + 2) + b2.length) } := by
  obtain ⟨k, rfl⟩ : ∃ k, fuel = 1 + (k + 2) := ⟨fuel - 3, by omega⟩
  have hd1 : L.drop p.column = CondTerm.text ⟨b1, false, [], a⟩ ++
      (b2 ++ CHR_INI_CONDITIONAL :: TOKEN_THEN ++ c :: r) := by
    rw [hd]; simp [CondTerm.text]
  have hterm := evaluateExpressionLoop_term (1 + (k + 2)) ⟨b1, false, [], a⟩ (k + 2)
    ⟨L, [], [], false, false, true, 0, 0⟩ p _ none hl hd1
    ⟨hb1, fun h => Bool.noConfusion h, hre, hpres⟩ rfl rfl (fun _ => rfl) rfl rfl
  have hd2 : L.drop (p.column + (CondTerm.text ⟨b1, false, [], a⟩).length) =
      b2 ++ CHR_INI_CONDITIONAL :: TOKEN_THEN ++ c :: r := drop_add_of_drop hd1
  have hthen := evaluateExpressionStep_then (f := 1 + (k + 2))
    (s := ⟨L, [], [], false, false,
      applyPending none true (CondTerm.eval p.attributes ⟨b1, false, [], a⟩), 0 + 1, 0⟩)
    (p := { p with column := p.column + (CondTerm.text ⟨b1, false, [], a⟩).length })
    hl hd2 hb2 hc
  simp only [evaluateExpression, hl]
  have hsteps : CondTerm.steps ⟨b1, false, [], a⟩ = 1 := rfl
  rw [hsteps] at hterm
  rw [hterm]
  simp only []
  rw [evaluateExpressionLoop]
  simp only [Bool.false_eq_true, not_false_eq_true, and_self, if_true, hthen, Res.bind]
  rw [evaluateExpressionLoop]
  simp only [not_true_eq_false, false_and, if_false, Res.bind, token_ne, false_or,
    Nat.zero_add, Nat.add_sub_cancel, ne_eq, not_true_eq_false, decide_False,
    one_ne_zero, Bool.false_eq_true, applyPending, CondTerm.eval, CondTerm.text,
    List.length_append, List.length_cons, List.length_nil, List.append_nil, Res.ok.injEq,
    true_and]
  congr 1
  omega

/-- The loop of `getCodeDefinition` on `%if {attr} %then`, the attribute being
present in the environment. -/
theorem run_if_then {p : SchemaParser} {l : Locals} {b1 attr b2 : QString} {c : Char}
    {rest : QString} {sf : Nat}
    (hwf : LoadedBuffer p.buffer)
    (h : AtCursor p (headerText b1 attr b2 ++ c :: rest))
    (hb1 : b1 ≠ []) (hbl1 : Blanks b1) (hbl2 : Blanks b2)
    (hre : ATTR_REGEXP.exactMatch attr = true)
    (hpres : (p.attributes.find attr).isSome = true) (hc : isDelim c)
    (hcond : l.cond ≠ TOKEN_IF) (hsf : 3 ≤ sf) :
    AtCursor { p with column := p.column + (headerText b1 attr b2).length } (c :: rest) ∧
    ∀ fuel : Nat, getCodeDefinitionLoop sf (fuel + 2) l p =
      getCodeDefinitionLoop sf fuel
        (l.afterIfThen (!decide (p.attributes.value attr = [])))
        { p with column := p.column + (headerText b1 attr b2).length } := by
  have hnc := nameChars_of_exactMatch hre
  have hblank : ∀ {x : QString}, Blanks x → CHR_LINE_END ∉ x := fun hx hm => by
    have := hx _ hm; revert this; unfold isBlank; decide
  have hn : CHR_LINE_END ∉ headerText b1 attr b2 := by
    have f1 : ¬ CHR_LINE_END = CHR_INI_CONDITIONAL := by decide
    have f2 : CHR_LINE_END ∉ TOKEN_IF := by decide
    have f3 : ¬ CHR_LINE_END = CHR_INI_ATTRIB := by decide
    have f4 : CHR_LINE_END ∉ attr :=
      fun hm => (isNameChar_not_special (hnc.2 _ hm)).1 (Or.inl rfl)
    have f5 : ¬ CHR_LINE_END = CHR_END_ATTRIB := by decide
    have f6 : CHR_LINE_END ∉ TOKEN_THEN := by decide
    have f7 := hblank hbl1
    have f8 := hblank hbl2
    unfold headerText
    simp only [List.cons_append, List.mem_cons, List.mem_append, not_or]
    tauto
  obtain ⟨L, z, hl, hd, hq⟩ := AtCursor.token hwf h hn
  refine ⟨hq _ rfl rfl rfl, fun fuel => ?_⟩
  obtain ⟨b, b1', rfl⟩ := List.exists_cons_of_ne_nil hb1
  -- `%if`
  have hch : charAt L p.column = CHR_INI_CONDITIONAL := charAt_of_drop (by rw [hd]; rfl)
  have hgc := getConditional_ok (p := p) (L := L) (w := TOKEN_IF) (c := b)
    (r := b1' ++ CHR_INI_ATTRIB :: attr ++ CHR_END_ATTRIB :: b2 ++
      CHR_INI_CONDITIONAL :: TOKEN_THEN ++ c :: z)
    hl (by rw [hd]; simp [headerText]) (by decide) (by decide)
    (isDelim_of_isBlank (hbl1 b (by simp)))
  -- the expression
  have hd1 : L.drop (p.column + (TOKEN_IF.length + 1)) =
      (b :: b1') ++ CHR_INI_ATTRIB :: attr ++ CHR_END_ATTRIB ::
        (b2 ++ CHR_INI_CONDITIONAL :: TOKEN_THEN ++ c :: z) := by
    have := drop_add_of_drop (L := L) (c := p.column) (a := CHR_INI_CONDITIONAL :: TOKEN_IF)
      (b := (b :: b1') ++ CHR_INI_ATTRIB :: attr ++ CHR_END_ATTRIB ::
        (b2 ++ CHR_INI_CONDITIONAL :: TOKEN_THEN ++ c :: z))
      (by rw [hd]; simp [headerText])
    simpa using this
  have hev := evaluateExpression_attr (p := { p with column := p.column + (TOKEN_IF.length + 1) })
    sf hl hd1 hbl1 hbl2 hre hpres hc hsf
  -- `%then`
  have hd2 : L.drop (p.column + (TOKEN_IF.length + 1) +
      ((b :: b1').length + (attr.length + 2) + b2.length)) =
      CHR_INI_CONDITIONAL :: TOKEN_THEN ++ c :: z := by
    have := drop_add_of_drop (L := L) (c := p.column + (TOKEN_IF.length + 1))
      (a := (b :: b1') ++ CHR_INI_ATTRIB :: attr ++ CHR_END_ATTRIB :: b2)
      (b := CHR_INI_CONDITIONAL :: TOKEN_THEN ++ c :: z) (by rw [hd1]; simp)
    have hlen : ((b :: b1') ++ CHR_INI_ATTRIB :: attr ++ CHR_END_ATTRIB :: b2).length =
        (b :: b1').length + (attr.length + 2) + b2.length := by
      simp only [List.length_append, List.length_cons]; omega
    rw [hlen] at this
    exact this
  have hch2 : charAt L (p.column + (TOKEN_IF.length + 1) +
      ((b :: b1').length + (attr.length + 2) + b2.length)) = CHR_INI_CONDITIONAL :=
    charAt_of_drop (by rw [hd2]; rfl)
  have hgc2 := getConditional_ok
    (p := { p with column := p.column + (TOKEN_IF.length + 1) +
      ((b :: b1').length + (attr.length + 2) + b2.length) })
    (L := L) (w := TOKEN_THEN) (c := c) (r := z) hl hd2 (by decide) (by decide) hc
  have hlev : ((l.vet_tk_if.length : Int) ≥ 0) := Int.natCast_nonneg _
  rw [show fuel + 2 = (fuel + 1) + 1 from rfl, getCodeDefinitionLoop]
  simp only [hl, getCodeDefinitionStep_conditional hch, caseConditional, hgc, Res.bind,
    token_if_ne, ne_eq, not_true_eq_false, false_and, and_false, if_false, false_or, if_true,
    caseIf, hev, badOrder, hcond, not_false_eq_true, and_true, and_self, decide_False,
    Bool.false_eq_true, or_self]
  rw [getCodeDefinitionLoop]
  simp only [hl, getCodeDefinitionStep_conditional
      (p := { p with column := p.column + (TOKEN_IF.length + 1) +
        ((b :: b1').length + (attr.length + 2) + b2.length) }) hch2,
    caseConditional, hgc2, Res.bind,
    token_then_ne, token_if_ne, ne_eq, not_true_eq_false, false_and, and_false, if_false,
    false_or, or_false, if_true,
    hlev, and_self, badOrder, not_false_eq_true, and_true, decide_False, Bool.false_eq_true,
    or_self, true_and, Int.toNat_ofNat, Locals.afterIfThen]
  congr 2
  simp only [headerText, List.length_append, List.length_cons]
  have e1 : TOKEN_IF.length = 2 := rfl
  have e2 : TOKEN_THEN.length = 4 := rfl
  omega

/-- The loop of `getCodeDefinition` on `%else`. -/
theorem run_else {p : SchemaParser} {l : Locals} {c : Char} {rest : QString}
    (hwf : LoadedBuffer p.buffer)
    (h : AtCursor p (CHR_INI_CONDITIONAL :: TOKEN_ELSE ++ c :: rest)) (hc : isDelim c)
    (hlev : l.if_level ≥ 0) (hc1 : l.cond ≠ TOKEN_IF) (hc2 : l.cond ≠ TOKEN_ELSE) :
    AtCursor { p with column := p.column + (TOKEN_ELSE.length + 1) } (c :: rest) ∧
    ∀ sf fuel : Nat, getCodeDefinitionLoop sf (fuel + 1) l p =
      getCodeDefinitionLoop sf fuel l.afterElse
        { p with column := p.column + (TOKEN_ELSE.length + 1) } := by
  obtain ⟨L, hl, hch, hq, hgc⟩ := getConditional_stream hwf h (by decide) (by decide) hc
  refine ⟨hq, fun sf fuel => ?_⟩
  rw [getCodeDefinitionLoop]
  simp only [hl, getCodeDefinitionStep_conditional hch, caseConditional, hgc, Res.bind,
    token_else_ne, ne_eq, not_true_eq_false, false_and, and_false, if_false, false_or,
    or_false, if_true, hlev, and_self, badOrder, hc1, hc2, not_false_eq_true, and_true,
    decide_False, Bool.false_eq_true, or_self, true_and, Locals.afterElse]

/-- The loop of `getCodeDefinition` on `%end`, where `caseEnd` returns. -/
theorem run_end {p q' : SchemaParser} {l l' : Locals} {c : Char} {rest : QString}
    (hwf : LoadedBuffer p.buffer)
    (h : AtCursor p (CHR_INI_CONDITIONAL :: TOKEN_END ++ c :: rest)) (hc : isDelim c)
    (hlev : l.if_level ≥ 0) (hc1 : l.cond ≠ TOKEN_IF)
    (hcase : caseEnd { l with prev_cond := l.cond, cond := TOKEN_END }
      { p with column := p.column + (TOKEN_END.length + 1) } = .ok l' q')
    (hprev : l'.prev_cond = l.cond) (hcond : l'.cond = TOKEN_END) :
    AtCursor { p with column := p.column + (TOKEN_END.length + 1) } (c :: rest) ∧
    ∀ sf fuel : Nat, getCodeDefinitionLoop sf (fuel + 1) l p =
      getCodeDefinitionLoop sf fuel l' q' := by
  obtain ⟨L, hl, hch, hq, hgc⟩ := getConditional_stream hwf h (by decide) (by decide) hc
  refine ⟨hq, fun sf fuel => ?_⟩
  rw [getCodeDefinitionLoop]
  simp only [hl, getCodeDefinitionStep_conditional hch, caseConditional, hgc, Res.bind,
    token_end_ne, ne_eq, not_true_eq_false, false_and, and_false, if_false, false_or,
    or_false, if_true, hlev, and_self, hcase, badOrder, hprev, hcond, hc1,
    not_false_eq_true, and_true, decide_False, Bool.false_eq_true, or_self, true_and]

/-- The loop of `getCodeDefinition` on a pure text `[t]`. -/
theorem run_text {p : SchemaParser} {l : Locals} {t rest : QString}
    (hwf : LoadedBuffer p.buffer)
    (h : AtCursor p (CHR_INI_PURETEXT :: t ++ CHR_END_PURETEXT :: rest))
    (ht : ∀ c ∈ t, c ≠ CHR_INI_PURETEXT ∧ c ≠ CHR_END_PURETEXT)
    (hexpr : l.if_level ≥ 0 → inIfExpr l = false) :
    ∃ q, SameButCursor p q ∧ AtCursor q rest ∧
      ∀ sf fuel : Nat, getCodeDefinitionLoop sf (fuel + 1) l p =
        getCodeDefinitionLoop sf fuel (l.afterWord t) q := by
  obtain ⟨q, hsame, hq, hgp⟩ := getPureText_stream hwf h ht
  refine ⟨q, hsame, hq, fun sf fuel => ?_⟩
  obtain ⟨L, hl, hc, hs⟩ := h
  have hch : charAt L p.column = CHR_INI_PURETEXT := by
    have hne : L.drop p.column ≠ [] := by
      intro hn
      have := congrArg List.length hn
      simp only [List.length_drop, List.length_nil] at this
      omega
    obtain ⟨a, x, hax⟩ := List.exists_cons_of_ne_nil hne
    rw [hax] at hs
    simp only [List.cons_append, List.cons.injEq] at hs
    rw [charAt_of_drop hax, ← hs.1]
  rw [getCodeDefinitionLoop]
  unfold getCodeDefinitionStep
  simp only [hl, hch]
  rw [if_neg (by decide), if_neg (by decide), if_neg (by decide), if_neg (by decide),
    if_neg (by decide)]
  unfold caseText
  simp only [true_or, if_true, hgp, Res.bind, Locals.afterWord]
  by_cases hlev : l.if_level ≥ 0
  · simp only [hlev, if_true, hexpr hlev, Bool.false_eq_true, if_false]
  · simp only [hlev, if_false]

theorem frag_map.find_push (m : frag_map) (k j : Int) (ws : List QString) :
    (m.push k ws).find j = if j = k then some (m.value k ++ ws) else m.find j := by
  induction m with
  | nil =>
    by_cases h : j = k
    · subst h; simp [frag_map.push, frag_map.find, frag_map.value]
    · have h' : ¬ k = j := fun e => h e.symm
      simp [frag_map.push, frag_map.find, h, h']
  | cons e m ih =>
    obtain ⟨a, v⟩ := e
    by_cases hak : a = k
    · subst hak
      by_cases hj : j = a
      · subst hj; simp [frag_map.push, frag_map.find, frag_map.value]
      · have hj' : ¬ a = j := fun e => hj e.symm
        simp [frag_map.push, frag_map.find, hj, hj']
    · by_cases hj : j = k
      · subst hj
        simp [frag_map.push, frag_map.find, frag_map.value, hak, ih]
      · by_cases haj : a = j
        · subst haj; simp [frag_map.push, frag_map.find, hak, hj]
        · simp [frag_map.push, frag_map.find, hak, hj, haj, ih]

theorem frag_map.value_push (m : frag_map) (k j : Int) (ws : List QString) :
    (m.push k ws).value j = if j = k then m.value k ++ ws else m.value j := by
  unfold frag_map.value
  rw [frag_map.find_push]
  split <;> simp [frag_map.value]

theorem frag_map.value_of_count {m : frag_map} {k : Int} (h : ¬ m.count k > 0) :
    m.value k = [] := by
  unfold frag_map.count at h
  unfold frag_map.value
  cases hf : m.find k with
  | none => rfl
  | some v => simp [hf] at h

theorem selectedWords_eq (l : Locals) :
    selectedWords l =
      if flagAt l.vet_expif l.if_level then l.if_map.value l.if_level
      else l.else_map.value l.if_level := by
  unfold selectedWords
  by_cases h1 : flagAt l.vet_expif l.if_level = true
  · simp [h1]
  · by_cases h2 : l.else_map.count l.if_level > 0
    · simp [h1, h2]
    · simp [h1, h2, frag_map.value_of_count h2]

theorem flagAt_append_lt (v : List Bool) (x : Bool) (j : Int) (h0 : 0 ≤ j)
    (hlt : j < v.length) : flagAt (v ++ [x]) j = flagAt v j := by
  obtain ⟨n, rfl⟩ := Int.eq_ofNat_of_zero_le h0
  have hn : n < v.length := by omega
  simp [flagAt, List.getD, List.getElem?_append_left hn]

theorem flagAt_append_length (v : List Bool) (x : Bool) :
    flagAt (v ++ [x]) (v.length : Int) = x := by
  simp [flagAt, List.getD]

theorem flagAt_set_ne (v : List Bool) (i : Nat) (x : Bool) (j : Int) (h0 : 0 ≤ j)
    (hne : j ≠ i) : flagAt (v.set i x) j = flagAt v j := by
  obtain ⟨n, rfl⟩ := Int.eq_ofNat_of_zero_le h0
  have hn : i ≠ n := fun e => hne (by rw [e])
  simp [flagAt, List.getD, List.getElem?_set_ne hn]

theorem flagAt_set_eq (v : List Bool) (i : Nat) (x : Bool) (hi : i < v.length) :
    flagAt (v.set i x) (i : Int) = x := by
  simp [flagAt, List.getD, List.getElem?_set_self, hi]

theorem prev_append_lt (v : List Int) (x : Int) (j : Int) (h0 : 0 ≤ j)
    (hlt : j < v.length) : (v ++ [x]).getD j.toNat 0 = v.getD j.toNat 0 := by
  obtain ⟨n, rfl⟩ := Int.eq_ofNat_of_zero_le h0
  have hn : n < v.length := by omega
  simp [List.getD, List.getElem?_append_left hn]

theorem Agree.mono {k k' : Int} {l l' : Locals} (h : Agree k l l') (hk : k' ≤ k) :
    Agree k' l l' := fun j h0 hj => h j h0 (by omega)

theorem Chain.nonneg {l : Locals} {k : Int} {f : Frame} {fs : List Frame}
    (h : Chain l k (f :: fs)) : 0 ≤ k := h.1

theorem Chain.agree {l l' : Locals} (fs : List Frame) :
    ∀ k : Int, Chain l k fs → Agree k l l' → Chain l' k fs := by
  induction fs with
  | nil => intro k h _; exact h
  | cons f fs ih =>
    intro k h ha
    obtain ⟨h0, h1, h2, h3, h4, h5, h6, h7, h8, h9⟩ := h
    obtain ⟨a1, a2, a3, a4, a5, a6, a7⟩ := ha k h0 (le_refl k)
    refine ⟨h0, by rw [a1, h1], by rw [a2, h2], by rw [a3, h3], by rw [a4, h4], by rw [a5, h5],
      by rw [a6, h6], by rw [a7]; exact h7, h8, ?_⟩
    rw [a7]
    exact ih _ h9 (ha.mono (by omega))

/-- The variables that differ from `l` only above the levels up to `k`. -/
theorem Chain.below {l l' : Locals} {f : Frame} {fs : List Frame} {k : Int}
    (h : Chain l k (f :: fs)) (ha : Agree (k - 1) l l') :
    Chain l' (l.vet_prev_level.getD k.toNat 0) fs :=
  Chain.agree fs _ h.2.2.2.2.2.2.2.2.2 (ha.mono (by have := h.2.2.2.2.2.2.2.1; omega))

theorem emitTop_plain {ws : List QString} {stack : List Frame} (hs : PlainStack stack)
    (hw : ∀ w ∈ ws, PlainWord w) : PlainStack (emitTop ws stack) := by
  cases stack with
  | nil => exact hs
  | cons f fs =>
    intro g hg w hwg
    simp only [emitTop, List.mem_cons] at hg
    rcases hg with rfl | hg
    · have hf := hs f (by simp)
      by_cases hi : f.inElse = true
      · simp only [hi, if_true, List.mem_append] at hwg
        rcases hwg with hwg | hwg | hwg
        · exact hf w (by simp [hwg])
        · exact hf w (by simp [hwg])
        · exact hw w hwg
      · simp only [hi, if_false, List.mem_append, Bool.false_eq_true] at hwg
        rcases hwg with (hwg | hwg) | hwg
        · exact hf w (by simp [hwg])
        · exact hw w hwg
        · exact hf w (by simp [hwg])
    · exact hs g (by simp [hg]) w hwg

/-- A word written at the cursor goes to the arm of the innermost open block, or
to the output. -/
theorem Rel.afterWord {out : QString} {stack : List Frame} {l : Locals} (h : Rel out stack l)
    (t : QString) : Rel (emitOut out [t] stack) (emitTop [t] stack) (l.afterWord t) := by
  cases stack with
  | nil =>
    have hk : l.if_level = -1 := h.chain
    have hlev : ¬ l.if_level ≥ 0 := by omega
    simp only [Locals.afterWord, hlev, if_false, emitOut, emitTop]
    exact ⟨h.chain, by simp [h.out_eq], h.len_expif, h.len_then, h.len_else, h.len_prev,
      h.level_lt, h.top, h.fresh, h.cond_ne, h.cnt⟩
  | cons f fs =>
    have hc := h.chain
    obtain ⟨h0, h1, h2, h3, h4, h5, h6, h7, h8, h9⟩ := hc
    have hlev : l.if_level ≥ 0 := h0
    by_cases hi : f.inElse = true
    · have hsec : inIfSection l = false := by simp [inIfSection, h4, hi]
      have helse : flagAt l.vet_tk_else l.if_level = true := by rw [h4, hi]
      simp only [Locals.afterWord, hlev, if_true, storeWord, hsec, Bool.false_eq_true, if_false,
        helse, emitOut, emitTop, hi]
      refine ⟨⟨h0, h1, h2, h3, helse, h5, ?_, h7, h8, ?_⟩, h.out_eq, h.len_expif, h.len_then,
        h.len_else, h.len_prev, h.level_lt, fun hn => List.noConfusion hn, ?_, h.cond_ne, h.cnt⟩
      · show (l.else_map.push l.if_level [t]).value l.if_level = f.elseWords ++ [t]
        rw [frag_map.value_push, if_pos rfl, h6]
      · refine Chain.agree fs _ h9 ?_
        intro j hj0 hjk
        have hjk1 : j ≤ l.vet_prev_level.getD l.if_level.toNat 0 := hjk
        have hne : ¬ j = l.if_level := by intro e; rw [e] at hjk1; omega
        refine ⟨rfl, rfl, rfl, rfl, ?_, ?_, rfl⟩
        all_goals first | rfl | (simp only [frag_map.value_push, if_neg hne])
      · intro j hj
        have hj1 : (l.vet_tk_if.length : Int) ≤ j := hj
        have hne : ¬ j = l.if_level := by have := h.level_lt; omega
        simp only [frag_map.find_push, hne, if_false]
        exact h.fresh j hj
    · have hi' : f.inElse = false := by simpa using hi
      have hsec : inIfSection l = true := by simp [inIfSection, h2, h3, h4, hi']
      simp only [Locals.afterWord, hlev, if_true, storeWord, hsec, emitOut, emitTop, hi',
        Bool.false_eq_true, if_false]
      have hnelse : flagAt l.vet_tk_else l.if_level = false := by rw [h4, hi']
      refine ⟨⟨h0, h1, h2, h3, hnelse, ?_, h6, h7, h8, ?_⟩, h.out_eq, h.len_expif, h.len_then,
        h.len_else, h.len_prev, h.level_lt, fun hn => List.noConfusion hn, ?_, h.cond_ne, h.cnt⟩
      · show (l.if_map.push l.if_level [t]).value l.if_level = f.ifWords ++ [t]
        rw [frag_map.value_push, if_pos rfl, h5]
      · refine Chain.agree fs _ h9 ?_
        intro j hj0 hjk
        have hjk1 : j ≤ l.vet_prev_level.getD l.if_level.toNat 0 := hjk
        have hne : ¬ j = l.if_level := by intro e; rw [e] at hjk1; omega
        refine ⟨rfl, rfl, rfl, rfl, ?_, ?_, rfl⟩
        all_goals first | rfl | (simp only [frag_map.value_push, if_neg hne])
      · intro j hj
        have hj1 : (l.vet_tk_if.length : Int) ≤ j := hj
        have hne : ¬ j = l.if_level := by have := h.level_lt; omega
        simp only [frag_map.find_push, hne, if_false]
        exact h.fresh j hj

theorem Chain.push {l l' : Locals} {k : Int} {g : Frame} {fs : List Frame} (ws : List QString)
    (h : Chain l k (g :: fs))
    (h1 : l'.vet_expif = l.vet_expif) (h2 : l'.vet_tk_if = l.vet_tk_if)
    (h3 : l'.vet_tk_then = l.vet_tk_then) (h4 : l'.vet_tk_else = l.vet_tk_else)
    (h5 : l'.if_map = if g.inElse then l.if_map else l.if_map.push k ws)
    (h6 : l'.else_map = if g.inElse then l.else_map.push k ws else l.else_map)
    (h7 : l'.vet_prev_level = l.vet_prev_level) :
    Chain l' k (emitTop ws (g :: fs)) := by
  obtain ⟨c0, c1, c2, c3, c4, c5, c6, c7, c8, c9⟩ := h
  have hbelow : Chain l' (l.vet_prev_level.getD k.toNat 0) fs := by
    refine Chain.agree fs _ c9 ?_
    intro j hj0 hjk
    have hne : ¬ j = k := by omega
    rw [h1, h2, h3, h4, h5, h6, h7]
    refine ⟨rfl, rfl, rfl, rfl, ?_, ?_, rfl⟩
    · by_cases hi : g.inElse = true
      · simp only [hi, if_true]
      · simp only [hi, if_false, Bool.false_eq_true, frag_map.value_push, if_neg hne]
    · by_cases hi : g.inElse = true
      · simp only [hi, if_true, frag_map.value_push, if_neg hne]
      · simp only [hi, if_false, Bool.false_eq_true]
  by_cases hi : g.inElse = true
  · simp only [emitTop, hi, if_true]
    rw [hi] at h5 h6
    simp only [if_true] at h5 h6
    refine ⟨c0, by rw [h1]; exact c1, by rw [h2]; exact c2, by rw [h3]; exact c3,
      by rw [h4, c4]; exact hi, by rw [h5]; exact c5, ?_, by rw [h7]; exact c7, c8,
      by rw [h7]; exact hbelow⟩
    show l'.else_map.value k = g.elseWords ++ ws
    rw [h6, frag_map.value_push, if_pos rfl, c6]
  · have hi' : g.inElse = false := by simpa using hi
    simp only [emitTop, hi', Bool.false_eq_true, if_false]
    rw [hi'] at h5 h6
    simp only [Bool.false_eq_true, if_false] at h5 h6
    refine ⟨c0, by rw [h1]; exact c1, by rw [h2]; exact c2, by rw [h3]; exact c3,
      by rw [h4, c4]; exact hi', ?_, by rw [h6]; exact c6, by rw [h7]; exact c7, c8,
      by rw [h7]; exact hbelow⟩
    show l'.if_map.value k = g.ifWords ++ ws
    rw [h5, frag_map.value_push, if_pos rfl, c5]

/-- After `%if <expression> %then` a new block is open, in its `then` arm, with no
word captured. -/
theorem Rel.afterIfThen {out : QString} {stack : List Frame} {l : Locals} (h : Rel out stack l)
    (b : Bool) : Rel out (⟨b, false, [], []⟩ :: stack) (l.afterIfThen b) := by
  have hlt := h.level_lt
  have hfresh := h.fresh (l.vet_tk_if.length : Int) (le_refl _)
  have hlow : -1 ≤ l.if_level := by
    cases stack with
    | nil => have : l.if_level = -1 := h.chain; omega
    | cons f fs => have := h.chain.1; omega
  refine ⟨⟨?_, ?_, ?_, ?_, ?_, ?_, ?_, ?_, ?_, ?_⟩, h.out_eq, ?_, ?_, ?_, ?_, ?_,
    fun hn => List.noConfusion hn, ?_,
    (show ¬ (TOKEN_THEN = TOKEN_IF) from by decide), ?_⟩
  · exact Int.ofNat_nonneg _
  · show flagAt (l.vet_expif ++ [b]) (l.vet_tk_if.length : Int) = b
    rw [← h.len_expif]; exact flagAt_append_length _ _
  · exact flagAt_append_length _ _
  · show flagAt ((l.vet_tk_then ++ [false]).set l.vet_tk_if.length true)
      (l.vet_tk_if.length : Int) = true
    exact flagAt_set_eq _ _ _ (by rw [List.length_append, h.len_then]; simp)
  · show flagAt (l.vet_tk_else ++ [false]) (l.vet_tk_if.length : Int) = false
    rw [← h.len_else]; exact flagAt_append_length _ _
  · show l.if_map.value (l.vet_tk_if.length : Int) = []
    unfold frag_map.value; rw [hfresh.1]; rfl
  · show l.else_map.value (l.vet_tk_if.length : Int) = []
    unfold frag_map.value; rw [hfresh.2]; rfl
  · show (l.vet_prev_level ++ [l.if_level]).getD (l.vet_tk_if.length : Int).toNat 0 <
      (l.vet_tk_if.length : Int)
    rw [Int.toNat_ofNat, ← h.len_prev, List.getD_eq_getElem?_getD,
      List.getElem?_append_right (le_refl _)]
    simpa [h.len_prev] using hlt
  · intro hs
    have := (h.top hs).1
    show ((l.vet_tk_if.length : Nat) : Int) = 0
    rw [this]; rfl
  · show Chain (l.afterIfThen b)
      ((l.vet_prev_level ++ [l.if_level]).getD (l.vet_tk_if.length : Int).toNat 0) stack
    have e : (l.vet_prev_level ++ [l.if_level]).getD (l.vet_tk_if.length : Int).toNat 0 =
        l.if_level := by
      rw [Int.toNat_ofNat, ← h.len_prev, List.getD_eq_getElem?_getD,
        List.getElem?_append_right (le_refl _)]
      simp
    rw [e]
    refine Chain.agree stack _ h.chain ?_
    intro j hj0 hjk
    have hjl : j < (l.vet_tk_if.length : Int) := by omega
    refine ⟨?_, ?_, ?_, ?_, rfl, rfl, ?_⟩
    · exact flagAt_append_lt _ _ _ hj0 (by rw [h.len_expif]; exact hjl)
    · exact flagAt_append_lt _ _ _ hj0 hjl
    · show flagAt ((l.vet_tk_then ++ [false]).set l.vet_tk_if.length true) j =
        flagAt l.vet_tk_then j
      rw [flagAt_set_ne _ _ _ _ hj0 (by omega)]
      exact flagAt_append_lt _ _ _ hj0 (by rw [h.len_then]; exact hjl)
    · exact flagAt_append_lt _ _ _ hj0 (by rw [h.len_else]; exact hjl)
    · exact prev_append_lt _ _ _ hj0 (by rw [h.len_prev]; exact hjl)
  · show (l.vet_expif ++ [b]).length = (l.vet_tk_if ++ [true]).length
    simp [h.len_expif]
  · show ((l.vet_tk_then ++ [false]).set l.vet_tk_if.length true).length =
      (l.vet_tk_if ++ [true]).length
    simp [h.len_then]
  · show (l.vet_tk_else ++ [false]).length = (l.vet_tk_if ++ [true]).length
    simp [h.len_else]
  · show (l.vet_prev_level ++ [l.if_level]).length = (l.vet_tk_if ++ [true]).length
    simp [h.len_prev]
  · show (l.vet_tk_if.length : Int) < ((l.vet_tk_if ++ [true]).length : Int)
    simp
  · intro j hj
    have hj1 : (((l.vet_tk_if ++ [true]).length : Nat) : Int) ≤ j := hj
    refine h.fresh j ?_
    rw [List.length_append] at hj1
    simp only [List.length_singleton, Nat.cast_add, Nat.cast_one] at hj1
    omega
  · show l.if_cnt + 1 = l.end_cnt + (stack.length + 1)
    have := h.cnt; omega

/-- After `%else` the innermost block is in its `else` arm. -/
theorem Rel.afterElse {out : QString} {f : Frame} {fs : List Frame} {l : Locals}
    (h : Rel out (f :: fs) l) :
    Rel out ({ f with inElse := true } :: fs) l.afterElse := by
  obtain ⟨c0, c1, c2, c3, c4, c5, c6, c7, c8, c9⟩ := h.chain
  have hlt := h.level_lt
  have hcast : ((l.if_level.toNat : Nat) : Int) = l.if_level := Int.toNat_of_nonneg c0
  refine ⟨⟨c0, c1, c2, c3, ?_, c5, c6, c7, c8, ?_⟩, h.out_eq, h.len_expif, h.len_then, ?_,
    h.len_prev, h.level_lt, fun hn => List.noConfusion hn, h.fresh,
    (show ¬ (TOKEN_ELSE = TOKEN_IF) from by decide), h.cnt⟩
  · show flagAt (l.vet_tk_else.set l.if_level.toNat true) l.if_level = true
    have := flagAt_set_eq l.vet_tk_else l.if_level.toNat true (by rw [h.len_else]; omega)
    rw [hcast] at this
    exact this
  · refine Chain.agree fs _ c9 ?_
    intro j hj0 hjk
    have hjk1 : j ≤ l.vet_prev_level.getD l.if_level.toNat 0 := hjk
    refine ⟨rfl, rfl, rfl, ?_, rfl, rfl, rfl⟩
    show flagAt (l.vet_tk_else.set l.if_level.toNat true) j = flagAt l.vet_tk_else j
    exact flagAt_set_ne _ _ _ _ hj0 (by omega)
  · show (l.vet_tk_else.set l.if_level.toNat true).length = l.vet_tk_if.length
    rw [List.length_set]; exact h.len_else

theorem selectedWords_frame {l : Locals} {f : Frame} {fs : List Frame}
    (h : Chain l l.if_level (f :: fs)) : selectedWords l = f.selected := by
  obtain ⟨c0, c1, c2, c3, c4, c5, c6, c7, c8, c9⟩ := h
  rw [selectedWords_eq, c1, c5, c6]
  rfl

/-- At `%end` the words of the selected arm of the innermost block go to the arm
the enclosing block is in, or to the output when there is none. -/
theorem Rel.afterEnd {out : QString} {f : Frame} {fs : List Frame} {l : Locals}
    (h : Rel out (f :: fs) l) (hp : PlainStack (f :: fs)) (p : SchemaParser) :
    ∃ l', caseEnd { l with prev_cond := l.cond, cond := TOKEN_END } p = .ok l' p ∧
      l'.prev_cond = l.cond ∧ l'.cond = TOKEN_END ∧
      Rel (emitOut out f.selected fs) (emitTop f.selected fs) l' := by
  have hsel : ∀ l0 : Locals, l0 = { l with prev_cond := l.cond, cond := TOKEN_END } →
      selectedWords { l0 with end_cnt := l0.end_cnt + 1 } = f.selected := by
    intro l0 h0
    subst h0
    refine @selectedWords_frame _ f fs ?_
    have hc : Chain l l.if_level (f :: fs) := h.chain
    refine Chain.agree _ _ hc ?_
    intro j _ _
    exact ⟨rfl, rfl, rfl, rfl, rfl, rfl, rfl⟩
  have hsel := hsel _ rfl
  obtain ⟨c0, c1, c2, c3, c4, c5, c6, c7, c8, c9⟩ := h.chain
  have hcnt := h.cnt
  cases fs with
  | nil =>
    have h0 : l.if_level = 0 := c8 rfl
    have hplain : ∀ w ∈ f.selected, ¬ (w ≠ [] ∧ qstartsWith w CHR_INI_ATTRIB = true ∧
        qendsWith w CHR_END_ATTRIB = true) := by
      intro w hw
      refine hp f (by simp) w ?_
      unfold Frame.selected at hw
      by_cases hb : f.expif = true
      · rw [if_pos hb] at hw; exact List.mem_append_left _ hw
      · rw [if_neg hb] at hw; exact List.mem_append_right _ hw
    refine ⟨{ l with
      object_def := l.object_def ++ f.selected.flatten, end_cnt := l.end_cnt + 1,
      prev_cond := l.cond, cond := TOKEN_END, if_map := [], else_map := [], vet_tk_if := [],
      vet_tk_then := [], vet_tk_else := [], vet_expif := [], vet_prev_level := [],
      if_level := -1 }, ?_, rfl, rfl, ?_⟩
    · unfold caseEnd
      have hnpos : ¬ (l.if_level > 0) := by omega
      simp only [hnpos, if_false]
      rw [hsel, flushWords_plain _ _ _ hplain]
      rfl
    · refine ⟨rfl, ?_, rfl, rfl, rfl, rfl,
        (show (-1 : Int) < ((([] : List Bool).length : Nat) : Int) from by decide),
        fun _ => ⟨rfl, rfl, rfl⟩,
        fun j _ => ⟨rfl, rfl⟩, (show ¬ (TOKEN_END = TOKEN_IF) from by decide), ?_⟩
      · show l.object_def ++ f.selected.flatten = out ++ f.selected.flatten
        rw [h.out_eq]
      · show l.if_cnt = l.end_cnt + 1 + 0
        simp only [List.length_cons, List.length_nil] at hcnt
        omega
  | cons g gs =>
    have hg := c9
    obtain ⟨g0, g1, g2, g3, g4, g5, g6, g7, g8, g9⟩ := hg
    have hpos : l.if_level > 0 := by omega
    have hlt := h.level_lt
    have hfresh : ∀ (m : frag_map) (j : Int), (l.vet_tk_if.length : Int) ≤ j →
        m.find j = none →
        (m.push (l.vet_prev_level.getD l.if_level.toNat 0) f.selected).find j = none := by
      intro m j hj hm
      rw [frag_map.find_push, if_neg (by omega)]
      exact hm
    by_cases hi : g.inElse = true
    · have helse : flagAt l.vet_tk_else (l.vet_prev_level.getD l.if_level.toNat 0) = true := by
        rw [g4, hi]
      refine ⟨{ l with
        end_cnt := l.end_cnt + 1, prev_cond := l.cond, cond := TOKEN_END,
        else_map := l.else_map.push (l.vet_prev_level.getD l.if_level.toNat 0) f.selected,
        if_level := l.vet_prev_level.getD l.if_level.toNat 0 }, ?_, rfl, rfl, ?_⟩
      · unfold caseEnd
        simp only [hpos, if_true, helse, not_true_eq_false, if_false]
        rw [hsel]
      · refine ⟨?_, h.out_eq, h.len_expif, h.len_then, h.len_else, h.len_prev, ?_,
          fun hn => List.noConfusion hn, ?_, (show ¬ (TOKEN_END = TOKEN_IF) from by decide), ?_⟩
        · refine Chain.push f.selected c9 rfl rfl rfl rfl ?_ ?_ rfl
          · simp only [hi, if_true]
          · simp only [hi, if_true]
        · show l.vet_prev_level.getD l.if_level.toNat 0 < (l.vet_tk_if.length : Int)
          omega
        · intro j hj
          exact ⟨(h.fresh j hj).1, hfresh _ j hj (h.fresh j hj).2⟩
        · show l.if_cnt = l.end_cnt + 1 + (gs.length + 1)
          simp only [List.length_cons] at hcnt
          omega
    · have hi' : g.inElse = false := by simpa using hi
      have helse : flagAt l.vet_tk_else (l.vet_prev_level.getD l.if_level.toNat 0) = false := by
        rw [g4, hi']
      refine ⟨{ l with
        end_cnt := l.end_cnt + 1, prev_cond := l.cond, cond := TOKEN_END,
        if_map := l.if_map.push (l.vet_prev_level.getD l.if_level.toNat 0) f.selected,
        if_level := l.vet_prev_level.getD l.if_level.toNat 0 }, ?_, rfl, rfl, ?_⟩
      · unfold caseEnd
        simp only [hpos, if_true, helse, Bool.false_eq_true, not_false_eq_true]
        rw [hsel]
      · refine ⟨?_, h.out_eq, h.len_expif, h.len_then, h.len_else, h.len_prev, ?_,
          fun hn => List.noConfusion hn, ?_, (show ¬ (TOKEN_END = TOKEN_IF) from by decide), ?_⟩
        · refine Chain.push f.selected c9 rfl rfl rfl rfl ?_ ?_ rfl
          · simp only [hi', Bool.false_eq_true, if_false]
          · simp only [hi', Bool.false_eq_true, if_false]
        · show l.vet_prev_level.getD l.if_level.toNat 0 < (l.vet_tk_if.length : Int)
          omega
        · intro j hj
          exact ⟨hfresh _ j hj (h.fresh j hj).1, (h.fresh j hj).2⟩
        · show l.if_cnt = l.end_cnt + 1 + (gs.length + 1)
          simp only [List.length_cons] at hcnt
          omega

theorem headerText_cons (b1 attr b2 : QString) :
    headerText b1 attr b2 = CHR_INI_CONDITIONAL :: (TOKEN_IF ++ b1 ++ CHR_INI_ATTRIB :: attr ++
      CHR_END_ATTRIB :: b2 ++ CHR_INI_CONDITIONAL :: TOKEN_THEN) := rfl

theorem Item.render_cons (i : Item) : ∃ c r, i.render = c :: r ∧ ¬ isDelim c := by
  cases i with
  | text t ws => exact ⟨CHR_INI_PURETEXT, _, by rw [Item.render]; rfl, by decide⟩
  | ifThen b1 attr b2 w1 thn ws =>
    exact ⟨CHR_INI_CONDITIONAL, _, by rw [Item.render, headerText_cons]; rfl, by decide⟩
  | ifThenElse b1 attr b2 w1 thn w2 els ws =>
    exact ⟨CHR_INI_CONDITIONAL, _, by rw [Item.render, headerText_cons]; rfl, by decide⟩

theorem Items.render_tight (is : Items) {rest : QString} (h : Tight rest) :
    Tight (is.render ++ rest) := by
  cases is with
  | nil => rw [Items.render]; exact h
  | cons i r =>
    obtain ⟨c, s, hs, hc⟩ := i.render_cons
    rw [Items.render, hs]
    exact Or.inr ⟨c, _, rfl, hc⟩

theorem Tight.cons {c : Char} (hc : ¬ isDelim c) (r : QString) : Tight (c :: r) :=
  Or.inr ⟨c, r, rfl, hc⟩

theorem emitTop_nil (stack : List Frame) : emitTop [] stack = stack := by
  cases stack with
  | nil => rfl
  | cons f fs =>
    cases f with
    | mk b e w1 w2 => cases e <;> simp [emitTop]

theorem emitOut_nil (out : QString) (stack : List Frame) : emitOut out [] stack = out := by
  cases stack <;> simp [emitOut]

theorem emitTop_append (ws1 ws2 : List QString) (stack : List Frame) :
    emitTop ws2 (emitTop ws1 stack) = emitTop (ws1 ++ ws2) stack := by
  cases stack with
  | nil => rfl
  | cons f fs =>
    cases f with
    | mk b e w1 w2 => cases e <;> simp [emitTop]

theorem emitOut_append (out : QString) (ws1 ws2 : List QString) (stack : List Frame) :
    emitOut (emitOut out ws1 stack) ws2 (emitTop ws1 stack) = emitOut out (ws1 ++ ws2) stack := by
  cases stack with
  | nil => simp [emitOut, emitTop]
  | cons f fs => rfl

theorem emitTop_then (b : Bool) (w1 w2 ws : List QString) (fs : List Frame) :
    emitTop ws (⟨b, false, w1, w2⟩ :: fs) = ⟨b, false, w1 ++ ws, w2⟩ :: fs := rfl

theorem emitTop_else (b : Bool) (w1 w2 ws : List QString) (fs : List Frame) :
    emitTop ws (⟨b, true, w1, w2⟩ :: fs) = ⟨b, true, w1, w2 ++ ws⟩ :: fs := rfl

theorem emitOut_cons (out : QString) (ws : List QString) (f : Frame) (fs : List Frame) :
    emitOut out ws (f :: fs) = out := rfl

theorem PlainStack.openBlock {stack : List Frame} (h : PlainStack stack) (b : Bool) :
    PlainStack (⟨b, false, [], []⟩ :: stack) := by
  intro f hf w hw
  simp only [List.mem_cons] at hf
  rcases hf with rfl | hf
  · simp at hw
  · exact h f hf w hw

theorem PlainStack.toElse {f : Frame} {fs : List Frame} (h : PlainStack (f :: fs)) :
    PlainStack ({ f with inElse := true } :: fs) := by
  intro g hg w hw
  simp only [List.mem_cons] at hg
  rcases hg with rfl | hg
  · exact h f (by simp) w hw
  · exact h g (by simp [hg]) w hw

theorem PlainStack.closeBlock {f : Frame} {fs : List Frame} (h : PlainStack (f :: fs)) :
    PlainStack (emitTop f.selected fs) := by
  refine emitTop_plain (fun g hg => h g (by simp [hg])) ?_
  intro w hw
  refine h f (by simp) w ?_
  unfold Frame.selected at hw
  by_cases hb : f.expif = true
  · rw [if_pos hb] at hw; exact List.mem_append_left _ hw
  · rw [if_neg hb] at hw; exact List.mem_append_right _ hw

theorem PlainWord.of_text {t : QString} (h : ∀ c ∈ t, c ≠ CHR_INI_ATTRIB ∧ c ≠ CHR_END_ATTRIB ∧
    c ≠ CHR_INI_PURETEXT ∧ c ≠ CHR_END_PURETEXT) : PlainWord t := by
  intro hw
  obtain ⟨hne, hs, _⟩ := hw
  cases t with
  | nil => exact hne rfl
  | cons c r =>
    have : c = CHR_INI_ATTRIB := by simpa [qstartsWith] using hs
    exact (h c (by simp)).1 this

theorem Rel.not_inIfExpr {out : QString} {stack : List Frame} {l : Locals} (h : Rel out stack l) :
    l.if_level ≥ 0 → inIfExpr l = false := by
  intro hl
  cases stack with
  | nil => have : l.if_level = -1 := h.chain; omega
  | cons f fs =>
    obtain ⟨c0, c1, c2, c3, c4, c5, c6, c7, c8, c9⟩ := h.chain
    simp [inIfExpr, c2, c3]

theorem Locals.afterWord_cond (l : Locals) (t : QString) : (l.afterWord t).cond = l.cond := by
  unfold Locals.afterWord storeWord
  split
  · split
    · rfl
    · split <;> rfl
  · rfl

theorem headerText_length (b1 attr b2 : QString) : 2 ≤ (headerText b1 attr b2).length := by
  rw [headerText_cons]
  simp only [List.length_cons, List.length_append]
  omega

theorem White.uncons {w : QString} (hne : w ≠ []) (hw : White w) :
    ∃ c r, w = c :: r ∧ isDelim c := by
  cases w with
  | nil => exact absurd rfl hne
  | cons c r => exact ⟨c, r, rfl, hw c (by simp)⟩

theorem step_text {p : SchemaParser} {l : Locals} {t rest out : QString} {stack : List Frame}
    (hwf : LoadedBuffer p.buffer)
    (h : AtCursor p (CHR_INI_PURETEXT :: t ++ CHR_END_PURETEXT :: rest))
    (ht : ∀ c ∈ t, c ≠ CHR_INI_ATTRIB ∧ c ≠ CHR_END_ATTRIB ∧ c ≠ CHR_INI_PURETEXT ∧
      c ≠ CHR_END_PURETEXT)
    (hr : Rel out stack l) (hp : PlainStack stack) :
    ∃ q, SameButCursor p q ∧ AtCursor q rest ∧
      Rel (emitOut out [t] stack) (emitTop [t] stack) (l.afterWord t) ∧
      PlainStack (emitTop [t] stack) ∧
      ∀ sf fuel : Nat, getCodeDefinitionLoop sf (fuel + 1) l p =
        getCodeDefinitionLoop sf fuel (l.afterWord t) q := by
  obtain ⟨q, hq, hat, e⟩ := run_text hwf h (fun c hc => ⟨(ht c hc).2.2.1, (ht c hc).2.2.2⟩)
    hr.not_inIfExpr
  refine ⟨q, hq, hat, hr.afterWord t, emitTop_plain hp ?_, e⟩
  intro w hw
  have : w = t := by simpa using hw
  rw [this]
  exact PlainWord.of_text ht

mutual
theorem run_item (sf : Nat) (hsf : 3 ≤ sf) (env : attribs_map) :
    ∀ (i : Item) (p : SchemaParser) (l : Locals) (out : QString) (stack : List Frame)
      (rest : QString),
      LoadedBuffer p.buffer → p.attributes = env → Stream p (i.render ++ rest) →
      i.valid env = true → Tight rest → Rel out stack l → PlainStack stack →
      Runs sf p l out stack (i.words env) i.render.length rest
  | .text t ws, p, l, out, stack, rest, hwf, henv, hs, hv, ht, hr, hp => by
    rw [Item.valid] at hv
    simp only [Bool.and_eq_true, decide_eq_true_eq] at hv
    obtain ⟨hv1, hv2⟩ := hv
    rw [Item.render] at hs
    have e0 : (CHR_INI_PURETEXT :: t ++ CHR_END_PURETEXT :: ws) ++ rest =
        CHR_INI_PURETEXT :: t ++ CHR_END_PURETEXT :: (ws ++ rest) := by
      simp only [List.append_assoc, List.cons_append]
    rw [e0] at hs
    have hat := hs.atCursor (by simp)
    obtain ⟨q, hq, hat1, hr1, hp1, e1⟩ := step_text hwf hat hv1 hr hp
    have hwfq : LoadedBuffer q.buffer := by rw [hq.buffer]; exact hwf
    obtain ⟨k2, q2, hk2, hq2, hs2, e2⟩ :=
      run_white ws.length ws q rest (le_refl _) hwfq (Or.inr hat1) hv2 ht
    refine ⟨k2 + 1, q2, l.afterWord t, ?_, hq.trans hq2, hs2, ?_, ?_,
      Or.inl (Locals.afterWord_cond l t), ?_⟩
    · rw [Item.render]
      simp only [List.length_append, List.length_cons]
      omega
    · rw [Item.words]; exact hr1
    · rw [Item.words]; exact hp1
    · intro fuel
      have : k2 + 1 + fuel = (k2 + fuel) + 1 := by omega
      rw [this, e1, e2]
  | .ifThen b1 attr b2 w1 thn ws, p, l, out, stack, rest, hwf, henv, hs, hv, ht, hr, hp => by
    rw [Item.valid] at hv
    simp only [Bool.and_eq_true, decide_eq_true_eq] at hv
    obtain ⟨⟨⟨⟨⟨⟨⟨⟨⟨hb1, hbl1⟩, hbl2⟩, hre⟩, hpres⟩, hw1⟩, hwh1⟩, hvt⟩, hw3⟩, hwh3⟩ := hv
    obtain ⟨c1, r1, ew1, hc1⟩ := White.uncons hw1 hwh1
    obtain ⟨c3, r3, ew3, hc3⟩ := White.uncons hw3 hwh3
    rw [Item.render] at hs
    have e0 : (headerText b1 attr b2 ++ (w1 ++ (thn.render ++
        (CHR_INI_CONDITIONAL :: TOKEN_END ++ ws)))) ++ rest =
        headerText b1 attr b2 ++ c1 :: (r1 ++ (thn.render ++
          (CHR_INI_CONDITIONAL :: TOKEN_END ++ c3 :: (r3 ++ rest)))) := by
      rw [ew1, ew3]
      simp only [List.append_assoc, List.cons_append]
    rw [e0] at hs
    have hat := hs.atCursor (by rw [headerText_cons]; simp)
    rw [← henv] at hpres
    obtain ⟨hat1, e1⟩ := run_if_then hwf hat hb1 hbl1 hbl2 hre hpres hc1 hr.cond_ne hsf
    have hr1 := hr.afterIfThen (!decide (p.attributes.value attr = []))
    have hp1 := hp.openBlock (!decide (p.attributes.value attr = []))
    obtain ⟨k2, q2, hk2, hq2, hs2, e2⟩ :=
      run_white w1.length w1 { p with column := p.column + (headerText b1 attr b2).length }
        (thn.render ++ (CHR_INI_CONDITIONAL :: TOKEN_END ++ c3 :: (r3 ++ rest)))
        (le_refl _) hwf (Or.inr (by rw [ew1]; exact hat1)) hwh1
        (thn.render_tight (Tight.cons (by decide) _))
    have hwf2 : LoadedBuffer q2.buffer := by rw [hq2.buffer]; exact hwf
    have henv2 : q2.attributes = env := by rw [hq2.attributes]; exact henv
    obtain ⟨k3, q3, l3, hk3, hq3, hs3, hr3, hp3, hcond3, e3⟩ :=
      run_items sf hsf env thn q2 _ out _ _ hwf2 henv2 hs2 hvt (Tight.cons (by decide) _) hr1 hp1
    rw [emitTop_then, emitOut_cons] at hr3
    rw [emitTop_then] at hp3
    have hwf3 : LoadedBuffer q3.buffer := by rw [hq3.buffer]; exact hwf2
    have hat3 := hs3.atCursor (by simp)
    obtain ⟨l4, hcase, hprev, hcond4, hr4⟩ :=
      hr3.afterEnd hp3 { q3 with column := q3.column + (TOKEN_END.length + 1) }
    obtain ⟨hat4, e4⟩ := run_end hwf3 hat3 hc3 hr3.chain.1 hr3.cond_ne hcase hprev hcond4
    obtain ⟨k5, q5, hk5, hq5, hs5, e5⟩ :=
      run_white ws.length ws { q3 with column := q3.column + (TOKEN_END.length + 1) } rest
        (le_refl _) hwf3 (Or.inr (by rw [ew3]; exact hat4)) hwh3 ht
    have hsel : Frame.selected ⟨!decide (p.attributes.value attr = []), false,
        [] ++ thn.words env, []⟩ = Item.words env (.ifThen b1 attr b2 w1 thn ws) := by
      rw [Item.words, henv]
      unfold Frame.selected
      by_cases h0 : env.value attr = [] <;> simp [h0]
    rw [hsel] at hr4
    have hp4 := hp3.closeBlock
    rw [hsel] at hp4
    refine ⟨2 + k2 + k3 + 1 + k5, q5, l4, ?_,
      (((SameButCursor.column p _).trans hq2).trans hq3).trans
        ((SameButCursor.column q3 _).trans hq5), hs5, hr4, hp4, Or.inr hcond4, ?_⟩
    · rw [Item.render]
      have := headerText_length b1 attr b2
      simp only [List.length_append, List.length_cons]
      omega
    · intro fuel
      have : 2 + k2 + k3 + 1 + k5 + fuel = (k2 + (k3 + ((k5 + fuel) + 1))) + 2 := by omega
      rw [this, e1, e2, e3, e4, e5]
  | .ifThenElse b1 attr b2 w1 thn w2 els ws, p, l, out, stack, rest, hwf, henv, hs, hv, ht, hr,
      hp => by
    rw [Item.valid] at hv
    simp only [Bool.and_eq_true, decide_eq_true_eq] at hv
    obtain ⟨⟨⟨⟨⟨⟨⟨⟨⟨⟨⟨⟨hb1, hbl1⟩, hbl2⟩, hre⟩, hpres⟩, hw1⟩, hwh1⟩, hvt⟩, hw2⟩, hwh2⟩, hve⟩,
      hw3⟩, hwh3⟩ := hv
    obtain ⟨c1, r1, ew1, hc1⟩ := White.uncons hw1 hwh1
    obtain ⟨c2, r2, ew2, hc2⟩ := White.uncons hw2 hwh2
    obtain ⟨c3, r3, ew3, hc3⟩ := White.uncons hw3 hwh3
    rw [Item.render] at hs
    have e0 : (headerText b1 attr b2 ++ (w1 ++ (thn.render ++
        (CHR_INI_CONDITIONAL :: TOKEN_ELSE ++ (w2 ++ (els.render ++
          (CHR_INI_CONDITIONAL :: TOKEN_END ++ ws))))))) ++ rest =
        headerText b1 attr b2 ++ c1 :: (r1 ++ (thn.render ++
          (CHR_INI_CONDITIONAL :: TOKEN_ELSE ++ c2 :: (r2 ++ (els.render ++
            (CHR_INI_CONDITIONAL :: TOKEN_END ++ c3 :: (r3 ++ rest))))))) := by
      rw [ew1, ew2, ew3]
      simp only [List.append_assoc, List.cons_append]
    rw [e0] at hs
    have hat := hs.atCursor (by rw [headerText_cons]; simp)
    rw [← henv] at hpres
    obtain ⟨hat1, e1⟩ := run_if_then hwf hat hb1 hbl1 hbl2 hre hpres hc1 hr.cond_ne hsf
    have hr1 := hr.afterIfThen (!decide (p.attributes.value attr = []))
    have hp1 := hp.openBlock (!decide (p.attributes.value attr = []))
    obtain ⟨k2, q2, hk2, hq2, hs2, e2⟩ :=
      run_white w1.length w1 { p with column := p.column + (headerText b1 attr b2).length }
        (thn.render ++ (CHR_INI_CONDITIONAL :: TOKEN_ELSE ++ c2 :: (r2 ++ (els.render ++
            (CHR_INI_CONDITIONAL :: TOKEN_END ++ c3 :: (r3 ++ rest))))))
        (le_refl _) hwf (Or.inr (by rw [ew1]; exact hat1)) hwh1
        (thn.render_tight (Tight.cons (by decide) _))
    have hwf2 : LoadedBuffer q2.buffer := by rw [hq2.buffer]; exact hwf
    have henv2 : q2.attributes = env := by rw [hq2.attributes]; exact henv
    obtain ⟨k3, q3, l3, hk3, hq3, hs3, hr3, hp3, hcond3, e3⟩ :=
      run_items sf hsf env thn q2 _ out _ _ hwf2 henv2 hs2 hvt (Tight.cons (by decide) _) hr1 hp1
    rw [emitTop_then, emitOut_cons] at hr3
    rw [emitTop_then] at hp3
    have hwf3 : LoadedBuffer q3.buffer := by rw [hq3.buffer]; exact hwf2
    have henv3 : q3.attributes = env := by rw [hq3.attributes]; exact henv2
    have hat3 := hs3.atCursor (by simp)
    have hne3 : l3.cond ≠ TOKEN_ELSE := by
      rcases hcond3 with h | h
      · rw [h]; exact (show ¬ (TOKEN_THEN = TOKEN_ELSE) from by decide)
      · rw [h]; exact (show ¬ (TOKEN_END = TOKEN_ELSE) from by decide)
    obtain ⟨hat4, e4⟩ := run_else hwf3 hat3 hc2 hr3.chain.1 hr3.cond_ne hne3
    have hr4 : Rel out (⟨!decide (p.attributes.value attr = []), true, [] ++ thn.words env, []⟩ ::
        stack) l3.afterElse := hr3.afterElse
    have hp4 : PlainStack (⟨!decide (p.attributes.value attr = []), true, [] ++ thn.words env,
        []⟩ :: stack) := hp3.toElse
    obtain ⟨k5, q5, hk5, hq5, hs5, e5⟩ :=
      run_white w2.length w2 { q3 with column := q3.column + (TOKEN_ELSE.length + 1) }
        (els.render ++ (CHR_INI_CONDITIONAL :: TOKEN_END ++ c3 :: (r3 ++ rest)))
        (le_refl _) hwf3 (Or.inr (by rw [ew2]; exact hat4)) hwh2
        (els.render_tight (Tight.cons (by decide) _))
    have hwf5 : LoadedBuffer q5.buffer := by rw [hq5.buffer]; exact hwf3
    have henv5 : q5.attributes = env := by rw [hq5.attributes]; exact henv3
    obtain ⟨k6, q6, l6, hk6, hq6, hs6, hr6, hp6, hcond6, e6⟩ :=
      run_items sf hsf env els q5 _ out _ _ hwf5 henv5 hs5 hve (Tight.cons (by decide) _) hr4 hp4
    rw [emitTop_else, emitOut_cons] at hr6
    rw [emitTop_else] at hp6
    have hwf6 : LoadedBuffer q6.buffer := by rw [hq6.buffer]; exact hwf5
    have hat6 := hs6.atCursor (by simp)
    obtain ⟨l7, hcase, hprev, hcond7, hr7⟩ :=
      hr6.afterEnd hp6 { q6 with column := q6.column + (TOKEN_END.length + 1) }
    obtain ⟨hat7, e7⟩ := run_end hwf6 hat6 hc3 hr6.chain.1 hr6.cond_ne hcase hprev hcond7
    obtain ⟨k8, q8, hk8, hq8, hs8, e8⟩ :=
      run_white ws.length ws { q6 with column := q6.column + (TOKEN_END.length + 1) } rest
        (le_refl _) hwf6 (Or.inr (by rw [ew3]; exact hat7)) hwh3 ht
    have hsel : Frame.selected ⟨!decide (p.attributes.value attr = []), true,
        [] ++ thn.words env, [] ++ els.words env⟩ =
        Item.words env (.ifThenElse b1 attr b2 w1 thn w2 els ws) := by
      rw [Item.words, henv]
      unfold Frame.selected
      by_cases h0 : env.value attr = [] <;> simp [h0]
    rw [hsel] at hr7
    have hp7 := hp6.closeBlock
    rw [hsel] at hp7
    refine ⟨2 + k2 + k3 + 1 + k5 + k6 + 1 + k8, q8, l7, ?_,
      ((((SameButCursor.column p _).trans hq2).trans hq3).trans
        ((SameButCursor.column q3 _).trans hq5)).trans
        (hq6.trans ((SameButCursor.column q6 _).trans hq8)), hs8, hr7, hp7, Or.inr hcond7, ?_⟩
    · rw [Item.render]
      have := headerText_length b1 attr b2
      simp only [List.length_append, List.length_cons]
      omega
    · intro fuel
      have : 2 + k2 + k3 + 1 + k5 + k6 + 1 + k8 + fuel =
          (k2 + (k3 + ((k5 + (k6 + ((k8 + fuel) + 1))) + 1))) + 2 := by omega
      rw [this, e1, e2, e3, e4, e5, e6, e7, e8]
theorem run_items (sf : Nat) (hsf : 3 ≤ sf) (env : attribs_map) :
    ∀ (is : Items) (p : SchemaParser) (l : Locals) (out : QString) (stack : List Frame)
      (rest : QString),
      LoadedBuffer p.buffer → p.attributes = env → Stream p (is.render ++ rest) →
      is.valid env = true → Tight rest → Rel out stack l → PlainStack stack →
      Runs sf p l out stack (is.words env) is.render.length rest
  | .nil, p, l, out, stack, rest, hwf, henv, hs, hv, ht, hr, hp => by
    rw [Items.render] at hs
    rw [Items.words]
    refine ⟨0, p, l, Nat.zero_le _, SameButCursor.refl p, hs, ?_, ?_, Or.inl rfl, ?_⟩
    · rw [emitOut_nil, emitTop_nil]; exact hr
    · rw [emitTop_nil]; exact hp
    · intro fuel; rw [Nat.zero_add]
  | .cons i r, p, l, out, stack, rest, hwf, henv, hs, hv, ht, hr, hp => by
    rw [Items.valid] at hv
    simp only [Bool.and_eq_true] at hv
    rw [Items.render, List.append_assoc] at hs
    obtain ⟨k1, q1, l1, hk1, hq1, hs1, hr1, hp1, hcond1, e1⟩ :=
      run_item sf hsf env i p l out stack (r.render ++ rest) hwf henv hs hv.1
        (r.render_tight ht) hr hp
    have hwf1 : LoadedBuffer q1.buffer := by rw [hq1.buffer]; exact hwf
    have henv1 : q1.attributes = env := by rw [hq1.attributes]; exact henv
    obtain ⟨k2, q2, l2, hk2, hq2, hs2, hr2, hp2, hcond2, e2⟩ :=
      run_items sf hsf env r q1 l1 _ _ rest hwf1 henv1 hs1 hv.2 ht hr1 hp1
    rw [emitOut_append, emitTop_append] at hr2
    rw [emitTop_append] at hp2
    refine ⟨k1 + k2, q2, l2, ?_, hq1.trans hq2, hs2, ?_, ?_, ?_, ?_⟩
    · rw [Items.render, List.length_append]; omega
    · rw [Items.words]; exact hr2
    · rw [Items.words]; exact hp2
    · rcases hcond2 with h | h
      · rw [h]; exact hcond1
      · exact Or.inr h
    · intro fuel
      have : k1 + k2 + fuel = k1 + (k2 + fuel) := by omega
      rw [this, e1, e2]
end

theorem Rel.init : Rel [] [] Locals.init :=
  ⟨rfl, rfl, rfl, rfl, rfl, rfl, by decide, fun _ => ⟨rfl, rfl, rfl⟩, fun _ _ => ⟨rfl, rfl⟩,
    by decide, rfl⟩

theorem SameButCursor.restart {p q : SchemaParser} (h : SameButCursor p q) :
    restartParser q = restartParser p := by
  unfold SameButCursor at h
  rw [h]
  rfl

theorem Stream.start {p : SchemaParser} (hwf : LoadedBuffer p.buffer) (hline : p.line = 0)
    (hcol : p.column = 0) : Stream p p.buffer.flatten := by
  cases hb : p.buffer with
  | nil => exact Or.inl ⟨rfl, by rw [hb]; rfl⟩
  | cons L tl =>
    refine Or.inr ⟨L, by rw [hb, hline]; simp, ?_, ?_⟩
    · obtain ⟨body, hL, _⟩ := hwf L (by rw [hb]; simp)
      rw [hcol, hL]; simp
    · rw [hcol, hline, hb]; simp

theorem Items.words_of_render_nil (env : attribs_map) (is : Items) (h : is.render = []) :
    is.words env = [] := by
  cases is with
  | nil => rw [Items.words]
  | cons i r =>
    obtain ⟨c, s, hs, _⟩ := i.render_cons
    rw [Items.render, hs] at h
    exact absurd h (by simp)

/-- C1: for every buffer that holds, after leading blanks and line ends, pure
texts `[t]` (the contents without `{`, `}`, `[`, `]`) and well formed, arbitrarily
nested blocks `%if {attr} %then ... %end` with or without `%else`, separated by
blanks and line ends, and every environment that defines the attributes tested,
`getCodeDefinition` returns the concatenation, in order, of exactly the pure
texts that lie in the selected arm of every block around them: the `then` arm
when the attribute is not empty, the `else` arm when it is empty, nothing when it
is empty and the block has no `else` arm.  The length of the buffer plus three
is enough fuel. -/
theorem C1_nested_if_blocks (p : SchemaParser) (env : attribs_map) (w0 : QString)
    (items : Items) (fuel : Nat)
    (hwf : LoadedBuffer p.buffer) (hline : p.line = 0) (hcol : p.column = 0)
    (hw0 : White w0) (htext : p.buffer.flatten = w0 ++ items.render)
    (hv : items.valid env = true) (hfuel : p.buffer.flatten.length + 3 ≤ fuel) :
    getCodeDefinition fuel env p =
      .ok (items.words env).flatten
        { restartParser p with ignore_unk_atribs := false, ignore_empty_atribs := false } := by
  unfold getCodeDefinition
  by_cases hlen : p.buffer.length > 0
  · rw [if_pos hlen]
    have hs0 : Stream { p with attributes := env } (w0 ++ (items.render ++ [])) := by
      rw [List.append_nil, ← htext]
      exact Stream.start (p := { p with attributes := env }) hwf hline hcol
    have htight : Tight (items.render ++ []) := items.render_tight (Or.inl rfl)
    obtain ⟨k1, q1, hk1, hq1, hs1, e1⟩ :=
      run_white w0.length w0 { p with attributes := env } (items.render ++ []) (le_refl _) hwf
        hs0 hw0 htight
    have hwf1 : LoadedBuffer q1.buffer := by rw [hq1.buffer]; exact hwf
    have henv1 : q1.attributes = env := by rw [hq1.attributes]
    obtain ⟨k2, q2, l2, hk2, hq2, hs2, hr2, _, _, e2⟩ :=
      run_items fuel (by omega) env items q1 Locals.init [] [] [] hwf1 henv1 hs1 hv
        (Or.inl rfl) Rel.init (fun _ hf => absurd hf (List.not_mem_nil _))
    have hnone : q2.buffer[q2.line]? = none := by
      rcases hs2 with h | h
      · exact h.2
      · exact absurd rfl h.ne_nil
    have hlenr : k1 + k2 + 3 ≤ fuel := by
      have : (w0 ++ items.render).length ≤ fuel - 3 := by rw [← htext]; omega
      rw [List.length_append] at this
      omega
    obtain ⟨m, hm⟩ : ∃ m, fuel = k1 + (k2 + (m + 1)) := ⟨fuel - k1 - k2 - 1, by omega⟩
    have hcnt : l2.if_cnt = l2.end_cnt := by have := hr2.cnt; simpa using this
    have hout : l2.object_def = (items.words env).flatten := by
      have := hr2.out_eq
      simpa [emitOut] using this
    have hrestart : restartParser q2 = restartParser p := by
      rw [hq2.restart, hq1.restart]; rfl
    conv => lhs; arg 2; rw [hm]
    rw [e1, e2, getCodeDefinitionLoop]
    simp only [hnone, hcnt, ne_eq, not_true_eq_false, if_false, hout, hrestart]
  · rw [if_neg hlen]
    have hnil : p.buffer = [] := List.length_eq_zero.mp (by omega)
    have hr : items.render = [] := by
      rw [hnil] at htext
      have h := htext.symm
      simp only [List.flatten_nil, List.append_eq_nil] at h
      exact h.2
    rw [items.words_of_render_nil env hr]
    rfl

theorem C1_nested_if_blocks_witness :
    getCodeDefinition 70
        [("a".toList, "1".toList), ("b".toList, [])]
        (loaded ["[s] %if {a} %then [x]\n".toList,
                 "  %if {b} %then [y] %end\n".toList,
                 "%else [z] %end\n".toList] []) =
      .ok "sx".toList
        { restartParser (loaded ["[s] %if {a} %then [x]\n".toList,
                 "  %if {b} %then [y] %end\n".toList,
                 "%else [z] %end\n".toList] [])
          with ignore_unk_atribs := false, ignore_empty_atribs := false } :=
  C1_nested_if_blocks
    (loaded ["[s] %if {a} %then [x]\n".toList,
             "  %if {b} %then [y] %end\n".toList,
             "%else [z] %end\n".toList] [])
    [("a".toList, "1".toList), ("b".toList, [])]
    []
    (.cons (.text "s".toList " ".toList)
      (.cons (.ifThenElse " ".toList "a".toList " ".toList " ".toList
          (.cons (.text "x".toList "\n  ".toList)
            (.cons (.ifThen " ".toList "b".toList " ".toList " ".toList
                (.cons (.text "y".toList " ".toList) .nil) "\n".toList) .nil))
          " ".toList (.cons (.text "z".toList " ".toList) .nil) "\n".toList) .nil))
    70 (by decide) rfl rfl (by decide) (by decide) (by decide) (by decide)

/-- The loop of `getCodeDefinition` on a `%set` that is executed. -/
theorem run_set_live {p : SchemaParser} {l : Locals} {c : Char} {bl0 name : QString}
    {toks : List (QString × ValueToken)} {bl1 rest : QString} {sf : Nat}
    (hwf : LoadedBuffer p.buffer)
    (h : AtCursor p (CHR_INI_CONDITIONAL :: TOKEN_SET ++ c :: (bl0 ++ CHR_INI_ATTRIB :: name ++
      CHR_END_ATTRIB :: (renderTokens toks ++ bl1 ++ CHR_LINE_END :: rest))))
    (hc : isBlank c) (hbl0 : Blanks bl0) (hname : ATTR_REGEXP.exactMatch name = true)
    (hv : ∀ t ∈ toks, t.1 ≠ [] ∧ Blanks t.1 ∧ t.2.Valid p.attributes)
    (hnl : CHR_LINE_END ∉ renderTokens toks)
    (hbl1 : Blanks bl1) (hsf : toks.length + 3 ≤ sf)
    (hlive : extractDirective l.afterSet = true) :
    AtCursor
      { p with column := p.column + (TOKEN_SET.length + 1) +
                 (c :: bl0 ++ CHR_INI_ATTRIB :: name ++ CHR_END_ATTRIB ::
                   (renderTokens toks ++ bl1)).length,
               attributes := p.attributes.assign name (tokensValue p.attributes toks) }
      (CHR_LINE_END :: rest) ∧
    ∀ fuel : Nat, getCodeDefinitionLoop sf (fuel + 1) l p =
      getCodeDefinitionLoop sf fuel l.afterSet
        { p with column := p.column + (TOKEN_SET.length + 1) +
                   (c :: bl0 ++ CHR_INI_ATTRIB :: name ++ CHR_END_ATTRIB ::
                     (renderTokens toks ++ bl1)).length,
                 attributes := p.attributes.assign name (tokensValue p.attributes toks) } := by
  obtain ⟨L, hl, hch, hq, hgc⟩ :=
    getConditional_stream hwf h (by decide) (by decide) (isDelim_of_isBlank hc)
  have hname1 := nameChars_of_exactMatch hname
  have hn : CHR_LINE_END ∉ (c :: bl0 ++ CHR_INI_ATTRIB :: name ++ CHR_END_ATTRIB ::
      (renderTokens toks ++ bl1)) := by
    have f1 : ¬ (CHR_LINE_END = c) := by
      rintro rfl; revert hc; decide
    have f2 : CHR_LINE_END ∉ bl0 := fun hm => absurd (hbl0 _ hm) (by decide)
    have f3 : CHR_LINE_END ∉ name := fun hm =>
      (isNameChar_not_special (hname1.2 _ hm)).1 (by decide)
    have f4 : CHR_LINE_END ∉ bl1 := fun hm => absurd (hbl1 _ hm) (by decide)
    simp only [List.mem_append, List.mem_cons, not_or]
    exact ⟨⟨⟨f1, f2⟩, by decide, f3⟩, by decide, hnl, f4⟩
  have hq1 : AtCursor { p with column := p.column + (TOKEN_SET.length + 1) }
      ((c :: bl0 ++ CHR_INI_ATTRIB :: name ++ CHR_END_ATTRIB :: (renderTokens toks ++ bl1)) ++
        CHR_LINE_END :: rest) := by
    have e : (c :: bl0 ++ CHR_INI_ATTRIB :: name ++ CHR_END_ATTRIB ::
        (renderTokens toks ++ bl1)) ++ CHR_LINE_END :: rest =
        c :: (bl0 ++ CHR_INI_ATTRIB :: name ++ CHR_END_ATTRIB ::
          (renderTokens toks ++ bl1 ++ CHR_LINE_END :: rest)) := by
      simp only [List.append_assoc, List.cons_append]
    rw [e]; exact hq
  obtain ⟨L1, z, hl1, hd1, hafter⟩ :=
    AtCursor.token (p := { p with column := p.column + (TOKEN_SET.length + 1) }) hwf hq1 hn
  have hd2 : L1.drop (p.column + (TOKEN_SET.length + 1)) =
      (c :: bl0) ++ CHR_INI_ATTRIB :: name ++ CHR_END_ATTRIB ::
        (renderTokens toks ++ bl1 ++ CHR_LINE_END :: z) := by
    rw [hd1]
    simp only [List.append_assoc, List.cons_append]
  have hblc : Blanks (c :: bl0) := by
    intro x hx
    rcases List.mem_cons.mp hx with rfl | hx
    · exact hc
    · exact hbl0 x hx
  have hdef := defineAttribute_tokens sf { p with column := p.column + (TOKEN_SET.length + 1) }
    L1 (c :: bl0) name toks bl1 z hl1 hd2 hblc hname hv hbl1 hsf
  refine ⟨hafter _ rfl rfl rfl, fun fuel => ?_⟩
  have hlive1 : extractDirective { l with prev_cond := l.cond, cond := TOKEN_SET } = true := hlive
  rw [getCodeDefinitionLoop]
  simp only [hl, getCodeDefinitionStep_conditional hch, caseConditional, hgc, Res.bind,
    token_set_ne, ne_eq, not_true_eq_false, false_and, and_false, if_false, true_or,
    if_true, caseDirective, hlive1, hdef, Locals.afterSet]

/-- The loop of `getCodeDefinition` on a `%set` that is not executed: the rest
of the line is skipped. -/
theorem run_set_dead {p : SchemaParser} {l : Locals} {c : Char} {tok rest : QString}
    (hwf : LoadedBuffer p.buffer)
    (h : AtCursor p (CHR_INI_CONDITIONAL :: TOKEN_SET ++ c :: (tok ++ CHR_LINE_END :: rest)))
    (hc : isBlank c) (hn : CHR_LINE_END ∉ tok)
    (hdead : extractDirective l.afterSet = false) :
    Stream { p with line := p.line + 1, column := 0 } rest ∧
    ∀ sf fuel : Nat, getCodeDefinitionLoop sf (fuel + 1) l p =
      getCodeDefinitionLoop sf fuel l.afterSet { p with line := p.line + 1, column := 0 } := by
  obtain ⟨L, hl, hch, hq, hgc⟩ :=
    getConditional_stream hwf h (by decide) (by decide) (isDelim_of_isBlank hc)
  have hn1 : CHR_LINE_END ∉ c :: tok := by
    have f1 : ¬ (CHR_LINE_END = c) := by
      rintro rfl; revert hc; decide
    simp only [List.mem_cons, not_or]
    exact ⟨f1, hn⟩
  have hq1 : AtCursor { p with column := p.column + (TOKEN_SET.length + 1) }
      ((c :: tok) ++ CHR_LINE_END :: rest) := hq
  obtain ⟨L1, z, hl1, hd1, hafter⟩ :=
    AtCursor.token (p := { p with column := p.column + (TOKEN_SET.length + 1) }) hwf hq1 hn1
  have hnl := hafter { p with column := p.column + (TOKEN_SET.length + 1) + (c :: tok).length }
    rfl rfl rfl
  obtain ⟨L2, hl2, hch2, hnext⟩ := AtCursor.newline
    (p := { p with column := p.column + (TOKEN_SET.length + 1) + (c :: tok).length }) hwf hnl
  refine ⟨hnext _ rfl rfl rfl, fun sf fuel => ?_⟩
  have hdead1 : extractDirective { l with prev_cond := l.cond, cond := TOKEN_SET } = false :=
    hdead
  rw [getCodeDefinitionLoop]
  simp only [hl, getCodeDefinitionStep_conditional hch, caseConditional, hgc, Res.bind,
    token_set_ne, ne_eq, not_true_eq_false, false_and, and_false, if_false, true_or,
    if_true, caseDirective, hdead1, Locals.afterSet, Bool.false_eq_true]

theorem Rel.afterSet {out : QString} {stack : List Frame} {l : Locals} (h : Rel out stack l) :
    Rel out stack l.afterSet :=
  ⟨Chain.agree _ _ h.chain (fun _ _ _ => ⟨rfl, rfl, rfl, rfl, rfl, rfl, rfl⟩), h.out_eq,
    h.len_expif, h.len_then, h.len_else, h.len_prev, h.level_lt, h.top, h.fresh,
    (show ¬ (TOKEN_SET = TOKEN_IF) from by decide), h.cnt⟩

/-- The loop of `getCodeDefinition` on a reference `{name}` at top level, the
attribute being defined and not empty. -/
theorem run_reference {p : SchemaParser} {l : Locals} {name : QString} {c : Char}
    {rest : QString}
    (hwf : LoadedBuffer p.buffer)
    (h : AtCursor p ((CHR_INI_ATTRIB :: name ++ [CHR_END_ATTRIB]) ++ c :: rest))
    (hname : ATTR_REGEXP.exactMatch name = true) (htop : l.if_level < 0)
    (hpres : (p.attributes.find name).isSome = true) (hval : p.attributes.value name ≠ []) :
    AtCursor { p with column := p.column + (name.length + 2) } (c :: rest) ∧
    ∀ sf fuel : Nat, getCodeDefinitionLoop sf (fuel + 1) l p =
      getCodeDefinitionLoop sf fuel { l with object_def := l.object_def ++ p.attributes.value name }
        { p with column := p.column + (name.length + 2) } := by
  have hname1 := nameChars_of_exactMatch hname
  have hn : CHR_LINE_END ∉ CHR_INI_ATTRIB :: name ++ [CHR_END_ATTRIB] := by
    have f3 : CHR_LINE_END ∉ name := fun hm =>
      (isNameChar_not_special (hname1.2 _ hm)).1 (by decide)
    simp only [List.mem_append, List.mem_cons, not_or, List.mem_singleton, List.not_mem_nil,
      or_false]
    exact ⟨⟨by decide, f3⟩, by decide⟩
  obtain ⟨L, z, hl, hd, hafter⟩ := AtCursor.token hwf h hn
  have hd1 : L.drop p.column = CHR_INI_ATTRIB :: name ++ CHR_END_ATTRIB :: (c :: z) := by
    rw [hd]; simp only [List.append_assoc, List.cons_append, List.nil_append]
  have hstep := getCodeDefinitionStep_reference 0 l p L name (c :: z) hl hd1 hname htop
  have hfind : ¬ (p.attributes.find name = none) := by
    intro hnone; rw [hnone] at hpres; exact Bool.noConfusion hpres
  refine ⟨hafter _ rfl rfl (by simp), fun sf fuel => ?_⟩
  have hstep := getCodeDefinitionStep_reference sf l p L name (c :: z) hl hd1 hname htop
  rw [if_neg (fun hh => hfind hh.1), if_neg (fun hh => hval hh.1)] at hstep
  have henv : envAfterLookup p.attributes name = p.attributes := by
    unfold envAfterLookup; rw [if_neg hfind]
  rw [henv] at hstep
  exact getCodeDefinitionLoop_step hl hstep

/-- The loop of `getCodeDefinition` from the `%end` of the outermost block, which
hands over no word, through a reference `{x}` at top level to the end of the
buffer. -/
theorem run_end_reference {p : SchemaParser} {l : Locals} {f : Frame} {cw : Char}
    {w x : QString}
    (hwf : LoadedBuffer p.buffer)
    (h : AtCursor p (CHR_INI_CONDITIONAL :: TOKEN_END ++ cw :: (w ++
      ((CHR_INI_ATTRIB :: x ++ [CHR_END_ATTRIB]) ++ CHR_LINE_END :: []))))
    (hcw : isDelim cw) (hw : White w) (hx : ATTR_REGEXP.exactMatch x = true)
    (hr : Rel [] [f] l) (hp : PlainStack [f]) (hsel : f.selected = [])
    (hpres : (p.attributes.find x).isSome = true) (hval : p.attributes.value x ≠ []) :
    ∃ k, k ≤ w.length + 1 ∧ ∀ sf m : Nat,
      getCodeDefinitionLoop sf ((k + (m + 3)) + 1) l p =
        .ok (p.attributes.value x)
          { restartParser p with ignore_unk_atribs := false, ignore_empty_atribs := false } := by
  obtain ⟨l8, hcase, hprev, hcond, hr8⟩ :=
    hr.afterEnd hp { p with column := p.column + (TOKEN_END.length + 1) }
  obtain ⟨hat8, e8⟩ := run_end hwf h hcw hr.chain.1 hr.cond_ne hcase hprev hcond
  rw [hsel] at hr8
  have hwhite : White (cw :: w) := by
    intro y hy
    rcases List.mem_cons.mp hy with rfl | hy
    · exact hcw
    · exact hw y hy
  obtain ⟨k9, q9, hk9, hq9, hs9, e9⟩ :=
    run_white (cw :: w).length (cw :: w) { p with column := p.column + (TOKEN_END.length + 1) }
      ((CHR_INI_ATTRIB :: x ++ [CHR_END_ATTRIB]) ++ CHR_LINE_END :: []) (le_refl _) hwf
      (Or.inr hat8) hwhite (Tight.cons (by decide) _)
  have hat9 := hs9.atCursor (by simp)
  have hwf9 : LoadedBuffer q9.buffer := by rw [hq9.buffer]; exact hwf
  have hattr9 : q9.attributes = p.attributes := hq9.attributes
  have htop : l8.if_level < 0 := by
    have : l8.if_level = -1 := hr8.chain
    omega
  obtain ⟨hat10, e10⟩ := run_reference (l := l8) hwf9 hat9 hx htop (by rw [hattr9]; exact hpres)
    (by rw [hattr9]; exact hval)
  obtain ⟨hs11, e11⟩ := run_newline
    (p := { q9 with column := q9.column + (x.length + 2) }) hwf9 hat10
  have hnone : ({ q9 with line := q9.line + 1, column := 0 } : SchemaParser).buffer[
      ({ q9 with line := q9.line + 1, column := 0 } : SchemaParser).line]? = none := by
    rcases hs11 with h | h
    · exact h.2
    · exact absurd rfl h.ne_nil
  have hcnt : l8.if_cnt = l8.end_cnt := by have := hr8.cnt; simpa using this
  have hout : l8.object_def = [] := by
    have := hr8.out_eq
    simpa [emitOut] using this
  have hrestart : restartParser q9 = restartParser p := by
    rw [hq9.restart]; rfl
  refine ⟨k9, by simpa using hk9, fun sf m => ?_⟩
  have : k9 + (m + 3) = k9 + (((m + 1) + 1) + 1) := by omega
  rw [this, e8, e9, e10, e11, getCodeDefinitionLoop]
  simp only [hnone, hcnt, ne_eq, not_true_eq_false, if_false, hout, List.nil_append]
  have hr2 : restartParser { q9 with line := q9.line + 1, column := 0 } = restartParser p :=
    hrestart
  rw [hr2, hattr9]

theorem word_no_line_end {v : QString} (hv : ∀ ch ∈ v, isWordChar ch) :
    CHR_LINE_END ∉ v := fun hm => (isWordChar_ne (hv _ hm)).1 rfl

theorem name_no_line_end {x : QString} (hx : ATTR_REGEXP.exactMatch x = true) :
    CHR_LINE_END ∉ x := fun hm =>
  (isNameChar_not_special ((nameChars_of_exactMatch hx).2 _ hm)).1 (by decide)

/-- The template of C6 when `c` is not empty: the first `%set` is executed, the
second one is skipped, and the output is `A`. -/
theorem run_branch_then (sf : Nat) {p : SchemaParser} {c x A B w : QString}
    (hwf : LoadedBuffer p.buffer) (h : AtCursor p (branchTemplate c x A B w))
    (hc : ATTR_REGEXP.exactMatch c = true) (hx : ATTR_REGEXP.exactMatch x = true)
    (hpres : (p.attributes.find c).isSome = true) (h0 : p.attributes.value c ≠ [])
    (hA : A ≠ [] ∧ (∀ ch ∈ A, isWordChar ch) ∧ A.head? ≠ some CHR_VALUE_OF)
    (hB : ∀ ch ∈ B, isWordChar ch)
    (hw : w ≠ [] ∧ White w) (hsf : 4 ≤ sf) :
    ∃ k, k ≤ w.length ∧ ∀ m : Nat,
      getCodeDefinitionLoop sf (k + (m + 12)) Locals.init p =
        .ok A { restartParser p with ignore_unk_atribs := false, ignore_empty_atribs := false } := by
  obtain ⟨cw, w1, ew, hcw⟩ := White.uncons hw.1 hw.2
  have hw1 : White w1 := fun y hy => hw.2 y (by rw [ew]; exact List.mem_cons_of_mem _ hy)
  have e0 : branchTemplate c x A B w =
      headerText [CHR_SPACE] c [CHR_SPACE] ++ CHR_SPACE ::
        ([] ++ CHR_INI_CONDITIONAL :: (TOKEN_SET ++ CHR_SPACE :: ([] ++ CHR_INI_ATTRIB :: x ++
          CHR_END_ATTRIB :: (renderTokens [([CHR_SPACE], .word A)] ++ [] ++ CHR_LINE_END ::
            (CHR_INI_CONDITIONAL :: TOKEN_ELSE ++ CHR_SPACE ::
              ([] ++ CHR_INI_CONDITIONAL :: (TOKEN_SET ++ CHR_SPACE ::
                ((CHR_INI_ATTRIB :: x ++ CHR_END_ATTRIB :: CHR_SPACE :: B) ++ CHR_LINE_END ::
                  (CHR_INI_CONDITIONAL :: TOKEN_END ++ cw :: (w1 ++
                    ((CHR_INI_ATTRIB :: x ++ [CHR_END_ATTRIB]) ++
                      CHR_LINE_END :: []))))))))))) := by
    rw [ew]
    simp only [branchTemplate, setText, renderTokens, ValueToken.text, List.append_assoc,
      List.cons_append, List.nil_append, List.append_nil]
  rw [e0] at h
  obtain ⟨hat1, e1⟩ := run_if_then (l := Locals.init) hwf h (by decide) (by decide) (by decide)
    hc hpres (by decide) (by decide) (show 3 ≤ sf by omega)
  have hb : (!decide (p.attributes.value c = [])) = true := by simp [h0]
  rw [hb] at e1
  have hr1 : Rel [] [⟨true, false, [], []⟩] (Locals.init.afterIfThen true) :=
    Rel.init.afterIfThen true
  obtain ⟨hat2, e2⟩ := @run_blanks
    { p with column := p.column + (headerText [CHR_SPACE] c [CHR_SPACE]).length }
    [CHR_SPACE] CHR_INI_CONDITIONAL _ (by exact hwf) hat1 (by decide) (by decide) (by decide)
  have hvA : ∀ t ∈ [(([CHR_SPACE] : QString), ValueToken.word A)],
      t.1 ≠ [] ∧ Blanks t.1 ∧ t.2.Valid p.attributes := by
    intro t ht
    rw [List.mem_singleton] at ht
    rw [ht]
    exact ⟨(show ¬ (([CHR_SPACE] : QString) = []) from by decide),
      (show Blanks [CHR_SPACE] from by decide), hA⟩
  have hnlA : CHR_LINE_END ∉ renderTokens [(([CHR_SPACE] : QString), ValueToken.word A)] := by
    have := word_no_line_end hA.2.1
    simp only [renderTokens, ValueToken.text, List.append_nil, List.mem_append, List.mem_cons,
      List.not_mem_nil, or_false, not_or]
    exact ⟨by decide, this⟩
  obtain ⟨hat3, e3⟩ := @run_set_live _ (Locals.init.afterIfThen true) _ _ _ _ _ _ sf
    (by exact hwf) hat2 (by decide) (by decide) hx hvA hnlA (by decide) (by simp; omega) (by decide)
  have hr3 := hr1.afterSet
  obtain ⟨hs4, e4⟩ := run_newline (by exact hwf) hat3
  have hat4 := hs4.atCursor (by simp)
  obtain ⟨hat5, e5⟩ := run_else (l := (Locals.init.afterIfThen true).afterSet)
    (by exact hwf) hat4
    (by decide) (by decide) (by decide) (by decide)
  have hr5 : Rel [] [⟨true, true, [], []⟩] (Locals.init.afterIfThen true).afterSet.afterElse :=
    hr3.afterElse
  obtain ⟨hat6, e6⟩ := @run_blanks _ [CHR_SPACE] CHR_INI_CONDITIONAL _ (by exact hwf) hat5
    (by decide) (by decide) (by decide)
  have hnB : CHR_LINE_END ∉ CHR_INI_ATTRIB :: x ++ CHR_END_ATTRIB :: CHR_SPACE :: B := by
    have f1 := word_no_line_end hB
    have f2 := name_no_line_end hx
    simp only [List.mem_append, List.mem_cons, not_or]
    exact ⟨⟨by decide, f2⟩, by decide, by decide, f1⟩
  obtain ⟨hs7, e7⟩ := run_set_dead
    (l := (Locals.init.afterIfThen true).afterSet.afterElse) (by exact hwf) hat6 (by decide) hnB (by decide)
  have hr7 := hr5.afterSet
  have hat7 := hs7.atCursor (by simp)
  have hfind : ((p.attributes.assign x
      (tokensValue p.attributes [([CHR_SPACE], ValueToken.word A)])).find x).isSome = true := by
    rw [attribs_map.find_assign, if_pos rfl]; rfl
  have hvalue : (p.attributes.assign x
      (tokensValue p.attributes [([CHR_SPACE], ValueToken.word A)])).value x = A := by
    unfold attribs_map.value
    rw [attribs_map.find_assign, if_pos rfl]
    simp [tokensValue, ValueToken.value]
  obtain ⟨k, hk, e8⟩ := run_end_reference (by exact hwf) hat7 hcw hw1 hx hr7
    (fun f hf => by
      rw [List.mem_singleton] at hf
      rw [hf]
      intro y hy
      exact absurd hy (List.not_mem_nil _)) rfl hfind (by rw [hvalue]; exact hA.1)
  refine ⟨k, by rw [ew]; simpa using hk, fun m => ?_⟩
  have : k + (m + 12) = (((((((((k + (m + 3)) + 1) + 1) + 1) + 1) + 1) + 1) + 1) + 2) := by omega
  rw [this, e1, e2, e3, e4, e5, e6, e7, e8, hvalue]
  rfl

/-- The template of C6 when `c` is empty: the first `%set` is skipped, the second
one is executed, and the output is `B`. -/
theorem run_branch_else (sf : Nat) {p : SchemaParser} {c x A B w : QString}
    (hwf : LoadedBuffer p.buffer) (h : AtCursor p (branchTemplate c x A B w))
    (hc : ATTR_REGEXP.exactMatch c = true) (hx : ATTR_REGEXP.exactMatch x = true)
    (hpres : (p.attributes.find c).isSome = true) (h0 : p.attributes.value c = [])
    (hA : ∀ ch ∈ A, isWordChar ch)
    (hB : B ≠ [] ∧ (∀ ch ∈ B, isWordChar ch) ∧ B.head? ≠ some CHR_VALUE_OF)
    (hw : w ≠ [] ∧ White w) (hsf : 4 ≤ sf) :
    ∃ k, k ≤ w.length ∧ ∀ m : Nat,
      getCodeDefinitionLoop sf (k + (m + 12)) Locals.init p =
        .ok B { restartParser p with ignore_unk_atribs := false, ignore_empty_atribs := false } := by
  obtain ⟨cw, w1, ew, hcw⟩ := White.uncons hw.1 hw.2
  have hw1 : White w1 := fun y hy => hw.2 y (by rw [ew]; exact List.mem_cons_of_mem _ hy)
  have e0 : branchTemplate c x A B w =
      headerText [CHR_SPACE] c [CHR_SPACE] ++ CHR_SPACE ::
        ([] ++ CHR_INI_CONDITIONAL :: (TOKEN_SET ++ CHR_SPACE ::
          ((CHR_INI_ATTRIB :: x ++ CHR_END_ATTRIB :: CHR_SPACE :: A) ++ CHR_LINE_END ::
            (CHR_INI_CONDITIONAL :: TOKEN_ELSE ++ CHR_SPACE ::
              ([] ++ CHR_INI_CONDITIONAL :: (TOKEN_SET ++ CHR_SPACE :: ([] ++
                CHR_INI_ATTRIB :: x ++ CHR_END_ATTRIB :: (renderTokens
                  [([CHR_SPACE], .word B)] ++ [] ++ CHR_LINE_END ::
                  (CHR_INI_CONDITIONAL :: TOKEN_END ++ cw :: (w1 ++
                    ((CHR_INI_ATTRIB :: x ++ [CHR_END_ATTRIB]) ++
                      CHR_LINE_END :: []))))))))))) := by
    rw [ew]
    simp only [branchTemplate, setText, renderTokens, ValueToken.text, List.append_assoc,
      List.cons_append, List.nil_append, List.append_nil]
  rw [e0] at h
  obtain ⟨hat1, e1⟩ := run_if_then (l := Locals.init) hwf h (by decide) (by decide) (by decide)
    hc hpres (by decide) (by decide) (show 3 ≤ sf by omega)
  have hb : (!decide (p.attributes.value c = [])) = false := by simp [h0]
  rw [hb] at e1
  have hr1 : Rel [] [⟨false, false, [], []⟩] (Locals.init.afterIfThen false) :=
    Rel.init.afterIfThen false
  obtain ⟨hat2, e2⟩ := @run_blanks
    { p with column := p.column + (headerText [CHR_SPACE] c [CHR_SPACE]).length }
    [CHR_SPACE] CHR_INI_CONDITIONAL _ (by exact hwf) hat1 (by decide) (by decide) (by decide)
  have hnA : CHR_LINE_END ∉ CHR_INI_ATTRIB :: x ++ CHR_END_ATTRIB :: CHR_SPACE :: A := by
    have f1 := word_no_line_end hA
    have f2 := name_no_line_end hx
    simp only [List.mem_append, List.mem_cons, not_or]
    exact ⟨⟨by decide, f2⟩, by decide, by decide, f1⟩
  obtain ⟨hs3, e3⟩ := run_set_dead
    (l := Locals.init.afterIfThen false) (by exact hwf) hat2 (by decide) hnA (by decide)
  have hr3 := hr1.afterSet
  have hat3 := hs3.atCursor (by simp)
  obtain ⟨hat5, e5⟩ := run_else (l := (Locals.init.afterIfThen false).afterSet)
    (by exact hwf) hat3 (by decide) (by decide) (by decide) (by decide)
  have hr5 : Rel [] [⟨false, true, [], []⟩] (Locals.init.afterIfThen false).afterSet.afterElse :=
    hr3.afterElse
  obtain ⟨hat6, e6⟩ := @run_blanks _ [CHR_SPACE] CHR_INI_CONDITIONAL _ (by exact hwf) hat5
    (by decide) (by decide) (by decide)
  have hvB : ∀ t ∈ [(([CHR_SPACE] : QString), ValueToken.word B)],
      t.1 ≠ [] ∧ Blanks t.1 ∧ t.2.Valid p.attributes := by
    intro t ht
    rw [List.mem_singleton] at ht
    rw [ht]
    exact ⟨(show ¬ (([CHR_SPACE] : QString) = []) from by decide),
      (show Blanks [CHR_SPACE] from by decide), hB⟩
  have hnlB : CHR_LINE_END ∉ renderTokens [(([CHR_SPACE] : QString), ValueToken.word B)] := by
    have := word_no_line_end hB.2.1
    simp only [renderTokens, ValueToken.text, List.append_nil, List.mem_append, List.mem_cons,
      List.not_mem_nil, or_false, not_or]
    exact ⟨by decide, this⟩
  obtain ⟨hat7, e7⟩ := @run_set_live _ (Locals.init.afterIfThen false).afterSet.afterElse
    _ _ _ _ _ _ sf (by exact hwf) hat6 (by decide) (by decide) hx hvB hnlB (by decide)
    (by simp; omega) (by decide)
  have hr7 := hr5.afterSet
  obtain ⟨hs8, e8⟩ := run_newline (by exact hwf) hat7
  have hat8 := hs8.atCursor (by simp)
  have hfind : ((p.attributes.assign x
      (tokensValue p.attributes [([CHR_SPACE], ValueToken.word B)])).find x).isSome = true := by
    rw [attribs_map.find_assign, if_pos rfl]; rfl
  have hvalue : (p.attributes.assign x
      (tokensValue p.attributes [([CHR_SPACE], ValueToken.word B)])).value x = B := by
    unfold attribs_map.value
    rw [attribs_map.find_assign, if_pos rfl]
    simp [tokensValue, ValueToken.value]
  obtain ⟨k, hk, e9⟩ := run_end_reference (by exact hwf) hat8 hcw hw1 hx hr7
    (fun f hf => by
      rw [List.mem_singleton] at hf
      rw [hf]
      intro y hy
      exact absurd hy (List.not_mem_nil _)) rfl hfind (by rw [hvalue]; exact hB.1)
  refine ⟨k, by rw [ew]; simpa using hk, fun m => ?_⟩
  have : k + (m + 12) = (((((((((k + (m + 3)) + 1) + 1) + 1) + 1) + 1) + 1) + 1) + 2) := by omega
  rw [this, e1, e2, e3, e5, e6, e7, e8, e9, hvalue]
  rfl

/-- C6, amended: on the template `%if {c} %then %set {x} A`, `%else %set {x} B`,
`%end`, blanks or line ends, `{x}`, with `c` defined in the environment and `A`,
`B` non-empty words that do not start with `@`, `getCodeDefinition` returns `A`
when `c` is not empty and `B` when `c` is empty. -/
theorem C6_branch_isolation (p : SchemaParser) (env : attribs_map) (c x A B w : QString)
    (fuel : Nat)
    (hwf : LoadedBuffer p.buffer) (hline : p.line = 0) (hcol : p.column = 0)
    (htext : p.buffer.flatten = branchTemplate c x A B w)
    (hc : ATTR_REGEXP.exactMatch c = true) (hx : ATTR_REGEXP.exactMatch x = true)
    (hpres : (env.find c).isSome = true)
    (hA : A ≠ [] ∧ (∀ ch ∈ A, isWordChar ch) ∧ A.head? ≠ some CHR_VALUE_OF)
    (hB : B ≠ [] ∧ (∀ ch ∈ B, isWordChar ch) ∧ B.head? ≠ some CHR_VALUE_OF)
    (hw : w ≠ [] ∧ White w) (hfuel : w.length + 12 ≤ fuel) :
    getCodeDefinition fuel env p =
      .ok (if env.value c = [] then B else A)
        { restartParser p with ignore_unk_atribs := false, ignore_empty_atribs := false } := by
  have hne : branchTemplate c x A B w ≠ [] := by
    rw [branchTemplate, headerText_cons]; simp
  have hlen : p.buffer.length > 0 := by
    rcases Nat.eq_zero_or_pos p.buffer.length with h | h
    · rw [List.length_eq_zero.mp h] at htext
      exact absurd htext.symm hne
    · exact h
  have hs0 : Stream { p with attributes := env } (branchTemplate c x A B w) := by
    rw [← htext]
    exact Stream.start (p := { p with attributes := env }) hwf hline hcol
  have hat0 := hs0.atCursor hne
  unfold getCodeDefinition
  rw [if_pos hlen]
  by_cases h0 : env.value c = []
  · obtain ⟨k, hk, e⟩ := run_branch_else fuel (p := { p with attributes := env })
      hwf hat0 hc hx hpres h0 hA.2.1 hB hw (by omega)
    obtain ⟨m, hm⟩ : ∃ m, fuel = k + (m + 12) := ⟨fuel - k - 12, by omega⟩
    rw [if_pos h0]
    conv => lhs; arg 2; rw [hm]
    rw [e]
    rfl
  · obtain ⟨k, hk, e⟩ := run_branch_then fuel (p := { p with attributes := env })
      hwf hat0 hc hx hpres h0 hA hB.2.1 hw (by omega)
    obtain ⟨m, hm⟩ : ∃ m, fuel = k + (m + 12) := ⟨fuel - k - 12, by omega⟩
    rw [if_neg h0]
    conv => lhs; arg 2; rw [hm]
    rw [e]
    rfl

theorem C6_branch_isolation_witness :
    getCodeDefinition 20 [("c".toList, [])]
        (loaded ["%if {c} %then %set {x} yes\n".toList, "%else %set {x} no\n".toList,
          "%end\n".toList, "{x}\n".toList] []) =
      .ok "no".toList
        { restartParser (loaded ["%if {c} %then %set {x} yes\n".toList,
            "%else %set {x} no\n".toList, "%end\n".toList, "{x}\n".toList] [])
          with ignore_unk_atribs := false, ignore_empty_atribs := false } :=
  C6_branch_isolation
    (loaded ["%if {c} %then %set {x} yes\n".toList, "%else %set {x} no\n".toList,
      "%end\n".toList, "{x}\n".toList] [])
    [("c".toList, [])] "c".toList "x".toList "yes".toList "no".toList "\n".toList 20
    (by decide) rfl rfl (by decide) (by decide) (by decide) (by decide) (by decide) (by decide)
    (by decide) (by decide)

/-- C6 at a counterexample: `@a` is a non-empty word, yet with `c` not empty the
template `%if {c} %then %set {x} @a`, `%else %set {x} b`, `%end`, `{x}` raises
invalid-syntax instead of giving `@a`. -/
theorem C6_word_at_sign_raises :
    (getCodeDefinition 20 [("c".toList, "1".toList)]
      (loaded ["%if {c} %then %set {x} @a\n".toList, "%else %set {x} b\n".toList,
        "%end\n".toList, "{x}\n".toList] [])).raised =
      some ⟨.ERR_INV_SYNTAX, 1, 25⟩ := by decide!

end SchemaParser

namespace SchemaParser

/-- C11: `translateMetaCharacter` maps `sp`, `br`, `tb`, `ob`, `cb`, `oc`, `cc`
to the space, the line end, the tabulation, `[`, `]`, `{` and `}`, and raises
invalid-metacharacter, at the position of the cursor, for every other token. -/
theorem C11_translate_meta_character (meta : QString) (p : SchemaParser) :
    translateMetaCharacter meta p =
      if meta = "sp".toList then .ok ' ' p
      else if meta = "br".toList then .ok '\n' p
      else if meta = "tb".toList then .ok '\t' p
      else if meta = "ob".toList then .ok '[' p
      else if meta = "cb".toList then .ok ']' p
      else if meta = "oc".toList then .ok '{' p
      else if meta = "cc".toList then .ok '}' p
      else .raise ⟨.ERR_INV_METACHARACTER, p.line + p.comment_count + 1, p.column + 1⟩ p := by
  unfold translateMetaCharacter metas
  by_cases h1 : meta = "sp".toList
  · subst h1; rfl
  by_cases h2 : meta = "br".toList
  · subst h2; rfl
  by_cases h3 : meta = "tb".toList
  · subst h3; rfl
  by_cases h4 : meta = "ob".toList
  · subst h4; rfl
  by_cases h5 : meta = "cb".toList
  · subst h5; rfl
  by_cases h6 : meta = "oc".toList
  · subst h6; rfl
  by_cases h7 : meta = "cc".toList
  · subst h7; rfl
  rw [if_neg h1, if_neg h2, if_neg h3, if_neg h4, if_neg h5, if_neg h6, if_neg h7]
  have e1 : (meta == TOKEN_META_SP) = false := by
    rw [beq_eq_false_iff_ne]; exact h1
  have e2 : (meta == TOKEN_META_TB) = false := by
    rw [beq_eq_false_iff_ne]; exact h3
  have e3 : (meta == TOKEN_META_BR) = false := by
    rw [beq_eq_false_iff_ne]; exact h2
  have e4 : (meta == TOKEN_META_OB) = false := by
    rw [beq_eq_false_iff_ne]; exact h4
  have e5 : (meta == TOKEN_META_CB) = false := by
    rw [beq_eq_false_iff_ne]; exact h5
  have e6 : (meta == TOKEN_META_OC) = false := by
    rw [beq_eq_false_iff_ne]; exact h6
  have e7 : (meta == TOKEN_META_CC) = false := by
    rw [beq_eq_false_iff_ne]; exact h7
  simp only [List.lookup, e1, e2, e3, e4, e5, e6, e7]
  rfl

/-- C16 at failing inputs: with the suffix character before the operator
(`f==`) the comparison returns false, and with two suffix characters (`==ff`, a
four-character operator) it returns true, where the claim has both raise an
error. -/
theorem C16_malformed_operator_returns :
    (evaluateComparisonExpr 20
      (loaded ["({a} f== \"v\")\n".toList] [("a".toList, "v".toList)])).result = some false ∧
    (evaluateComparisonExpr 20
      (loaded ["({a} ==ff \"1\")\n".toList] [("a".toList, "1".toList)])).result = some true := by
  decide!

/-- C18 at the input of the claim: the output is not `CREATE TABLE users ();`
followed by a line end. -/
theorem C18_blanks_not_copied :
    (getCodeDefinition 40 [("name".toList, "users".toList)]
      (loaded ["CREATE TABLE {name} ();\n".toList] [])).result ≠
      some "CREATE TABLE users ();\n".toList := by decide!

/-- C18, amended: with the environment `name = users` and the one-line template
`CREATE TABLE {name} ();`, `getCodeDefinition` returns `CREATETABLEusers();`:
the words and the value of the attribute, without the blanks between them and
without the line end. -/
theorem C18_create_table_scenario :
    getCodeDefinition 40 [("name".toList, "users".toList)]
        (loaded ["CREATE TABLE {name} ();\n".toList] []) =
      .ok "CREATETABLEusers();".toList
        { restartParser (loaded ["CREATE TABLE {name} ();\n".toList] [])
          with ignore_unk_atribs := false, ignore_empty_atribs := false } := by decide!

theorem defineAttributeLoop_stuck {L : QString} {d : DefVars} {p : SchemaParser}
    (hstep : defineAttributeStep L d p = .ok d p) (h1 : d.end_def = false)
    (h2 : d.error = false) : ∀ fuel : Nat, defineAttributeLoop L fuel d p = .timeout := by
  intro fuel
  induction fuel with
  | zero => rfl
  | succ n ih =>
    rw [defineAttributeLoop]
    simp only [h1, h2, Bool.false_eq_true, not_false_eq_true, and_self, if_true, hstep, Res.bind]
    exact ih

theorem defineAttributeLoop_bracket (fuel : Nat) :
    defineAttributeLoop "%set {a} ]\n".toList fuel ⟨[], [], false, false, false⟩
      { loaded ["%set {a} ]\n".toList] [] with column := 4 } = .timeout := by
  match fuel with
  | 0 => rfl
  | 1 => decide
  | k + 2 =>
    have h1 : defineAttributeStep "%set {a} ]\n".toList ⟨[], [], false, false, false⟩
        { loaded ["%set {a} ]\n".toList] [] with column := 4 } =
        .ok ⟨[], "a".toList, false, false, false⟩
          { loaded ["%set {a} ]\n".toList] [] with column := 8 } := by decide
    have h2 : defineAttributeStep "%set {a} ]\n".toList ⟨[], "a".toList, false, false, false⟩
        { loaded ["%set {a} ]\n".toList] [] with column := 8 } =
        .ok ⟨[], "a".toList, false, false, false⟩
          { loaded ["%set {a} ]\n".toList] [] with column := 9 } := by decide
    have h3 : defineAttributeStep "%set {a} ]\n".toList ⟨[], "a".toList, false, false, false⟩
        { loaded ["%set {a} ]\n".toList] [] with column := 9 } =
        .ok ⟨[], "a".toList, false, false, false⟩
          { loaded ["%set {a} ]\n".toList] [] with column := 9 } := by decide
    rw [defineAttributeLoop]
    simp only [Bool.false_eq_true, not_false_eq_true, and_self, if_true, h1, Res.bind]
    cases k with
    | zero => rfl
    | succ j =>
      rw [defineAttributeLoop]
      simp only [Bool.false_eq_true, not_false_eq_true, and_self, if_true, h2, Res.bind]
      exact defineAttributeLoop_stuck h3 rfl rfl j

/-- C12 at the failing input: on the one-line template `%set {a} ]` the loop of
`defineAttribute` never ends: `getWord` returns the empty word on `]` without
moving the cursor, so no amount of fuel lets `getCodeDefinition` return or
raise. -/
theorem C12_set_bracket_never_returns (fuel : Nat) :
    getCodeDefinition fuel [] (loaded ["%set {a} ]\n".toList] []) = .timeout := by
  cases fuel with
  | zero => rfl
  | succ n =>
    have hgc : getConditional (loaded ["%set {a} ]\n".toList] []) =
        .ok TOKEN_SET { loaded ["%set {a} ]\n".toList] [] with column := 4 } := by decide
    have hdef : defineAttribute (n + 1)
        { loaded ["%set {a} ]\n".toList] [] with column := 4 } = .timeout := by
      unfold defineAttribute
      have hl : ({ loaded ["%set {a} ]\n".toList] [] with column := 4 } : SchemaParser).buffer[
          ({ loaded ["%set {a} ]\n".toList] [] with column := 4 } : SchemaParser).line]? =
          some "%set {a} ]\n".toList := by decide
      simp only [hl, defineAttributeLoop_bracket, Res.bind]
    have hl : (loaded ["%set {a} ]\n".toList] []).buffer[
        (loaded ["%set {a} ]\n".toList] []).line]? = some "%set {a} ]\n".toList := by decide
    have hch : charAt "%set {a} ]\n".toList (loaded ["%set {a} ]\n".toList] []).column =
        CHR_INI_CONDITIONAL := by decide
    have hlive : extractDirective Locals.init.afterSet = true := by decide
    have hlive1 : extractDirective
        { Locals.init with prev_cond := Locals.init.cond, cond := TOKEN_SET } = true := hlive
    have hp : ({ loaded ["%set {a} ]\n".toList] [] with attributes := [] } : SchemaParser) =
        loaded ["%set {a} ]\n".toList] [] := rfl
    unfold getCodeDefinition
    rw [if_pos (by decide), hp, getCodeDefinitionLoop]
    simp only [hl, getCodeDefinitionStep_conditional hch, caseConditional, hgc, Res.bind,
      token_set_ne, ne_eq, not_true_eq_false, false_and, and_false, if_false, true_or,
      if_true, caseDirective, hlive1, hdef]

/-- C20 at the failing input: the text has the lines `{1bad}` and `# c`; the
error is raised with the cursor on the first line of the text, and the line
reported is 2, because the comment line that follows is counted too. -/
theorem C20_comment_after_error_counted :
    (loadBuffer ["{1bad}".toList, "# c".toList] (loaded [] [])).buffer = ["{1bad}\n".toList] ∧
    (getCodeDefinition 20 []
      (loadBuffer ["{1bad}".toList, "# c".toList] (loaded [] []))).raised =
      some ⟨.ERR_INV_ATTRIBUTE, 2, 7⟩ := by decide!

@[simp] theorem recount_buffer (n : Nat) (p : SchemaParser) : (recount n p).buffer = p.buffer := rfl
@[simp] theorem recount_line (n : Nat) (p : SchemaParser) : (recount n p).line = p.line := rfl
@[simp] theorem recount_column (n : Nat) (p : SchemaParser) : (recount n p).column = p.column := rfl
@[simp] theorem recount_attributes (n : Nat) (p : SchemaParser) :
    (recount n p).attributes = p.attributes := rfl
@[simp] theorem recount_ignore_unk (n : Nat) (p : SchemaParser) :
    (recount n p).ignore_unk_atribs = p.ignore_unk_atribs := rfl
@[simp] theorem recount_ignore_empty (n : Nat) (p : SchemaParser) :
    (recount n p).ignore_empty_atribs = p.ignore_empty_atribs := rfl

theorem throwAt_recount {α : Type} (n : Nat) (t : ErrorType) (p : SchemaParser) :
    (throwAt t (recount n p) : Res α) = (throwAt t p).recount n := rfl

theorem Res.bind_recount {α β : Type} (n : Nat) (r : Res α)
    (g : α → SchemaParser → Res β)
    (h : ∀ a q, g a (SchemaParser.recount n q) = (g a q).recount n) :
    (r.recount n).bind g = (r.bind g).recount n := by
  cases r with
  | ok a p => exact h a p
  | raise e p => rfl
  | undefined => rfl
  | diverges => rfl
  | timeout => rfl

theorem getAttribute_recount (n : Nat) (p : SchemaParser) :
    getAttribute (recount n p) = (getAttribute p).recount n := by
  unfold getAttribute
  simp only [recount_buffer, recount_line, recount_column]
  split
  · rfl
  · split
    · rfl
    · split
      · rfl
      · split
        · rfl
        · split <;> rfl

theorem getWord_recount (n : Nat) (p : SchemaParser) :
    getWord (recount n p) = (getWord p).recount n := by
  unfold getWord
  simp only [recount_buffer, recount_line, recount_column]
  split
  · rfl
  · split
    · rfl
    · split <;> rfl

theorem getPureText_recount (n : Nat) (p : SchemaParser) :
    getPureText (recount n p) = (getPureText p).recount n := by
  unfold getPureText
  simp only [recount_buffer, recount_line, recount_column]
  split
  · rfl
  · split
    · split
      · rfl
      · split <;> rfl
    · rfl

theorem getConditional_recount (n : Nat) (p : SchemaParser) :
    getConditional (recount n p) = (getConditional p).recount n := by
  unfold getConditional
  simp only [recount_buffer, recount_line, recount_column]
  split
  · rfl
  · split
    · split
      · rfl
      · split <;> rfl
    · rfl

theorem getMetaCharacter_recount (n : Nat) (p : SchemaParser) :
    getMetaCharacter (recount n p) = (getMetaCharacter p).recount n := by
  unfold getMetaCharacter
  simp only [recount_buffer, recount_line, recount_column]
  split
  · rfl
  · split
    · split
      · rfl
      · split <;> rfl
    · rfl

theorem translateMetaCharacter_recount (n : Nat) (m : QString) (p : SchemaParser) :
    translateMetaCharacter m (recount n p) = (translateMetaCharacter m p).recount n := by
  unfold translateMetaCharacter
  split <;> rfl

theorem ignoreBlankChars_recount (n : Nat) (L : QString) (p : SchemaParser) :
    ignoreBlankChars L (recount n p) = recount n (ignoreBlankChars L p) := rfl

theorem recount_with_column (n : Nat) (p : SchemaParser) (c : Nat) :
    ({ recount n p with column := c } : SchemaParser) = recount n { p with column := c } := rfl

theorem recount_with_line (n : Nat) (p : SchemaParser) (c : Nat) :
    ({ recount n p with line := c } : SchemaParser) = recount n { p with line := c } := rfl

theorem recount_with_line_column (n : Nat) (p : SchemaParser) (a c : Nat) :
    ({ recount n p with line := a, column := c } : SchemaParser) =
      recount n { p with line := a, column := c } := rfl

theorem recount_with_attributes (n : Nat) (p : SchemaParser) (m : attribs_map) :
    ({ recount n p with attributes := m } : SchemaParser) =
      recount n { p with attributes := m } := rfl

theorem evaluateComparisonExprStep_recount (n : Nat) (L : QString) (v : CmpVars)
    (p : SchemaParser) :
    evaluateComparisonExprStep L v (recount n p) =
      (evaluateComparisonExprStep L v p).recount n := by
  unfold evaluateComparisonExprStep
  repeat' first
    | rfl
    | simp only [recount_with_column, recount_with_attributes, recount_with_line,
        recount_with_line_column, ignoreBlankChars_recount]
    | simp only [recount_column, recount_attributes, recount_ignore_unk, recount_buffer,
        recount_line, recount_ignore_empty, getAttribute_recount]
    | (refine Res.bind_recount n _ _ ?_; intro _ _)
    | split

theorem Res.bind_recount_of {α β : Type} (n : Nat) (r r0 : Res α)
    (g : α → SchemaParser → Res β) (hr : r = r0.recount n)
    (h : ∀ a q, g a (SchemaParser.recount n q) = (g a q).recount n) :
    r.bind g = (r0.bind g).recount n := by
  rw [hr]
  exact Res.bind_recount n r0 g h

theorem evaluateComparisonExprLoop_recount (n : Nat) (L : QString) (fuel : Nat) :
    ∀ (v : CmpVars) (p : SchemaParser),
      evaluateComparisonExprLoop L fuel v (recount n p) =
        (evaluateComparisonExprLoop L fuel v p).recount n := by
  induction fuel with
  | zero => intro v p; rfl
  | succ k ih =>
    intro v p
    unfold evaluateComparisonExprLoop
    split
    · rw [evaluateComparisonExprStep_recount]
      exact Res.bind_recount n _ _ ih
    · rfl

theorem evaluateComparisonExpr_recount (n : Nat) (fuel : Nat) (p : SchemaParser) :
    evaluateComparisonExpr fuel (recount n p) = (evaluateComparisonExpr fuel p).recount n := by
  unfold evaluateComparisonExpr
  repeat' first
    | rfl
    | simp only [recount_with_column, recount_with_attributes, recount_with_line,
        recount_with_line_column, ignoreBlankChars_recount]
    | simp only [recount_column, recount_attributes, recount_ignore_unk, recount_buffer,
        recount_line, recount_ignore_empty, evaluateComparisonExprLoop_recount]
    | refine Res.bind_recount_of n _ _ _ ?_ (fun _ _ => ?_)
    | split

theorem defineAttributeStep_recount (n : Nat) (L : QString) (d : DefVars) (p : SchemaParser) :
    defineAttributeStep L d (recount n p) = (defineAttributeStep L d p).recount n := by
  unfold defineAttributeStep
  repeat' first
    | rfl
    | simp only [recount_with_column, recount_with_attributes, recount_with_line,
        recount_with_line_column, ignoreBlankChars_recount]
    | simp only [recount_column, recount_attributes, recount_ignore_unk, recount_buffer,
        recount_line, recount_ignore_empty, getAttribute_recount, getPureText_recount,
        getMetaCharacter_recount, translateMetaCharacter_recount, getWord_recount]
    | refine Res.bind_recount_of n _ _ _ ?_ (fun _ _ => ?_)
    | split

theorem defineAttributeLoop_recount (n : Nat) (L : QString) (fuel : Nat) :
    ∀ (d : DefVars) (p : SchemaParser),
      defineAttributeLoop L fuel d (recount n p) =
        (defineAttributeLoop L fuel d p).recount n := by
  induction fuel with
  | zero => intro d p; rfl
  | succ k ih =>
    intro d p
    unfold defineAttributeLoop
    split
    · rw [defineAttributeStep_recount]
      exact Res.bind_recount n _ _ ih
    · rfl

theorem defineAttribute_recount (n : Nat) (fuel : Nat) (p : SchemaParser) :
    defineAttribute fuel (recount n p) = (defineAttribute fuel p).recount n := by
  unfold defineAttribute
  repeat' first
    | rfl
    | simp only [recount_with_column, recount_with_attributes, recount_with_line,
        recount_with_line_column, ignoreBlankChars_recount]
    | simp only [recount_column, recount_attributes, recount_ignore_unk, recount_buffer,
        recount_line, recount_ignore_empty, defineAttributeLoop_recount]
    | refine Res.bind_recount_of n _ _ _ ?_ (fun _ _ => ?_)
    | split

theorem unsetAttributeLoop_recount (n : Nat) (L : QString) (fuel : Nat) :
    ∀ (p : SchemaParser),
      unsetAttributeLoop L fuel (recount n p) = (unsetAttributeLoop L fuel p).recount n := by
  induction fuel with
  | zero => intro p; rfl
  | succ k ih =>
    intro p
    unfold unsetAttributeLoop
    repeat' first
      | rfl
      | simp only [recount_with_column, recount_with_attributes, recount_with_line,
          recount_with_line_column, ignoreBlankChars_recount]
      | simp only [recount_column, recount_attributes, recount_ignore_unk, recount_buffer,
          recount_line, recount_ignore_empty, getAttribute_recount, ih]
      | refine Res.bind_recount_of n _ _ _ ?_ (fun _ _ => ?_)
      | split

theorem unsetAttribute_recount (n : Nat) (fuel : Nat) (p : SchemaParser) :
    unsetAttribute fuel (recount n p) = (unsetAttribute fuel p).recount n := by
  unfold unsetAttribute
  simp only [recount_buffer, recount_line]
  split
  · rfl
  · exact unsetAttributeLoop_recount n _ fuel p

theorem evaluateExpressionNewline_recount (n : Nat) (s : ExprVars) (p : SchemaParser) :
    evaluateExpressionNewline s (recount n p) =
      ((evaluateExpressionNewline s p).1, recount n (evaluateExpressionNewline s p).2) := by
  unfold evaluateExpressionNewline
  simp only [recount_column, recount_buffer, recount_line]
  split
  · split <;> rfl
  · rfl

theorem evaluateExpressionStep_recount (n : Nat) (fuel : Nat) (s : ExprVars)
    (p : SchemaParser) :
    evaluateExpressionStep fuel s (recount n p) =
      (evaluateExpressionStep fuel s p).recount n := by
  unfold evaluateExpressionStep
  repeat' first
    | rfl
    | simp only [recount_with_column, recount_with_attributes, recount_with_line,
        recount_with_line_column, ignoreBlankChars_recount, evaluateExpressionNewline_recount]
    | simp only [recount_column, recount_attributes, recount_ignore_unk, recount_buffer,
        recount_line, recount_ignore_empty, getAttribute_recount, getConditional_recount,
        evaluateComparisonExpr_recount]
    | refine Res.bind_recount_of n _ _ _ ?_ (fun _ _ => ?_)
    | split

theorem evaluateExpressionLoop_recount (n : Nat) (cfuel : Nat) (fuel : Nat) :
    ∀ (s : ExprVars) (p : SchemaParser),
      evaluateExpressionLoop cfuel fuel s (recount n p) =
        (evaluateExpressionLoop cfuel fuel s p).recount n := by
  induction fuel with
  | zero => intro s p; rfl
  | succ k ih =>
    intro s p
    unfold evaluateExpressionLoop
    split
    · rw [evaluateExpressionStep_recount]
      exact Res.bind_recount n _ _ ih
    · rfl

theorem evaluateExpression_recount (n : Nat) (fuel : Nat) (p : SchemaParser) :
    evaluateExpression fuel (recount n p) = (evaluateExpression fuel p).recount n := by
  unfold evaluateExpression
  repeat' first
    | rfl
    | simp only [recount_with_column, recount_with_attributes, recount_with_line,
        recount_with_line_column, ignoreBlankChars_recount]
    | simp only [recount_column, recount_attributes, recount_ignore_unk, recount_buffer,
        recount_line, recount_ignore_empty, evaluateExpressionLoop_recount]
    | refine Res.bind_recount_of n _ _ _ ?_ (fun _ _ => ?_)
    | split

theorem caseMetaChar_recount (n : Nat) (l : Locals) (p : SchemaParser) :
    caseMetaChar l (recount n p) = (caseMetaChar l p).recount n := by
  unfold caseMetaChar
  repeat' first
    | rfl
    | simp only [recount_with_column, recount_with_attributes, recount_with_line,
        recount_with_line_column, ignoreBlankChars_recount]
    | simp only [recount_column, recount_attributes, recount_ignore_unk, recount_buffer,
        recount_line, recount_ignore_empty, getMetaCharacter_recount,
        translateMetaCharacter_recount]
    | refine Res.bind_recount_of n _ _ _ ?_ (fun _ _ => ?_)
    | split

theorem caseAttrib_recount (n : Nat) (l : Locals) (p : SchemaParser) :
    caseAttrib l (recount n p) = (caseAttrib l p).recount n := by
  unfold caseAttrib
  repeat' first
    | rfl
    | simp only [recount_with_column, recount_with_attributes, recount_with_line,
        recount_with_line_column, ignoreBlankChars_recount]
    | simp only [recount_column, recount_attributes, recount_ignore_unk, recount_buffer,
        recount_line, recount_ignore_empty, getAttribute_recount]
    | refine Res.bind_recount_of n _ _ _ ?_ (fun _ _ => ?_)
    | split

theorem caseDirective_recount (n : Nat) (fuel : Nat) (l : Locals) (p : SchemaParser) :
    caseDirective fuel l (recount n p) = (caseDirective fuel l p).recount n := by
  unfold caseDirective
  repeat' first
    | rfl
    | simp only [recount_with_column, recount_with_attributes, recount_with_line,
        recount_with_line_column, ignoreBlankChars_recount]
    | simp only [recount_column, recount_attributes, recount_ignore_unk, recount_buffer,
        recount_line, recount_ignore_empty, defineAttribute_recount, unsetAttribute_recount]
    | refine Res.bind_recount_of n _ _ _ ?_ (fun _ _ => ?_)
    | split

theorem caseIf_recount (n : Nat) (fuel : Nat) (l : Locals) (p : SchemaParser) :
    caseIf fuel l (recount n p) = (caseIf fuel l p).recount n := by
  unfold caseIf
  repeat' first
    | rfl
    | simp only [evaluateExpression_recount]
    | refine Res.bind_recount_of n _ _ _ ?_ (fun _ _ => ?_)

theorem flushWords_recount (n : Nat) (ws : List QString) :
    ∀ (out : QString) (p : SchemaParser),
      flushWords ws out (recount n p) = (flushWords ws out p).recount n := by
  induction ws with
  | nil => intro out p; rfl
  | cons w ws ih =>
    intro out p
    unfold flushWords
    repeat' first
      | rfl
      | simp only [recount_with_column, recount_with_attributes, recount_with_line,
          recount_with_line_column, ignoreBlankChars_recount]
      | simp only [recount_column, recount_attributes, recount_ignore_unk, recount_buffer,
          recount_line, recount_ignore_empty, ih]
      | refine Res.bind_recount_of n _ _ _ ?_ (fun _ _ => ?_)
      | split

theorem caseEnd_recount (n : Nat) (l : Locals) (p : SchemaParser) :
    caseEnd l (recount n p) = (caseEnd l p).recount n := by
  unfold caseEnd
  repeat' first
    | rfl
    | simp only [flushWords_recount]
    | refine Res.bind_recount_of n _ _ _ ?_ (fun _ _ => ?_)
    | split

theorem caseConditional_recount (n : Nat) (fuel : Nat) (l : Locals) (p : SchemaParser) :
    caseConditional fuel l (recount n p) = (caseConditional fuel l p).recount n := by
  unfold caseConditional
  repeat' first
    | rfl
    | simp only [recount_with_column, recount_with_attributes, recount_with_line,
        recount_with_line_column, ignoreBlankChars_recount]
    | simp only [recount_column, recount_attributes, recount_ignore_unk, recount_buffer,
        recount_line, recount_ignore_empty, getConditional_recount, caseDirective_recount,
        caseIf_recount, caseEnd_recount]
    | refine Res.bind_recount_of n _ _ _ ?_ (fun _ _ => ?_)
    | split

theorem caseText_recount (n : Nat) (chr : Char) (l : Locals) (p : SchemaParser) :
    caseText chr l (recount n p) = (caseText chr l p).recount n := by
  unfold caseText
  repeat' first
    | rfl
    | simp only [recount_with_column, recount_with_attributes, recount_with_line,
        recount_with_line_column, ignoreBlankChars_recount]
    | simp only [recount_column, recount_attributes, recount_ignore_unk, recount_buffer,
        recount_line, recount_ignore_empty, getPureText_recount, getWord_recount]
    | refine Res.bind_recount_of n _ _ _ ?_ (fun _ _ => ?_)
    | split

theorem getCodeDefinitionStep_recount (n : Nat) (fuel : Nat) (L : QString) (l : Locals)
    (p : SchemaParser) :
    getCodeDefinitionStep fuel L l (recount n p) =
      (getCodeDefinitionStep fuel L l p).recount n := by
  unfold getCodeDefinitionStep
  repeat' first
    | rfl
    | simp only [recount_with_column, recount_with_attributes, recount_with_line,
        recount_with_line_column, ignoreBlankChars_recount]
    | simp only [recount_column, recount_attributes, recount_ignore_unk, recount_buffer,
        recount_line, recount_ignore_empty, caseMetaChar_recount, caseAttrib_recount,
        caseConditional_recount, caseText_recount]
    | split

theorem Res.bind_reline {α β : Type} (n : Nat) (r : Res α)
    (g : α → SchemaParser → Res β)
    (h : ∀ a q, g a (SchemaParser.recount n q) = (g a q).reline n) :
    (r.recount n).bind g = (r.bind g).reline n := by
  cases r with
  | ok a p => exact h a p
  | raise e p => rfl
  | undefined => rfl
  | diverges => rfl
  | timeout => rfl

theorem getCodeDefinitionLoop_recount (n : Nat) (sf : Nat) (fuel : Nat) :
    ∀ (l : Locals) (p : SchemaParser),
      getCodeDefinitionLoop sf fuel l (recount n p) =
        (getCodeDefinitionLoop sf fuel l p).reline n := by
  induction fuel with
  | zero => intro l p; rfl
  | succ k ih =>
    intro l p
    unfold getCodeDefinitionLoop
    simp only [recount_buffer, recount_line]
    split
    · rw [getCodeDefinitionStep_recount]
      exact Res.bind_reline n _ _ ih
    · split <;> rfl

theorem getCodeDefinition_recount (n : Nat) (fuel : Nat) (env : attribs_map)
    (p : SchemaParser) :
    getCodeDefinition fuel env (recount n p) = (getCodeDefinition fuel env p).reline n := by
  unfold getCodeDefinition
  simp only [recount_with_attributes]
  simp only [recount_buffer]
  split
  · exact getCodeDefinitionLoop_recount n fuel fuel _ _
  · rfl

theorem qindexOf_take {s : QString} {ch : Char} :
    ∀ {k : Nat}, qindexOf s ch = some k → qindexOf (s.take k) ch = none := by
  induction s with
  | nil => intro k h; simp [qindexOf] at h
  | cons c cs ih =>
    intro k h
    unfold qindexOf at h
    by_cases hc : c = ch
    · rw [if_pos hc] at h
      cases h
      rfl
    · rw [if_neg hc] at h
      cases hq : qindexOf cs ch with
      | none => rw [hq] at h; cases h
      | some j =>
        rw [hq] at h
        cases h
        rw [List.take_succ_cons]
        unfold qindexOf
        rw [if_neg hc, ih hq]
        rfl

theorem qindexOf_cutComment (lin : QString) : qindexOf (cutComment lin) CHR_COMMENT = none := by
  unfold cutComment
  cases h : qindexOf lin CHR_COMMENT with
  | none => exact h
  | some k => exact qindexOf_take h

theorem loadLine_comment {p : SchemaParser} {lin : QString}
    (h : lin.head? = some CHR_COMMENT) :
    loadLine p lin = { p with comment_count := p.comment_count + 1 } := by
  cases lin with
  | nil => cases h
  | cons c cs =>
    have hc : c = CHR_COMMENT := by simpa using h
    subst hc
    rfl

theorem loadLine_cutComment (n : Nat) (p : SchemaParser) {lin : QString}
    (h : lin.head? ≠ some CHR_COMMENT) :
    loadLine (recount n p) (cutComment lin) = recount n (loadLine p lin) := by
  cases lin with
  | nil => rfl
  | cons c cs =>
    have hc : ¬ c = CHR_COMMENT := by simpa using h
    have hne : ¬ (charAt (c :: cs) 0 = CHR_COMMENT) := hc
    cases hq : qindexOf (c :: cs) CHR_COMMENT with
    | none =>
      have e : cutComment (c :: cs) = c :: cs := by unfold cutComment; rw [hq]
      rw [e]
      unfold loadLine
      simp only [List.cons_ne_nil, if_false, hne, hq]
      rfl
    | some k =>
      have hk : ∃ j, k = j + 1 := by
        unfold qindexOf at hq
        rw [if_neg hc] at hq
        cases hj : qindexOf cs CHR_COMMENT with
        | none => rw [hj] at hq; cases hq
        | some j => rw [hj] at hq; cases hq; exact ⟨j, rfl⟩
      obtain ⟨j, rfl⟩ := hk
      have e : cutComment (c :: cs) = c :: cs.take j := by
        unfold cutComment; rw [hq]; rfl
      have hq2 : qindexOf (c :: cs.take j) CHR_COMMENT = none := by
        have := qindexOf_take hq
        rwa [List.take_succ_cons] at this
      have hne2 : ¬ (charAt (c :: cs.take j) 0 = CHR_COMMENT) := hc
      rw [e]
      unfold loadLine
      simp only [List.cons_ne_nil, if_false, hne, hne2, hq, hq2, List.take_succ_cons]
      rfl

theorem foldl_loadLine_strip (n : Nat) (T : List QString) :
    ∀ p : SchemaParser,
      (stripComments T).foldl loadLine (recount n p) = recount n (T.foldl loadLine p) := by
  induction T with
  | nil => intro p; rfl
  | cons lin T ih =>
    intro p
    by_cases h : lin.head? = some CHR_COMMENT
    · have e : stripComments (lin :: T) = stripComments T := by
        unfold stripComments
        rw [List.filter_cons_of_neg (by simpa using h)]
      rw [e, List.foldl_cons, loadLine_comment h, ← ih]
      rfl
    · have e : stripComments (lin :: T) = cutComment lin :: stripComments T := by
        unfold stripComments
        rw [List.filter_cons_of_pos (by simpa using h), List.map_cons]
      rw [e, List.foldl_cons, List.foldl_cons, loadLine_cutComment n p h, ih]

theorem loadBuffer_stripComments (T : List QString) (p : SchemaParser) :
    loadBuffer (stripComments T) p = recount 0 (loadBuffer T p) := by
  unfold loadBuffer
  rw [← foldl_loadLine_strip]
  rfl

/-- C19: let `T'` be the text `T` without the lines that start with `#` and
without the trailing `# ...` of the other lines.  `loadBuffer` builds the same
buffer from `T` and from `T'`, and for every environment and every setting of
the ignore flags (they are those of `p`) `getCodeDefinition` has the same
outcome on both: the same string, or an error of the same kind (at the same
column, on the line counted without the comment lines). -/
theorem C19_comment_transparency (T : List QString) (p : SchemaParser) (fuel : Nat)
    (env : attribs_map) :
    (loadBuffer (stripComments T) p).buffer = (loadBuffer T p).buffer ∧
    getCodeDefinition fuel env (loadBuffer (stripComments T) p) =
      (getCodeDefinition fuel env (loadBuffer T p)).reline 0 := by
  rw [loadBuffer_stripComments]
  exact ⟨rfl, getCodeDefinition_recount 0 fuel env _⟩

theorem evaluateExpressionLoop_stop (cf fuel : Nat) {s : ExprVars} (p : SchemaParser)
    (h : s.end_eval = true ∨ s.error = true) :
    evaluateExpressionLoop cf (fuel + 1) s p = .ok s p := by
  rw [evaluateExpressionLoop]
  rcases h with h | h <;> simp [h]

theorem evaluateExpressionLoop_turn {cf fuel : Nat} {s s1 : ExprVars} {p p1 : SchemaParser}
    (h1 : s.end_eval = false) (h2 : s.error = false)
    (hstep : evaluateExpressionStep cf s p = .ok s1 p1) :
    evaluateExpressionLoop cf (fuel + 1) s p = evaluateExpressionLoop cf fuel s1 p1 := by
  rw [evaluateExpressionLoop]
  simp [h1, h2, hstep, Res.bind]

theorem evaluateExpression_raises {fuel : Nat} {p p1 : SchemaParser} {ln : QString}
    {s : ExprVars} (hl : p.buffer[p.line]? = some ln)
    (hloop : evaluateExpressionLoop fuel fuel ⟨ln, [], [], false, false, true, 0, 0⟩ p =
      .ok s p1) (herr : s.error = true) :
    (evaluateExpression fuel p).raises .ERR_INV_SYNTAX := by
  unfold evaluateExpression
  simp only [hl, hloop, Res.bind, herr, if_true]
  exact ⟨_, _, rfl, rfl⟩

theorem BinOp.token_word (op : BinOp) :
    (∀ x ∈ op.token, ¬ isDelim x) ∧ op.token ≠ [] ∧ op.token ≠ TOKEN_THEN ∧
    op.token ≠ TOKEN_NOT ∧ (op.token = TOKEN_OR ∨ op.token = TOKEN_AND) := by
  cases op <;> decide

/-- The loop of `evaluateExpression` on a well formed part of an expression: the
variables it comes to, and the text left at the cursor. -/
theorem evaluateExpressionLoop_prefix (cf : Nat) (pre : ExprPrefix) (fuel : Nat)
    (p : SchemaParser) (ln rest : QString)
    (hl : p.buffer[p.line]? = some ln) (hd : ln.drop p.column = pre.text ++ rest)
    (hv : pre.Valid p.attributes) :
    evaluateExpressionLoop cf (pre.steps + fuel) ⟨ln, [], [], false, false, true, 0, 0⟩ p =
      evaluateExpressionLoop cf fuel (pre.state ln p.attributes)
        { p with column := p.column + (pre.text.length - pre.lead.length) } ∧
    ln.drop (p.column + (pre.text.length - pre.lead.length)) = pre.lead ++ rest := by
  cases pre with
  | start =>
    refine ⟨?_, ?_⟩
    · simp only [ExprPrefix.steps, Nat.zero_add]
      rfl
    · exact hd
  | operands t1 tail =>
    obtain ⟨hv1, hvt⟩ := hv
    have hd1 : ln.drop p.column = t1.text ++ (renderTail tail ++ rest) := by
      simpa [ExprPrefix.text] using hd
    have hterm := evaluateExpressionLoop_term cf t1 (tailSteps tail + fuel)
      ⟨ln, [], [], false, false, true, 0, 0⟩ p _ none hl hd1 hv1 rfl rfl (fun _ => rfl) rfl rfl
    have hd2 : ln.drop (p.column + t1.text.length) = renderTail tail ++ rest :=
      drop_add_of_drop hd1
    have htail := evaluateExpressionLoop_tail cf tail fuel
      ⟨ln, [], [], false, false, applyPending none true (t1.eval p.attributes), 0 + 1, 0⟩
      { p with column := p.column + t1.text.length } _ hl hd2 hvt rfl rfl (by simp) rfl rfl
    have hd3 : ln.drop (p.column + t1.text.length + (renderTail tail).length) = rest :=
      drop_add_of_drop hd2
    refine ⟨?_, ?_⟩
    · rw [show ExprPrefix.steps (.operands t1 tail) + fuel = t1.steps + (tailSteps tail + fuel)
        from by simp only [ExprPrefix.steps]; omega, hterm]
      simp only []
      rw [htail]
      simp only [ExprPrefix.state, ExprPrefix.text, ExprPrefix.lead, applyPending,
        List.length_append, List.length_nil, Nat.sub_zero, Nat.zero_add, Nat.add_assoc]
    · simp only [ExprPrefix.text, ExprPrefix.lead, List.length_append, List.length_nil,
        Nat.sub_zero, List.nil_append, ← Nat.add_assoc]
      exact hd3
  | operator t1 tail bl op b =>
    obtain ⟨⟨hv1, hvt⟩, hbl, hb⟩ := hv
    have hd1 : ln.drop p.column = t1.text ++ (renderTail tail ++
        (bl ++ CHR_INI_CONDITIONAL :: op.token ++ b :: rest)) := by
      simpa [ExprPrefix.text] using hd
    have hterm := evaluateExpressionLoop_term cf t1 (tailSteps tail + (fuel + 1))
      ⟨ln, [], [], false, false, true, 0, 0⟩ p _ none hl hd1 hv1 rfl rfl (fun _ => rfl) rfl rfl
    have hd2 : ln.drop (p.column + t1.text.length) = renderTail tail ++
        (bl ++ CHR_INI_CONDITIONAL :: op.token ++ b :: rest) := drop_add_of_drop hd1
    have htail := evaluateExpressionLoop_tail cf tail (fuel + 1)
      ⟨ln, [], [], false, false, applyPending none true (t1.eval p.attributes), 0 + 1, 0⟩
      { p with column := p.column + t1.text.length } _ hl hd2 hvt rfl rfl (by simp) rfl rfl
    have hd3 : ln.drop (p.column + t1.text.length + (renderTail tail).length) =
        bl ++ CHR_INI_CONDITIONAL :: op.token ++ b :: rest := drop_add_of_drop hd2
    obtain ⟨hw, hne, hthen, _, hao⟩ := op.token_word
    have hstep := evaluateExpressionStep_cond (f := cf)
      (s := ⟨ln, [], [], false, false,
        evalTail p.attributes (applyPending none true (t1.eval p.attributes)) tail,
        0 + 1 + tail.length, 0 + tail.length⟩)
      (p := { p with column := p.column + t1.text.length + (renderTail tail).length })
      hl hd3 hbl hw hne (isDelim_of_isBlank hb) hthen
    have herr : decide (op.token = [] ∨ (op.token = TOKEN_AND ∧ ([] : QString) = TOKEN_OR) ∨
        (op.token = TOKEN_OR ∧ ([] : QString) = TOKEN_AND) ∨
        (0 + 1 + tail.length = 0 ∧ (op.token = TOKEN_AND ∨ op.token = TOKEN_OR))) = false := by
      cases op <;> simp [BinOp.token, token_ne]
    have hd4 := drop_add_of_drop (L := ln)
      (c := p.column + t1.text.length + (renderTail tail).length)
      (a := bl ++ CHR_INI_CONDITIONAL :: op.token) (b := b :: rest) (by simpa using hd3)
    refine ⟨?_, ?_⟩
    · rw [show ExprPrefix.steps (.operator t1 tail bl op b) + fuel =
        t1.steps + (tailSteps tail + (fuel + 1)) from by simp only [ExprPrefix.steps]; omega,
        hterm]
      simp only []
      rw [htail]
      simp only []
      rw [evaluateExpressionLoop_turn rfl rfl hstep]
      simp only [herr, hao, if_true, ExprPrefix.state, ExprPrefix.text, ExprPrefix.lead,
        applyPending, List.length_append, List.length_cons, List.length_nil]
      congr 2
      all_goals omega
    · simp only [ExprPrefix.text, ExprPrefix.lead, List.length_append, List.length_cons,
        List.length_nil]
      have e : p.column + (t1.text.length + (renderTail tail).length +
          (bl.length + (op.token.length + 1) + (0 + 1)) - (0 + 1)) =
          p.column + t1.text.length + (renderTail tail).length +
            (bl ++ CHR_INI_CONDITIONAL :: op.token).length := by
        simp only [List.length_append, List.length_cons]
        omega
      rw [e, hd4]
      rfl

/-- One turn of the loop of `evaluateExpression` on a reference `{a}` to an
attribute of the environment, in a state where it is an error. -/
theorem evaluateExpressionStep_attrib_err {f : Nat} {s : ExprVars} {p : SchemaParser}
    {bl a rest : QString}
    (hl : p.buffer[p.line]? = some s.current_line)
    (hd : s.current_line.drop p.column = bl ++ CHR_INI_ATTRIB :: a ++ CHR_END_ATTRIB :: rest)
    (hbl : Blanks bl) (hre : ATTR_REGEXP.exactMatch a = true)
    (hpres : (p.attributes.find a).isSome = true)
    (herr : (s.cond ≠ [] ∧ s.cond ≠ TOKEN_OR ∧ s.cond ≠ TOKEN_AND ∧ s.cond ≠ TOKEN_NOT) ∨
      (s.attrib_count > 0 ∧ s.cond = TOKEN_NOT ∧ s.prev_cond = []) ∨
      (s.attrib_count > 0 ∧ s.cond = [])) :
    evaluateExpressionStep f s p =
      .ok { s with error := true, attrib_count := s.attrib_count + 1 }
        { p with column := p.column + (bl.length + (a.length + 2)) } := by
  have hd0 : s.current_line.drop p.column =
      bl ++ CHR_INI_ATTRIB :: (a ++ CHR_END_ATTRIB :: rest) := by simpa using hd
  have hig := ignoreBlankChars_of_drop hd0 hbl (by decide)
  have hd1 : s.current_line.drop (p.column + bl.length) =
      CHR_INI_ATTRIB :: a ++ CHR_END_ATTRIB :: rest := by simpa using drop_add_of_drop hd0
  have hch : charAt s.current_line (p.column + bl.length) = CHR_INI_ATTRIB :=
    charAt_of_drop (by simpa using hd1)
  have hnl := evaluateExpressionNewline_of_ne (s := s)
    (p := { p with column := p.column + bl.length }) (by rw [hch]; decide)
  have hga := getAttribute_ok (p := { p with column := p.column + bl.length })
    (L := s.current_line) hl hd1 hre
  unfold evaluateExpressionStep
  simp only [hig, hnl, hch, show ¬ (CHR_INI_ATTRIB = CHR_INI_CONDITIONAL) from by decide,
    if_false, if_true, hga, Res.bind, attribs_map.count_ne_zero hpres, false_and, herr,
    decide_True, not_true_eq_false, Nat.add_assoc]

/-- One turn of the loop of `evaluateExpression` at the end of the last line of the
buffer. -/
theorem evaluateExpressionStep_end {f : Nat} {s : ExprVars} {p : SchemaParser}
    {bl rest : QString}
    (hd : s.current_line.drop p.column = bl ++ CHR_LINE_END :: rest)
    (hbl : Blanks bl) (hlast : p.buffer[p.line + 1]? = none) :
    evaluateExpressionStep f s p =
      .ok { (if ¬ s.end_eval then { s with error := true } else s) with error := true }
        { p with line := p.line + 1, column := p.column + bl.length } := by
  have hig := ignoreBlankChars_of_drop hd hbl (by decide)
  have hch : charAt s.current_line (p.column + bl.length) = CHR_LINE_END :=
    charAt_of_drop (drop_add_of_drop hd)
  have hcl : (if ¬ s.end_eval then { s with error := true } else s).current_line =
      s.current_line := by split <;> rfl
  unfold evaluateExpressionStep
  simp only [hig, evaluateExpressionNewline, hch, if_true, hlast, hcl,
    show ¬ (CHR_LINE_END = CHR_INI_CONDITIONAL) from by decide,
    show ¬ (CHR_LINE_END = CHR_INI_ATTRIB) from by decide,
    show ¬ (CHR_LINE_END = CHR_INI_CEXPR) from by decide, if_false]

/-- The loop of `evaluateExpression` stops with the error flag set after a turn
that sets it. -/
theorem evaluateExpressionLoop_error {cf fuel : Nat} {s s1 : ExprVars} {p p1 : SchemaParser}
    (h1 : s.end_eval = false) (h2 : s.error = false)
    (hstep : evaluateExpressionStep cf s p = .ok s1 p1) (herr : s1.error = true) :
    evaluateExpressionLoop cf (fuel + 2) s p = .ok s1 p1 := by
  rw [evaluateExpressionLoop_turn h1 h2 hstep, evaluateExpressionLoop_stop cf fuel p1 (Or.inr herr)]

theorem ExprPrefix.state_facts (pre : ExprPrefix) (ln : QString) (env : attribs_map) :
    (pre.state ln env).current_line = ln ∧ (pre.state ln env).end_eval = false ∧
    (pre.state ln env).error = false ∧ (pre.state ln env).prev_cond = [] ∧
    (pre.state ln env).cond ≠ TOKEN_NOT ∧ (pre.state ln env).cond ≠ TOKEN_THEN ∧
    (pre.Valid env → Blanks pre.lead) := by
  cases pre with
  | start =>
    exact ⟨rfl, rfl, rfl, rfl, token_ne.2.2.2.2.2.2.2.2.2.2.2.2.2.2.1,
      token_ne.2.2.2.2.2.2.2.2.2.2.2.2.2.2.2.1, fun _ => by simp [ExprPrefix.lead, Blanks]⟩
  | operands t1 tail =>
    exact ⟨rfl, rfl, rfl, rfl, token_ne.2.2.2.2.2.2.2.2.2.2.2.2.2.2.1,
      token_ne.2.2.2.2.2.2.2.2.2.2.2.2.2.2.2.1, fun _ => by simp [ExprPrefix.lead, Blanks]⟩
  | operator t1 tail bl op b =>
    obtain ⟨_, _, hthen, hnot, _⟩ := op.token_word
    refine ⟨rfl, rfl, rfl, rfl, hnot, hthen, fun hv => ?_⟩
    have hb : isBlank b := hv.2.2
    simpa [ExprPrefix.lead, Blanks] using hb

/-- When the loop of `evaluateExpression`, after a well formed part of an
expression, stops with the error flag set, `evaluateExpression` raises
invalid-syntax. -/
theorem evaluateExpression_prefix_raises {fuel : Nat} {p : SchemaParser} {ln rest : QString}
    (pre : ExprPrefix) (hl : p.buffer[p.line]? = some ln)
    (hd : ln.drop p.column = pre.text ++ rest) (hv : pre.Valid p.attributes)
    (hf : pre.steps + 3 ≤ fuel)
    (hend : ∀ c m cf : Nat, ln.drop c = pre.lead ++ rest →
      ∃ s1 p1, evaluateExpressionLoop cf (m + 3) (pre.state ln p.attributes)
        { p with column := c } = .ok s1 p1 ∧ s1.error = true) :
    (evaluateExpression fuel p).raises .ERR_INV_SYNTAX := by
  obtain ⟨m, rfl⟩ := Nat.exists_eq_add_of_le hf
  have e : pre.steps + 3 + m = pre.steps + (m + 3) := by omega
  rw [e]
  obtain ⟨hpre, hdrop⟩ := evaluateExpressionLoop_prefix (pre.steps + (m + 3)) pre (m + 3) p ln
    rest hl hd hv
  obtain ⟨s1, p1, hloop, herr⟩ := hend _ m (pre.steps + (m + 3)) hdrop
  exact evaluateExpression_raises hl (hpre.trans hloop) herr

theorem Blanks.concat {a b : QString} (ha : Blanks a) (hb : Blanks b) : Blanks (a ++ b) := by
  intro c hc
  rcases List.mem_append.1 hc with h | h
  · exact ha c h
  · exact hb c h

/-- After a well formed part of an expression, a token `%w` that sets the error
flag makes `evaluateExpression` raise invalid-syntax. -/
theorem evaluateExpression_cond_raises {fuel : Nat} {p : SchemaParser} {ln rest : QString}
    (pre : ExprPrefix) {bl w : QString} {c : Char}
    (hl : p.buffer[p.line]? = some ln)
    (hd : ln.drop p.column = pre.text ++ (bl ++ CHR_INI_CONDITIONAL :: w ++ c :: rest))
    (hv : pre.Valid p.attributes) (hf : pre.steps + 3 ≤ fuel)
    (hbl : Blanks bl) (hw : ∀ x ∈ w, ¬ isDelim x) (hne : w ≠ []) (hc : isDelim c)
    (hthen : w ≠ TOKEN_THEN)
    (herr : w = (pre.state ln p.attributes).cond ∨
      (w = TOKEN_AND ∧ (pre.state ln p.attributes).cond = TOKEN_OR) ∨
      (w = TOKEN_OR ∧ (pre.state ln p.attributes).cond = TOKEN_AND) ∨
      ((pre.state ln p.attributes).attrib_count = 0 ∧ (w = TOKEN_AND ∨ w = TOKEN_OR))) :
    (evaluateExpression fuel p).raises .ERR_INV_SYNTAX := by
  obtain ⟨hcl, hee, her, _, _, _, hlead⟩ := pre.state_facts ln p.attributes
  refine evaluateExpression_prefix_raises pre hl hd hv hf (fun col m cf hdrop => ?_)
  have hd2 : (pre.state ln p.attributes).current_line.drop col =
      (pre.lead ++ bl) ++ CHR_INI_CONDITIONAL :: w ++ c :: rest := by
    rw [hcl, hdrop]; simp
  have hstep := evaluateExpressionStep_cond (f := cf) (s := pre.state ln p.attributes)
    (p := { p with column := col }) (by rw [hcl]; exact hl) hd2 ((hlead hv).concat hbl)
    hw hne hc hthen
  exact ⟨_, _, evaluateExpressionLoop_error hee her hstep (by simp [herr]), by simp [herr]⟩

/-- After a well formed part of an expression, a `%then` that sets the error flag
makes `evaluateExpression` raise invalid-syntax. -/
theorem evaluateExpression_then_raises {fuel : Nat} {p : SchemaParser} {ln rest : QString}
    (pre : ExprPrefix) {bl : QString} {c : Char}
    (hl : p.buffer[p.line]? = some ln)
    (hd : ln.drop p.column = pre.text ++ (bl ++ CHR_INI_CONDITIONAL :: TOKEN_THEN ++ c :: rest))
    (hv : pre.Valid p.attributes) (hf : pre.steps + 3 ≤ fuel)
    (hbl : Blanks bl) (hc : isDelim c)
    (herr : (pre.state ln p.attributes).attrib_count = 0 ∨
      (pre.state ln p.attributes).and_or_count ≠ (pre.state ln p.attributes).attrib_count - 1) :
    (evaluateExpression fuel p).raises .ERR_INV_SYNTAX := by
  obtain ⟨hcl, hee, her, _, _, _, hlead⟩ := pre.state_facts ln p.attributes
  refine evaluateExpression_prefix_raises pre hl hd hv hf (fun col m cf hdrop => ?_)
  have hd2 : (pre.state ln p.attributes).current_line.drop col =
      (pre.lead ++ bl) ++ CHR_INI_CONDITIONAL :: TOKEN_THEN ++ c :: rest := by
    rw [hcl, hdrop]; simp
  have hstep := evaluateExpressionStep_then (f := cf) (s := pre.state ln p.attributes)
    (p := { p with column := col }) (by rw [hcl]; exact hl) hd2 ((hlead hv).concat hbl) hc
  exact ⟨_, _, evaluateExpressionLoop_error hee her hstep (by simp [herr]), by simp [herr]⟩

/-- After a well formed part of an expression, `%not` followed by `%then` makes
`evaluateExpression` raise invalid-syntax. -/
theorem evaluateExpression_not_then_raises {fuel : Nat} {p : SchemaParser}
    {ln rest : QString} (pre : ExprPrefix) {bl bl2 : QString} {b c : Char}
    (hl : p.buffer[p.line]? = some ln)
    (hd : ln.drop p.column = pre.text ++ (bl ++ CHR_INI_CONDITIONAL :: TOKEN_NOT ++
      b :: bl2 ++ CHR_INI_CONDITIONAL :: TOKEN_THEN ++ c :: rest))
    (hv : pre.Valid p.attributes) (hf : pre.steps + 3 ≤ fuel)
    (hbl : Blanks bl) (hb : isBlank b) (hbl2 : Blanks bl2) (hc : isDelim c) :
    (evaluateExpression fuel p).raises .ERR_INV_SYNTAX := by
  obtain ⟨hcl, hee, her, _, hnot, _, hlead⟩ := pre.state_facts ln p.attributes
  refine evaluateExpression_prefix_raises pre hl hd hv hf (fun col m cf hdrop => ?_)
  have hd2 : (pre.state ln p.attributes).current_line.drop col =
      (pre.lead ++ bl) ++ CHR_INI_CONDITIONAL :: TOKEN_NOT ++
        b :: (bl2 ++ CHR_INI_CONDITIONAL :: TOKEN_THEN ++ c :: rest) := by
    rw [hcl, hdrop]; simp
  have hstep := evaluateExpressionStep_cond (f := cf) (s := pre.state ln p.attributes)
    (p := { p with column := col }) (by rw [hcl]; exact hl) hd2 ((hlead hv).concat hbl)
    (by decide) (by decide) (isDelim_of_isBlank hb) (by decide)
  have hd3 : (pre.state ln p.attributes).current_line.drop
      (col + ((pre.lead ++ bl).length + (TOKEN_NOT.length + 1))) =
      (b :: bl2) ++ CHR_INI_CONDITIONAL :: TOKEN_THEN ++ c :: rest := by
    have := drop_add_of_drop (L := (pre.state ln p.attributes).current_line) (c := col)
      (a := (pre.lead ++ bl) ++ CHR_INI_CONDITIONAL :: TOKEN_NOT)
      (b := (b :: bl2) ++ CHR_INI_CONDITIONAL :: TOKEN_THEN ++ c :: rest) (by rw [hd2]; simp)
    simpa using this
  have hbb : Blanks (b :: bl2) := by
    intro x hx
    rcases List.mem_cons.1 hx with h | h
    · exact h ▸ hb
    · exact hbl2 x h
  have hne : ¬ (TOKEN_NOT = (pre.state ln p.attributes).cond) := fun h => hnot h.symm
  have e0 : (decide (TOKEN_NOT = (pre.state ln p.attributes).cond ∨
        (TOKEN_NOT = TOKEN_AND ∧ (pre.state ln p.attributes).cond = TOKEN_OR) ∨
        (TOKEN_NOT = TOKEN_OR ∧ (pre.state ln p.attributes).cond = TOKEN_AND) ∨
        ((pre.state ln p.attributes).attrib_count = 0 ∧
          (TOKEN_NOT = TOKEN_AND ∨ TOKEN_NOT = TOKEN_OR)))) = false := by
    simp [hne, token_ne]
  rw [e0] at hstep
  rw [show m + 3 = (m + 2) + 1 from rfl, evaluateExpressionLoop_turn hee her hstep]
  have hstep2 := evaluateExpressionStep_then (f := cf)
    (s := { pre.state ln p.attributes with
      prev_cond := (pre.state ln p.attributes).cond, cond := TOKEN_NOT,
      error := false,
      and_or_count := if TOKEN_NOT = TOKEN_OR ∨ TOKEN_NOT = TOKEN_AND then
        (pre.state ln p.attributes).and_or_count + 1
        else (pre.state ln p.attributes).and_or_count })
    (p := { p with column := col + ((pre.lead ++ bl).length + (TOKEN_NOT.length + 1)) })
    (by rw [hcl]; exact hl) hd3 hbb hc
  exact ⟨_, _, evaluateExpressionLoop_error hee rfl hstep2 (by simp), by simp⟩

/-- After operands, a further reference `{a}` with no operator before it makes
`evaluateExpression` raise invalid-syntax. -/
theorem evaluateExpression_operand_raises {fuel : Nat} {p : SchemaParser}
    {ln rest : QString} (t1 : CondTerm) (tail : List (QString × BinOp × CondTerm))
    {bl a : QString}
    (hl : p.buffer[p.line]? = some ln)
    (hd : ln.drop p.column = (ExprPrefix.operands t1 tail).text ++
      (bl ++ CHR_INI_ATTRIB :: a ++ CHR_END_ATTRIB :: rest))
    (hv : (ExprPrefix.operands t1 tail).Valid p.attributes)
    (hf : (ExprPrefix.operands t1 tail).steps + 3 ≤ fuel)
    (hbl : Blanks bl) (hre : ATTR_REGEXP.exactMatch a = true)
    (hpres : (p.attributes.find a).isSome = true) :
    (evaluateExpression fuel p).raises .ERR_INV_SYNTAX := by
  refine evaluateExpression_prefix_raises _ hl hd hv hf (fun col m cf hdrop => ?_)
  have hd2 : (ExprPrefix.state ln p.attributes (.operands t1 tail)).current_line.drop col =
      bl ++ CHR_INI_ATTRIB :: a ++ CHR_END_ATTRIB :: rest := by
    simpa [ExprPrefix.lead] using hdrop
  have hstep := evaluateExpressionStep_attrib_err (f := cf)
    (s := ExprPrefix.state ln p.attributes (.operands t1 tail))
    (p := { p with column := col }) hl hd2 hbl hre hpres
    (Or.inr (Or.inr ⟨by simp [ExprPrefix.state], rfl⟩))
  exact ⟨_, _, evaluateExpressionLoop_error rfl rfl hstep rfl, rfl⟩

/-- After a well formed part of an expression, the end of the last line of the
buffer makes `evaluateExpression` raise invalid-syntax. -/
theorem evaluateExpression_end_raises {fuel : Nat} {p : SchemaParser} {ln rest : QString}
    (pre : ExprPrefix) {bl : QString}
    (hl : p.buffer[p.line]? = some ln)
    (hd : ln.drop p.column = pre.text ++ (bl ++ CHR_LINE_END :: rest))
    (hv : pre.Valid p.attributes) (hf : pre.steps + 3 ≤ fuel)
    (hbl : Blanks bl) (hlast : p.buffer[p.line + 1]? = none) :
    (evaluateExpression fuel p).raises .ERR_INV_SYNTAX := by
  obtain ⟨hcl, hee, her, _, _, _, hlead⟩ := pre.state_facts ln p.attributes
  refine evaluateExpression_prefix_raises pre hl hd hv hf (fun col m cf hdrop => ?_)
  have hd2 : (pre.state ln p.attributes).current_line.drop col =
      (pre.lead ++ bl) ++ CHR_LINE_END :: rest := by
    rw [hcl, hdrop]; simp
  have hstep := evaluateExpressionStep_end (f := cf) (s := pre.state ln p.attributes)
    (p := { p with column := col }) hd2 ((hlead hv).concat hbl) hlast
  exact ⟨_, _, evaluateExpressionLoop_error hee her hstep rfl, rfl⟩

/-- C15: over attributes present in the environment, `evaluateExpression` raises
invalid-syntax for each ill-formed shape. With the cursor at the start of an
expression whose first part `pre` is well formed (nothing yet, operands joined by
`%or`/`%and`, or such operands followed by one more `%or`/`%and`), it raises
invalid-syntax when what follows is: (1) after a binary token, a second binary
token; (2) at the start, a binary token; (3) `%not` followed by `%then`; (4) at
the start, `%then`; (5) after a binary token, `%then`; (6) after an operand, a
second operand `{a}` with `a` in the environment; (7) the end of the last line of
the buffer. -/
theorem C15_ill_formed_expression_raises (fuel : Nat) (p : SchemaParser) (ln : QString)
    (hl : p.buffer[p.line]? = some ln) :
    (∀ (t1 : CondTerm) (tail : List (QString × BinOp × CondTerm)) (bl1 : QString)
        (op1 : BinOp) (b : Char) (bl : QString) (op2 : BinOp) (c : Char) (rest : QString),
      (ExprPrefix.operator t1 tail bl1 op1 b).Valid p.attributes →
      (ExprPrefix.operator t1 tail bl1 op1 b).steps + 3 ≤ fuel →
      Blanks bl → isDelim c →
      ln.drop p.column = (ExprPrefix.operator t1 tail bl1 op1 b).text ++
        (bl ++ CHR_INI_CONDITIONAL :: op2.token ++ c :: rest) →
      (evaluateExpression fuel p).raises .ERR_INV_SYNTAX) ∧
    (∀ (bl : QString) (op : BinOp) (c : Char) (rest : QString),
      3 ≤ fuel → Blanks bl → isDelim c →
      ln.drop p.column = bl ++ CHR_INI_CONDITIONAL :: op.token ++ c :: rest →
      (evaluateExpression fuel p).raises .ERR_INV_SYNTAX) ∧
    (∀ (pre : ExprPrefix) (bl : QString) (b : Char) (bl2 : QString) (c : Char)
        (rest : QString),
      pre.Valid p.attributes → pre.steps + 3 ≤ fuel →
      Blanks bl → isBlank b → Blanks bl2 → isDelim c →
      ln.drop p.column = pre.text ++ (bl ++ CHR_INI_CONDITIONAL :: TOKEN_NOT ++
        b :: bl2 ++ CHR_INI_CONDITIONAL :: TOKEN_THEN ++ c :: rest) →
      (evaluateExpression fuel p).raises .ERR_INV_SYNTAX) ∧
    (∀ (bl : QString) (c : Char) (rest : QString),
      3 ≤ fuel → Blanks bl → isDelim c →
      ln.drop p.column = bl ++ CHR_INI_CONDITIONAL :: TOKEN_THEN ++ c :: rest →
      (evaluateExpression fuel p).raises .ERR_INV_SYNTAX) ∧
    (∀ (t1 : CondTerm) (tail : List (QString × BinOp × CondTerm)) (bl1 : QString)
        (op1 : BinOp) (b : Char) (bl : QString) (c : Char) (rest : QString),
      (ExprPrefix.operator t1 tail bl1 op1 b).Valid p.attributes →
      (ExprPrefix.operator t1 tail bl1 op1 b).steps + 3 ≤ fuel →
      Blanks bl → isDelim c →
      ln.drop p.column = (ExprPrefix.operator t1 tail bl1 op1 b).text ++
        (bl ++ CHR_INI_CONDITIONAL :: TOKEN_THEN ++ c :: rest) →
      (evaluateExpression fuel p).raises .ERR_INV_SYNTAX) ∧
    (∀ (t1 : CondTerm) (tail : List (QString × BinOp × CondTerm)) (bl a rest : QString),
      (ExprPrefix.operands t1 tail).Valid p.attributes →
      (ExprPrefix.operands t1 tail).steps + 3 ≤ fuel →
      Blanks bl → ATTR_REGEXP.exactMatch a = true → (p.attributes.find a).isSome = true →
      ln.drop p.column = (ExprPrefix.operands t1 tail).text ++
        (bl ++ CHR_INI_ATTRIB :: a ++ CHR_END_ATTRIB :: rest) →
      (evaluateExpression fuel p).raises .ERR_INV_SYNTAX) ∧
    (∀ (pre : ExprPrefix) (bl rest : QString),
      pre.Valid p.attributes → pre.steps + 3 ≤ fuel → Blanks bl →
      p.buffer[p.line + 1]? = none →
      ln.drop p.column = pre.text ++ (bl ++ CHR_LINE_END :: rest) →
      (evaluateExpression fuel p).raises .ERR_INV_SYNTAX) := by
  refine ⟨?_, ?_, ?_, ?_, ?_, ?_, ?_⟩
  · intro t1 tail bl1 op1 b bl op2 c rest hv hf hbl hc hd
    obtain ⟨hw, hne, hthen, _, _⟩ := op2.token_word
    refine evaluateExpression_cond_raises _ hl hd hv hf hbl hw hne hc hthen ?_
    cases op1 <;> cases op2 <;> simp [ExprPrefix.state, BinOp.token]
  · intro bl op c rest hf hbl hc hd
    obtain ⟨hw, hne, hthen, _, hao⟩ := op.token_word
    exact evaluateExpression_cond_raises .start hl hd trivial hf hbl hw hne hc hthen
      (Or.inr (Or.inr (Or.inr ⟨rfl, hao.symm⟩)))
  · intro pre bl b bl2 c rest hv hf hbl hb hbl2 hc hd
    exact evaluateExpression_not_then_raises pre hl hd hv hf hbl hb hbl2 hc
  · intro bl c rest hf hbl hc hd
    exact evaluateExpression_then_raises .start hl hd trivial hf hbl hc (Or.inl rfl)
  · intro t1 tail bl1 op1 b bl c rest hv hf hbl hc hd
    refine evaluateExpression_then_raises _ hl hd hv hf hbl hc (Or.inr ?_)
    simp [ExprPrefix.state]
  · intro t1 tail bl a rest hv hf hbl hre hpres hd
    exact evaluateExpression_operand_raises t1 tail hl hd hv hf hbl hre hpres
  · intro pre bl rest hv hf hbl hlast hd
    exact evaluateExpression_end_raises pre hl hd hv hf hbl hlast

theorem C15_ill_formed_expression_raises_witness :
    (evaluateExpression 10
      { loaded ["%if {a} %or %or {b} %then\n".toList] [("a".toList, "1".toList), ("b".toList, "1".toList)] with column := 3 }).raises
        .ERR_INV_SYNTAX ∧
    (evaluateExpression 10
      { loaded ["%if {a} %and %or {b} %then\n".toList] [("a".toList, "1".toList), ("b".toList, "1".toList)] with column := 3 }).raises
        .ERR_INV_SYNTAX ∧
    (evaluateExpression 10
      { loaded ["%if {a} %or %and {b} %then\n".toList] [("a".toList, "1".toList), ("b".toList, "1".toList)] with column := 3 }).raises
        .ERR_INV_SYNTAX ∧
    (evaluateExpression 10
      { loaded ["%if %and {a} %then\n".toList] [("a".toList, "1".toList), ("b".toList, "1".toList)] with column := 3 }).raises
        .ERR_INV_SYNTAX ∧
    (evaluateExpression 10
      { loaded ["%if {a} %and %not %then\n".toList] [("a".toList, "1".toList), ("b".toList, "1".toList)] with column := 3 }).raises
        .ERR_INV_SYNTAX ∧
    (evaluateExpression 10
      { loaded ["%if %then\n".toList] [("a".toList, "1".toList), ("b".toList, "1".toList)] with column := 3 }).raises
        .ERR_INV_SYNTAX ∧
    (evaluateExpression 10
      { loaded ["%if {a} %and %then\n".toList] [("a".toList, "1".toList), ("b".toList, "1".toList)] with column := 3 }).raises
        .ERR_INV_SYNTAX ∧
    (evaluateExpression 10
      { loaded ["%if {a} {b} %then\n".toList] [("a".toList, "1".toList), ("b".toList, "1".toList)] with column := 3 }).raises
        .ERR_INV_SYNTAX ∧
    (evaluateExpression 10
      { loaded ["%if {a} %and {b}\n".toList] [("a".toList, "1".toList), ("b".toList, "1".toList)] with column := 3 }).raises
        .ERR_INV_SYNTAX :=
  ⟨
    (C15_ill_formed_expression_raises 10 { loaded ["%if {a} %or %or {b} %then\n".toList] [("a".toList, "1".toList), ("b".toList, "1".toList)] with column := 3 } _ rfl).1
      ⟨" ".toList, false, [], "a".toList⟩ [] " ".toList .or ' ' [] .or ' ' "{b} %then\n".toList
      (by decide) (by decide) (by decide) (by decide) rfl,
    (C15_ill_formed_expression_raises 10 { loaded ["%if {a} %and %or {b} %then\n".toList] [("a".toList, "1".toList), ("b".toList, "1".toList)] with column := 3 } _ rfl).1
      ⟨" ".toList, false, [], "a".toList⟩ [] " ".toList .and ' ' [] .or ' ' "{b} %then\n".toList
      (by decide) (by decide) (by decide) (by decide) rfl,
    (C15_ill_formed_expression_raises 10 { loaded ["%if {a} %or %and {b} %then\n".toList] [("a".toList, "1".toList), ("b".toList, "1".toList)] with column := 3 } _ rfl).1
      ⟨" ".toList, false, [], "a".toList⟩ [] " ".toList .or ' ' [] .and ' ' "{b} %then\n".toList
      (by decide) (by decide) (by decide) (by decide) rfl,
    (C15_ill_formed_expression_raises 10 { loaded ["%if %and {a} %then\n".toList] [("a".toList, "1".toList), ("b".toList, "1".toList)] with column := 3 } _ rfl).2.1
      " ".toList .and ' ' "{a} %then\n".toList (by decide) (by decide) (by decide) rfl,
    (C15_ill_formed_expression_raises 10 { loaded ["%if {a} %and %not %then\n".toList] [("a".toList, "1".toList), ("b".toList, "1".toList)] with column := 3 } _ rfl).2.2.1
      (.operator ⟨" ".toList, false, [], "a".toList⟩ [] " ".toList .and ' ') [] ' ' [] '\n' []
      (by decide) (by decide) (by decide) (by decide) (by decide) (by decide) rfl,
    (C15_ill_formed_expression_raises 10 { loaded ["%if %then\n".toList] [("a".toList, "1".toList), ("b".toList, "1".toList)] with column := 3 } _ rfl).2.2.2.1
      " ".toList '\n' [] (by decide) (by decide) (by decide) rfl,
    (C15_ill_formed_expression_raises 10 { loaded ["%if {a} %and %then\n".toList] [("a".toList, "1".toList), ("b".toList, "1".toList)] with column := 3 } _ rfl).2.2.2.2.1
      ⟨" ".toList, false, [], "a".toList⟩ [] " ".toList .and ' ' [] '\n' []
      (by decide) (by decide) (by decide) (by decide) rfl,
    (C15_ill_formed_expression_raises 10 { loaded ["%if {a} {b} %then\n".toList] [("a".toList, "1".toList), ("b".toList, "1".toList)] with column := 3 } _ rfl).2.2.2.2.2.1
      ⟨" ".toList, false, [], "a".toList⟩ [] " ".toList "b".toList " %then\n".toList
      (by decide) (by decide) (by decide) (by decide) (by decide) rfl,
    (C15_ill_formed_expression_raises 10 { loaded ["%if {a} %and {b}\n".toList] [("a".toList, "1".toList), ("b".toList, "1".toList)] with column := 3 } _ rfl).2.2.2.2.2.2
      (.operands ⟨" ".toList, false, [], "a".toList⟩
        [(" ".toList, .and, ⟨" ".toList, false, [], "b".toList⟩)]) [] []
      (by decide) (by decide) (by decide) rfl rfl⟩

/-- A token `%w` with `w` none of the nine words, met by the loop of
`getCodeDefinition`, raises invalid-instruction. -/
theorem getCodeDefinitionLoop_unknown_token {sf fuel : Nat} {l : Locals} {p : SchemaParser}
    {L w rest : QString} {c : Char}
    (hl : p.buffer[p.line]? = some L)
    (hd : L.drop p.column = CHR_INI_CONDITIONAL :: w ++ c :: rest)
    (hw : ∀ x ∈ w, ¬ isDelim x) (hne : w ≠ []) (hc : isDelim c) (hun : w ∉ TOKENS) :
    getCodeDefinitionLoop sf (fuel + 1) l p =
      .raise ⟨.ERR_INV_INSTRUCTION, p.line + p.comment_count + 1, p.column + w.length + 2⟩
        { p with column := p.column + (w.length + 1) } := by
  have hch : charAt L p.column = CHR_INI_CONDITIONAL := charAt_of_drop (by simpa using hd)
  have hgc := getConditional_ok hl hd hw hne hc
  simp only [TOKENS, List.mem_cons, List.mem_singleton, List.not_mem_nil, or_false,
    not_or] at hun
  obtain ⟨h1, h2, h3, h4, h5, h6, h7, h8, h9⟩ := hun
  rw [getCodeDefinitionLoop]
  simp only [hl, getCodeDefinitionStep_conditional hch, caseConditional, hgc, Res.bind,
    ne_eq, h1, h2, h3, h4, h5, h6, h7, h8, h9, not_false_eq_true, and_self, if_true, throwAt]
  rfl

/-- After a well formed part of an expression, a token `%w` with `w` none of the
nine words, followed by a reference to an attribute of the environment, makes
`evaluateExpression` raise invalid-syntax. -/
theorem evaluateExpression_unknown_raises {fuel : Nat} {p : SchemaParser}
    {ln rest : QString} (pre : ExprPrefix) {bl w bl2 a : QString} {b : Char}
    (hl : p.buffer[p.line]? = some ln)
    (hd : ln.drop p.column = pre.text ++ (bl ++ CHR_INI_CONDITIONAL :: w ++
      b :: bl2 ++ CHR_INI_ATTRIB :: a ++ CHR_END_ATTRIB :: rest))
    (hv : pre.Valid p.attributes) (hf : pre.steps + 3 ≤ fuel)
    (hbl : Blanks bl) (hw : ∀ x ∈ w, ¬ isDelim x) (hne : w ≠ []) (hun : w ∉ TOKENS)
    (hb : isBlank b) (hbl2 : Blanks bl2)
    (hre : ATTR_REGEXP.exactMatch a = true) (hpres : (p.attributes.find a).isSome = true) :
    (evaluateExpression fuel p).raises .ERR_INV_SYNTAX := by
  obtain ⟨hcl, hee, her, _, _, _, hlead⟩ := pre.state_facts ln p.attributes
  simp only [TOKENS, List.mem_cons, List.mem_singleton, List.not_mem_nil, or_false,
    not_or] at hun
  obtain ⟨h1, h2, h3, h4, h5, h6, h7, h8, h9⟩ := hun
  refine evaluateExpression_prefix_raises pre hl hd hv hf (fun col m cf hdrop => ?_)
  have hd2 : (pre.state ln p.attributes).current_line.drop col =
      (pre.lead ++ bl) ++ CHR_INI_CONDITIONAL :: w ++
        b :: (bl2 ++ CHR_INI_ATTRIB :: a ++ CHR_END_ATTRIB :: rest) := by
    rw [hcl, hdrop]; simp
  have hstep := evaluateExpressionStep_cond (f := cf) (s := pre.state ln p.attributes)
    (p := { p with column := col }) (by rw [hcl]; exact hl) hd2 ((hlead hv).concat hbl)
    hw hne (isDelim_of_isBlank hb) h2
  have hd3 : (pre.state ln p.attributes).current_line.drop
      (col + ((pre.lead ++ bl).length + (w.length + 1))) =
      (b :: bl2) ++ CHR_INI_ATTRIB :: a ++ CHR_END_ATTRIB :: rest := by
    have := drop_add_of_drop (L := (pre.state ln p.attributes).current_line) (c := col)
      (a := (pre.lead ++ bl) ++ CHR_INI_CONDITIONAL :: w)
      (b := (b :: bl2) ++ CHR_INI_ATTRIB :: a ++ CHR_END_ATTRIB :: rest) (by rw [hd2]; simp)
    simpa [Nat.add_assoc] using this
  have hbb : Blanks (b :: bl2) := by
    intro x hx
    rcases List.mem_cons.1 hx with h | h
    · exact h ▸ hb
    · exact hbl2 x h
  have hcond : w ≠ (pre.state ln p.attributes).cond := by
    cases pre with
    | start => exact hne
    | operands t1 tail => exact hne
    | operator t1 tail bl1 op b1 => cases op <;> assumption
  have e0 : (decide (w = (pre.state ln p.attributes).cond ∨
        (w = TOKEN_AND ∧ (pre.state ln p.attributes).cond = TOKEN_OR) ∨
        (w = TOKEN_OR ∧ (pre.state ln p.attributes).cond = TOKEN_AND) ∨
        ((pre.state ln p.attributes).attrib_count = 0 ∧
          (w = TOKEN_AND ∨ w = TOKEN_OR)))) = false := by
    simp [hcond, h5, h7]
  rw [e0] at hstep
  rw [show m + 3 = (m + 2) + 1 from rfl, evaluateExpressionLoop_turn hee her hstep]
  have hstep2 := evaluateExpressionStep_attrib_err (f := cf)
    (s := { pre.state ln p.attributes with
      prev_cond := (pre.state ln p.attributes).cond, cond := w,
      error := false,
      and_or_count := if w = TOKEN_OR ∨ w = TOKEN_AND then
        (pre.state ln p.attributes).and_or_count + 1
        else (pre.state ln p.attributes).and_or_count })
    (p := { p with column := col + ((pre.lead ++ bl).length + (w.length + 1)) })
    (by rw [hcl]; exact hl) hd3 hbb hre hpres
    (Or.inl ⟨hne, h5, h7, h6⟩)
  exact ⟨_, _, evaluateExpressionLoop_error hee rfl hstep2 rfl, rfl⟩

/-- C13, the case the claim does not hold for: in the expression of
`%if {a} %foo {b} %then [x] %end` the token `%foo` is none of the nine words, and
the expansion raises invalid-syntax (at line 1, column 17), not
invalid-instruction. -/
theorem C13_unknown_token_in_expression :
    (getCodeDefinition 40 [("a".toList, "1".toList), ("b".toList, "1".toList)]
      (loaded ["%if {a} %foo {b} %then [x] %end\n".toList] [])).raised =
      some ⟨.ERR_INV_SYNTAX, 1, 17⟩ := by
  decide!

/-- C13, amended: a token `%w` whose word is none of `if`, `then`, `else`, `end`,
`or`, `not`, `and`, `set`, `unset`, met by the loop of `getCodeDefinition` in any
state of its variables (at top level or inside a branch body), makes the expansion
raise invalid-instruction, at the column after the token; in the expression of an
`%if`, where `evaluateExpression` reads the tokens, such a token followed by a
reference to an attribute of the environment makes `evaluateExpression` raise
invalid-syntax. -/
theorem C13_unknown_token (w : QString) (hw : ∀ x ∈ w, ¬ isDelim x) (hne : w ≠ [])
    (hun : w ∉ TOKENS) (p : SchemaParser) (ln : QString)
    (hl : p.buffer[p.line]? = some ln) :
    (∀ (sf fuel : Nat) (l : Locals) (c : Char) (rest : QString), isDelim c →
      ln.drop p.column = CHR_INI_CONDITIONAL :: w ++ c :: rest →
      getCodeDefinitionLoop sf (fuel + 1) l p =
        .raise ⟨.ERR_INV_INSTRUCTION, p.line + p.comment_count + 1, p.column + w.length + 2⟩
          { p with column := p.column + (w.length + 1) }) ∧
    (∀ (fuel : Nat) (pre : ExprPrefix) (bl : QString) (b : Char) (bl2 a rest : QString),
      pre.Valid p.attributes → pre.steps + 3 ≤ fuel →
      Blanks bl → isBlank b → Blanks bl2 →
      ATTR_REGEXP.exactMatch a = true → (p.attributes.find a).isSome = true →
      ln.drop p.column = pre.text ++ (bl ++ CHR_INI_CONDITIONAL :: w ++
        b :: bl2 ++ CHR_INI_ATTRIB :: a ++ CHR_END_ATTRIB :: rest) →
      (evaluateExpression fuel p).raises .ERR_INV_SYNTAX) := by
  refine ⟨?_, ?_⟩
  · intro sf fuel l c rest hc hd
    exact getCodeDefinitionLoop_unknown_token hl hd hw hne hc hun
  · intro fuel pre bl b bl2 a rest hv hf hbl hb hbl2 hre hpres hd
    exact evaluateExpression_unknown_raises pre hl hd hv hf hbl hw hne hun hb hbl2 hre hpres

theorem C13_unknown_token_witness :
    getCodeDefinitionLoop 10 10 Locals.init (loaded ["%foo\n".toList] []) =
      .raise ⟨.ERR_INV_INSTRUCTION, 1, 5⟩
        { loaded ["%foo\n".toList] [] with column := 4 } ∧
    (evaluateExpression 10
      { loaded ["%if {a} %foo {b} %then [x] %end\n".toList]
          [("a".toList, "1".toList), ("b".toList, "1".toList)] with column := 3 }).raises
        .ERR_INV_SYNTAX :=
  ⟨(C13_unknown_token "foo".toList (by decide) (by decide) (by decide)
      (loaded ["%foo\n".toList] []) _ rfl).1 10 9 Locals.init '\n' [] (by decide) rfl,
   (C13_unknown_token "foo".toList (by decide) (by decide) (by decide)
      { loaded ["%if {a} %foo {b} %then [x] %end\n".toList]
          [("a".toList, "1".toList), ("b".toList, "1".toList)] with column := 3 } _ rfl).2 10
      (.operands ⟨" ".toList, false, [], "a".toList⟩ []) " ".toList ' ' [] "b".toList
      " %then [x] %end\n".toList
      (by decide) (by decide) (by decide) (by decide) (by decide) (by decide) (by decide) rfl⟩

theorem Res.bind_eq_ok {α β : Type} {r : Res α} {f : α → SchemaParser → Res β} {b : β}
    {q : SchemaParser} (h : r.bind f = .ok b q) :
    ∃ a p1, r = .ok a p1 ∧ f a p1 = .ok b q := by
  cases r with
  | ok a p1 => exact ⟨a, p1, rfl, h⟩
  | raise e p1 => simp [Res.bind] at h
  | undefined => simp [Res.bind] at h
  | diverges => simp [Res.bind] at h
  | timeout => simp [Res.bind] at h

theorem ParInv.of_par {l l1 : Locals} {d : Nat} (h : ParInv l d) (e : l1.par = l.par) :
    ParInv l1 d := by
  simp only [Locals.par, Prod.mk.injEq] at e
  obtain ⟨e1, e2, e3, e4, e5⟩ := e
  refine ⟨by rw [e2, e3]; exact h.len_prev, ?_, by rw [e1, e2]; exact h.depth,
    by rw [e4, e5]; exact h.cnt⟩
  intro hlt
  rw [e1] at hlt
  have := h.top hlt
  rw [this] at e3
  exact List.length_eq_zero.1 e3

theorem storeWord_par (l : Locals) (w : QString) : (storeWord l w).par = l.par := by
  unfold storeWord
  split
  · rfl
  · split <;> rfl

theorem caseMetaChar_par {l l1 : Locals} {p p1 : SchemaParser}
    (h : caseMetaChar l p = .ok l1 p1) : l1.par = l.par := by
  unfold caseMetaChar at h
  obtain ⟨a, q, _, h⟩ := Res.bind_eq_ok h
  split at h
  · simp [throwAt] at h
  · obtain ⟨c, q2, _, h⟩ := Res.bind_eq_ok h
    split at h
    · simp only [Res.ok.injEq] at h
      rw [← h.1]; exact storeWord_par _ _
    · simp only [Res.ok.injEq] at h
      rw [← h.1]; rfl

theorem caseAttrib_par {l l1 : Locals} {p p1 : SchemaParser}
    (h : caseAttrib l p = .ok l1 p1) : l1.par = l.par := by
  unfold caseAttrib at h
  obtain ⟨a, q, _, h⟩ := Res.bind_eq_ok h
  obtain ⟨u, q2, _, h⟩ := Res.bind_eq_ok h
  split at h
  · split at h
    · simp only [Res.ok.injEq] at h
      rw [← h.1]; exact storeWord_par _ _
    · simp only [Res.ok.injEq] at h
      rw [← h.1]
  · split at h
    · simp [throwAt] at h
    · simp only [Res.ok.injEq] at h
      rw [← h.1]; rfl

theorem caseText_par {chr : Char} {l l1 : Locals} {p p1 : SchemaParser}
    (h : caseText chr l p = .ok l1 p1) : l1.par = l.par := by
  unfold caseText at h
  obtain ⟨a, q, _, h⟩ := Res.bind_eq_ok h
  split at h
  · split at h
    · simp [throwAt] at h
    · simp only [Res.ok.injEq] at h
      rw [← h.1]; exact storeWord_par _ _
  · simp only [Res.ok.injEq] at h
    rw [← h.1]; rfl

theorem caseDirective_par {fuel : Nat} {l l1 : Locals} {p p1 : SchemaParser}
    (h : caseDirective fuel l p = .ok l1 p1) : l1 = l := by
  unfold caseDirective at h
  split at h
  · split at h
    · obtain ⟨a, q, _, h⟩ := Res.bind_eq_ok h
      simp only [Res.ok.injEq] at h
      exact h.1.symm
    · obtain ⟨a, q, _, h⟩ := Res.bind_eq_ok h
      simp only [Res.ok.injEq] at h
      exact h.1.symm
  · simp only [Res.ok.injEq] at h
    exact h.1.symm

theorem OpenDepth.extend {v : List Int} (x : Int) :
    ∀ {d : Nat} {k : Int}, OpenDepth v k d → OpenDepth (v ++ [x]) k d := by
  intro d
  induction d with
  | zero => intro k h; exact h
  | succ d ih =>
    intro k h
    obtain ⟨h0, h1, h2, h3, h4⟩ := h
    have hk : k.toNat < v.length := by omega
    have e : (v ++ [x]).getD k.toNat 0 = v.getD k.toNat 0 := by
      simp [List.getD, List.getElem?_append_left hk]
    refine ⟨h0, ?_, ?_, h3, ?_⟩
    · simp only [List.length_append, List.length_singleton]; omega
    · rw [e]; exact h2
    · rw [e]; exact ih h4

theorem OpenDepth.level_lt {v : List Int} {d : Nat} {k : Int} (h : OpenDepth v k d) :
    k < v.length := by
  cases d with
  | zero =>
    have : k = -1 := h
    omega
  | succ d => exact h.2.1

theorem OpenDepth.level_nonneg {v : List Int} {d : Nat} {k : Int} (h : OpenDepth v k d) :
    0 ≤ k ↔ 0 < d := by
  cases d with
  | zero =>
    have : k = -1 := h
    omega
  | succ d =>
    have := h.1
    omega

/-- The token `%if` opens one more `if`. -/
theorem caseIf_inv {fuel : Nat} {l l1 : Locals} {p p1 : SchemaParser} {d : Nat}
    (hi : ParInv l d) (h : caseIf fuel l p = .ok l1 p1) :
    ParInv l1 (d + 1) ∧ l1.if_cnt = l.if_cnt + 1 ∧ l1.end_cnt = l.end_cnt := by
  unfold caseIf at h
  obtain ⟨b, q, _, h⟩ := Res.bind_eq_ok h
  simp only [Res.ok.injEq] at h
  obtain ⟨h, _⟩ := h
  subst h
  have hlt := hi.depth.level_lt
  have hlen := hi.len_prev
  refine ⟨⟨?_, ?_, ?_, ?_⟩, rfl, rfl⟩
  · simp [hlen]
  · intro hneg
    have : (0 : Int) ≤ (l.vet_tk_if.length : Int) := Int.ofNat_nonneg _
    exact absurd hneg (by simp)
  · have e : (l.vet_prev_level ++ [l.if_level]).getD
        ((l.vet_tk_if.length : Int)).toNat 0 = l.if_level := by
      simp [List.getD, ← hlen]
    refine ⟨Int.ofNat_nonneg _, ?_, ?_, ?_, ?_⟩
    · simp only [List.length_append, List.length_singleton, hlen]; omega
    · rw [e, ← hlen]; exact hlt
    · intro hd0
      subst hd0
      have hk : l.if_level = -1 := hi.depth
      have := hi.top (by omega)
      simp [this]
    · rw [e]; exact hi.depth.extend _
  · show l.if_cnt + 1 = l.end_cnt + (d + 1)
    have := hi.cnt
    omega

/-- The token `%end` met inside an `if` closes the innermost one. -/
theorem caseEnd_inv {l l1 : Locals} {p p1 : SchemaParser} {d : Nat}
    (hi : ParInv l d) (hk : 0 ≤ l.if_level) (h : caseEnd l p = .ok l1 p1) :
    ∃ d1, d = d1 + 1 ∧ ParInv l1 d1 ∧ l1.if_cnt = l.if_cnt ∧ l1.end_cnt = l.end_cnt + 1 := by
  obtain ⟨d1, rfl⟩ : ∃ d1, d = d1 + 1 := by
    have := hi.depth.level_nonneg.1 hk
    exact ⟨d - 1, by omega⟩
  refine ⟨d1, rfl, ?_⟩
  obtain ⟨h0, h1, h2, h3, h4⟩ := hi.depth
  have hcnt := hi.cnt
  unfold caseEnd at h
  simp only [] at h
  split at h
  · rename_i hpos
    have hd1 : d1 ≠ 0 := fun e => by
      have := h3 e
      omega
    obtain ⟨d2, rfl⟩ : ∃ d2, d1 = d2 + 1 := ⟨d1 - 1, by omega⟩
    have hprev : 0 ≤ l.vet_prev_level.getD l.if_level.toNat 0 := h4.1
    split at h
    all_goals
      simp only [Res.ok.injEq] at h
      obtain ⟨h, _⟩ := h
      subst h
      refine ⟨⟨hi.len_prev, ?_, h4, ?_⟩, rfl, rfl⟩
      · intro hneg
        exact absurd hneg (by simpa using hprev)
      · show l.if_cnt = l.end_cnt + 1 + (d2 + 1)
        omega
  · rename_i hpos
    have hk0 : l.if_level = 0 := by omega
    have hd1 : d1 = 0 := by
      cases d1 with
      | zero => rfl
      | succ d2 =>
        have := h4.1
        omega
    subst hd1
    obtain ⟨od, q, _, h⟩ := Res.bind_eq_ok h
    simp only [Res.ok.injEq] at h
    obtain ⟨h, _⟩ := h
    subst h
    refine ⟨⟨rfl, fun _ => rfl, rfl, ?_⟩, rfl, rfl⟩
    show l.if_cnt = l.end_cnt + 1 + 0
    omega

/-- A conditional token dispatched by the loop of `getCodeDefinition`, when the
turn returns: `%if` opens an `if`, `%end` closes one, and `%then`, `%else` and
`%end` are met inside an `if` only. -/
theorem caseConditional_inv {fuel : Nat} {l l1 : Locals} {p p1 : SchemaParser} {d : Nat}
    (hi : ParInv l d) (h : caseConditional fuel l p = .ok l1 p1) :
    ∃ cond q d1, getConditional p = .ok cond q ∧ ParInv l1 d1 ∧
      l1.if_cnt = l.if_cnt + [cond].count TOKEN_IF ∧
      l1.end_cnt = l.end_cnt + [cond].count TOKEN_END := by
  unfold caseConditional at h
  obtain ⟨cond, q, hg, h⟩ := Res.bind_eq_ok h
  refine ⟨cond, q, ?_⟩
  simp only [] at h
  have hi2 : ParInv { l with prev_cond := l.cond, cond := cond } d := hi.of_par rfl
  split at h
  · simp [throwAt] at h
  · split at h
    · rename_i hso
      have e := caseDirective_par h
      subst e
      refine ⟨d, hg, hi2, ?_, ?_⟩
      · rcases hso with e | e <;> subst e <;> rfl
      · rcases hso with e | e <;> subst e <;> rfl
    · obtain ⟨l2, q2, h2, h⟩ := Res.bind_eq_ok h
      split at h
      · simp [throwAt] at h
      simp only [Res.ok.injEq] at h
      obtain ⟨h, _⟩ := h
      subst h
      split at h2
      · rename_i hif
        subst hif
        obtain ⟨hp, h1, h2⟩ := caseIf_inv hi2 h2
        exact ⟨d + 1, hg, hp, h1, h2⟩
      · rename_i hif
        split at h2
        · rename_i hth
          simp only [Res.ok.injEq] at h2
          obtain ⟨h2, _⟩ := h2
          subst h2
          obtain ⟨e, _⟩ := hth
          subst e
          exact ⟨d, hg, hi2.of_par rfl, rfl, rfl⟩
        · split at h2
          · rename_i hel
            simp only [Res.ok.injEq] at h2
            obtain ⟨h2, _⟩ := h2
            subst h2
            obtain ⟨e, _⟩ := hel
            subst e
            exact ⟨d, hg, hi2.of_par rfl, rfl, rfl⟩
          · split at h2
            · rename_i hen
              obtain ⟨e, hk⟩ := hen
              subst e
              obtain ⟨d1, _, hp, h1, h2⟩ := caseEnd_inv hi2 hk h2
              exact ⟨d1, hg, hp, h1, h2⟩
            · simp [throwAt] at h2

/-- A turn of the loop of `getCodeDefinition` that returns keeps the agreement of
the variables with the counters, and counts the token it dispatches. -/
theorem getCodeDefinitionStep_inv {sf : Nat} {L : QString} {l l1 : Locals}
    {p p1 : SchemaParser} {d : Nat}
    (hi : ParInv l d) (h : getCodeDefinitionStep sf L l p = .ok l1 p1) :
    ∃ d1, ParInv l1 d1 ∧
      l1.if_cnt = l.if_cnt + (dispatched L p).toList.count TOKEN_IF ∧
      l1.end_cnt = l.end_cnt + (dispatched L p).toList.count TOKEN_END := by
  by_cases hch : charAt L p.column = CHR_INI_CONDITIONAL
  · rw [getCodeDefinitionStep_conditional hch] at h
    obtain ⟨cond, q, d1, hg, hp, h1, h2⟩ := caseConditional_inv hi h
    refine ⟨d1, hp, ?_, ?_⟩
    · simpa [dispatched, hch, hg, Res.result] using h1
    · simpa [dispatched, hch, hg, Res.result] using h2
  · have hd : dispatched L p = none := by simp [dispatched, hch]
    rw [hd]
    have hpar : l1.par = l.par := by
      unfold getCodeDefinitionStep at h
      simp only [] at h
      split at h
      · simp only [Res.ok.injEq] at h
        obtain ⟨e, _⟩ := h
        subst e
        rfl
      · split at h
        · simp only [Res.ok.injEq] at h
          obtain ⟨e, _⟩ := h
          subst e
          rfl
        · split at h
          · exact caseMetaChar_par h
          · split at h
            · exact caseAttrib_par h
            · exact caseText_par h
    have hp := hi.of_par hpar
    simp only [Locals.par, Prod.mk.injEq] at hpar
    exact ⟨d, hp, by simp [hpar.2.2.2.1], by simp [hpar.2.2.2.2]⟩

/-- The first turns of the loop of `getCodeDefinition` keep the agreement of the
variables with the counters, and the counters count the tokens `%if` and `%end`
dispatched. -/
theorem runSteps_inv (sf : Nat) :
    ∀ (n : Nat) {l l1 : Locals} {p p1 : SchemaParser} {tr : List QString} {d : Nat},
      ParInv l d → runSteps sf n l p = some (l1, p1, tr) →
      ∃ d1, ParInv l1 d1 ∧ l1.if_cnt = l.if_cnt + tr.count TOKEN_IF ∧
        l1.end_cnt = l.end_cnt + tr.count TOKEN_END := by
  intro n
  induction n with
  | zero =>
    intro l l1 p p1 tr d hi h
    simp only [runSteps, Option.some.injEq, Prod.mk.injEq] at h
    obtain ⟨e1, _, e3⟩ := h
    subst e1 e3
    exact ⟨d, hi, rfl, rfl⟩
  | succ n ih =>
    intro l l1 p p1 tr d hi h
    rw [runSteps] at h
    split at h
    · rename_i L hL
      split at h
      · rename_i l2 p2 hstep
        obtain ⟨d2, hi2, hc1, hc2⟩ := getCodeDefinitionStep_inv hi hstep
        simp only [Option.map_eq_some', Prod.mk.injEq] at h
        obtain ⟨r, hr, e1, e2, e3⟩ := h
        obtain ⟨d1, hi1, hc3, hc4⟩ := @ih l2 r.1 p2 r.2.1 r.2.2 d2 hi2 hr
        subst e1 e3
        refine ⟨d1, hi1, ?_, ?_⟩
        · rw [hc3, hc1, List.count_append]; omega
        · rw [hc4, hc2, List.count_append]; omega
      · simp at h
    · simp at h

/-- After the first turns, the loop of `getCodeDefinition` goes on from the
variables and the parser they left. -/
theorem runSteps_loop (sf : Nat) :
    ∀ (n : Nat) {l l1 : Locals} {p p1 : SchemaParser} {tr : List QString},
      runSteps sf n l p = some (l1, p1, tr) → ∀ fuel : Nat,
      getCodeDefinitionLoop sf (n + fuel) l p = getCodeDefinitionLoop sf fuel l1 p1 := by
  intro n
  induction n with
  | zero =>
    intro l l1 p p1 tr h fuel
    simp only [runSteps, Option.some.injEq, Prod.mk.injEq] at h
    obtain ⟨e1, e2, _⟩ := h
    subst e1 e2
    rw [Nat.zero_add]
  | succ n ih =>
    intro l l1 p p1 tr h fuel
    rw [runSteps] at h
    split at h
    · rename_i L hL
      split at h
      · rename_i l2 p2 hstep
        simp only [Option.map_eq_some', Prod.mk.injEq] at h
        obtain ⟨r, hr, e1, e2, e3⟩ := h
        subst e1 e2
        rw [show n + 1 + fuel = (n + fuel) + 1 from by omega, getCodeDefinitionLoop]
        simp only [hL, hstep, Res.bind]
        exact ih hr fuel
      · simp at h
    · simp at h

/-- When the loop of `getCodeDefinition` returns, its turns ran to the end of the
buffer and left the two counters equal. -/
theorem getCodeDefinitionLoop_ok_run (sf : Nat) :
    ∀ (fuel : Nat) {l : Locals} {p q : SchemaParser} {out : QString},
      getCodeDefinitionLoop sf fuel l p = .ok out q →
      ∃ n l1 p1 tr, runSteps sf n l p = some (l1, p1, tr) ∧ p1.buffer[p1.line]? = none ∧
        l1.if_cnt = l1.end_cnt ∧ out = l1.object_def := by
  intro fuel
  induction fuel with
  | zero => intro l p q out h; simp [getCodeDefinitionLoop] at h
  | succ fuel ih =>
    intro l p q out h
    rw [getCodeDefinitionLoop] at h
    split at h
    · rename_i L hL
      obtain ⟨l2, p2, hstep, h⟩ := Res.bind_eq_ok h
      obtain ⟨n, l1, p1, tr, hr, hend, hc, ho⟩ := ih h
      refine ⟨n + 1, l1, p1, (dispatched L p).toList ++ tr, ?_, hend, hc, ho⟩
      rw [runSteps]
      simp only [hL, hstep, hr, Option.map_some']
    · rename_i hN
      split at h
      · simp [throwAt] at h
      · rename_i hc
        simp only [Res.ok.injEq] at h
        exact ⟨0, l, p, [], rfl, hN, by simpa using hc, h.1.symm⟩

theorem ParInv.initial : ParInv Locals.init 0 :=
  ⟨rfl, fun _ => rfl, rfl, rfl⟩

/-- A token `%end`, `%then` or `%else` met outside every `if` raises
invalid-syntax. -/
theorem caseConditional_closed {fuel : Nat} {l : Locals} {p q : SchemaParser} {w : QString}
    (hg : getConditional p = .ok w q)
    (hw : w = TOKEN_END ∨ w = TOKEN_THEN ∨ w = TOKEN_ELSE) (hk : l.if_level < 0) :
    caseConditional fuel l p = throwAt .ERR_INV_SYNTAX q := by
  have hk2 : ¬ (l.if_level ≥ 0) := by omega
  have hne : TOKEN_THEN ≠ TOKEN_IF ∧ TOKEN_THEN ≠ TOKEN_ELSE ∧ TOKEN_THEN ≠ TOKEN_END ∧
      TOKEN_THEN ≠ TOKEN_SET ∧ TOKEN_THEN ≠ TOKEN_UNSET ∧
      TOKEN_ELSE ≠ TOKEN_IF ∧ TOKEN_ELSE ≠ TOKEN_THEN ∧ TOKEN_ELSE ≠ TOKEN_END ∧
      TOKEN_ELSE ≠ TOKEN_SET ∧ TOKEN_ELSE ≠ TOKEN_UNSET ∧
      TOKEN_END ≠ TOKEN_IF ∧ TOKEN_END ≠ TOKEN_THEN ∧ TOKEN_END ≠ TOKEN_ELSE ∧
      TOKEN_END ≠ TOKEN_SET ∧ TOKEN_END ≠ TOKEN_UNSET := by decide
  unfold caseConditional
  rcases hw with e | e | e <;> subst e <;> simp [hg, Res.bind, hk2, hne, throwAt]

/-- The loop of `getCodeDefinition`, after turns that left as many `%end` as `%if`
dispatched, raises invalid-syntax on a token `%end`, `%then` or `%else`. -/
theorem getCodeDefinitionLoop_closed_raises {sf n : Nat} {p0 p : SchemaParser} {l : Locals}
    {tr : List QString} {L w : QString}
    (hrun : runSteps sf n Locals.init p0 = some (l, p, tr))
    (hL : p.buffer[p.line]? = some L) (hd : dispatched L p = some w)
    (hw : w = TOKEN_END ∨ w = TOKEN_THEN ∨ w = TOKEN_ELSE)
    (hcnt : tr.count TOKEN_END = tr.count TOKEN_IF) (fuel : Nat) :
    (getCodeDefinitionLoop sf (n + (fuel + 1)) Locals.init p0).raises .ERR_INV_SYNTAX := by
  obtain ⟨d, hi, h1, h2⟩ := runSteps_inv sf n ParInv.initial hrun
  have hd0 : d = 0 := by
    have := hi.cnt
    have e1 : l.if_cnt = tr.count TOKEN_IF := by simpa [Locals.init] using h1
    have e2 : l.end_cnt = tr.count TOKEN_END := by simpa [Locals.init] using h2
    omega
  subst hd0
  have hk : l.if_level = -1 := hi.depth
  have hch : charAt L p.column = CHR_INI_CONDITIONAL := by
    by_contra hne
    simp [dispatched, hne] at hd
  obtain ⟨q, hg⟩ : ∃ q, getConditional p = .ok w q := by
    simp only [dispatched, hch, if_true] at hd
    cases hr : getConditional p with
    | ok a q =>
      rw [hr] at hd
      simp only [Res.result, Option.some.injEq] at hd
      exact ⟨q, by rw [hd]⟩
    | raise e q => rw [hr] at hd; simp [Res.result] at hd
    | undefined => rw [hr] at hd; simp [Res.result] at hd
    | diverges => rw [hr] at hd; simp [Res.result] at hd
    | timeout => rw [hr] at hd; simp [Res.result] at hd
  rw [runSteps_loop sf n hrun, getCodeDefinitionLoop]
  simp only [hL, getCodeDefinitionStep_conditional hch,
    caseConditional_closed hg hw (by omega : l.if_level < 0), throwAt, Res.bind]
  exact ⟨_, _, rfl, rfl⟩

/-- The loop of `getCodeDefinition`, at the end of the buffer after turns that
left more `%if` than `%end` dispatched, raises invalid-syntax. -/
theorem getCodeDefinitionLoop_open_raises {sf n : Nat} {p0 p : SchemaParser} {l : Locals}
    {tr : List QString}
    (hrun : runSteps sf n Locals.init p0 = some (l, p, tr))
    (hN : p.buffer[p.line]? = none)
    (hcnt : tr.count TOKEN_END ≠ tr.count TOKEN_IF) (fuel : Nat) :
    (getCodeDefinitionLoop sf (n + (fuel + 1)) Locals.init p0).raises .ERR_INV_SYNTAX := by
  obtain ⟨d, hi, h1, h2⟩ := runSteps_inv sf n ParInv.initial hrun
  have e1 : l.if_cnt = tr.count TOKEN_IF := by simpa [Locals.init] using h1
  have e2 : l.end_cnt = tr.count TOKEN_END := by simpa [Locals.init] using h2
  have hne : l.if_cnt ≠ l.end_cnt := by omega
  rw [runSteps_loop sf n hrun, getCodeDefinitionLoop]
  simp only [hN, hne, ne_eq, not_false_eq_true, if_true, throwAt]
  exact ⟨_, _, rfl, rfl⟩

/-- C14: parity of `%if` and `%end`. For a non-empty buffer: (1) when the expansion
returns, its turns ran to the end of the buffer and dispatched as many `%if` as
`%end` tokens; and after any number of turns of the expansion loop, (2) no more
`%end` than `%if` tokens were dispatched, (3) when as many `%end` as `%if` were
dispatched (no `%if` is open), a token `%end`, `%then` or `%else` under the cursor
makes the expansion raise invalid-syntax, and (4) when the buffer is at its end
with an `%if` still open, the expansion raises invalid-syntax. -/
theorem C14_parity (fuel : Nat) (env : attribs_map) (p : SchemaParser)
    (hbuf : 0 < p.buffer.length) :
    (∀ (out : QString) (q : SchemaParser), getCodeDefinition fuel env p = .ok out q →
      ∃ n l p1 tr, runSteps fuel n Locals.init { p with attributes := env } = some (l, p1, tr) ∧
        p1.buffer[p1.line]? = none ∧ tr.count TOKEN_IF = tr.count TOKEN_END) ∧
    (∀ (n : Nat) (l : Locals) (p1 : SchemaParser) (tr : List QString),
      runSteps fuel n Locals.init { p with attributes := env } = some (l, p1, tr) →
      tr.count TOKEN_END ≤ tr.count TOKEN_IF ∧
      (∀ L w : QString, p1.buffer[p1.line]? = some L → dispatched L p1 = some w →
        w = TOKEN_END ∨ w = TOKEN_THEN ∨ w = TOKEN_ELSE →
        tr.count TOKEN_END = tr.count TOKEN_IF → n < fuel →
        (getCodeDefinition fuel env p).raises .ERR_INV_SYNTAX) ∧
      (p1.buffer[p1.line]? = none → tr.count TOKEN_END < tr.count TOKEN_IF → n < fuel →
        (getCodeDefinition fuel env p).raises .ERR_INV_SYNTAX)) := by
  have hg : getCodeDefinition fuel env p =
      getCodeDefinitionLoop fuel fuel Locals.init { p with attributes := env } := by
    simp [getCodeDefinition, hbuf]
  refine ⟨?_, ?_⟩
  · intro out q h
    rw [hg] at h
    obtain ⟨n, l1, p1, tr, hr, hend, hc, _⟩ := getCodeDefinitionLoop_ok_run fuel fuel h
    obtain ⟨d, hi, h1, h2⟩ := runSteps_inv fuel n ParInv.initial hr
    refine ⟨n, l1, p1, tr, hr, hend, ?_⟩
    have e1 : l1.if_cnt = tr.count TOKEN_IF := by simpa [Locals.init] using h1
    have e2 : l1.end_cnt = tr.count TOKEN_END := by simpa [Locals.init] using h2
    omega
  · intro n l p1 tr hrun
    refine ⟨?_, ?_, ?_⟩
    · obtain ⟨d, hi, h1, h2⟩ := runSteps_inv fuel n ParInv.initial hrun
      have e1 : l.if_cnt = tr.count TOKEN_IF := by simpa [Locals.init] using h1
      have e2 : l.end_cnt = tr.count TOKEN_END := by simpa [Locals.init] using h2
      have := hi.cnt
      omega
    · intro L w hL hd hw hcnt hn
      rw [hg]
      have := getCodeDefinitionLoop_closed_raises hrun hL hd hw hcnt (fuel - n - 1)
      rw [show n + ((fuel - n - 1) + 1) = fuel from by omega] at this
      exact this
    · intro hN hcnt hn
      rw [hg]
      have := getCodeDefinitionLoop_open_raises hrun hN (by omega) (fuel - n - 1)
      rw [show n + ((fuel - n - 1) + 1) = fuel from by omega] at this
      exact this

theorem C14_parity_witness :
    (∃ n l p1 tr,
      runSteps 30 n Locals.init
        { loaded ["%if {a} %then [x] %end\n".toList] [] with
          attributes := [("a".toList, "1".toList)] } = some (l, p1, tr) ∧
      p1.buffer[p1.line]? = none ∧ tr.count TOKEN_IF = tr.count TOKEN_END) ∧
    (getCodeDefinition 30 [("a".toList, "1".toList)]
      (loaded ["%if {a} %then [x] %end\n".toList, "%end\n".toList] [])).raises
        .ERR_INV_SYNTAX ∧
    (getCodeDefinition 30 [("a".toList, "1".toList)]
      (loaded ["%if {a} %then [x]\n".toList] [])).raises .ERR_INV_SYNTAX :=
  ⟨(C14_parity 30 [("a".toList, "1".toList)]
      (loaded ["%if {a} %then [x] %end\n".toList] []) (by decide)).1 "x".toList
      { restartParser (loaded ["%if {a} %then [x] %end\n".toList] []) with
        ignore_unk_atribs := false, ignore_empty_atribs := false } (by decide!),
   ((C14_parity 30 [("a".toList, "1".toList)]
      (loaded ["%if {a} %then [x] %end\n".toList, "%end\n".toList] []) (by decide)).2
      7 _ _ _ rfl).2.1 "%end\n".toList TOKEN_END rfl (by decide!) (Or.inl rfl) (by decide)
      (by decide),
   ((C14_parity 30 [("a".toList, "1".toList)]
      (loaded ["%if {a} %then [x]\n".toList] []) (by decide)).2
      5 _ _ _ rfl).2.2 rfl (by decide) (by decide)⟩

theorem refWord_shape (x : QString) :
    refWord x ≠ [] ∧ qstartsWith (refWord x) CHR_INI_ATTRIB = true ∧
    qendsWith (refWord x) CHR_END_ATTRIB = true ∧
    ((refWord x).drop 1).take ((refWord x).length - 2) = x := by
  refine ⟨by simp [refWord], by simp [refWord, qstartsWith], ?_, ?_⟩
  · have e : (refWord x).getLast? = some CHR_END_ATTRIB := by
      rw [show refWord x = (CHR_INI_ATTRIB :: x) ++ [CHR_END_ATTRIB] from rfl]
      exact List.getLast?_concat _
    simp [qendsWith, e]
  · simp [refWord]

theorem resolveWords_append (env : attribs_map) (ie : Bool) (a b : List QString) :
    resolveWords env ie (a ++ b) =
      (resolveWords env ie a).bind fun s => (resolveWords env ie b).map fun t => s ++ t := by
  induction a with
  | nil => simp [resolveWords]
  | cons w a ih =>
    rw [List.cons_append, resolveWords, resolveWords]
    split
    · simp only []
      split
      · rfl
      · rw [ih]
        cases resolveWords env ie a with
        | none => rfl
        | some s =>
          cases resolveWords env ie b with
          | none => rfl
          | some t => simp
    · rw [ih]
      cases resolveWords env ie a with
      | none => rfl
      | some s =>
        cases resolveWords env ie b with
        | none => rfl
        | some t => simp

theorem resolveWords_plain (env : attribs_map) (ie : Bool) {w : QString} (h : PlainWord w) :
    resolveWords env ie [w] = some w := by
  have h1 : ¬ (w ≠ [] ∧ qstartsWith w CHR_INI_ATTRIB = true ∧
      qendsWith w CHR_END_ATTRIB = true) := h
  simp [resolveWords, h1]

theorem resolveWords_ref (env : attribs_map) (ie : Bool) (x : QString) :
    resolveWords env ie [refWord x] =
      if env.value x = [] ∧ ie = false then none else some (env.value x) := by
  obtain ⟨h1, h2, h3, h4⟩ := refWord_shape x
  simp only [resolveWords, h1, h2, h3, h4, ne_eq, not_false_eq_true, and_self, if_true,
    Option.map_some', List.append_nil, Bool.not_eq_true]

/-- The loop that writes the words of an outermost `if` resolves them. -/
theorem flushWords_good (ws : List QString) :
    ∀ (out : QString) (p : SchemaParser), (∀ w ∈ ws, GoodWord p.attributes w) →
      (∀ s, resolveWords p.attributes p.ignore_empty_atribs ws = some s →
        flushWords ws out p = .ok (out ++ s) p) ∧
      (resolveWords p.attributes p.ignore_empty_atribs ws = none →
        (flushWords ws out p).raises .ERR_UNDEF_ATTRIB_VALUE) := by
  induction ws with
  | nil =>
    intro out p _
    refine ⟨?_, ?_⟩
    · intro s hs
      simp only [resolveWords, Option.some.injEq] at hs
      subst hs
      simp [flushWords]
    · intro hn
      simp [resolveWords] at hn
  | cons w ws ih =>
    intro out p hg
    have hgw := hg w (by simp)
    have hgs : ∀ v ∈ ws, GoodWord p.attributes v := fun v hv => hg v (by simp [hv])
    rcases hgw with hpl | ⟨x, hx, hpres⟩
    · have h1 : ¬ (w ≠ [] ∧ qstartsWith w CHR_INI_ATTRIB = true ∧
          qendsWith w CHR_END_ATTRIB = true) := hpl
      obtain ⟨ih1, ih2⟩ := ih (out ++ w) p hgs
      rw [flushWords, if_neg h1]
      simp only [resolveWords, h1, if_false]
      refine ⟨?_, ?_⟩
      · intro s hs
        simp only [Option.map_eq_some'] at hs
        obtain ⟨t, ht, rfl⟩ := hs
        rw [ih1 t ht, List.append_assoc]
      · intro hn
        exact ih2 (by simpa using hn)
    · subst hx
      obtain ⟨h1, h2, h3, h4⟩ := refWord_shape x
      have hpos : refWord x ≠ [] ∧ qstartsWith (refWord x) CHR_INI_ATTRIB = true ∧
          qendsWith (refWord x) CHR_END_ATTRIB = true := ⟨h1, h2, h3⟩
      have ht : p.attributes.touch x = p.attributes := attribs_map.value_touch hpres
      have hfl : flushWords (refWord x :: ws) out p =
          if p.attributes.value x = [] ∧ ¬ p.ignore_empty_atribs = true then
            throwAt .ERR_UNDEF_ATTRIB_VALUE p
          else flushWords ws (out ++ p.attributes.value x) p := by
        rw [flushWords, if_pos hpos]
        simp only [h4, ht]
      have hrs : resolveWords p.attributes p.ignore_empty_atribs (refWord x :: ws) =
          if p.attributes.value x = [] ∧ ¬ p.ignore_empty_atribs = true then none
          else (resolveWords p.attributes p.ignore_empty_atribs ws).map
            fun s => p.attributes.value x ++ s := by
        rw [resolveWords, if_pos hpos]
        simp only [h4]
      rw [hfl, hrs]
      by_cases he : p.attributes.value x = [] ∧ ¬ p.ignore_empty_atribs = true
      · rw [if_pos he, if_pos he]
        exact ⟨fun s hs => Option.noConfusion hs, fun _ => ⟨_, _, rfl, rfl⟩⟩
      · rw [if_neg he, if_neg he]
        obtain ⟨ih1, ih2⟩ := ih (out ++ p.attributes.value x) p hgs
        refine ⟨?_, ?_⟩
        · intro s hs
          simp only [Option.map_eq_some'] at hs
          obtain ⟨t, ht, rfl⟩ := hs
          rw [ih1 t ht, List.append_assoc]
        · intro hn
          exact ih2 (by simpa using hn)

theorem emitRes_nil (env : attribs_map) (ie : Bool) (out : QString) (stack : List Frame) :
    emitRes env ie out [] stack = some out := by
  cases stack <;> simp [emitRes, resolveWords]

theorem emitRes_append (env : attribs_map) (ie : Bool) (out : QString)
    (ws1 ws2 : List QString) (stack : List Frame) :
    emitRes env ie out (ws1 ++ ws2) stack =
      (emitRes env ie out ws1 stack).bind fun o => emitRes env ie o ws2 (emitTop ws1 stack) := by
  cases stack with
  | nil =>
    simp only [emitRes, emitTop, resolveWords_append]
    cases resolveWords env ie ws1 with
    | none => rfl
    | some s =>
      cases resolveWords env ie ws2 with
      | none => rfl
      | some t => simp
  | cons f fs => rfl

theorem emitRes_cons (env : attribs_map) (ie : Bool) (out : QString) (ws : List QString)
    (f : Frame) (fs : List Frame) : emitRes env ie out ws (f :: fs) = some out := rfl

theorem GoodWord.of_plain {env : attribs_map} {w : QString} (h : PlainWord w) :
    GoodWord env w := Or.inl h

theorem emitTop_good {env : attribs_map} {ws : List QString} {stack : List Frame}
    (hs : GoodStack env stack) (hw : ∀ w ∈ ws, GoodWord env w) :
    GoodStack env (emitTop ws stack) := by
  cases stack with
  | nil => exact hs
  | cons f fs =>
    intro g hg w hwg
    simp only [emitTop, List.mem_cons] at hg
    rcases hg with rfl | hg
    · have hf := hs f (by simp)
      by_cases hi : f.inElse = true
      · simp only [hi, if_true, List.mem_append] at hwg
        rcases hwg with hwg | hwg | hwg
        · exact hf w (by simp [hwg])
        · exact hf w (by simp [hwg])
        · exact hw w hwg
      · simp only [hi, if_false, List.mem_append, Bool.false_eq_true] at hwg
        rcases hwg with (hwg | hwg) | hwg
        · exact hf w (by simp [hwg])
        · exact hw w hwg
        · exact hf w (by simp [hwg])
    · exact hs g (by simp [hg]) w hwg

theorem GoodStack.opened {env : attribs_map} {stack : List Frame} (h : GoodStack env stack)
    (b : Bool) : GoodStack env (⟨b, false, [], []⟩ :: stack) := by
  intro f hf w hw
  simp only [List.mem_cons] at hf
  rcases hf with rfl | hf
  · simp at hw
  · exact h f hf w hw

theorem GoodStack.inElse {env : attribs_map} {f : Frame} {fs : List Frame}
    (h : GoodStack env (f :: fs)) : GoodStack env ({ f with inElse := true } :: fs) := by
  intro g hg w hw
  simp only [List.mem_cons] at hg
  rcases hg with rfl | hg
  · exact h f (by simp) w hw
  · exact h g (by simp [hg]) w hw

theorem GoodStack.selected {env : attribs_map} {f : Frame} {fs : List Frame}
    (h : GoodStack env (f :: fs)) : ∀ w ∈ f.selected, GoodWord env w := by
  intro w hw
  refine h f (by simp) w ?_
  unfold Frame.selected at hw
  by_cases hb : f.expif = true
  · rw [if_pos hb] at hw; exact List.mem_append_left _ hw
  · rw [if_neg hb] at hw; exact List.mem_append_right _ hw

theorem GoodStack.closed {env : attribs_map} {f : Frame} {fs : List Frame}
    (h : GoodStack env (f :: fs)) : GoodStack env (emitTop f.selected fs) :=
  emitTop_good (fun g hg => h g (by simp [hg])) h.selected

/-- At the `%end` of a block inside another block, the words of its selected arm
go to the arm the enclosing block is in. -/
theorem Rel.afterEnd_inner {out : QString} {f g : Frame} {gs : List Frame} {l : Locals}
    (h : Rel out (f :: g :: gs) l) (p : SchemaParser) :
    ∃ l', caseEnd { l with prev_cond := l.cond, cond := TOKEN_END } p = .ok l' p ∧
      l'.prev_cond = l.cond ∧ l'.cond = TOKEN_END ∧
      Rel out (emitTop f.selected (g :: gs)) l' := by
  have hsel : ∀ l0 : Locals, l0 = { l with prev_cond := l.cond, cond := TOKEN_END } →
      selectedWords { l0 with end_cnt := l0.end_cnt + 1 } = f.selected := by
    intro l0 h0
    subst h0
    refine @selectedWords_frame _ f (g :: gs) ?_
    have hc : Chain l l.if_level (f :: g :: gs) := h.chain
    refine Chain.agree _ _ hc ?_
    intro j _ _
    exact ⟨rfl, rfl, rfl, rfl, rfl, rfl, rfl⟩
  have hsel := hsel _ rfl
  obtain ⟨c0, c1, c2, c3, c4, c5, c6, c7, c8, c9⟩ := h.chain
  have hcnt := h.cnt
  have hg := c9
  obtain ⟨g0, g1, g2, g3, g4, g5, g6, g7, g8, g9⟩ := hg
  have hpos : l.if_level > 0 := by omega
  have hlt := h.level_lt
  have hfresh : ∀ (m : frag_map) (j : Int), (l.vet_tk_if.length : Int) ≤ j →
      m.find j = none →
      (m.push (l.vet_prev_level.getD l.if_level.toNat 0) f.selected).find j = none := by
    intro m j hj hm
    rw [frag_map.find_push, if_neg (by omega)]
    exact hm
  by_cases hi : g.inElse = true
  · have helse : flagAt l.vet_tk_else (l.vet_prev_level.getD l.if_level.toNat 0) = true := by
      rw [g4, hi]
    refine ⟨{ l with
      end_cnt := l.end_cnt + 1, prev_cond := l.cond, cond := TOKEN_END,
      else_map := l.else_map.push (l.vet_prev_level.getD l.if_level.toNat 0) f.selected,
      if_level := l.vet_prev_level.getD l.if_level.toNat 0 }, ?_, rfl, rfl, ?_⟩
    · unfold caseEnd
      simp only [hpos, if_true, helse, not_true_eq_false, if_false]
      rw [hsel]
    · refine ⟨?_, h.out_eq, h.len_expif, h.len_then, h.len_else, h.len_prev, ?_,
        fun hn => List.noConfusion hn, ?_, (show ¬ (TOKEN_END = TOKEN_IF) from by decide), ?_⟩
      · refine Chain.push f.selected c9 rfl rfl rfl rfl ?_ ?_ rfl
        · simp only [hi, if_true]
        · simp only [hi, if_true]
      · show l.vet_prev_level.getD l.if_level.toNat 0 < (l.vet_tk_if.length : Int)
        omega
      · intro j hj
        exact ⟨(h.fresh j hj).1, hfresh _ j hj (h.fresh j hj).2⟩
      · show l.if_cnt = l.end_cnt + 1 + (gs.length + 1)
        simp only [List.length_cons] at hcnt
        omega
  · have hi' : g.inElse = false := by simpa using hi
    have helse : flagAt l.vet_tk_else (l.vet_prev_level.getD l.if_level.toNat 0) = false := by
      rw [g4, hi']
    refine ⟨{ l with
      end_cnt := l.end_cnt + 1, prev_cond := l.cond, cond := TOKEN_END,
      if_map := l.if_map.push (l.vet_prev_level.getD l.if_level.toNat 0) f.selected,
      if_level := l.vet_prev_level.getD l.if_level.toNat 0 }, ?_, rfl, rfl, ?_⟩
    · unfold caseEnd
      simp only [hpos, if_true, helse, Bool.false_eq_true, not_false_eq_true]
      rw [hsel]
    · refine ⟨?_, h.out_eq, h.len_expif, h.len_then, h.len_else, h.len_prev, ?_,
        fun hn => List.noConfusion hn, ?_, (show ¬ (TOKEN_END = TOKEN_IF) from by decide), ?_⟩
      · refine Chain.push f.selected c9 rfl rfl rfl rfl ?_ ?_ rfl
        · simp only [hi', Bool.false_eq_true, if_false]
        · simp only [hi', Bool.false_eq_true, if_false]
      · show l.vet_prev_level.getD l.if_level.toNat 0 < (l.vet_tk_if.length : Int)
        omega
      · intro j hj
        exact ⟨hfresh _ j hj (h.fresh j hj).1, (h.fresh j hj).2⟩
      · show l.if_cnt = l.end_cnt + 1 + (gs.length + 1)
        simp only [List.length_cons] at hcnt
        omega

/-- At the `%end` of an outermost block, the words of its selected arm are written
to the output by `flushWords`. -/
theorem Rel.afterEnd_outer {out : QString} {f : Frame} {l : Locals}
    (h : Rel out [f] l) (p : SchemaParser) :
    (∀ s, flushWords f.selected out p = .ok (out ++ s) p →
      ∃ l', caseEnd { l with prev_cond := l.cond, cond := TOKEN_END } p = .ok l' p ∧
        l'.prev_cond = l.cond ∧ l'.cond = TOKEN_END ∧ Rel (out ++ s) [] l') ∧
    (∀ t, (flushWords f.selected out p).raises t →
      (caseEnd { l with prev_cond := l.cond, cond := TOKEN_END } p).raises t) := by
  have hsel : ∀ l0 : Locals, l0 = { l with prev_cond := l.cond, cond := TOKEN_END } →
      selectedWords { l0 with end_cnt := l0.end_cnt + 1 } = f.selected := by
    intro l0 h0
    subst h0
    refine @selectedWords_frame _ f [] ?_
    have hc : Chain l l.if_level [f] := h.chain
    refine Chain.agree _ _ hc ?_
    intro j _ _
    exact ⟨rfl, rfl, rfl, rfl, rfl, rfl, rfl⟩
  have hsel := hsel _ rfl
  obtain ⟨c0, c1, c2, c3, c4, c5, c6, c7, c8, c9⟩ := h.chain
  have hcnt := h.cnt
  have h0 : l.if_level = 0 := c8 rfl
  have hnpos : ¬ (l.if_level > 0) := by omega
  have hout := h.out_eq
  have hcase : caseEnd { l with prev_cond := l.cond, cond := TOKEN_END } p =
      (flushWords f.selected out p).bind fun object_def q =>
        .ok { l with
          object_def := object_def, end_cnt := l.end_cnt + 1,
          prev_cond := l.cond, cond := TOKEN_END, if_map := [], else_map := [], vet_tk_if := [],
          vet_tk_then := [], vet_tk_else := [], vet_expif := [], vet_prev_level := [],
          if_level := -1 } q := by
    unfold caseEnd
    simp only [hnpos, if_false]
    rw [hsel]
    simp only [hout]
  rw [hcase]
  refine ⟨?_, ?_⟩
  · intro s hs
    rw [hs]
    refine ⟨_, rfl, rfl, rfl, ?_⟩
    refine ⟨rfl, rfl, rfl, rfl, rfl, rfl,
      (show (-1 : Int) < ((([] : List Bool).length : Nat) : Int) from by decide),
      fun _ => ⟨rfl, rfl, rfl⟩,
      fun j _ => ⟨rfl, rfl⟩, (show ¬ (TOKEN_END = TOKEN_IF) from by decide), ?_⟩
    show l.if_cnt = l.end_cnt + 1 + 0
    simp only [List.length_cons, List.length_nil] at hcnt
    omega
  · intro t ht
    obtain ⟨e, q, he, hty⟩ := ht
    rw [he]
    exact ⟨e, q, rfl, hty⟩

/-- The loop of `getCodeDefinition` on `%end`, where `caseEnd` raises. -/
theorem run_end_raises {p : SchemaParser} {l : Locals} {c : Char} {rest : QString}
    {t : ErrorType}
    (hwf : LoadedBuffer p.buffer)
    (h : AtCursor p (CHR_INI_CONDITIONAL :: TOKEN_END ++ c :: rest)) (hc : isDelim c)
    (hlev : l.if_level ≥ 0)
    (hcase : (caseEnd { l with prev_cond := l.cond, cond := TOKEN_END }
      { p with column := p.column + (TOKEN_END.length + 1) }).raises t) :
    ∀ sf fuel : Nat, (getCodeDefinitionLoop sf (fuel + 1) l p).raises t := by
  obtain ⟨L, hl, hch, hq, hgc⟩ := getConditional_stream hwf h (by decide) (by decide) hc
  obtain ⟨e, q, he, hty⟩ := hcase
  intro sf fuel
  rw [getCodeDefinitionLoop]
  simp only [hl, getCodeDefinitionStep_conditional hch, caseConditional, hgc, Res.bind,
    token_end_ne, ne_eq, not_true_eq_false, false_and, and_false, if_false, false_or,
    or_false, if_true, hlev, and_self, he]
  exact ⟨e, q, rfl, hty⟩

/-- In a loaded buffer a token that holds no line end is followed by a
character. -/
theorem AtCursor.after_token {p : SchemaParser} {tok rest : QString}
    (hwf : LoadedBuffer p.buffer) (h : AtCursor p (tok ++ rest)) (hn : CHR_LINE_END ∉ tok) :
    ∃ c r, rest = c :: r := by
  cases rest with
  | nil =>
    obtain ⟨s, hs⟩ := h.ends hwf
    rw [List.append_nil] at hs
    exact absurd (by rw [hs]; simp) hn
  | cons c r => exact ⟨c, r, rfl⟩

theorem refWord_no_line_end {x : QString} (hx : ATTR_REGEXP.exactMatch x = true) :
    CHR_LINE_END ∉ refWord x := by
  have f3 := name_no_line_end hx
  simp only [refWord, List.mem_append, List.mem_cons, not_or, List.mem_singleton,
    List.not_mem_nil, or_false]
  exact ⟨⟨(show ¬ (CHR_LINE_END = CHR_INI_ATTRIB) from by decide), f3⟩,
    (show ¬ (CHR_LINE_END = CHR_END_ATTRIB) from by decide)⟩

/-- A turn of the loop of `getCodeDefinition` on a reference `{x}` inside a block:
the word `{x}` is stored, unresolved. -/
theorem step_ref_block {p : SchemaParser} {l : Locals} {x rest out : QString} {f : Frame}
    {fs : List Frame}
    (hwf : LoadedBuffer p.buffer) (h : AtCursor p (refWord x ++ rest))
    (hx : ATTR_REGEXP.exactMatch x = true) (hpres : (p.attributes.find x).isSome = true)
    (hr : Rel out (f :: fs) l) :
    AtCursor { p with column := p.column + (x.length + 2) } rest ∧
    Rel out (emitTop [refWord x] (f :: fs)) (l.afterWord (refWord x)) ∧
    ∀ sf fuel : Nat, getCodeDefinitionLoop sf (fuel + 1) l p =
      getCodeDefinitionLoop sf fuel (l.afterWord (refWord x))
        { p with column := p.column + (x.length + 2) } := by
  have hn := refWord_no_line_end hx
  obtain ⟨c, r, hrest⟩ := h.after_token hwf hn
  subst hrest
  obtain ⟨L, z, hl, hd, hafter⟩ := AtCursor.token hwf h hn
  have hd1 : L.drop p.column = CHR_INI_ATTRIB :: x ++ CHR_END_ATTRIB :: (c :: z) := by
    rw [hd]; simp only [refWord, List.append_assoc, List.cons_append, List.nil_append]
  have hlev : l.if_level ≥ 0 := hr.chain.1
  have hexpr := hr.not_inIfExpr hlev
  have hc : charAt L p.column = CHR_INI_ATTRIB := charAt_of_drop (by simpa using hd1)
  refine ⟨hafter _ rfl rfl (by simp [refWord]), ?_, fun sf fuel => ?_⟩
  · have := hr.afterWord (refWord x)
    rwa [emitOut_cons] at this
  · have hstep : getCodeDefinitionStep sf L l p = caseAttrib l p := by
      unfold getCodeDefinitionStep
      simp only [hc]
      rw [if_neg (by decide), if_neg (by decide), if_neg (by decide), if_pos (by decide)]
    refine getCodeDefinitionLoop_step hl ?_
    rw [hstep]
    simp only [caseAttrib, getAttribute_ok hl hd1 hx, Res.bind,
      attribs_map.count_ne_zero hpres, if_false, hlev, if_true, hexpr, Bool.false_eq_true,
      and_false, not_false_eq_true, Locals.afterWord, refWord]

/-- A turn of the loop of `getCodeDefinition` on a reference `{x}` at top level:
the value of `x` is written, or undefined-attribute-value is raised. -/
theorem step_ref_top {p : SchemaParser} {l : Locals} {x rest out : QString}
    (hwf : LoadedBuffer p.buffer) (h : AtCursor p (refWord x ++ rest))
    (hx : ATTR_REGEXP.exactMatch x = true) (hpres : (p.attributes.find x).isSome = true)
    (hr : Rel out [] l) :
    AtCursor { p with column := p.column + (x.length + 2) } rest ∧
    (¬ (p.attributes.value x = [] ∧ p.ignore_empty_atribs = false) →
      Rel (out ++ p.attributes.value x) []
        { l with object_def := l.object_def ++ p.attributes.value x } ∧
      ∀ sf fuel : Nat, getCodeDefinitionLoop sf (fuel + 1) l p =
        getCodeDefinitionLoop sf fuel
          { l with object_def := l.object_def ++ p.attributes.value x }
          { p with column := p.column + (x.length + 2) }) ∧
    (p.attributes.value x = [] ∧ p.ignore_empty_atribs = false →
      ∀ sf fuel : Nat,
        (getCodeDefinitionLoop sf (fuel + 1) l p).raises .ERR_UNDEF_ATTRIB_VALUE) := by
  have hn := refWord_no_line_end hx
  obtain ⟨c, r, hrest⟩ := h.after_token hwf hn
  subst hrest
  obtain ⟨L, z, hl, hd, hafter⟩ := AtCursor.token hwf h hn
  have hd1 : L.drop p.column = CHR_INI_ATTRIB :: x ++ CHR_END_ATTRIB :: (c :: z) := by
    rw [hd]; simp only [refWord, List.append_assoc, List.cons_append, List.nil_append]
  have hk : l.if_level = -1 := hr.chain
  have htop : l.if_level < 0 := by omega
  have hfind : ¬ (p.attributes.find x = none) := by
    intro hnone; rw [hnone] at hpres; exact Bool.noConfusion hpres
  have henv : envAfterLookup p.attributes x = p.attributes := by
    unfold envAfterLookup; rw [if_neg hfind]
  refine ⟨hafter _ rfl rfl (by simp [refWord]), fun hval => ⟨?_, fun sf fuel => ?_⟩,
    fun hval sf fuel => ?_⟩
  · exact ⟨hr.chain, by simp [hr.out_eq], hr.len_expif, hr.len_then, hr.len_else, hr.len_prev,
      hr.level_lt, hr.top, hr.fresh, hr.cond_ne, hr.cnt⟩
  · have hstep := getCodeDefinitionStep_reference sf l p L x (c :: z) hl hd1 hx htop
    rw [if_neg (fun hh => hfind hh.1), if_neg hval, henv] at hstep
    exact getCodeDefinitionLoop_step hl hstep
  · have hstep := getCodeDefinitionStep_reference sf l p L x (c :: z) hl hd1 hx htop
    rw [if_neg (fun hh => hfind hh.1), if_pos hval, henv] at hstep
    rw [getCodeDefinitionLoop]
    simp only [hl, hstep, throwAt, Res.bind]
    exact ⟨_, _, rfl, rfl⟩

theorem Walk.of_some {sf : Nat} {p : SchemaParser} {l : Locals} {out : QString}
    {stack : List Frame} {ws : List QString} {n : Nat} {rest res : QString}
    (h : emitRes p.attributes p.ignore_empty_atribs out ws stack = some res)
    (hw : ∃ (k : Nat) (q : SchemaParser) (l1 : Locals) (w : QString), k + w.length ≤ n ∧
      SameButCursor p q ∧ White w ∧ Stream q (w ++ rest) ∧
      Rel res (emitTop ws stack) l1 ∧ GoodStack p.attributes (emitTop ws stack) ∧
      (l1.cond = l.cond ∨ l1.cond = TOKEN_END) ∧
      ∀ fuel : Nat, getCodeDefinitionLoop sf (k + fuel) l p =
        getCodeDefinitionLoop sf fuel l1 q) :
    Walk sf p l out stack ws n rest := by
  unfold Walk
  rw [h]
  exact hw

theorem Walk.of_none {sf : Nat} {p : SchemaParser} {l : Locals} {out : QString}
    {stack : List Frame} {ws : List QString} {n : Nat} {rest : QString}
    (h : emitRes p.attributes p.ignore_empty_atribs out ws stack = none)
    (hw : ∃ k : Nat, k < n ∧ ∀ fuel : Nat,
      (getCodeDefinitionLoop sf (k + fuel + 1) l p).raises .ERR_UNDEF_ATTRIB_VALUE) :
    Walk sf p l out stack ws n rest := by
  unfold Walk
  rw [h]
  exact hw

theorem Walk.resolved {sf : Nat} {p : SchemaParser} {l : Locals} {out : QString}
    {stack : List Frame} {ws : List QString} {n : Nat} {rest res : QString}
    (hw : Walk sf p l out stack ws n rest)
    (h : emitRes p.attributes p.ignore_empty_atribs out ws stack = some res) :
    ∃ (k : Nat) (q : SchemaParser) (l1 : Locals) (w : QString), k + w.length ≤ n ∧
      SameButCursor p q ∧ White w ∧ Stream q (w ++ rest) ∧
      Rel res (emitTop ws stack) l1 ∧ GoodStack p.attributes (emitTop ws stack) ∧
      (l1.cond = l.cond ∨ l1.cond = TOKEN_END) ∧
      ∀ fuel : Nat, getCodeDefinitionLoop sf (k + fuel) l p =
        getCodeDefinitionLoop sf fuel l1 q := by
  unfold Walk at hw
  rw [h] at hw
  exact hw

theorem Walk.unresolved {sf : Nat} {p : SchemaParser} {l : Locals} {out : QString}
    {stack : List Frame} {ws : List QString} {n : Nat} {rest : QString}
    (hw : Walk sf p l out stack ws n rest)
    (h : emitRes p.attributes p.ignore_empty_atribs out ws stack = none) :
    ∃ k : Nat, k < n ∧ ∀ fuel : Nat,
      (getCodeDefinitionLoop sf (k + fuel + 1) l p).raises .ERR_UNDEF_ATTRIB_VALUE := by
  unfold Walk at hw
  rw [h] at hw
  exact hw

theorem emitRes_plain (env : attribs_map) (ie : Bool) (out : QString) {t : QString}
    (h : PlainWord t) (stack : List Frame) :
    emitRes env ie out [t] stack = some (emitOut out [t] stack) := by
  cases stack with
  | nil => simp [emitRes, emitOut, resolveWords_plain env ie h]
  | cons f fs => rfl

/-- The loop of `getCodeDefinition` over tokens that write nothing. -/
theorem walk_skip (sf : Nat) {p : SchemaParser} {l : Locals} {out : QString}
    {stack : List Frame} {w ws rest : QString}
    (hw : White w) (hws : White ws) (hs : Stream p (w ++ (ws ++ rest)))
    (hr : Rel out stack l) (hg : GoodStack p.attributes stack) :
    Walk sf p l out stack [] (w.length + ws.length) rest := by
  refine Walk.of_some (emitRes_nil _ _ _ _) ⟨0, p, l, w ++ ws, ?_, SameButCursor.refl p, ?_, ?_,
    ?_, ?_, Or.inl rfl, fun fuel => by rw [Nat.zero_add]⟩
  · simp
  · intro c hc
    rcases List.mem_append.1 hc with h | h
    · exact hw c h
    · exact hws c h
  · rw [List.append_assoc]; exact hs
  · rw [emitTop_nil]; exact hr
  · rw [emitTop_nil]; exact hg

/-- The loop of `getCodeDefinition` over a pure text `[t]`. -/
theorem walk_text (sf : Nat) {p : SchemaParser} {l : Locals} {out : QString}
    {stack : List Frame} {w t rest : QString}
    (hwf : LoadedBuffer p.buffer) (hw : White w)
    (hs : Stream p (w ++ ((CHR_INI_PURETEXT :: t ++ [CHR_END_PURETEXT]) ++ rest)))
    (ht : ∀ c ∈ t, c ≠ CHR_INI_ATTRIB ∧ c ≠ CHR_END_ATTRIB ∧ c ≠ CHR_INI_PURETEXT ∧
      c ≠ CHR_END_PURETEXT)
    (hr : Rel out stack l) (hg : GoodStack p.attributes stack) :
    Walk sf p l out stack [t]
      (w.length + (CHR_INI_PURETEXT :: t ++ [CHR_END_PURETEXT]).length) rest := by
  have e0 : (CHR_INI_PURETEXT :: t ++ [CHR_END_PURETEXT]) ++ rest =
      CHR_INI_PURETEXT :: t ++ CHR_END_PURETEXT :: rest := by
    simp only [List.append_assoc, List.cons_append, List.nil_append]
  rw [e0] at hs
  obtain ⟨k1, q1, hk1, hq1, hs1, e1⟩ :=
    run_white w.length w p _ (le_refl _) hwf hs hw (Tight.cons (by decide) _)
  have hwf1 : LoadedBuffer q1.buffer := by rw [hq1.buffer]; exact hwf
  have hat := hs1.atCursor (by simp)
  obtain ⟨q2, hq2, hat2, e2⟩ := run_text hwf1 hat
    (fun c hc => ⟨(ht c hc).2.2.1, (ht c hc).2.2.2⟩) hr.not_inIfExpr
  refine Walk.of_some (emitRes_plain _ _ _ (PlainWord.of_text ht) _)
    ⟨k1 + 1, q2, l.afterWord t, [], ?_, hq1.trans hq2, ?_, Or.inr hat2, hr.afterWord t, ?_,
      Or.inl (Locals.afterWord_cond l t), fun fuel => ?_⟩
  · simp only [List.length_nil, List.length_cons, List.length_append]
    omega
  · intro c hc; exact absurd hc (List.not_mem_nil _)
  · refine emitTop_good hg ?_
    intro v hv
    have : v = t := by simpa using hv
    rw [this]
    exact GoodWord.of_plain (PlainWord.of_text ht)
  · rw [show k1 + 1 + fuel = k1 + (fuel + 1) from by omega, e1, e2]

/-- The loop of `getCodeDefinition` over a reference `{x}`. -/
theorem walk_ref (sf : Nat) {p : SchemaParser} {l : Locals} {out : QString}
    {stack : List Frame} {w x rest : QString}
    (hwf : LoadedBuffer p.buffer) (hw : White w)
    (hs : Stream p (w ++ (refWord x ++ rest)))
    (hx : ATTR_REGEXP.exactMatch x = true) (hpres : (p.attributes.find x).isSome = true)
    (hr : Rel out stack l) (hg : GoodStack p.attributes stack) :
    Walk sf p l out stack [refWord x] (w.length + (refWord x).length) rest := by
  have hlen : (refWord x).length = x.length + 2 := by simp [refWord]
  obtain ⟨k1, q1, hk1, hq1, hs1, e1⟩ :=
    run_white w.length w p _ (le_refl _) hwf hs hw (Tight.cons (by decide) _)
  have hwf1 : LoadedBuffer q1.buffer := by rw [hq1.buffer]; exact hwf
  have hat := hs1.atCursor (by simp [refWord])
  have hpres1 : (q1.attributes.find x).isSome = true := by rw [hq1.attributes]; exact hpres
  cases stack with
  | nil =>
    obtain ⟨hat2, hok, hfail⟩ := step_ref_top hwf1 hat hx hpres1 hr
    have hva : q1.attributes.value x = p.attributes.value x := by rw [hq1.attributes]
    have hie : q1.ignore_empty_atribs = p.ignore_empty_atribs := hq1.ignore_empty
    by_cases hval : p.attributes.value x = [] ∧ p.ignore_empty_atribs = false
    · refine Walk.of_none ?_ ⟨k1, by omega, fun fuel => ?_⟩
      · simp [emitRes, resolveWords_ref, hval]
      · rw [show k1 + fuel + 1 = k1 + (fuel + 1) from by omega, e1]
        exact hfail (by rw [hva, hie]; exact hval) sf fuel
    · obtain ⟨hr2, e2⟩ := hok (by rw [hva, hie]; exact hval)
      have hr3 : Rel (out ++ p.attributes.value x) []
          { l with object_def := l.object_def ++ q1.attributes.value x } := by
        rw [← hva]; exact hr2
      have hres : emitRes p.attributes p.ignore_empty_atribs out [refWord x] [] =
          some (out ++ p.attributes.value x) := by
        simp [emitRes, resolveWords_ref, hval]
      refine Walk.of_some hres
        ⟨k1 + 1, _, _, [], ?_, hq1.trans (SameButCursor.column q1 _), ?_, Or.inr hat2, hr3,
          ?_, Or.inl rfl, fun fuel => ?_⟩
      · simp only [List.length_nil]; omega
      · intro c hc; exact absurd hc (List.not_mem_nil _)
      · exact hg
      · rw [show k1 + 1 + fuel = k1 + (fuel + 1) from by omega, e1, e2]
  | cons f fs =>
    obtain ⟨hat2, hr2, e2⟩ := step_ref_block hwf1 hat hx hpres1 hr
    refine Walk.of_some (emitRes_cons _ _ _ _ _ _)
      ⟨k1 + 1, _, _, [], ?_, hq1.trans (SameButCursor.column q1 _), ?_, Or.inr hat2, hr2,
        ?_, Or.inl (Locals.afterWord_cond l _), fun fuel => ?_⟩
    · simp only [List.length_nil]; omega
    · intro c hc; exact absurd hc (List.not_mem_nil _)
    · refine emitTop_good hg ?_
      intro v hv
      have : v = refWord x := by simpa using hv
      rw [this]
      exact Or.inr ⟨x, rfl, hpres⟩
    · rw [show k1 + 1 + fuel = k1 + (fuel + 1) from by omega, e1, e2]

/-- The loop of `getCodeDefinition` over the `%end` of a block: the words of the
selected arm are handed over, or, at the end of an outermost block, resolved. -/
theorem walk_end (sf : Nat) {p : SchemaParser} {l : Locals} {out : QString} {f : Frame}
    {stack : List Frame} {w : QString} {c : Char} {r : QString}
    (hwf : LoadedBuffer p.buffer) (hw : White w)
    (hs : Stream p (w ++ (CHR_INI_CONDITIONAL :: TOKEN_END ++ c :: r))) (hc : isDelim c)
    (hr : Rel out (f :: stack) l) (hg : GoodStack p.attributes (f :: stack)) :
    (∀ res, emitRes p.attributes p.ignore_empty_atribs out f.selected stack = some res →
      ∃ (k : Nat) (q : SchemaParser) (l1 : Locals), k ≤ w.length + 1 ∧ SameButCursor p q ∧
        AtCursor q (c :: r) ∧ Rel res (emitTop f.selected stack) l1 ∧
        GoodStack p.attributes (emitTop f.selected stack) ∧ l1.cond = TOKEN_END ∧
        ∀ fuel : Nat, getCodeDefinitionLoop sf (k + fuel) l p =
          getCodeDefinitionLoop sf fuel l1 q) ∧
    (emitRes p.attributes p.ignore_empty_atribs out f.selected stack = none →
      ∃ k : Nat, k ≤ w.length ∧ ∀ fuel : Nat,
        (getCodeDefinitionLoop sf (k + fuel + 1) l p).raises .ERR_UNDEF_ATTRIB_VALUE) := by
  obtain ⟨k1, q1, hk1, hq1, hs1, e1⟩ :=
    run_white w.length w p _ (le_refl _) hwf hs hw (Tight.cons (by decide) _)
  have hwf1 : LoadedBuffer q1.buffer := by rw [hq1.buffer]; exact hwf
  have hat := hs1.atCursor (by simp)
  cases stack with
  | nil =>
    obtain ⟨hok, hfail⟩ := hr.afterEnd_outer { q1 with column := q1.column + (TOKEN_END.length + 1) }
    have hgood : ∀ v ∈ f.selected, GoodWord
        ({ q1 with column := q1.column + (TOKEN_END.length + 1) } : SchemaParser).attributes v := by
      intro v hv
      have := hg.selected v hv
      rw [← hq1.attributes] at this
      exact this
    obtain ⟨hf1, hf2⟩ := flushWords_good f.selected out
      { q1 with column := q1.column + (TOKEN_END.length + 1) } hgood
    have hrw : resolveWords
        ({ q1 with column := q1.column + (TOKEN_END.length + 1) } : SchemaParser).attributes
        ({ q1 with column := q1.column + (TOKEN_END.length + 1) } :
          SchemaParser).ignore_empty_atribs f.selected =
        resolveWords p.attributes p.ignore_empty_atribs f.selected := by
      show resolveWords q1.attributes q1.ignore_empty_atribs _ = _
      rw [hq1.attributes, hq1.ignore_empty]
    refine ⟨?_, ?_⟩
    · intro res hres
      simp only [emitRes, Option.map_eq_some'] at hres
      obtain ⟨s, hs', rfl⟩ := hres
      obtain ⟨l5, hcase, hprev, hcond, hr5⟩ := hok s (hf1 s (hrw.trans hs'))
      obtain ⟨hat5, e5⟩ := run_end hwf1 hat hc hr.chain.1 hr.cond_ne hcase hprev hcond
      refine ⟨k1 + 1, _, l5, by omega, hq1.trans (SameButCursor.column q1 _), hat5, hr5,
        ?_, hcond, fun fuel => ?_⟩
      · intro g hg'; exact absurd hg' (List.not_mem_nil _)
      · rw [show k1 + 1 + fuel = k1 + (fuel + 1) from by omega, e1, e5]
    · intro hnone
      have hn : resolveWords p.attributes p.ignore_empty_atribs f.selected = none := by
        simpa [emitRes] using hnone
      have hraise := run_end_raises (l := l) hwf1 hat hc hr.chain.1 (hfail _ (hf2 (hrw.trans hn)))
      refine ⟨k1, hk1, fun fuel => ?_⟩
      rw [show k1 + fuel + 1 = k1 + (fuel + 1) from by omega, e1]
      exact hraise sf fuel
  | cons g gs =>
    obtain ⟨l5, hcase, hprev, hcond, hr5⟩ :=
      hr.afterEnd_inner { q1 with column := q1.column + (TOKEN_END.length + 1) }
    obtain ⟨hat5, e5⟩ := run_end hwf1 hat hc hr.chain.1 hr.cond_ne hcase hprev hcond
    refine ⟨?_, fun hnone => Option.noConfusion hnone⟩
    intro res hres
    simp only [emitRes, Option.some.injEq] at hres
    subst hres
    refine ⟨k1 + 1, _, l5, by omega, hq1.trans (SameButCursor.column q1 _), hat5, hr5,
      hg.closed, hcond, fun fuel => ?_⟩
    rw [show k1 + 1 + fuel = k1 + (fuel + 1) from by omega, e1, e5]

/-- The loop of `getCodeDefinition` over one part of the tokens and then the
next. -/
theorem Walk.seq {sf : Nat} {p : SchemaParser} {l : Locals} {out : QString}
    {stack : List Frame} {ws1 ws2 : List QString} {n m : Nat} {mid rest : QString}
    (h1 : Walk sf p l out stack ws1 n mid)
    (h2 : ∀ (q : SchemaParser) (l1 : Locals) (res w : QString), SameButCursor p q → White w →
      Stream q (w ++ mid) → Rel res (emitTop ws1 stack) l1 →
      GoodStack p.attributes (emitTop ws1 stack) →
      emitRes p.attributes p.ignore_empty_atribs out ws1 stack = some res →
      Walk sf q l1 res (emitTop ws1 stack) ws2 (w.length + m) rest) :
    Walk sf p l out stack (ws1 ++ ws2) (n + m) rest := by
  cases hres : emitRes p.attributes p.ignore_empty_atribs out ws1 stack with
  | none =>
    obtain ⟨k, hk, e⟩ := h1.unresolved hres
    refine Walk.of_none ?_ ⟨k, by omega, e⟩
    rw [emitRes_append, hres]
    rfl
  | some res =>
    obtain ⟨k1, q1, l1, w1, hk1, hq1, hw1, hs1, hr1, hg1, hc1, e1⟩ := h1.resolved hres
    have hw2 := h2 q1 l1 res w1 hq1 hw1 hs1 hr1 hg1 hres
    have ha : q1.attributes = p.attributes := hq1.attributes
    have hi : q1.ignore_empty_atribs = p.ignore_empty_atribs := hq1.ignore_empty
    cases hres2 : emitRes p.attributes p.ignore_empty_atribs res ws2 (emitTop ws1 stack) with
    | none =>
      obtain ⟨k2, hk2, e2⟩ := hw2.unresolved (by rw [ha, hi]; exact hres2)
      refine Walk.of_none ?_ ⟨k1 + k2, by omega, fun fuel => ?_⟩
      · rw [emitRes_append, hres]
        exact hres2
      · rw [show k1 + k2 + fuel + 1 = k1 + (k2 + fuel + 1) from by omega, e1]
        exact e2 fuel
    | some res2 =>
      obtain ⟨k2, q2, l2, w2, hk2, hq2, hw2', hs2, hr2, hg2, hc2, e2⟩ :=
        hw2.resolved (by rw [ha, hi]; exact hres2)
      rw [emitTop_append] at hr2 hg2
      rw [ha] at hg2
      refine Walk.of_some ?_ ⟨k1 + k2, q2, l2, w2, by omega, hq1.trans hq2, hw2', hs2, hr2,
        hg2, ?_, fun fuel => ?_⟩
      · rw [emitRes_append, hres]
        exact hres2
      · rcases hc2 with h | h
        · rw [h]; exact hc1
        · exact Or.inr h
      · rw [show k1 + k2 + fuel = k1 + (k2 + fuel) from by omega, e1, e2]

/-- The loop of `getCodeDefinition` over the body of an arm and the `%end` of its
block: the words of the selected arm are handed over or resolved. -/
theorem walk_close (sf : Nat) {p : SchemaParser} {l : Locals} {out : QString} {f : Frame}
    {stack : List Frame} {ws : List QString} {n : Nat} {c : Char} {r : QString}
    (hwf : LoadedBuffer p.buffer) (hc : isDelim c)
    (hwalk : Walk sf p l out (f :: stack) ws n (CHR_INI_CONDITIONAL :: TOKEN_END ++ c :: r)) :
    (∀ g, emitTop ws (f :: stack) = g :: stack →
      (∀ res, emitRes p.attributes p.ignore_empty_atribs out g.selected stack = some res →
        ∃ (k : Nat) (q : SchemaParser) (l1 : Locals), k ≤ n + 1 ∧ SameButCursor p q ∧
          AtCursor q (c :: r) ∧ Rel res (emitTop g.selected stack) l1 ∧
          GoodStack p.attributes (emitTop g.selected stack) ∧ l1.cond = TOKEN_END ∧
          ∀ fuel : Nat, getCodeDefinitionLoop sf (k + fuel) l p =
            getCodeDefinitionLoop sf fuel l1 q) ∧
      (emitRes p.attributes p.ignore_empty_atribs out g.selected stack = none →
        ∃ k : Nat, k ≤ n ∧ ∀ fuel : Nat,
          (getCodeDefinitionLoop sf (k + fuel + 1) l p).raises .ERR_UNDEF_ATTRIB_VALUE)) := by
  intro g hg
  obtain ⟨k1, q1, l1, w1, hk1, hq1, hw1, hs1, hr1, hg1, hc1, e1⟩ :=
    hwalk.resolved (emitRes_cons _ _ _ _ _ _)
  rw [hg] at hr1 hg1
  have hwf1 : LoadedBuffer q1.buffer := by rw [hq1.buffer]; exact hwf
  have hg1' : GoodStack q1.attributes (g :: stack) := by rw [hq1.attributes]; exact hg1
  obtain ⟨hok, hfail⟩ := walk_end sf hwf1 hw1 hs1 hc hr1 hg1'
  rw [hq1.attributes, hq1.ignore_empty] at hok hfail
  refine ⟨?_, ?_⟩
  · intro res hres
    obtain ⟨k2, q2, l2, hk2, hq2, hat2, hr2, hg2, hc2, e2⟩ := hok res hres
    refine ⟨k1 + k2, q2, l2, by omega, hq1.trans hq2, hat2, hr2, hg2, hc2, fun fuel => ?_⟩
    rw [show k1 + k2 + fuel = k1 + (k2 + fuel) from by omega, e1, e2]
  · intro hnone
    obtain ⟨k2, hk2, e2⟩ := hfail hnone
    refine ⟨k1 + k2, by omega, fun fuel => ?_⟩
    rw [show k1 + k2 + fuel + 1 = k1 + (k2 + fuel + 1) from by omega, e1]
    exact e2 fuel

theorem Frame.selected_then (b : Bool) (ws : List QString) :
    Frame.selected ⟨b, false, [] ++ ws, []⟩ = if b then ws else [] := by
  cases b <;> simp [Frame.selected]

theorem Frame.selected_else (b : Bool) (ws1 ws2 : List QString) :
    Frame.selected ⟨b, true, [] ++ ws1, [] ++ ws2⟩ = if b then ws1 else ws2 := by
  cases b <;> simp [Frame.selected]

/-- The loop of `getCodeDefinition` over a block `%if {attr} %then ... %end`, given
what it does over the body. -/
theorem walk_if_then (sf : Nat) (hsf : 3 ≤ sf) {p : SchemaParser} {l : Locals}
    {out : QString} {stack : List Frame} {w b1 attr b2 w1 body ws rest : QString}
    {words : List QString}
    (hwf : LoadedBuffer p.buffer) (hw : White w)
    (hs : Stream p (w ++ ((headerText b1 attr b2 ++ (w1 ++ (body ++
      (CHR_INI_CONDITIONAL :: TOKEN_END ++ ws)))) ++ rest)))
    (hb1 : b1 ≠ []) (hbl1 : Blanks b1) (hbl2 : Blanks b2)
    (hre : ATTR_REGEXP.exactMatch attr = true) (hpres : (p.attributes.find attr).isSome = true)
    (hw1 : w1 ≠ []) (hwh1 : White w1) (hw3 : ws ≠ []) (hwh3 : White ws)
    (hr : Rel out stack l)
    (hbody : ∀ (q : SchemaParser) (l1 : Locals), SameButCursor p q →
      Stream q (w1 ++ (body ++ (CHR_INI_CONDITIONAL :: TOKEN_END ++ (ws ++ rest)))) →
      Rel out (⟨!decide (p.attributes.value attr = []), false, [], []⟩ :: stack) l1 →
      Walk sf q l1 out (⟨!decide (p.attributes.value attr = []), false, [], []⟩ :: stack)
        words (w1.length + body.length) (CHR_INI_CONDITIONAL :: TOKEN_END ++ (ws ++ rest))) :
    Walk sf p l out stack (if p.attributes.value attr = [] then [] else words)
      (w.length + (headerText b1 attr b2 ++ (w1 ++ (body ++
        (CHR_INI_CONDITIONAL :: TOKEN_END ++ ws)))).length) rest := by
  obtain ⟨c1, r1, ew1, hc1⟩ := White.uncons hw1 hwh1
  obtain ⟨c3, r3, ew3, hc3⟩ := White.uncons hw3 hwh3
  have e0 : (headerText b1 attr b2 ++ (w1 ++ (body ++
      (CHR_INI_CONDITIONAL :: TOKEN_END ++ ws)))) ++ rest =
      headerText b1 attr b2 ++ c1 :: (r1 ++ (body ++
        (CHR_INI_CONDITIONAL :: TOKEN_END ++ c3 :: (r3 ++ rest)))) := by
    rw [ew1, ew3]
    simp only [List.append_assoc, List.cons_append]
  rw [e0] at hs
  obtain ⟨k1, q1, hk1, hq1, hs1, e1⟩ :=
    run_white w.length w p _ (le_refl _) hwf hs hw
      (by rw [headerText_cons]; exact Tight.cons (by decide) _)
  have hwf1 : LoadedBuffer q1.buffer := by rw [hq1.buffer]; exact hwf
  have hat := hs1.atCursor (by rw [headerText_cons]; simp)
  have hpres1 : (q1.attributes.find attr).isSome = true := by rw [hq1.attributes]; exact hpres
  obtain ⟨hat2, e2⟩ := run_if_then hwf1 hat hb1 hbl1 hbl2 hre hpres1 hc1 hr.cond_ne hsf
  have hva : q1.attributes.value attr = p.attributes.value attr := by rw [hq1.attributes]
  rw [hva] at e2
  have hr2 := hr.afterIfThen (!decide (p.attributes.value attr = []))
  have hq2 : SameButCursor p { q1 with column := q1.column + (headerText b1 attr b2).length } :=
    hq1.trans (SameButCursor.column q1 _)
  generalize ({ q1 with column := q1.column + (headerText b1 attr b2).length } : SchemaParser) =
    q2 at hat2 e2 hq2
  have hwf2 : LoadedBuffer q2.buffer := by rw [hq2.buffer]; exact hwf
  have hs2 : Stream q2
      (w1 ++ (body ++ (CHR_INI_CONDITIONAL :: TOKEN_END ++ (ws ++ rest)))) := by
    rw [ew1, ew3]
    exact Or.inr (by simpa using hat2)
  have hwalk := hbody _ _ hq2 hs2 hr2
  rw [ew3] at hwalk
  have hwalk2 : Walk sf q2
      (l.afterIfThen (!decide (p.attributes.value attr = []))) out
      (⟨!decide (p.attributes.value attr = []), false, [], []⟩ :: stack) words
      (w1.length + body.length) (CHR_INI_CONDITIONAL :: TOKEN_END ++ c3 :: (r3 ++ rest)) := by
    simpa using hwalk
  obtain ⟨hok, hfail⟩ := walk_close sf hwf2 hc3 hwalk2 _ (emitTop_then _ _ _ _ _)
  have hsel : Frame.selected ⟨!decide (p.attributes.value attr = []), false, [] ++ words, []⟩ =
      if p.attributes.value attr = [] then [] else words := by
    rw [Frame.selected_then]
    by_cases h0 : p.attributes.value attr = [] <;> simp [h0]
  rw [hsel] at hok hfail
  rw [hq2.attributes, hq2.ignore_empty] at hok hfail
  have hlen := headerText_length b1 attr b2
  cases hres : emitRes p.attributes p.ignore_empty_atribs out
      (if p.attributes.value attr = [] then [] else words) stack with
  | none =>
    obtain ⟨k3, hk3, e3⟩ := hfail hres
    refine Walk.of_none hres ⟨k1 + (k3 + 2), ?_, fun fuel => ?_⟩
    · simp only [List.length_append, List.length_cons]
      omega
    · rw [show k1 + (k3 + 2) + fuel + 1 = k1 + ((k3 + fuel + 1) + 2) from by omega, e1, e2]
      exact e3 fuel
  | some res =>
    obtain ⟨k3, q3, l3, hk3, hq3, hat3, hr3, hg3, hc3', e3⟩ := hok res hres
    refine Walk.of_some hres ⟨k1 + (k3 + 2), q3, l3, ws, ?_, hq2.trans hq3, hwh3, ?_, hr3, hg3,
      Or.inr hc3', fun fuel => ?_⟩
    · simp only [List.length_append, List.length_cons]
      omega
    · rw [ew3]; exact Or.inr (by simpa using hat3)
    · rw [show k1 + (k3 + 2) + fuel = k1 + ((k3 + fuel) + 2) from by omega, e1, e2, e3]

/-- The loop of `getCodeDefinition` over a block
`%if {attr} %then ... %else ... %end`, given what it does over the two bodies. -/
theorem walk_if_then_else (sf : Nat) (hsf : 3 ≤ sf) {p : SchemaParser} {l : Locals}
    {out : QString} {stack : List Frame} {w b1 attr b2 w1 body1 w2 body2 ws rest : QString}
    {words1 words2 : List QString}
    (hwf : LoadedBuffer p.buffer) (hw : White w)
    (hs : Stream p (w ++ ((headerText b1 attr b2 ++ (w1 ++ (body1 ++
      (CHR_INI_CONDITIONAL :: TOKEN_ELSE ++ (w2 ++ (body2 ++
        (CHR_INI_CONDITIONAL :: TOKEN_END ++ ws))))))) ++ rest)))
    (hb1 : b1 ≠ []) (hbl1 : Blanks b1) (hbl2 : Blanks b2)
    (hre : ATTR_REGEXP.exactMatch attr = true) (hpres : (p.attributes.find attr).isSome = true)
    (hw1 : w1 ≠ []) (hwh1 : White w1) (hw2 : w2 ≠ []) (hwh2 : White w2)
    (hw3 : ws ≠ []) (hwh3 : White ws)
    (hr : Rel out stack l)
    (hbody1 : ∀ (q : SchemaParser) (l1 : Locals), SameButCursor p q →
      Stream q (w1 ++ (body1 ++ (CHR_INI_CONDITIONAL :: TOKEN_ELSE ++ (w2 ++ (body2 ++
        (CHR_INI_CONDITIONAL :: TOKEN_END ++ (ws ++ rest))))))) →
      Rel out (⟨!decide (p.attributes.value attr = []), false, [], []⟩ :: stack) l1 →
      Walk sf q l1 out (⟨!decide (p.attributes.value attr = []), false, [], []⟩ :: stack)
        words1 (w1.length + body1.length)
        (CHR_INI_CONDITIONAL :: TOKEN_ELSE ++ (w2 ++ (body2 ++
          (CHR_INI_CONDITIONAL :: TOKEN_END ++ (ws ++ rest))))))
    (hbody2 : ∀ (q : SchemaParser) (l1 : Locals), SameButCursor p q →
      Stream q (w2 ++ (body2 ++ (CHR_INI_CONDITIONAL :: TOKEN_END ++ (ws ++ rest)))) →
      Rel out (⟨!decide (p.attributes.value attr = []), true, [] ++ words1, []⟩ :: stack) l1 →
      GoodStack p.attributes
        (⟨!decide (p.attributes.value attr = []), true, [] ++ words1, []⟩ :: stack) →
      Walk sf q l1 out
        (⟨!decide (p.attributes.value attr = []), true, [] ++ words1, []⟩ :: stack)
        words2 (w2.length + body2.length) (CHR_INI_CONDITIONAL :: TOKEN_END ++ (ws ++ rest))) :
    Walk sf p l out stack (if p.attributes.value attr = [] then words2 else words1)
      (w.length + (headerText b1 attr b2 ++ (w1 ++ (body1 ++
        (CHR_INI_CONDITIONAL :: TOKEN_ELSE ++ (w2 ++ (body2 ++
          (CHR_INI_CONDITIONAL :: TOKEN_END ++ ws))))))).length) rest := by
  obtain ⟨c1, r1, ew1, hc1⟩ := White.uncons hw1 hwh1
  obtain ⟨c2, r2, ew2, hc2⟩ := White.uncons hw2 hwh2
  obtain ⟨c3, r3, ew3, hc3⟩ := White.uncons hw3 hwh3
  have e0 : (headerText b1 attr b2 ++ (w1 ++ (body1 ++
      (CHR_INI_CONDITIONAL :: TOKEN_ELSE ++ (w2 ++ (body2 ++
        (CHR_INI_CONDITIONAL :: TOKEN_END ++ ws))))))) ++ rest =
      headerText b1 attr b2 ++ c1 :: (r1 ++ (body1 ++
        (CHR_INI_CONDITIONAL :: TOKEN_ELSE ++ c2 :: (r2 ++ (body2 ++
          (CHR_INI_CONDITIONAL :: TOKEN_END ++ c3 :: (r3 ++ rest))))))) := by
    rw [ew1, ew2, ew3]
    simp only [List.append_assoc, List.cons_append]
  rw [e0] at hs
  obtain ⟨k1, q1, hk1, hq1, hs1, e1⟩ :=
    run_white w.length w p _ (le_refl _) hwf hs hw
      (by rw [headerText_cons]; exact Tight.cons (by decide) _)
  have hwf1 : LoadedBuffer q1.buffer := by rw [hq1.buffer]; exact hwf
  have hat := hs1.atCursor (by rw [headerText_cons]; simp)
  have hpres1 : (q1.attributes.find attr).isSome = true := by rw [hq1.attributes]; exact hpres
  obtain ⟨hat2, e2⟩ := run_if_then hwf1 hat hb1 hbl1 hbl2 hre hpres1 hc1 hr.cond_ne hsf
  have hva : q1.attributes.value attr = p.attributes.value attr := by rw [hq1.attributes]
  rw [hva] at e2
  have hr2 := hr.afterIfThen (!decide (p.attributes.value attr = []))
  have hq2 : SameButCursor p { q1 with column := q1.column + (headerText b1 attr b2).length } :=
    hq1.trans (SameButCursor.column q1 _)
  generalize ({ q1 with column := q1.column + (headerText b1 attr b2).length } : SchemaParser) =
    q2 at hat2 e2 hq2
  have hs2 : Stream q2 (w1 ++ (body1 ++ (CHR_INI_CONDITIONAL :: TOKEN_ELSE ++ (w2 ++ (body2 ++
      (CHR_INI_CONDITIONAL :: TOKEN_END ++ (ws ++ rest))))))) := by
    rw [ew1, ew2, ew3]
    exact Or.inr (by simpa using hat2)
  have hwalk := hbody1 _ _ hq2 hs2 hr2
  obtain ⟨k3, q3, l3, w3, hk3, hq3, hw3', hs3, hr3, hg3, hcond3, e3⟩ :=
    hwalk.resolved (emitRes_cons _ _ _ _ _ _)
  rw [emitTop_then] at hr3 hg3
  rw [hq2.attributes] at hg3
  have hq3' : SameButCursor p q3 := hq2.trans hq3
  have hwf3 : LoadedBuffer q3.buffer := by rw [hq3'.buffer]; exact hwf
  have hs3' : Stream q3 (w3 ++ (CHR_INI_CONDITIONAL :: TOKEN_ELSE ++ c2 :: (r2 ++ (body2 ++
      (CHR_INI_CONDITIONAL :: TOKEN_END ++ (ws ++ rest)))))) := by
    rw [ew2] at hs3
    simpa using hs3
  obtain ⟨k4, q4, hk4, hq4, hs4, e4⟩ :=
    run_white w3.length w3 q3 _ (le_refl _) hwf3 hs3' hw3' (Tight.cons (by decide) _)
  have hwf4 : LoadedBuffer q4.buffer := by rw [hq4.buffer]; exact hwf3
  have hat4 := hs4.atCursor (by simp)
  have hne3 : l3.cond ≠ TOKEN_ELSE := by
    rcases hcond3 with h | h
    · rw [h]; exact (show ¬ (TOKEN_THEN = TOKEN_ELSE) from by decide)
    · rw [h]; exact (show ¬ (TOKEN_END = TOKEN_ELSE) from by decide)
  obtain ⟨hat5, e5⟩ := run_else hwf4 hat4 hc2 hr3.chain.1 hr3.cond_ne hne3
  have hr5 : Rel out (⟨!decide (p.attributes.value attr = []), true, [] ++ words1, []⟩ ::
      stack) l3.afterElse := hr3.afterElse
  have hg5 : GoodStack p.attributes
      (⟨!decide (p.attributes.value attr = []), true, [] ++ words1, []⟩ :: stack) := hg3.inElse
  have hq5 : SameButCursor p { q4 with column := q4.column + (TOKEN_ELSE.length + 1) } :=
    (hq3'.trans hq4).trans (SameButCursor.column q4 _)
  generalize ({ q4 with column := q4.column + (TOKEN_ELSE.length + 1) } : SchemaParser) =
    q5 at hat5 e5 hq5
  have hwf5 : LoadedBuffer q5.buffer := by rw [hq5.buffer]; exact hwf
  have hs5 : Stream q5 (w2 ++ (body2 ++ (CHR_INI_CONDITIONAL :: TOKEN_END ++ (ws ++ rest)))) := by
    rw [ew2]
    exact Or.inr (by simpa using hat5)
  have hwalk5 := hbody2 _ _ hq5 hs5 hr5 hg5
  rw [ew3] at hwalk5
  have hwalk6 : Walk sf q5 l3.afterElse out
      (⟨!decide (p.attributes.value attr = []), true, [] ++ words1, []⟩ :: stack) words2
      (w2.length + body2.length) (CHR_INI_CONDITIONAL :: TOKEN_END ++ c3 :: (r3 ++ rest)) := by
    simpa using hwalk5
  obtain ⟨hok, hfail⟩ := walk_close sf hwf5 hc3 hwalk6 _ (emitTop_else _ _ _ _ _)
  have hsel : Frame.selected
      ⟨!decide (p.attributes.value attr = []), true, [] ++ words1, [] ++ words2⟩ =
      if p.attributes.value attr = [] then words2 else words1 := by
    rw [Frame.selected_else]
    by_cases h0 : p.attributes.value attr = [] <;> simp [h0]
  rw [hsel] at hok hfail
  rw [hq5.attributes, hq5.ignore_empty] at hok hfail
  have hlen := headerText_length b1 attr b2
  cases hres : emitRes p.attributes p.ignore_empty_atribs out
      (if p.attributes.value attr = [] then words2 else words1) stack with
  | none =>
    obtain ⟨k6, hk6, e6⟩ := hfail hres
    refine Walk.of_none hres ⟨k1 + (k3 + (k4 + (k6 + 1)) + 2), ?_, fun fuel => ?_⟩
    · simp only [List.length_append, List.length_cons]
      omega
    · rw [show k1 + (k3 + (k4 + (k6 + 1)) + 2) + fuel + 1 =
        k1 + ((k3 + (k4 + ((k6 + fuel + 1) + 1))) + 2) from by omega, e1, e2, e3, e4, e5]
      exact e6 fuel
  | some res =>
    obtain ⟨k6, q6, l6, hk6, hq6, hat6, hr6, hg6, hc6, e6⟩ := hok res hres
    refine Walk.of_some hres ⟨k1 + (k3 + (k4 + (k6 + 1)) + 2), q6, l6, ws, ?_, hq5.trans hq6,
      hwh3, ?_, hr6, hg6, Or.inr hc6, fun fuel => ?_⟩
    · simp only [List.length_append, List.length_cons]
      omega
    · rw [ew3]; exact Or.inr (by simpa using hat6)
    · rw [show k1 + (k3 + (k4 + (k6 + 1)) + 2) + fuel =
        k1 + ((k3 + (k4 + ((k6 + fuel) + 1))) + 2) from by omega, e1, e2, e3, e4, e5, e6]

mutual
/-- The loop of `getCodeDefinition` over a token of a template of pure texts,
references and `if` blocks, the marked references kept or taken out. -/
theorem walk_node (sf : Nat) (hsf : 3 ≤ sf) (env : attribs_map) (keep : Bool) :
    ∀ (i : Node) (p : SchemaParser) (l : Locals) (out : QString) (stack : List Frame)
      (w rest : QString),
      LoadedBuffer p.buffer → p.attributes = env → White w →
      Stream p (w ++ (i.render keep ++ rest)) → i.valid env = true →
      Rel out stack l → GoodStack env stack →
      Walk sf p l out stack (i.words env keep) (w.length + (i.render keep).length) rest
  | .text t, p, l, out, stack, w, rest, hwf, henv, hw, hs, hv, hr, hg => by
    rw [Node.valid] at hv
    simp only [decide_eq_true_eq] at hv
    rw [Node.render] at hs ⊢
    rw [Node.words]
    exact walk_text sf hwf hw hs hv hr (by rw [henv]; exact hg)
  | .ref x, p, l, out, stack, w, rest, hwf, henv, hw, hs, hv, hr, hg => by
    rw [Node.valid] at hv
    simp only [Bool.and_eq_true] at hv
    rw [Node.render] at hs ⊢
    rw [Node.words]
    exact walk_ref sf hwf hw hs hv.1 (by rw [henv]; exact hv.2) hr (by rw [henv]; exact hg)
  | .marked x, p, l, out, stack, w, rest, hwf, henv, hw, hs, hv, hr, hg => by
    rw [Node.valid] at hv
    simp only [Bool.and_eq_true] at hv
    rw [Node.render] at hs ⊢
    rw [Node.words]
    cases keep with
    | true =>
      simp only [if_true] at hs ⊢
      exact walk_ref sf hwf hw hs hv.1 (by rw [henv]; exact hv.2) hr (by rw [henv]; exact hg)
    | false =>
      simp only [Bool.false_eq_true, if_false] at hs ⊢
      exact walk_skip sf hw (fun c hc => absurd hc (List.not_mem_nil _)) hs hr
        (by rw [henv]; exact hg)
  | .white ws, p, l, out, stack, w, rest, hwf, henv, hw, hs, hv, hr, hg => by
    rw [Node.valid] at hv
    simp only [decide_eq_true_eq] at hv
    rw [Node.render] at hs ⊢
    rw [Node.words]
    exact walk_skip sf hw hv hs hr (by rw [henv]; exact hg)
  | .ifThen b1 attr b2 w1 thn ws, p, l, out, stack, w, rest, hwf, henv, hw, hs, hv, hr, hg => by
    rw [Node.valid] at hv
    simp only [Bool.and_eq_true, decide_eq_true_eq] at hv
    obtain ⟨⟨⟨⟨⟨⟨⟨⟨⟨hb1, hbl1⟩, hbl2⟩, hre⟩, hpres⟩, hw1⟩, hwh1⟩, hvt⟩, hw3⟩, hwh3⟩ := hv
    rw [Node.render] at hs ⊢
    rw [Node.words, ← henv]
    refine walk_if_then sf hsf hwf hw hs hb1 hbl1 hbl2 hre (by rw [henv]; exact hpres) hw1 hwh1
      hw3 hwh3 hr ?_
    intro q l1 hq hsq hr1
    have hwfq : LoadedBuffer q.buffer := by rw [hq.buffer]; exact hwf
    have henvq : q.attributes = env := by rw [hq.attributes]; exact henv
    rw [henv]
    exact walk_nodes sf hsf env keep thn q l1 out _ w1 _ hwfq henvq hwh1 hsq hvt
      (by rw [← henv]; exact hr1) (hg.opened _)
  | .ifThenElse b1 attr b2 w1 thn w2 els ws, p, l, out, stack, w, rest, hwf, henv, hw, hs, hv,
      hr, hg => by
    rw [Node.valid] at hv
    simp only [Bool.and_eq_true, decide_eq_true_eq] at hv
    obtain ⟨⟨⟨⟨⟨⟨⟨⟨⟨⟨⟨⟨hb1, hbl1⟩, hbl2⟩, hre⟩, hpres⟩, hw1⟩, hwh1⟩, hvt⟩, hw2⟩, hwh2⟩, hve⟩,
      hw3⟩, hwh3⟩ := hv
    rw [Node.render] at hs ⊢
    rw [Node.words, ← henv]
    refine walk_if_then_else sf hsf hwf hw hs hb1 hbl1 hbl2 hre (by rw [henv]; exact hpres)
      hw1 hwh1 hw2 hwh2 hw3 hwh3 hr ?_ ?_
    · intro q l1 hq hsq hr1
      have hwfq : LoadedBuffer q.buffer := by rw [hq.buffer]; exact hwf
      have henvq : q.attributes = env := by rw [hq.attributes]; exact henv
      rw [henv]
      exact walk_nodes sf hsf env keep thn q l1 out _ w1 _ hwfq henvq hwh1 hsq hvt
        (by rw [← henv]; exact hr1) (hg.opened _)
    · intro q l1 hq hsq hr1 hg1
      have hwfq : LoadedBuffer q.buffer := by rw [hq.buffer]; exact hwf
      have henvq : q.attributes = env := by rw [hq.attributes]; exact henv
      rw [henv]
      exact walk_nodes sf hsf env keep els q l1 out _ w2 _ hwfq henvq hwh2 hsq hve
        (by rw [← henv]; exact hr1) (by rw [← henv]; exact hg1)
/-- The loop of `getCodeDefinition` over a sequence of tokens. -/
theorem walk_nodes (sf : Nat) (hsf : 3 ≤ sf) (env : attribs_map) (keep : Bool) :
    ∀ (ns : Nodes) (p : SchemaParser) (l : Locals) (out : QString) (stack : List Frame)
      (w rest : QString),
      LoadedBuffer p.buffer → p.attributes = env → White w →
      Stream p (w ++ (ns.render keep ++ rest)) → ns.valid env = true →
      Rel out stack l → GoodStack env stack →
      Walk sf p l out stack (ns.words env keep) (w.length + (ns.render keep).length) rest
  | .nil, p, l, out, stack, w, rest, hwf, henv, hw, hs, hv, hr, hg => by
    rw [Nodes.render] at hs ⊢
    rw [Nodes.words]
    exact walk_skip sf hw (fun c hc => absurd hc (List.not_mem_nil _)) hs hr
      (by rw [henv]; exact hg)
  | .cons i r, p, l, out, stack, w, rest, hwf, henv, hw, hs, hv, hr, hg => by
    rw [Nodes.valid] at hv
    simp only [Bool.and_eq_true] at hv
    rw [Nodes.render, List.append_assoc] at hs
    rw [Nodes.render, Nodes.words, List.length_append, ← Nat.add_assoc]
    refine Walk.seq (walk_node sf hsf env keep i p l out stack w _ hwf henv hw hs hv.1 hr hg) ?_
    intro q l1 res w' hq hw' hsq hr1 hg1 _
    have hwfq : LoadedBuffer q.buffer := by rw [hq.buffer]; exact hwf
    have henvq : q.attributes = env := by rw [hq.attributes]; exact henv
    rw [henv] at hg1
    exact walk_nodes sf hsf env keep r q l1 res _ w' rest hwfq henvq hw' hsq hv.2 hr1 hg1
end

mutual
theorem node_words_of_render_nil (env : attribs_map) (keep : Bool) :
    ∀ i : Node, i.render keep = [] → i.words env keep = []
  | .text t, h => by rw [Node.render] at h; exact absurd h (by simp)
  | .ref x, h => by rw [Node.render] at h; exact absurd h (by simp [refWord])
  | .marked x, h => by
    rw [Node.render] at h
    rw [Node.words]
    cases keep with
    | true => exact absurd h (by simp [refWord])
    | false => rfl
  | .white ws, _ => by rw [Node.words]
  | .ifThen b1 attr b2 w1 thn ws, h => by
    rw [Node.render, headerText_cons] at h; exact absurd h (by simp)
  | .ifThenElse b1 attr b2 w1 thn w2 els ws, h => by
    rw [Node.render, headerText_cons] at h; exact absurd h (by simp)
theorem nodes_words_of_render_nil (env : attribs_map) (keep : Bool) :
    ∀ ns : Nodes, ns.render keep = [] → ns.words env keep = []
  | .nil, _ => by rw [Nodes.words]
  | .cons i r, h => by
    rw [Nodes.render] at h
    obtain ⟨h1, h2⟩ := List.append_eq_nil.1 h
    rw [Nodes.words, node_words_of_render_nil env keep i h1,
      nodes_words_of_render_nil env keep r h2]
    rfl
end

mutual
theorem node_render_length_le : ∀ i : Node, (i.render false).length ≤ (i.render true).length
  | .text t => by rw [Node.render, Node.render]
  | .ref x => by rw [Node.render, Node.render]
  | .marked x => by rw [Node.render, Node.render]; simp
  | .white ws => by rw [Node.render, Node.render]
  | .ifThen b1 attr b2 w1 thn ws => by
    rw [Node.render, Node.render]
    have := nodes_render_length_le thn
    simp only [List.length_append, List.length_cons]
    omega
  | .ifThenElse b1 attr b2 w1 thn w2 els ws => by
    rw [Node.render, Node.render]
    have h1 := nodes_render_length_le thn
    have h2 := nodes_render_length_le els
    simp only [List.length_append, List.length_cons]
    omega
theorem nodes_render_length_le :
    ∀ ns : Nodes, (ns.render false).length ≤ (ns.render true).length
  | .nil => by rw [Nodes.render, Nodes.render]
  | .cons i r => by
    rw [Nodes.render, Nodes.render]
    have h1 := node_render_length_le i
    have h2 := nodes_render_length_le r
    simp only [List.length_append]
    omega
end

mutual
/-- The marked references that lie in an arm that is not selected are none of the
selected words. -/
theorem node_words_dead (env : attribs_map) :
    ∀ i : Node, i.markedDead env = true → i.words env true = i.words env false
  | .text t, _ => by rw [Node.words, Node.words]
  | .ref x, _ => by rw [Node.words, Node.words]
  | .marked x, h => by rw [Node.markedDead] at h; exact Bool.noConfusion h
  | .white ws, _ => by rw [Node.words, Node.words]
  | .ifThen b1 attr b2 w1 thn ws, h => by
    rw [Node.markedDead] at h
    rw [Node.words, Node.words]
    by_cases h0 : env.value attr = []
    · rw [if_pos h0, if_pos h0]
    · rw [if_neg h0] at h
      rw [if_neg h0, if_neg h0, nodes_words_dead env thn h]
  | .ifThenElse b1 attr b2 w1 thn w2 els ws, h => by
    rw [Node.markedDead] at h
    rw [Node.words, Node.words]
    by_cases h0 : env.value attr = []
    · rw [if_pos h0] at h
      rw [if_pos h0, if_pos h0, nodes_words_dead env els h]
    · rw [if_neg h0] at h
      rw [if_neg h0, if_neg h0, nodes_words_dead env thn h]
theorem nodes_words_dead (env : attribs_map) :
    ∀ ns : Nodes, ns.markedDead env = true → ns.words env true = ns.words env false
  | .nil, _ => by rw [Nodes.words, Nodes.words]
  | .cons i r, h => by
    rw [Nodes.markedDead] at h
    simp only [Bool.and_eq_true] at h
    rw [Nodes.words, Nodes.words, node_words_dead env i h.1, nodes_words_dead env r h.2]
end

/-- The expansion of a template of pure texts, references and `if` blocks: the
selected words are resolved in order. -/
theorem getCodeDefinition_nodes (env : attribs_map) (keep : Bool) (ns : Nodes)
    (p : SchemaParser) (w0 : QString) (fuel : Nat)
    (hwf : LoadedBuffer p.buffer) (hline : p.line = 0) (hcol : p.column = 0)
    (hw0 : White w0) (htext : p.buffer.flatten = w0 ++ ns.render keep)
    (hv : ns.valid env = true) (hfuel : p.buffer.flatten.length + 3 ≤ fuel) :
    (getCodeDefinition fuel env p).outcome =
      some (match resolveWords env p.ignore_empty_atribs (ns.words env keep) with
        | some s => .returned s
        | none => .failed .ERR_UNDEF_ATTRIB_VALUE) := by
  unfold getCodeDefinition
  by_cases hlen : p.buffer.length > 0
  · rw [if_pos hlen]
    have hs0 : Stream { p with attributes := env } (w0 ++ (ns.render keep ++ [])) := by
      rw [List.append_nil, ← htext]
      exact Stream.start (p := { p with attributes := env }) hwf hline hcol
    have hwalk := walk_nodes fuel (by omega) env keep ns { p with attributes := env }
      Locals.init [] [] w0 [] hwf rfl hw0 hs0 hv Rel.init
      (fun _ hf => absurd hf (List.not_mem_nil _))
    have hn : w0.length + (ns.render keep).length + 3 ≤ fuel := by
      have := congrArg List.length htext
      rw [List.length_append] at this
      omega
    cases hres : resolveWords env p.ignore_empty_atribs (ns.words env keep) with
    | none =>
      obtain ⟨k, hk, e⟩ := hwalk.unresolved (by
        show emitRes env p.ignore_empty_atribs [] (ns.words env keep) [] = none
        simp [emitRes, hres])
      obtain ⟨e1, q1, he, hty⟩ := e (fuel - k - 1)
      rw [show k + (fuel - k - 1) + 1 = fuel from by omega] at he
      rw [he]
      simp only [Res.outcome, hty]
    | some s =>
      have hres1 : emitRes env p.ignore_empty_atribs [] (ns.words env keep) [] = some s := by
        simp [emitRes, hres]
      obtain ⟨k1, q1, l1, w1, hk1, hq1, hw1, hs1, hr1, _, _, e1⟩ := hwalk.resolved hres1
      have hwf1 : LoadedBuffer q1.buffer := by rw [hq1.buffer]; exact hwf
      obtain ⟨k2, q2, hk2, hq2, hs2, e2⟩ :=
        run_white w1.length w1 q1 [] (le_refl _) hwf1 hs1 hw1 (Or.inl rfl)
      have hnone : q2.buffer[q2.line]? = none := by
        rcases hs2 with h | h
        · exact h.2
        · exact absurd rfl h.ne_nil
      obtain ⟨m, hm⟩ : ∃ m, fuel = k1 + (k2 + (m + 1)) := ⟨fuel - k1 - k2 - 1, by omega⟩
      have hcnt : l1.if_cnt = l1.end_cnt := by have := hr1.cnt; simpa using this
      have hout : l1.object_def = s := hr1.out_eq
      conv => lhs; arg 1; arg 2; rw [hm]
      rw [e1, e2, getCodeDefinitionLoop]
      simp only [hnone, hcnt, ne_eq, not_true_eq_false, if_false, hout, Res.outcome]
  · rw [if_neg hlen]
    have hnil : p.buffer = [] := List.length_eq_zero.mp (by omega)
    have hr : ns.render keep = [] := by
      rw [hnil] at htext
      have h := htext.symm
      simp only [List.flatten_nil, List.append_eq_nil] at h
      exact h.2
    rw [nodes_words_of_render_nil env keep ns hr]
    rfl

/-- A reference `{x}` (x in the environment) that lies in an arm not selected by
some enclosing `%if` block of a template without directives is never resolved.
For every template `ns` of pure texts, references and nested `if` blocks (no
`%set`, no `%unset`), some of the references marked, all the marked ones in an arm
that some block around them does not select: the expansion of the template
(buffer of `p`) and the expansion of the template with the marked references
taken out (buffer of `p1`) end the same way, with the same output or with an
error of the same kind; and they end as the resolution of the selected words of
the template without the marked references does, so that a marked reference
raises no undefined-attribute-value, whatever its value and the flag. -/
theorem nodes_dead_reference_unresolved (env : attribs_map) (ns : Nodes) (w0 : QString)
    (p p1 : SchemaParser) (fuel : Nat)
    (hwf : LoadedBuffer p.buffer) (hline : p.line = 0) (hcol : p.column = 0)
    (hwf1 : LoadedBuffer p1.buffer) (hline1 : p1.line = 0) (hcol1 : p1.column = 0)
    (hw0 : White w0)
    (htext : p.buffer.flatten = w0 ++ ns.render true)
    (htext1 : p1.buffer.flatten = w0 ++ ns.render false)
    (hflag : p1.ignore_empty_atribs = p.ignore_empty_atribs)
    (hv : ns.valid env = true) (hdead : ns.markedDead env = true)
    (hfuel : p.buffer.flatten.length + 3 ≤ fuel) :
    (getCodeDefinition fuel env p).outcome = (getCodeDefinition fuel env p1).outcome ∧
    (getCodeDefinition fuel env p).outcome =
      some (match resolveWords env p.ignore_empty_atribs (ns.words env false) with
        | some s => .returned s
        | none => .failed .ERR_UNDEF_ATTRIB_VALUE) := by
  have hlen : p1.buffer.flatten.length + 3 ≤ fuel := by
    have h1 := congrArg List.length htext
    have h2 := congrArg List.length htext1
    have h3 := nodes_render_length_le ns
    rw [List.length_append] at h1 h2
    omega
  have e := getCodeDefinition_nodes env true ns p w0 fuel hwf hline hcol hw0 htext hv hfuel
  have e1 := getCodeDefinition_nodes env false ns p1 w0 fuel hwf1 hline1 hcol1 hw0 htext1 hv hlen
  rw [nodes_words_dead env ns hdead] at e
  rw [hflag] at e1
  exact ⟨e.trans e1.symm, e⟩

theorem nodes_dead_reference_example :
    (getCodeDefinition 60 [("c".toList, []), ("x".toList, [])]
      (loaded ["%if {c} %then {x} [a] %end\n".toList, "[b]\n".toList] [])).outcome =
    (getCodeDefinition 60 [("c".toList, []), ("x".toList, [])]
      (loaded ["%if {c} %then  [a] %end\n".toList, "[b]\n".toList] [])).outcome ∧
    (getCodeDefinition 60 [("c".toList, []), ("x".toList, [])]
      (loaded ["%if {c} %then {x} [a] %end\n".toList, "[b]\n".toList] [])).outcome =
      some (.returned "b".toList) :=
  nodes_dead_reference_unresolved [("c".toList, []), ("x".toList, [])]
    (.cons (.ifThen " ".toList "c".toList " ".toList " ".toList
        (.cons (.marked "x".toList) (.cons (.white " ".toList)
          (.cons (.text "a".toList) (.cons (.white " ".toList) .nil))))
        "\n".toList)
      (.cons (.text "b".toList) (.cons (.white "\n".toList) .nil)))
    []
    (loaded ["%if {c} %then {x} [a] %end\n".toList, "[b]\n".toList] [])
    (loaded ["%if {c} %then  [a] %end\n".toList, "[b]\n".toList] [])
    60 (by decide) rfl rfl (by decide) rfl rfl (by decide) (by decide) (by decide) rfl
    (by decide) (by decide) (by decide)

end SchemaParser

namespace SchemaParser

/-- C21 at the failing input: both flags are set and the text `{1bad}` is
expanded; the call raises invalid-attribute and leaves both flags set, so the
next expansion, of the text `{u}` with `u` unknown, returns the empty string,
where a parser with the flags off raises unknown-attribute. -/
theorem C21_flags_survive_raise :
    (getCodeDefinition 20 [] (loadBuffer ["{1bad}".toList]
      (ignoreEmptyAttributes true (ignoreUnkownAttributes true (loaded [] []))))).raised =
      some ⟨.ERR_INV_ATTRIBUTE, 1, 7⟩ ∧
    (getCodeDefinition 20 [] (loadBuffer ["{1bad}".toList]
      (ignoreEmptyAttributes true (ignoreUnkownAttributes true (loaded [] []))))).after.map
        (fun q => (q.ignore_unk_atribs, q.ignore_empty_atribs)) = some (true, true) ∧
    (getCodeDefinition 20 [] (loadBuffer ["{1bad}".toList]
      (ignoreEmptyAttributes true (ignoreUnkownAttributes true (loaded [] []))))).after.map
        (fun q => (getCodeDefinition 20 [] (loadBuffer ["{u}".toList] q)).result) =
      some (some []) ∧
    (getCodeDefinition 20 [] (loadBuffer ["{u}".toList] (loaded [] []))).raised =
      some ⟨.ERR_UNK_ATTRIBUTE, 1, 4⟩ := by
  decide!

/-- C22 at the failing inputs, with the minimum `9.0`: the version `8.4.11` is
read as the number 8411 and is not rejected, whatever the default version is;
with the default `10.0` the version `9.6.1`, read as 961, is replaced by the
default, and the version `10`, read as 10, is rejected. -/
theorem C22_digits_concatenated :
    (∀ (D : QString) (p : SchemaParser),
      setPgSQLVersion "9.0".toList D "8.4.11".toList p ≠ .error .ERR_INV_POSTGRESQL_VERSION) ∧
    (∀ p : SchemaParser, setPgSQLVersion "9.0".toList "10.0".toList "9.6.1".toList p =
      .ok { p with pgsql_version := "10.0".toList }) ∧
    (∀ p : SchemaParser, setPgSQLVersion "9.0".toList "10.0".toList "10".toList p =
      .error .ERR_INV_POSTGRESQL_VERSION) := by
  have h1 : qtoUInt (qremove "8.4.11".toList '.') = 8411 := by decide
  have h2 : qtoUInt (qremove "9.0".toList '.') = 90 := by decide
  have h3 : qtoUInt (qremove "9.6.1".toList '.') = 961 := by decide
  have h4 : qtoUInt (qremove "10.0".toList '.') = 100 := by decide
  have h5 : qtoUInt (qremove "10".toList '.') = 10 := by decide
  refine ⟨fun D p => ?_, fun p => ?_, fun p => ?_⟩
  · unfold setPgSQLVersion
    simp only [h1, h2]
    split_ifs <;> simp_all
  · unfold setPgSQLVersion
    simp only [h2, h3, h4]
    simp
  · unfold setPgSQLVersion
    simp only [h2, h4, h5]
    simp

/-- C23 at the failing input: on the line `[{] {b}` the list returned holds the
one string `] {b`; the name `b` is not in it, though `{b}` occurs in the line. -/
theorem C23_reference_after_brace_missed :
    extractAttributes (loaded ["[\x7b] {b}\n".toList] []) = some ["] \x7bb".toList] := by
  decide!

/-- C28 at the failing inputs: in the buffer of the one line `] [abc` no `]`
follows the `[`, yet `getPureText` called on the `[` returns `abc` and the line
end, as the character that closes the span is read on the line that was left;
so the expansion of `[ab`, `] [cd` returns a text and raises no error. -/
theorem C28_unterminated_span_accepted :
    getPureText { loaded ["] [abc\n".toList] [] with column := 2 } =
      .ok "abc\n".toList { loaded ["] [abc\n".toList] [] with line := 1, column := 1 } ∧
    (getCodeDefinition 50 [] (loaded ["[ab\n".toList, "] [cd\n".toList] [])).result =
      some "ab\ncd\n".toList := by
  decide!

/-- C29 at the failing inputs: with `a` not empty and `b` empty, the expressions
`{a} %foo` and `{a} %not %or {b}`, which the grammar does not derive, are
evaluated to true, and the expansion returns the body of the block. -/
theorem C29_ungrammatical_expression_accepted :
    (evaluateExpression 50
      { loaded ["%if {a} %foo %then x %end\n".toList]
          [("a".toList, "1".toList), ("b".toList, [])] with column := 3 }).result = some true ∧
    (evaluateExpression 50
      { loaded ["%if {a} %not %or {b} %then x %end\n".toList]
          [("a".toList, "1".toList), ("b".toList, [])] with column := 3 }).result = some true ∧
    (getCodeDefinition 50 [("a".toList, "1".toList), ("b".toList, [])]
      (loaded ["%if {a} %foo %then x %end\n".toList] [])).result = some "x".toList ∧
    (getCodeDefinition 50 [("a".toList, "1".toList), ("b".toList, [])]
      (loaded ["%if {a} %not %or {b} %then x %end\n".toList] [])).result = some "x".toList := by
  decide!

theorem defineAttributeLoop_stale_line (fuel : Nat) :
    defineAttributeLoop "%set {a} [x\n".toList fuel ⟨[], [], false, false, false⟩
      { loaded ["%set {a} [x\n".toList, "y]\n".toList] [] with column := 4 } = .timeout := by
  match fuel with
  | 0 => rfl
  | 1 => decide
  | k + 2 =>
    have h1 : defineAttributeStep "%set {a} [x\n".toList ⟨[], [], false, false, false⟩
        { loaded ["%set {a} [x\n".toList, "y]\n".toList] [] with column := 4 } =
        .ok ⟨[], "a".toList, false, false, false⟩
          { loaded ["%set {a} [x\n".toList, "y]\n".toList] [] with column := 8 } := by decide
    have h2 : defineAttributeStep "%set {a} [x\n".toList ⟨[], "a".toList, false, false, false⟩
        { loaded ["%set {a} [x\n".toList, "y]\n".toList] [] with column := 8 } =
        .ok ⟨"x\ny".toList, "a".toList, false, false, false⟩
          { loaded ["%set {a} [x\n".toList, "y]\n".toList] [] with line := 1, column := 2 } := by
      decide
    have h3 : defineAttributeStep "%set {a} [x\n".toList
        ⟨"x\ny".toList, "a".toList, false, false, false⟩
        { loaded ["%set {a} [x\n".toList, "y]\n".toList] [] with line := 1, column := 2 } =
        .ok ⟨"x\ny".toList, "a".toList, false, false, false⟩
          { loaded ["%set {a} [x\n".toList, "y]\n".toList] [] with line := 1, column := 2 } := by
      decide
    rw [defineAttributeLoop]
    simp only [Bool.false_eq_true, not_false_eq_true, and_self, if_true, h1, Res.bind]
    cases k with
    | zero => rfl
    | succ j =>
      rw [defineAttributeLoop]
      simp only [Bool.false_eq_true, not_false_eq_true, and_self, if_true, h2, Res.bind]
      exact defineAttributeLoop_stuck h3 rfl rfl j

/-- C27 at the failing input: on the template of the two lines `%set {a} [x` and
`y]` the pure text is read to its end, `x`, the line end and `y`, with the cursor
left after the `]` on the second line; `defineAttribute` then reads the character
at that column of the first line, the `e` of `%set`, and calls `getWord`, which
finds the line end of the second line there and returns the empty word without
moving the cursor: the loop never ends, nothing is assigned, and no amount of
fuel lets `getCodeDefinition` return or raise. -/
theorem C27_multi_line_set_never_returns (fuel : Nat) :
    getPureText { loaded ["%set {a} [x\n".toList, "y]\n".toList] [] with column := 9 } =
      .ok "x\ny".toList
        { loaded ["%set {a} [x\n".toList, "y]\n".toList] [] with line := 1, column := 2 } ∧
    getCodeDefinition fuel [] (loaded ["%set {a} [x\n".toList, "y]\n".toList] []) =
      .timeout := by
  refine ⟨by decide, ?_⟩
  cases fuel with
  | zero => rfl
  | succ n =>
    have hgc : getConditional (loaded ["%set {a} [x\n".toList, "y]\n".toList] []) =
        .ok TOKEN_SET
          { loaded ["%set {a} [x\n".toList, "y]\n".toList] [] with column := 4 } := by decide
    have hdef : defineAttribute (n + 1)
        { loaded ["%set {a} [x\n".toList, "y]\n".toList] [] with column := 4 } = .timeout := by
      unfold defineAttribute
      have hl : ({ loaded ["%set {a} [x\n".toList, "y]\n".toList] [] with column := 4 } :
            SchemaParser).buffer[
          ({ loaded ["%set {a} [x\n".toList, "y]\n".toList] [] with column := 4 } :
            SchemaParser).line]? = some "%set {a} [x\n".toList := by decide
      simp only [hl, defineAttributeLoop_stale_line, Res.bind]
    have hl : (loaded ["%set {a} [x\n".toList, "y]\n".toList] []).buffer[
        (loaded ["%set {a} [x\n".toList, "y]\n".toList] []).line]? =
        some "%set {a} [x\n".toList := by decide
    have hch : charAt "%set {a} [x\n".toList
        (loaded ["%set {a} [x\n".toList, "y]\n".toList] []).column = CHR_INI_CONDITIONAL := by
      decide
    have hlive : extractDirective Locals.init.afterSet = true := by decide
    have hlive1 : extractDirective
        { Locals.init with prev_cond := Locals.init.cond, cond := TOKEN_SET } = true := hlive
    have hp : ({ loaded ["%set {a} [x\n".toList, "y]\n".toList] [] with attributes := [] } :
        SchemaParser) = loaded ["%set {a} [x\n".toList, "y]\n".toList] [] := rfl
    unfold getCodeDefinition
    rw [if_pos (by decide), hp, getCodeDefinitionLoop]
    simp only [hl, getCodeDefinitionStep_conditional hch, caseConditional, hgc, Res.bind,
      token_set_ne, ne_eq, not_true_eq_false, false_and, and_false, if_false, true_or,
      if_true, caseDirective, hlive1, hdef]

theorem RegExp.Matches.nullable {r : RegExp} {s : QString} (h : r.Matches s) :
    s = [] → r.nullable = true := by
  induction h with
  | eps => intro _; rfl
  | cls k c _ => intro h; simp at h
  | seq _ _ ih1 ih2 =>
    intro h
    obtain ⟨h1, h2⟩ := List.append_eq_nil.1 h
    simp [RegExp.nullable, ih1 h1, ih2 h2]
  | altl _ ih => intro h; simp [RegExp.nullable, ih h]
  | altr _ ih => intro h; simp [RegExp.nullable, ih h]
  | star_nil => intro _; rfl
  | star_cons _ _ _ _ => intro _; rfl

theorem RegExp.Matches.deriv {r : RegExp} {w : QString} (h : r.Matches w) :
    ∀ (c : Char) (s : QString), w = c :: s → (r.deriv c).Matches s := by
  induction h with
  | eps => intro c s h; simp at h
  | cls k d hk =>
    intro c s h
    obtain ⟨rfl, rfl⟩ : d = c ∧ [] = s := by simpa using h
    simp only [RegExp.deriv, hk, if_true]
    exact .eps
  | @seq r t u v h1 h2 ih1 ih2 =>
    intro c s h
    cases u with
    | nil =>
      have hn := h1.nullable rfl
      simp only [RegExp.deriv, hn, if_true]
      exact .altr (ih2 c s (by simpa using h))
    | cons a u =>
      obtain ⟨rfl, rfl⟩ : a = c ∧ u ++ v = s := by simpa using h
      have := RegExp.Matches.seq (ih1 a u rfl) h2
      simp only [RegExp.deriv]
      split
      · exact .altl this
      · exact this
  | altl _ ih => intro c s h; exact .altl (ih c s h)
  | altr _ ih => intro c s h; exact .altr (ih c s h)
  | star_nil => intro c s h; simp at h
  | @star_cons r u v h1 h2 ih1 ih2 =>
    intro c s h
    cases u with
    | nil => exact ih2 c s (by simpa using h)
    | cons a u =>
      obtain ⟨rfl, rfl⟩ : a = c ∧ u ++ v = s := by simpa using h
      exact .seq (ih1 a u rfl) h2

theorem RegExp.exactMatch_of_matches (s : QString) :
    ∀ {r : RegExp}, r.Matches s → r.exactMatch s = true := by
  induction s with
  | nil => intro r h; simpa [RegExp.exactMatch] using h.nullable rfl
  | cons c cs ih => intro r h; simpa [RegExp.exactMatch] using ih (h.deriv c cs rfl)

theorem name_tail_matches (cs : QString) (h : ∀ d ∈ cs, isNameChar d) :
    (RegExp.star (.alt (.star (.cls .letter))
      (.alt (.star (.cls .digit)) (.alt (.star (.cls (.lit '-'))) (.star (.cls (.lit '_'))))))).Matches
      cs := by
  induction cs with
  | nil => exact .star_nil
  | cons d cs ih =>
    have hd : isNameChar d := h d (by simp)
    have one : ∀ k : CharClass, k.test d = true → (RegExp.star (.cls k)).Matches [d] := fun k hk =>
      by simpa using RegExp.Matches.star_cons (.cls k d hk) .star_nil
    have hA : (RegExp.alt (.star (.cls .letter))
        (.alt (.star (.cls .digit)) (.alt (.star (.cls (.lit '-'))) (.star (.cls (.lit '_')))))).Matches
        [d] := by
      unfold isNameChar at hd
      rcases hd with h1 | h1 | h1 | h1
      · exact .altl (one .letter h1)
      · exact .altr (.altl (one .digit h1))
      · exact .altr (.altr (.altl (one (.lit '-') (by simp [CharClass.test, h1]))))
      · exact .altr (.altr (.altr (one (.lit '_') (by simp [CharClass.test, h1]))))
    exact RegExp.Matches.star_cons hA (ih fun x hx => h x (by simp [hx]))

theorem char_le_iff (a b : Char) : a ≤ b ↔ a.toNat ≤ b.toNat := Iff.rfl

theorem letter_of_spec {c : Char} (h : ('a' ≤ c ∧ c ≤ 'z') ∨ ('A' ≤ c ∧ c ≤ 'Z')) :
    CharClass.test .letter c = true := by
  simp only [CharClass.test, decide_eq_true_eq]
  tauto

theorem qisDigit_of_spec {c : Char} (h : '0' ≤ c ∧ c ≤ '9') : qisDigit c = true := by
  rw [char_le_iff, char_le_iff] at h
  have h0 : ('0' : Char).toNat = 48 := rfl
  have h9 : ('9' : Char).toNat = 57 := rfl
  rw [h0, h9] at h
  simp only [qisDigit, DECIMAL_ZEROS, List.any_cons, Bool.or_eq_true, decide_eq_true_eq]
  exact Or.inl ⟨by omega, by omega⟩

theorem isNameChar_of_spec {c : Char} (h : isSpecChar c) : isNameChar c := by
  unfold isSpecChar at h
  unfold isNameChar
  rcases h with h | h | h | h | h
  · exact Or.inl (letter_of_spec (Or.inl h))
  · exact Or.inl (letter_of_spec (Or.inr h))
  · exact Or.inr (Or.inl (qisDigit_of_spec h))
  · exact Or.inr (Or.inr (Or.inr h))
  · exact Or.inr (Or.inr (Or.inl h))

/-- In ASCII the classes of the pattern of the code hold the characters of
`[A-Za-z]` and `[A-Za-z0-9_-]` and no other. -/
theorem spec_of_isNameChar {c : Char} (ha : c.toNat < 128) :
    (CharClass.test .letter c = true → ('a' ≤ c ∧ c ≤ 'z') ∨ ('A' ≤ c ∧ c ≤ 'Z')) ∧
    (isNameChar c → isSpecChar c) := by
  have hk : ¬ c = Char.ofNat 0x212A := by
    intro e
    rw [e] at ha
    exact absurd ha (by decide)
  have hl : CharClass.test .letter c = true → ('a' ≤ c ∧ c ≤ 'z') ∨ ('A' ≤ c ∧ c ≤ 'Z') := by
    intro h
    simp only [CharClass.test, decide_eq_true_eq] at h
    tauto
  have hdig : qisDigit c = true → '0' ≤ c ∧ c ≤ '9' := by
    intro h
    rw [char_le_iff, char_le_iff]
    have h0 : ('0' : Char).toNat = 48 := rfl
    have h9 : ('9' : Char).toNat = 57 := rfl
    rw [h0, h9]
    simp only [qisDigit, DECIMAL_ZEROS, List.any_cons, List.any_nil, Bool.or_eq_true,
      decide_eq_true_eq, Bool.or_false] at h
    omega
  refine ⟨hl, fun h => ?_⟩
  unfold isNameChar at h
  unfold isSpecChar
  rcases h with h | h | h | h
  · rcases hl h with h | h
    · exact Or.inl h
    · exact Or.inr (Or.inl h)
  · exact Or.inr (Or.inr (Or.inl (hdig h)))
  · exact Or.inr (Or.inr (Or.inr (Or.inr h)))
  · exact Or.inr (Or.inr (Or.inr (Or.inl h)))

/-- The first character of a string that the pattern of the code accepts is of
the class of the letters. -/
theorem exactMatch_head {c : Char} {cs : QString} (h : ATTR_REGEXP.exactMatch (c :: cs) = true) :
    CharClass.test .letter c = true := by
  by_contra hc
  have ht : CharClass.test .letter c = false := by simpa using hc
  have hdead : (ATTR_REGEXP.deriv c).dead = true := by
    simp [ATTR_REGEXP, RegExp.deriv, RegExp.nullable, ht, RegExp.dead]
  rw [RegExp.exactMatch, RegExp.exactMatch_of_dead cs hdead] at h
  exact Bool.noConfusion h

/-- The pattern of the code accepts every string that the pattern of the spec
accepts. -/
theorem exactMatch_of_specName (w : QString) (h : SpecName w) :
    ATTR_REGEXP.exactMatch w = true := by
  cases w with
  | nil => exact h.elim
  | cons c cs =>
    obtain ⟨hc, hcs⟩ := h
    apply RegExp.exactMatch_of_matches
    have h1 : (RegExp.cls .letter).Matches [c] := .cls .letter c (letter_of_spec hc)
    have h2 := name_tail_matches cs (fun d hd => isNameChar_of_spec (hcs d hd))
    have h3 := RegExp.Matches.seq (RegExp.Matches.altl (t := (.alt (.star (.cls .digit))
      (.alt (.star (.cls (.lit '-'))) (.star (.cls (.lit '_'))))))
      (RegExp.Matches.star_nil (r := .cls .letter))) h2
    have h4 := RegExp.Matches.seq h1 h3
    simpa [ATTR_REGEXP, RegExp.plus] using h4

/-- Among the strings of ASCII characters the pattern of the code accepts those
that the pattern of the spec accepts and no other. -/
theorem exactMatch_iff_specName (w : QString) (ha : IsAscii w) :
    ATTR_REGEXP.exactMatch w = true ↔ SpecName w := by
  refine ⟨fun h => ?_, exactMatch_of_specName w⟩
  obtain ⟨hne, hall⟩ := nameChars_of_exactMatch h
  cases w with
  | nil => exact absurd rfl hne
  | cons c cs =>
    exact ⟨(spec_of_isNameChar (ha c (by simp))).1 (exactMatch_head h),
      fun d hd => (spec_of_isNameChar (ha d (by simp [hd]))).2 (hall d (by simp [hd]))⟩

theorem getAttributeLoop_delim (name rest : QString) (t : Char)
    (hn : ∀ c ∈ name, ¬ isDelim c ∧ c ≠ CHR_END_ATTRIB) (ht : isDelim t) :
    ∀ (acc : QString) (n : Nat),
      getAttributeLoop (name ++ t :: rest) acc n =
        some ⟨acc ++ name, n + name.length, false, false⟩ := by
  induction name with
  | nil =>
    intro acc n
    have h1 : t = CHR_LINE_END ∨ t = CHR_SPACE ∨ t = CHR_TABULATION := ht
    simp [getAttributeLoop, h1]
  | cons a name ih =>
    intro acc n
    have ha := hn a (by simp)
    have h1 : ¬ (a = CHR_LINE_END ∨ a = CHR_SPACE ∨ a = CHR_TABULATION) := ha.1
    have h2 := ih (fun c hc => hn c (by simp [hc])) (acc ++ [a]) (n + 1)
    rw [List.cons_append, getAttributeLoop, if_neg h1, if_pos ha.2, h2]
    simp only [List.length_cons, List.append_assoc, List.singleton_append, Option.some.injEq,
      AttribScan.mk.injEq, true_and, and_true]
    omega

/-- The reference `{name}` at the cursor has a name that the pattern rejects:
the error is raised with the cursor after the `}`. -/
theorem getAttribute_invalid {p : SchemaParser} {L n r : QString}
    (hl : p.buffer[p.line]? = some L)
    (hd : L.drop p.column = CHR_INI_ATTRIB :: n ++ CHR_END_ATTRIB :: r)
    (hchars : ∀ c ∈ n, ¬ isDelim c ∧ c ≠ CHR_END_ATTRIB) (hne : n ≠ [])
    (hn : ATTR_REGEXP.exactMatch n = false) :
    getAttribute p = throwAt .ERR_INV_ATTRIBUTE { p with column := p.column + (n.length + 2) } := by
  have hloop := getAttributeLoop_name n r hchars [] 0 (by simpa using hne)
  have hd' : L.drop (p.column + 1) = n ++ CHR_END_ATTRIB :: r :=
    drop_succ_of_drop (by simpa using hd)
  simp only [getAttribute, hl, charAt_of_drop (by simpa using hd), ne_eq, not_true_eq_false,
    if_false, hd', hloop, List.nil_append, Nat.zero_add, hn, Bool.false_eq_true, false_or,
    not_false_eq_true, if_true]
  congr 2; omega

/-- A reference `{name` that a blank or the line end cuts short. -/
theorem getAttribute_cut {p : SchemaParser} {L n r : QString} {t : Char}
    (hl : p.buffer[p.line]? = some L)
    (hd : L.drop p.column = CHR_INI_ATTRIB :: n ++ t :: r)
    (hchars : ∀ c ∈ n, ¬ isDelim c ∧ c ≠ CHR_END_ATTRIB) (ht : isDelim t) :
    getAttribute p = throwAt .ERR_INV_SYNTAX { p with column := p.column + (n.length + 1) } := by
  have hloop := getAttributeLoop_delim n r t hchars ht [] 0
  have hd' : L.drop (p.column + 1) = n ++ t :: r :=
    drop_succ_of_drop (by simpa using hd)
  simp only [getAttribute, hl, charAt_of_drop (by simpa using hd), ne_eq, not_true_eq_false,
    if_false, hd', hloop, List.nil_append, Nat.zero_add, Bool.false_eq_true, false_or,
    not_false_eq_true, if_true]
  congr 2; omega

/-- The reference `{}` without a name. -/
theorem getAttribute_empty {p : SchemaParser} {L r : QString}
    (hl : p.buffer[p.line]? = some L)
    (hd : L.drop p.column = CHR_INI_ATTRIB :: CHR_END_ATTRIB :: r) :
    getAttribute p = throwAt .ERR_INV_SYNTAX { p with column := p.column + 2 } := by
  have hd' : L.drop (p.column + 1) = CHR_END_ATTRIB :: r := drop_succ_of_drop hd
  have h1 : ¬ (CHR_END_ATTRIB = CHR_LINE_END ∨ CHR_END_ATTRIB = CHR_SPACE ∨
      CHR_END_ATTRIB = CHR_TABULATION) := by decide
  simp only [getAttribute, hl, charAt_of_drop hd, ne_eq, not_true_eq_false,
    if_false, hd', getAttributeLoop, h1, if_true, true_or]

/-- A line that ends in the line end, cut at the first character that ends a
name after the `{` at the column. -/
theorem nameSpan_split {L : QString} {col : Nat}
    (hend : L.getLast? = some CHR_LINE_END) (hcur : L[col]? = some CHR_INI_ATTRIB) :
    ∃ t rest, L.drop col = CHR_INI_ATTRIB :: nameSpan L col ++ t :: rest ∧
      nameTerminator L col = some t ∧ isNameEnd t = true ∧
      ∀ c ∈ nameSpan L col, isNameEnd c = false := by
  have hlt : col < L.length := by
    by_contra hn
    rw [List.getElem?_eq_none (by omega)] at hcur
    exact Option.noConfusion hcur
  have hdrop : L.drop col = CHR_INI_ATTRIB :: L.drop (col + 1) := by
    rw [List.drop_eq_getElem_cons hlt]
    congr 1
    simpa [List.getElem?_eq_getElem hlt] using hcur
  have hmem : CHR_LINE_END ∈ L.drop (col + 1) := by
    have h1 : (L.drop col).getLast? = some CHR_LINE_END := by
      rw [List.getLast?_drop, if_neg (by omega), hend]
    rw [hdrop] at h1
    cases hx : L.drop (col + 1) with
    | nil => rw [hx] at h1; simp at h1; exact absurd h1 (by decide)
    | cons a as =>
      rw [hx, List.getLast?_cons_cons] at h1
      exact List.mem_of_mem_getLast? h1
  have hsplit := List.takeWhile_append_dropWhile (fun c => ! isNameEnd c) (L.drop (col + 1))
  cases hdw : (L.drop (col + 1)).dropWhile (fun c => ! isNameEnd c) with
  | nil =>
    have := List.dropWhile_eq_nil_iff.1 hdw CHR_LINE_END hmem
    exact absurd this (by decide)
  | cons t rest =>
    refine ⟨t, rest, ?_, ?_, ?_, ?_⟩
    · rw [hdrop, nameSpan, List.cons_append, ← hdw, hsplit]
    · simp [nameTerminator, hdw]
    · have := List.head_dropWhile_not (fun c => ! isNameEnd c) (L.drop (col + 1))
        (by rw [hdw]; simp)
      simpa [hdw] using this
    · intro c hc
      have := List.mem_takeWhile_imp hc
      simpa using this

/-- C30 at a counterexample: the name `a` followed by the digit three of the
Arabic script, U+0663, does not match the pattern `^[A-Za-z][A-Za-z0-9_-]*$` of the
spec, yet the pattern of the code accepts it, as `\d` holds the decimal digits of
every script, and `getAttribute` returns it where the claim has invalid-attribute
raised. -/
theorem C30_digit_of_another_script :
    ¬ SpecName ['a', Char.ofNat 0x663] ∧
    ATTR_REGEXP.exactMatch ['a', Char.ofNat 0x663] = true ∧
    getAttribute (loaded [[CHR_INI_ATTRIB, 'a', Char.ofNat 0x663, CHR_END_ATTRIB, CHR_LINE_END]] [])
      = .ok ['a', Char.ofNat 0x663]
        { loaded [[CHR_INI_ATTRIB, 'a', Char.ofNat 0x663, CHR_END_ATTRIB, CHR_LINE_END]] []
          with column := 4 } := by
  decide

/-- C30, amended: on a line that ends in the line end, with `{` at the cursor, let
`s` be the characters after the `{` up to the first `}`, space, tabulation or line
end.  When that character is `}`, `s` is not empty and `s` matches the pattern
`^[A-Za-z][A-Za-z0-9_-]*$` of the spec, `getAttribute` returns `s` and leaves the
cursor after the `}`; when it is `}`, `s` is not empty, `s` holds ASCII characters
only and `s` does not match, it raises invalid-attribute; with no `}`, a blank
before the `}` or no name it raises invalid-syntax; and whatever the characters
of a name `s` that is not empty and ends at a `}`, `getAttribute` returns it when
the pattern `ATTR_REGEXP` of the code accepts it and raises invalid-attribute when
it does not.  The pattern of the code accepts every string that matches the
pattern of the spec, and among the strings of ASCII characters those only. -/
theorem C30_get_attribute (p : SchemaParser) (L : QString)
    (hl : p.buffer[p.line]? = some L)
    (hend : L.getLast? = some CHR_LINE_END)
    (hcur : L[p.column]? = some CHR_INI_ATTRIB) :
    (nameTerminator L p.column = some CHR_END_ATTRIB ∧ nameSpan L p.column ≠ [] ∧
        SpecName (nameSpan L p.column) →
      getAttribute p = .ok (nameSpan L p.column)
        { p with column := p.column + (nameSpan L p.column).length + 2 }) ∧
    (nameTerminator L p.column = some CHR_END_ATTRIB ∧ nameSpan L p.column ≠ [] ∧
        IsAscii (nameSpan L p.column) ∧ ¬ SpecName (nameSpan L p.column) →
      (getAttribute p).raises .ERR_INV_ATTRIBUTE) ∧
    (¬ (nameTerminator L p.column = some CHR_END_ATTRIB ∧ nameSpan L p.column ≠ []) →
      (getAttribute p).raises .ERR_INV_SYNTAX) ∧
    (nameTerminator L p.column = some CHR_END_ATTRIB ∧ nameSpan L p.column ≠ [] →
      getAttribute p =
        if ATTR_REGEXP.exactMatch (nameSpan L p.column) = true then
          .ok (nameSpan L p.column)
            { p with column := p.column + (nameSpan L p.column).length + 2 }
        else throwAt .ERR_INV_ATTRIBUTE
          { p with column := p.column + (nameSpan L p.column).length + 2 }) ∧
    (∀ w : QString, SpecName w → ATTR_REGEXP.exactMatch w = true) ∧
    (∀ w : QString, IsAscii w → (ATTR_REGEXP.exactMatch w = true ↔ SpecName w)) := by
  obtain ⟨t, rest, hd, hterm, ht, hs⟩ := nameSpan_split hend hcur
  have hchars : ∀ c ∈ nameSpan L p.column, ¬ isDelim c ∧ c ≠ CHR_END_ATTRIB := by
    intro c hc
    have := hs c hc
    simp only [isNameEnd, decide_eq_false_iff_not, not_or] at this
    unfold isDelim
    tauto
  have hgen : nameTerminator L p.column = some CHR_END_ATTRIB ∧ nameSpan L p.column ≠ [] →
      getAttribute p =
        if ATTR_REGEXP.exactMatch (nameSpan L p.column) = true then
          .ok (nameSpan L p.column)
            { p with column := p.column + (nameSpan L p.column).length + 2 }
        else throwAt .ERR_INV_ATTRIBUTE
          { p with column := p.column + (nameSpan L p.column).length + 2 } := by
    rintro ⟨h1, h2⟩
    obtain rfl : t = CHR_END_ATTRIB := by rw [hterm] at h1; exact Option.some.inj h1
    cases hx : ATTR_REGEXP.exactMatch (nameSpan L p.column) with
    | true =>
      rw [if_pos rfl, getAttribute_ok hl hd hx]
      simp only [Res.ok.injEq, true_and]
      congr 1
    | false =>
      rw [if_neg (by simp), getAttribute_invalid hl hd hchars h2 hx]
      congr 2
  refine ⟨?_, ?_, ?_, hgen, exactMatch_of_specName, exactMatch_iff_specName⟩
  · rintro ⟨h1, h2, h3⟩
    rw [hgen ⟨h1, h2⟩, if_pos (exactMatch_of_specName _ h3)]
  · rintro ⟨h1, h2, h3, h4⟩
    have hn : ¬ ATTR_REGEXP.exactMatch (nameSpan L p.column) = true :=
      fun hx => h4 ((exactMatch_iff_specName _ h3).1 hx)
    rw [hgen ⟨h1, h2⟩, if_neg hn]
    exact ⟨_, _, rfl, rfl⟩
  · intro h
    by_cases hte : t = CHR_END_ATTRIB
    · subst hte
      have hnil : nameSpan L p.column = [] := by
        by_contra hne
        exact h ⟨hterm, hne⟩
      rw [hnil] at hd
      exact ⟨_, _, getAttribute_empty hl (by simpa using hd), rfl⟩
    · have htd : isDelim t := by
        simp only [isNameEnd, decide_eq_true_eq] at ht
        unfold isDelim
        tauto
      exact ⟨_, _, getAttribute_cut hl hd hchars htd, rfl⟩

theorem C30_get_attribute_witness :
    getAttribute { loaded ["ab {x-1_y} c\n".toList] [] with column := 3 } =
      .ok "x-1_y".toList { loaded ["ab {x-1_y} c\n".toList] [] with column := 10 } ∧
    (getAttribute { loaded ["ab {1bad} c\n".toList] [] with column := 3 }).raises
      .ERR_INV_ATTRIBUTE ∧
    (getAttribute { loaded ["ab {x y} c\n".toList] [] with column := 3 }).raises
      .ERR_INV_SYNTAX :=
  ⟨(C30_get_attribute { loaded ["ab {x-1_y} c\n".toList] [] with column := 3 }
      "ab {x-1_y} c\n".toList (by decide) (by decide) (by decide)).1
      ⟨by decide, by decide, by decide⟩,
   (C30_get_attribute { loaded ["ab {1bad} c\n".toList] [] with column := 3 }
      "ab {1bad} c\n".toList (by decide) (by decide) (by decide)).2.1
      ⟨by decide, by decide, by decide, by decide⟩,
   (C30_get_attribute { loaded ["ab {x y} c\n".toList] [] with column := 3 }
      "ab {x y} c\n".toList (by decide) (by decide) (by decide)).2.2.1 (by decide)⟩

/-- C25 at a counterexample: the text is the one line `{1bad}`; the `{` is at
column 1 and the column reported is 7, the one after the `}`. -/
theorem C25_column_after_reference :
    (getCodeDefinition 20 [] (loaded ["{1bad}\n".toList] [])).raised =
      some ⟨.ERR_INV_ATTRIBUTE, 1, 7⟩ := by
  decide!

/-- C25, amended: when the loop of `getCodeDefinition`, in any state of its
variables, has the cursor on a reference `{name}` whose name is not empty and
does not match the pattern of names, as in `{1bad}`, the expansion raises
invalid-attribute, and the column reported is the one after the closing `}`: the
column of the `{` plus the length of the name plus 2. -/
theorem C25_malformed_reference_column (sf fuel : Nat) (l : Locals) (p : SchemaParser)
    (L name rest : QString)
    (hl : p.buffer[p.line]? = some L)
    (hd : L.drop p.column = CHR_INI_ATTRIB :: name ++ CHR_END_ATTRIB :: rest)
    (hchars : ∀ c ∈ name, ¬ isDelim c ∧ c ≠ CHR_END_ATTRIB) (hne : name ≠ [])
    (hn : ATTR_REGEXP.exactMatch name = false) :
    getCodeDefinitionLoop sf (fuel + 1) l p =
      .raise ⟨.ERR_INV_ATTRIBUTE, p.line + p.comment_count + 1,
          (p.column + 1) + name.length + 2⟩
        { p with column := p.column + (name.length + 2) } := by
  have hc : charAt L p.column = CHR_INI_ATTRIB := charAt_of_drop (by simpa using hd)
  have hstep : getCodeDefinitionStep sf L l p = caseAttrib l p := by
    unfold getCodeDefinitionStep
    simp only [hc]
    rw [if_neg (by decide), if_neg (by decide), if_neg (by decide), if_pos (by decide)]
  rw [getCodeDefinitionLoop]
  simp only [hl, hstep, caseAttrib, getAttribute_invalid hl hd hchars hne hn, throwAt, Res.bind]
  congr 2
  omega

theorem C25_malformed_reference_column_witness :
    getCodeDefinitionLoop 5 1 Locals.init
        { loaded ["ab {1bad} c\n".toList] [] with column := 3 } =
      .raise ⟨.ERR_INV_ATTRIBUTE, 1, 10⟩
        { loaded ["ab {1bad} c\n".toList] [] with column := 9 } :=
  C25_malformed_reference_column 5 0 Locals.init
    { loaded ["ab {1bad} c\n".toList] [] with column := 3 }
    "ab {1bad} c\n".toList "1bad".toList " c\n".toList (by decide) (by decide) (by decide)
    (by decide) (by decide)

theorem attribs_map.value_touch_eq (m : attribs_map) (k k' : QString) :
    (m.touch k).value k' = m.value k' := by
  unfold attribs_map.touch
  cases hf : m.find k with
  | some v => simp
  | none =>
    simp only [Option.isSome_none, Bool.false_eq_true, if_false, attribs_map.value,
      attribs_map.find_assign]
    by_cases h : k = k'
    · subst h; simp [hf]
    · simp [h]

/-- The head `@{src} tok1 ... tokn` of an indirect `%set`, up to the character
that follows the tokens. -/
theorem defineAttributeLoop_indirect (fuel : Nat) (p : SchemaParser) (ln bl0 src : QString)
    (toks : List (QString × ValueToken)) (tail : QString)
    (hl : p.buffer[p.line]? = some ln)
    (hd : ln.drop p.column =
      bl0 ++ CHR_VALUE_OF :: CHR_INI_ATTRIB :: src ++ CHR_END_ATTRIB ::
        (renderTokens toks ++ tail))
    (hbl0 : Blanks bl0) (hsrc : ATTR_REGEXP.exactMatch src = true)
    (hv : ∀ t ∈ toks, t.1 ≠ [] ∧ Blanks t.1 ∧ t.2.Valid p.attributes)
    (htail : ∃ c r, tail = c :: r ∧ isDelim c) :
    defineAttributeLoop ln (toks.length + fuel + 1) ⟨[], [], false, false, false⟩ p =
      defineAttributeLoop ln fuel ⟨tokensValue p.attributes toks, src, false, false, true⟩
        { p with column := p.column + bl0.length + (src.length + 3) +
            (renderTokens toks).length } := by
  have hne := (nameChars_of_exactMatch hsrc).1
  have hd0 : ln.drop p.column = bl0 ++ CHR_VALUE_OF ::
      (CHR_INI_ATTRIB :: src ++ CHR_END_ATTRIB :: (renderTokens toks ++ tail)) := by
    simpa using hd
  have hig := ignoreBlankChars_of_drop hd0 hbl0 (by decide)
  have hd1 : ln.drop (p.column + bl0.length) = CHR_VALUE_OF ::
      (CHR_INI_ATTRIB :: src ++ CHR_END_ATTRIB :: (renderTokens toks ++ tail)) :=
    drop_add_of_drop hd0
  have hch : charAt ln (p.column + bl0.length) = CHR_VALUE_OF := charAt_of_drop hd1
  have hd2 : ln.drop (p.column + bl0.length + 1) =
      CHR_INI_ATTRIB :: src ++ CHR_END_ATTRIB :: (renderTokens toks ++ tail) :=
    drop_succ_of_drop hd1
  have hga := getAttribute_ok (p := { p with column := p.column + bl0.length + 1 }) (L := ln)
    (n := src) hl hd2 hsrc
  have hd3 : ln.drop (p.column + bl0.length + 1 + (src.length + 2)) = renderTokens toks ++ tail := by
    have := drop_add_of_drop (L := ln) (c := p.column + bl0.length + 1)
      (a := CHR_INI_ATTRIB :: src ++ [CHR_END_ATTRIB]) (b := renderTokens toks ++ tail)
      (by simpa using hd2)
    simpa using this
  have hloop := defineAttributeLoop_tokens ln toks fuel
    ⟨[], src, false, false, true⟩
    { p with column := p.column + bl0.length + 1 + (src.length + 2) }
    tail hl hd3 htail hv hne rfl rfl
  rw [defineAttributeLoop]
  simp only [Bool.false_eq_true, not_false_eq_true, and_self, if_true, defineAttributeStep,
    hig, hch, show ¬ (CHR_VALUE_OF = CHR_LINE_END) from by decide, if_false, hga, Res.bind, hne]
  rw [hloop]
  simp only [List.nil_append]
  congr 2
  omega

/-- C24 at the counterexamples: the value of `a` is `a` itself, so `%set @{a} x`
assigns to `a`: the source attribute is not unchanged, and the reference `{a}` on
the next line gives `x`; and with `a` mapped to `n`, the second `@` of
`%set @{a} b@c` is a character of the word `b@c`, which is assigned to `n`, and
no error is raised. -/
theorem C24_source_names_itself :
    (getCodeDefinition 20 [("a".toList, "a".toList)]
      (loaded ["%set @{a} x\n".toList, "{a}\n".toList] [])).result = some "x".toList ∧
    (getCodeDefinition 20 [("a".toList, "n".toList)]
      (loaded ["%set @{a} b@c\n".toList, "{n}\n".toList] [])).result = some "b@c".toList := by
  decide!

/-- C24, amended: on a live, single-line `%set @{src} tok1 ... tokn`, when the value
`m` of `src` is a valid name, `defineAttribute` maps `m` to the concatenation of
the values of the tokens and leaves every attribute other than `m` as it was
(`src` too, unless `m` is `src`); when the value of `src` does not match the
pattern of names (as the empty value), it raises invalid-attribute and the value
of every attribute is what it was; and a second `@` that starts a token of the
line makes it raise invalid-syntax. -/
theorem C24_set_value_of (fuel : Nat) (p : SchemaParser) (ln bl0 src : QString)
    (toks : List (QString × ValueToken)) (bl1 : QString) (c : Char) (rest : QString)
    (hl : p.buffer[p.line]? = some ln)
    (hd : ln.drop p.column =
      bl0 ++ CHR_VALUE_OF :: CHR_INI_ATTRIB :: src ++ CHR_END_ATTRIB ::
        (renderTokens toks ++ bl1 ++ c :: rest))
    (hbl0 : Blanks bl0) (hsrc : ATTR_REGEXP.exactMatch src = true)
    (hv : ∀ t ∈ toks, t.1 ≠ [] ∧ Blanks t.1 ∧ t.2.Valid p.attributes)
    (hbl1 : Blanks bl1) (hc : c = CHR_LINE_END ∨ (c = CHR_VALUE_OF ∧ bl1 ≠ []))
    (hfuel : toks.length + 3 ≤ fuel) :
    (c = CHR_LINE_END → ATTR_REGEXP.exactMatch (p.attributes.value src) = true →
      defineAttribute fuel p = .ok ()
        { p with column := p.column + bl0.length + (src.length + 3) +
                   (renderTokens toks).length + bl1.length,
                 attributes := p.attributes.assign (p.attributes.value src)
                   (tokensValue p.attributes toks) } ∧
      (∀ k, (p.attributes.assign (p.attributes.value src) (tokensValue p.attributes toks)).find k =
        if k = p.attributes.value src then some (tokensValue p.attributes toks)
        else p.attributes.find k) ∧
      (src ≠ p.attributes.value src →
        (p.attributes.assign (p.attributes.value src) (tokensValue p.attributes toks)).find src =
          p.attributes.find src)) ∧
    (c = CHR_LINE_END → ATTR_REGEXP.exactMatch (p.attributes.value src) = false →
      ∃ e q, defineAttribute fuel p = .raise e q ∧ e.type = .ERR_INV_ATTRIBUTE ∧
        ∀ k, q.attributes.value k = p.attributes.value k) ∧
    (c = CHR_VALUE_OF → (defineAttribute fuel p).raises .ERR_INV_SYNTAX) := by
  obtain ⟨n, rfl⟩ : ∃ n, fuel = toks.length + (n + 2) + 1 := ⟨fuel - toks.length - 3, by omega⟩
  have hne := (nameChars_of_exactMatch hsrc).1
  have htail : ∃ c0 r0, bl1 ++ c :: rest = c0 :: r0 ∧ isDelim c0 := by
    cases bl1 with
    | nil =>
      rcases hc with rfl | ⟨_, h⟩
      · exact ⟨_, _, rfl, Or.inl rfl⟩
      · exact absurd rfl h
    | cons b bl1 => exact ⟨b, _, rfl, isDelim_of_isBlank (hbl1 b (by simp))⟩
  have hcb : ¬ isBlank c := by
    rcases hc with rfl | ⟨rfl, _⟩ <;> decide
  have hloop := defineAttributeLoop_indirect (n + 2) p ln bl0 src toks (bl1 ++ c :: rest) hl
    (by simpa using hd) hbl0 hsrc hv htail
  have hd3 : ln.drop (p.column + bl0.length + (src.length + 3) + (renderTokens toks).length) =
      bl1 ++ c :: rest := by
    have := drop_add_of_drop (L := ln) (c := p.column)
      (a := bl0 ++ CHR_VALUE_OF :: CHR_INI_ATTRIB :: src ++ CHR_END_ATTRIB :: renderTokens toks)
      (b := bl1 ++ c :: rest) (by simpa using hd)
    have e : p.column + bl0.length + (src.length + 3) + (renderTokens toks).length =
        p.column + (bl0 ++ CHR_VALUE_OF :: CHR_INI_ATTRIB :: src ++
          CHR_END_ATTRIB :: renderTokens toks).length := by
      simp only [List.length_append, List.length_cons]; omega
    rw [e]; exact this
  have hig3 := ignoreBlankChars_of_drop
    (p := { p with column :=
      p.column + bl0.length + (src.length + 3) + (renderTokens toks).length })
    (L := ln) hd3 hbl1 hcb
  have hch3 : charAt ln
      (p.column + bl0.length + (src.length + 3) + (renderTokens toks).length + bl1.length)
      = c := charAt_of_drop (drop_add_of_drop hd3)
  refine ⟨?_, ?_, ?_⟩
  · rintro rfl hm
    have hmne := (nameChars_of_exactMatch hm).1
    have hfind : (p.attributes.find src).isSome = true := by
      cases hf : p.attributes.find src with
      | some v => rfl
      | none => simp [attribs_map.value, hf] at hmne
    refine ⟨?_, fun k => ?_, fun hk => ?_⟩
    · simp only [defineAttribute, hl]
      rw [hloop, defineAttributeLoop]
      simp only [Bool.false_eq_true, not_false_eq_true, and_self, if_true, defineAttributeStep,
        hig3, hch3, Res.bind, hne, if_false]
      rw [defineAttributeLoop]
      simp only [not_true_eq_false, false_and, if_false, Res.bind, Bool.false_eq_true,
        not_false_eq_true, if_true, hm, attribs_map.value_touch hfind]
    · rw [attribs_map.find_assign]
      by_cases h : k = p.attributes.value src
      · subst h; simp
      · have h2 : ¬ p.attributes.value src = k := fun e => h e.symm
        simp [h, h2]
    · rw [attribs_map.find_assign]
      have h2 : ¬ p.attributes.value src = src := fun e => hk e.symm
      simp [h2]
  · rintro rfl hm
    have h : defineAttribute (toks.length + (n + 2) + 1) p = throwAt .ERR_INV_ATTRIBUTE
        { p with column := p.column + bl0.length + (src.length + 3) +
                   (renderTokens toks).length + bl1.length,
                 attributes := p.attributes.touch src } := by
      simp only [defineAttribute, hl]
      rw [hloop, defineAttributeLoop]
      simp only [Bool.false_eq_true, not_false_eq_true, and_self, if_true, defineAttributeStep,
        hig3, hch3, Res.bind, hne, if_false]
      rw [defineAttributeLoop]
      simp only [not_true_eq_false, false_and, if_false, Res.bind, Bool.false_eq_true,
        not_false_eq_true, if_true, hm]
    exact ⟨_, _, h, rfl, fun k => attribs_map.value_touch_eq _ _ _⟩
  · rintro rfl
    have h : defineAttribute (toks.length + (n + 2) + 1) p = throwAt .ERR_INV_SYNTAX
        { p with column := p.column + bl0.length + (src.length + 3) +
                   (renderTokens toks).length + bl1.length } := by
      simp only [defineAttribute, hl]
      rw [hloop, defineAttributeLoop]
      simp only [Bool.false_eq_true, not_false_eq_true, and_self, if_true, defineAttributeStep,
        hig3, hch3, Res.bind, hne, if_false,
        show ¬ (CHR_VALUE_OF = CHR_LINE_END) from by decide, not_true_eq_false]
      rw [defineAttributeLoop]
      simp only [not_true_eq_false, and_false, if_false, Res.bind, if_true]
    exact ⟨_, _, h, rfl⟩

theorem C24_set_value_of_witness :
    defineAttribute 10
        { loaded ["%set @{n} foo {y}\n".toList]
            [("n".toList, "x".toList), ("y".toList, "Y".toList)] with column := 4 } =
      .ok ()
        { loaded ["%set @{n} foo {y}\n".toList]
            [("n".toList, "x".toList), ("y".toList, "Y".toList), ("x".toList, "fooY".toList)]
          with column := 17 } ∧
    (defineAttribute 10
        { loaded ["%set @{n} foo\n".toList] [("n".toList, "1x".toList)]
          with column := 4 }).raises .ERR_INV_ATTRIBUTE ∧
    (defineAttribute 10
        { loaded ["%set @{n} foo @{y}\n".toList]
            [("n".toList, "x".toList), ("y".toList, "Y".toList)]
          with column := 4 }).raises .ERR_INV_SYNTAX :=
  ⟨((C24_set_value_of 10
      { loaded ["%set @{n} foo {y}\n".toList]
          [("n".toList, "x".toList), ("y".toList, "Y".toList)] with column := 4 }
      "%set @{n} foo {y}\n".toList " ".toList "n".toList
      [(" ".toList, .word "foo".toList), (" ".toList, .ref "y".toList)] [] CHR_LINE_END []
      (by decide) (by decide) (by decide) (by decide) (by decide) (by decide)
      (Or.inl rfl) (by decide)).1 rfl (by decide)).1,
   (let ⟨e, q, h, ht, _⟩ := (C24_set_value_of 10
      { loaded ["%set @{n} foo\n".toList] [("n".toList, "1x".toList)] with column := 4 }
      "%set @{n} foo\n".toList " ".toList "n".toList
      [(" ".toList, .word "foo".toList)] [] CHR_LINE_END []
      (by decide) (by decide) (by decide) (by decide) (by decide) (by decide)
      (Or.inl rfl) (by decide)).2.1 rfl (by decide)
    ⟨e, q, h, ht⟩),
   (C24_set_value_of 10
      { loaded ["%set @{n} foo @{y}\n".toList]
          [("n".toList, "x".toList), ("y".toList, "Y".toList)] with column := 4 }
      "%set @{n} foo @{y}\n".toList " ".toList "n".toList
      [(" ".toList, .word "foo".toList)] " ".toList CHR_VALUE_OF "{y}\n".toList
      (by decide) (by decide) (by decide) (by decide) (by decide) (by decide)
      (Or.inr ⟨rfl, by decide⟩) (by decide)).2.2 rfl⟩

theorem GoodStack.assign {env : attribs_map} {stack : List Frame} (h : GoodStack env stack)
    (k v : QString) : GoodStack (env.assign k v) stack := by
  intro f hf w hw
  rcases h f hf w hw with hp | ⟨x, hx, hpres⟩
  · exact Or.inl hp
  · exact Or.inr ⟨x, hx, attribs_map.isSome_find_assign hpres⟩

theorem qindexOf_eq_none {s : QString} {ch : Char} : qindexOf s ch = none ↔ ch ∉ s := by
  induction s with
  | nil => simp [qindexOf]
  | cons c cs ih =>
    unfold qindexOf
    by_cases h : c = ch
    · simp [h]
    · have h2 : ¬ ch = c := fun e => h e.symm
      simp [h, h2, ih]

theorem cutComment_no_comment (lin : QString) : CHR_COMMENT ∉ cutComment lin :=
  qindexOf_eq_none.1 (qindexOf_cutComment lin)

theorem mem_of_mem_cutComment {lin : QString} {c : Char} (h : c ∈ cutComment lin) : c ∈ lin := by
  unfold cutComment at h
  cases hq : qindexOf lin CHR_COMMENT with
  | none => rw [hq] at h; exact h
  | some k => rw [hq] at h; exact List.mem_of_mem_take h

theorem cutComment_cons {c : Char} (cs : QString) (h : c ≠ CHR_COMMENT) :
    ∃ t, cutComment (c :: cs) = c :: t := by
  unfold cutComment
  cases hq : qindexOf (c :: cs) CHR_COMMENT with
  | none => exact ⟨cs, rfl⟩
  | some k =>
    cases k with
    | zero =>
      unfold qindexOf at hq
      rw [if_neg h] at hq
      cases hj : qindexOf cs CHR_COMMENT with
      | none => rw [hj] at hq; cases hq
      | some j => rw [hj] at hq; cases hq
    | succ j => exact ⟨cs.take j, rfl⟩

/-- One turn of the loop of `loadBuffer` on a line that does not start with `#`:
one line is added to the buffer and nothing else changes. -/
theorem loadLine_pushed (p : SchemaParser) {lin : QString}
    (h : lin.head? ≠ some CHR_COMMENT) :
    ∃ L, loadLine p lin = { p with buffer := p.buffer ++ [L] } ∧
      L ≠ [] ∧ L.getLast? = some CHR_LINE_END ∧ CHR_COMMENT ∉ L ∧
      (CHR_LINE_END ∉ lin → L = cutComment lin ++ [CHR_LINE_END]) := by
  cases lin with
  | nil => exact ⟨[CHR_LINE_END], rfl, by simp, rfl, by decide, fun _ => rfl⟩
  | cons c cs =>
    have hc : ¬ c = CHR_COMMENT := by simpa using h
    have hne : ¬ (charAt (c :: cs) 0 = CHR_COMMENT) := hc
    obtain ⟨t, ht⟩ := cutComment_cons cs hc
    have hno := cutComment_no_comment (c :: cs)
    have hload : loadLine p (c :: cs) = { p with buffer := p.buffer ++
        [if (cutComment (c :: cs)).getLast? ≠ some CHR_LINE_END then
          cutComment (c :: cs) ++ [CHR_LINE_END] else cutComment (c :: cs)] } := by
      have hnn : cutComment (c :: cs) ≠ [] := by rw [ht]; simp
      unfold loadLine
      simp only [List.cons_ne_nil, if_false, hne]
      change (if cutComment (c :: cs) ≠ [] then _ else _) = _
      rw [if_pos hnn]
      rfl
    by_cases hl : (cutComment (c :: cs)).getLast? = some CHR_LINE_END
    · refine ⟨cutComment (c :: cs), ?_, by rw [ht]; simp, hl, hno, fun hn => ?_⟩
      · rw [hload, if_neg (by simpa using hl)]
      · exact absurd (mem_of_mem_cutComment (List.mem_of_mem_getLast? hl)) hn
    · refine ⟨cutComment (c :: cs) ++ [CHR_LINE_END], ?_, by simp, by simp, ?_, fun _ => rfl⟩
      · rw [hload, if_pos hl]
      · simp only [List.mem_append, List.mem_singleton, not_or]
        exact ⟨hno, by decide⟩

/-- The loop of `loadBuffer` moves no cursor and touches no attribute. -/
theorem foldl_loadLine_cursor (lines : List QString) :
    ∀ p : SchemaParser, (lines.foldl loadLine p).line = p.line ∧
      (lines.foldl loadLine p).column = p.column ∧
      (lines.foldl loadLine p).attributes = p.attributes := by
  induction lines with
  | nil => intro p; exact ⟨rfl, rfl, rfl⟩
  | cons lin T ih =>
    intro p
    rw [List.foldl_cons]
    obtain ⟨h1, h2, h3⟩ := ih (loadLine p lin)
    by_cases h : lin.head? = some CHR_COMMENT
    · rw [h1, h2, h3, loadLine_comment h]
      exact ⟨rfl, rfl, rfl⟩
    · obtain ⟨L, hL, _⟩ := loadLine_pushed p h
      rw [h1, h2, h3, hL]
      exact ⟨rfl, rfl, rfl⟩

/-- What holds of the lines of the buffer and of every line that a turn adds
holds of the lines of the buffer after the loop. -/
theorem foldl_loadLine_all (P : QString → Prop) (lines : List QString)
    (hstep : ∀ lin ∈ lines, lin.head? ≠ some CHR_COMMENT → ∀ (p : SchemaParser) (L : QString),
      loadLine p lin = { p with buffer := p.buffer ++ [L] } → P L) :
    ∀ p : SchemaParser, (∀ L ∈ p.buffer, P L) →
      ∀ L ∈ (lines.foldl loadLine p).buffer, P L := by
  induction lines with
  | nil => intro p hp; exact hp
  | cons lin T ih =>
    intro p hp
    rw [List.foldl_cons]
    refine ih (fun l hl => hstep l (by simp [hl])) (loadLine p lin) ?_
    by_cases h : lin.head? = some CHR_COMMENT
    · rw [loadLine_comment h]; exact hp
    · obtain ⟨L, hL, _⟩ := loadLine_pushed p h
      have hPL := hstep lin (by simp) h p L hL
      rw [hL]
      intro M hM
      rcases List.mem_append.1 hM with hM | hM
      · exact hp M hM
      · rw [List.mem_singleton.1 hM]; exact hPL

/-- The buffer and the count of comment lines after the loop of `loadBuffer`, on
lines that hold no line end. -/
theorem foldl_loadLine_closed (lines : List QString) (hcl : ∀ lin ∈ lines, CHR_LINE_END ∉ lin) :
    ∀ p : SchemaParser, lines.foldl loadLine p =
      { p with
        buffer := p.buffer ++ (stripComments lines).map fun lin => lin ++ [CHR_LINE_END],
        comment_count := p.comment_count +
          (lines.filter fun lin => lin.head? = some CHR_COMMENT).length } := by
  induction lines with
  | nil => intro p; simp [stripComments]
  | cons lin T ih =>
    intro p
    have ihT := ih (fun l hl => hcl l (by simp [hl]))
    rw [List.foldl_cons, ihT]
    by_cases h : lin.head? = some CHR_COMMENT
    · have e : stripComments (lin :: T) = stripComments T := by
        unfold stripComments
        rw [List.filter_cons_of_neg (by simpa using h)]
      rw [loadLine_comment h, e, List.filter_cons_of_pos (by simpa using h)]
      simp only [List.length_cons, SchemaParser.mk.injEq, true_and, and_true]
      omega
    · have e : stripComments (lin :: T) = cutComment lin :: stripComments T := by
        unfold stripComments
        rw [List.filter_cons_of_pos (by simpa using h), List.map_cons]
      obtain ⟨L, hL, _, _, _, hcut⟩ := loadLine_pushed p h
      rw [hL, hcut (hcl lin (by simp)), e, List.filter_cons_of_neg (by simpa using h)]
      simp

/-- C31: after `loadBuffer`, every line of the buffer is not empty, ends with a
line end and holds no `#`; when the lines that `readLine` returned hold no line
end, as lines cut at the line ends do, a line of the buffer holds no other line
end (the buffer is a loaded buffer); the cursor is at line 0, column 0, and the
environment is empty. -/
theorem C31_load_buffer_invariants (lines : List QString) (p : SchemaParser) :
    (∀ L ∈ (loadBuffer lines p).buffer,
      L ≠ [] ∧ L.getLast? = some CHR_LINE_END ∧ CHR_COMMENT ∉ L) ∧
    ((∀ lin ∈ lines, CHR_LINE_END ∉ lin) →
      (∀ L ∈ (loadBuffer lines p).buffer, CHR_LINE_END ∉ L.dropLast) ∧
      LoadedBuffer (loadBuffer lines p).buffer) ∧
    (loadBuffer lines p).line = 0 ∧ (loadBuffer lines p).column = 0 ∧
    (loadBuffer lines p).attributes = [] := by
  have hsame : ∀ {q : SchemaParser} {lin L : QString}, lin.head? ≠ some CHR_COMMENT →
      loadLine q lin = { q with buffer := q.buffer ++ [L] } →
      L ≠ [] ∧ L.getLast? = some CHR_LINE_END ∧ CHR_COMMENT ∉ L ∧
        (CHR_LINE_END ∉ lin → L = cutComment lin ++ [CHR_LINE_END]) := by
    intro q lin L h hL
    obtain ⟨M, hM, h1, h2, h3, h4⟩ := loadLine_pushed q h
    have e : L = M := by
      have := congrArg SchemaParser.buffer (hL.symm.trans hM)
      simpa using this
    rw [e]
    exact ⟨h1, h2, h3, h4⟩
  have h1 : ∀ L ∈ (loadBuffer lines p).buffer,
      L ≠ [] ∧ L.getLast? = some CHR_LINE_END ∧ CHR_COMMENT ∉ L := by
    unfold loadBuffer
    refine foldl_loadLine_all _ lines (fun lin _ h q L hL => ?_) _
      (fun L hL => absurd hL (List.not_mem_nil _))
    obtain ⟨a, b, c, _⟩ := hsame h hL
    exact ⟨a, b, c⟩
  have h2 : (∀ lin ∈ lines, CHR_LINE_END ∉ lin) →
      ∀ L ∈ (loadBuffer lines p).buffer, CHR_LINE_END ∉ L.dropLast := by
    intro hcl
    unfold loadBuffer
    refine foldl_loadLine_all _ lines (fun lin hlin h q L hL => ?_) _
      (fun L hL => absurd hL (List.not_mem_nil _))
    obtain ⟨_, _, _, d⟩ := hsame h hL
    rw [d (hcl lin hlin), List.dropLast_concat]
    exact fun hm => hcl lin hlin (mem_of_mem_cutComment hm)
  obtain ⟨c1, c2, c3⟩ := foldl_loadLine_cursor lines
    { restartParser p with filename := "[memory buffer]".toList }
  refine ⟨h1, fun hcl => ⟨h2 hcl, fun L hL => ?_⟩, c1, c2, c3⟩
  refine ⟨L.dropLast, ?_, h2 hcl L hL⟩
  exact (List.dropLast_append_getLast? _ (by rw [(h1 L hL).2.1]; rfl)).symm

theorem C31_load_buffer_invariants_witness :
    LoadedBuffer (loadBuffer ["a # c".toList, [], "# x".toList, "  # y".toList, "b".toList]
      (loaded ["zz".toList] [("k".toList, "v".toList)])).buffer ∧
    (loadBuffer ["a # c".toList, [], "# x".toList, "  # y".toList, "b".toList]
      (loaded ["zz".toList] [("k".toList, "v".toList)])).attributes = [] :=
  ⟨((C31_load_buffer_invariants ["a # c".toList, [], "# x".toList, "  # y".toList, "b".toList]
      (loaded ["zz".toList] [("k".toList, "v".toList)])).2.1 (by decide)).2,
   (C31_load_buffer_invariants ["a # c".toList, [], "# x".toList, "  # y".toList, "b".toList]
      (loaded ["zz".toList] [("k".toList, "v".toList)])).2.2.2.2⟩

/-- C32 at the counterexamples: in the line of two spaces, `#` and a comment the
first character that is no blank is `#`, yet no comment line is counted and the
line of the two spaces goes to the buffer; and the empty line, which no
truncation makes longer, goes to the buffer as a line end. -/
theorem C32_indented_comment_kept :
    (loadBuffer ["  # c".toList] (loaded [] [])).comment_count = 0 ∧
    (loadBuffer ["  # c".toList] (loaded [] [])).buffer = ["  \n".toList] ∧
    (loadBuffer [[]] (loaded [] [])).buffer = ["\n".toList] := by
  decide

/-- C32, amended: a line whose first character is `#` has `loadBuffer` count one
more comment line and add nothing to the buffer; every other line that
`readLine` returned, also one in which blanks precede the `#` and the empty one,
leaves the count as it is, is cut at its first `#` and goes to the buffer with
one line end after it.  So the buffer holds the lines that do not start with
`#`, each one cut and ended, and the count is the number of lines that start
with `#`. -/
theorem C32_comment_lines (p : SchemaParser) :
    (∀ lin : QString, lin.head? = some CHR_COMMENT →
      loadLine p lin = { p with comment_count := p.comment_count + 1 }) ∧
    (∀ lin : QString, lin.head? ≠ some CHR_COMMENT → CHR_LINE_END ∉ lin →
      loadLine p lin = { p with buffer := p.buffer ++ [cutComment lin ++ [CHR_LINE_END]] }) ∧
    (∀ lines : List QString, (∀ lin ∈ lines, CHR_LINE_END ∉ lin) →
      (loadBuffer lines p).buffer =
        (stripComments lines).map (fun lin => lin ++ [CHR_LINE_END]) ∧
      (loadBuffer lines p).comment_count =
        (lines.filter fun lin => lin.head? = some CHR_COMMENT).length) := by
  refine ⟨fun lin h => loadLine_comment h, fun lin h hn => ?_, fun lines hcl => ?_⟩
  · obtain ⟨L, hL, _, _, _, hcut⟩ := loadLine_pushed p h
    rw [hL, hcut hn]
  · unfold loadBuffer
    rw [foldl_loadLine_closed lines hcl]
    exact ⟨by simp [restartParser], by simp [restartParser]⟩

theorem C32_comment_lines_witness :
    loadLine (loaded [] []) "# c".toList = { loaded [] [] with comment_count := 1 } ∧
    loadLine (loaded [] []) "  # c".toList = { loaded [] [] with buffer := ["  \n".toList] } ∧
    (loadBuffer ["a # c".toList, [], "# x".toList, "  # y".toList, "b".toList]
      (loaded [] [])).buffer =
        ["a \n".toList, "\n".toList, "  \n".toList, "b\n".toList] ∧
    (loadBuffer ["a # c".toList, [], "# x".toList, "  # y".toList, "b".toList]
      (loaded [] [])).comment_count = 1 :=
  ⟨(C32_comment_lines (loaded [] [])).1 "# c".toList rfl,
   (C32_comment_lines (loaded [] [])).2.1 "  # c".toList (by decide) (by decide),
   ((C32_comment_lines (loaded [] [])).2.2
      ["a # c".toList, [], "# x".toList, "  # y".toList, "b".toList] (by decide)).1,
   ((C32_comment_lines (loaded [] [])).2.2
      ["a # c".toList, [], "# x".toList, "  # y".toList, "b".toList] (by decide)).2⟩

/-- C17 at the failing input: `c` is not empty, so the `else` arm is dead, yet its
second directive `%set {y} B {x}` is executed and resolves the reference `{x}` of
the dead arm: the output is `BZ`, with the value `Z` of `x`, where the template
without that reference gives `B`. -/
theorem C17_dead_set_resolves_reference :
    (getCodeDefinition 20
      [("c".toList, "1".toList), ("x".toList, "Z".toList), ("y".toList, "0".toList)]
      (loaded ["%if {c} %then\n".toList, "%else\n".toList, "%set {y} A\n".toList,
        "%set {y} B {x}\n".toList, "%end\n".toList, "{y}\n".toList] [])).result =
      some "BZ".toList ∧
    (getCodeDefinition 20
      [("c".toList, "1".toList), ("x".toList, "Z".toList), ("y".toList, "0".toList)]
      (loaded ["%if {c} %then\n".toList, "%else\n".toList, "%set {y} A\n".toList,
        "%set {y} B\n".toList, "%end\n".toList, "{y}\n".toList] [])).result =
      some "B".toList := by decide!

end SchemaParser
